import Mathlib

/-!
The container `unrolled_list` of `lib/unrolled_list.h`, as a shallow embedding.

The container is a circular doubly linked chain of blocks (`Node`) anchored by a
sentinel (`fake_node_`, a `BaseNode`).  Objects live in an explicit memory `Mem`,
addressed by `Ptr`; every operation of the source is a function on that memory
which returns `none` where the source would read or write an object that does not
exist there (a dead address, the count or the storage of the sentinel, a slot
outside the storage array).
-/

namespace UnrolledList

/-! ## Memory -/

/-- Addresses of objects: the sentinel of a container, or an allocated `Node`. -/
abbrev Ptr := Nat

/-- Source `struct BaseNode`: the two links. -/
structure BaseNode where
  prev : Ptr
  next : Ptr

/-- Source `struct Node : BaseNode`: the links, the raw `storage` (slot `i` is
`none` while no element is constructed in it) and the occupancy `count`. -/
structure Node (α : Type) where
  prev : Ptr
  next : Ptr
  storage : Nat → Option α
  count : Nat

/-- What lives at an address: a bare `BaseNode` (a sentinel) or a `Node`. -/
inductive Obj (α : Type) where
  | base : BaseNode → Obj α
  | node : Node α → Obj α

/-- The memory: the live objects, and the allocator's next fresh address (the
allocation policy is modelled as handing out addresses `brk`, `brk + 1`, ...). -/
structure Mem (α : Type) where
  obj : Ptr → Option (Obj α)
  brk : Ptr

variable {α : Type}

/-- Store an object at an address. -/
def Mem.write (m : Mem α) (p : Ptr) (o : Obj α) : Mem α :=
  { m with obj := fun q => if q = p then some o else m.obj q }

/-- Read `p->prev` (a `BaseNode` member: defined for the sentinel and for blocks). -/
def Mem.prev (m : Mem α) (p : Ptr) : Option Ptr :=
  match m.obj p with
  | some (Obj.base b) => some b.prev
  | some (Obj.node n) => some n.prev
  | none => none

/-- Read `p->next`. -/
def Mem.next (m : Mem α) (p : Ptr) : Option Ptr :=
  match m.obj p with
  | some (Obj.base b) => some b.next
  | some (Obj.node n) => some n.next
  | none => none

/-- The object behind `static_cast<Node*>(p)`: defined only where a `Node` lives. -/
def Mem.node (m : Mem α) (p : Ptr) : Option (Node α) :=
  match m.obj p with
  | some (Obj.node n) => some n
  | _ => none

/-- Assignment `p->prev = x`. -/
def Mem.setPrev (m : Mem α) (p x : Ptr) : Option (Mem α) :=
  match m.obj p with
  | some (Obj.base b) => some (m.write p (Obj.base { b with prev := x }))
  | some (Obj.node n) => some (m.write p (Obj.node { n with prev := x }))
  | none => none

/-- Assignment `p->next = x`. -/
def Mem.setNext (m : Mem α) (p x : Ptr) : Option (Mem α) :=
  match m.obj p with
  | some (Obj.base b) => some (m.write p (Obj.base { b with next := x }))
  | some (Obj.node n) => some (m.write p (Obj.node { n with next := x }))
  | none => none

/-- Read `static_cast<Node*>(p)->count`. -/
def Mem.count (m : Mem α) (p : Ptr) : Option Nat :=
  (m.node p).map Node.count

/-- Assignment `static_cast<Node*>(p)->count = k`. -/
def Mem.setCount (m : Mem α) (p : Ptr) (k : Nat) : Option (Mem α) :=
  (m.node p).map fun n => m.write p (Obj.node { n with count := k })

/-- Read the slot `p->data()[i]` of a storage of `N` slots. -/
def Mem.slot (N : Nat) (m : Mem α) (p : Ptr) (i : Nat) : Option (Option α) :=
  (m.node p).bind fun n => if i < N then some (n.storage i) else none

/-- Overwrite the slot `p->data()[i]` of a storage of `N` slots. -/
def Mem.setSlot (N : Nat) (m : Mem α) (p : Ptr) (i : Nat) (x : Option α) : Option (Mem α) :=
  (m.node p).bind fun n =>
    if i < N then
      some (m.write p (Obj.node { n with storage := fun j => if j = i then x else n.storage j }))
    else none

/-- `AllocTraits::construct(alloc, p->data() + i, value)`. -/
def Mem.construct (N : Nat) (m : Mem α) (p : Ptr) (i : Nat) (value : α) : Option (Mem α) :=
  m.setSlot N p i (some value)

/-- `AllocTraits::destroy(alloc, p->data() + i)`. -/
def Mem.destroy (N : Nat) (m : Mem α) (p : Ptr) (i : Nat) : Option (Mem α) :=
  m.setSlot N p i none

/-- `p->data()[i] = std::move(p->data()[j])` as it acts for a trivially copyable element
type (the `int` of the tests): the value of slot `j` is copied into slot `i`, whatever
slot `i` holds, and slot `j` is left as it was.  For an element type with a non-trivial
assignment operator the statement is defined only when slot `i` holds a live element:
that is `Mem.assignSlot`. -/
def Mem.moveSlot (N : Nat) (m : Mem α) (p : Ptr) (i j : Nat) : Option (Mem α) :=
  (m.slot N p j).bind fun x => m.setSlot N p i x

/-- `NodeAllocTraits::allocate(allocator_, 1)` followed by
`NodeAllocTraits::construct(allocator_, new_node, left, right)`, that is the constructor
`Node(BaseNode* left, BaseNode* right) : count(0), BaseNode(left, right)`. -/
def Mem.newNode (m : Mem α) (left right : Ptr) : Ptr × Mem α :=
  (m.brk,
   { obj := fun q =>
       if q = m.brk then some (Obj.node ⟨left, right, fun _ => none, 0⟩) else m.obj q,
     brk := m.brk + 1 })

/-- `NodeAllocTraits::destroy(allocator_, p)` and `NodeAllocTraits::deallocate(allocator_, p, 1)`:
the `Node` at `p` ceases to exist. -/
def Mem.freeNode (m : Mem α) (p : Ptr) : Option (Mem α) :=
  (m.node p).map fun _ => { m with obj := fun q => if q = p then none else m.obj q }

/-! ## Machine integers -/

/-- `--x` on a `size_type`: unsigned, wraps from 0 to `2^64 - 1`. -/
def decr (x : Nat) : Nat := if x = 0 then 2 ^ 64 - 1 else x - 1

/-- Conversion of a `size_type` value to `int32_t` (two's complement, modulo `2^32`). -/
def toInt32 (x : Nat) : Int :=
  if x % 2 ^ 32 < 2 ^ 31 then ((x % 2 ^ 32 : Nat) : Int) else ((x % 2 ^ 32 : Nat) : Int) - 2 ^ 32

/-! ## In-block shifts -/

/-- The loop body `for (i = hi; i > lo; --i) data()[i] = std::move(data()[i - 1])`
for a counter that is not negative. -/
def shiftRight (N : Nat) (p : Ptr) (lo : Nat) : Nat → Mem α → Option (Mem α)
  | 0, m => some m
  | i + 1, m =>
    if lo < i + 1 then (m.moveSlot N p (i + 1) i).bind (shiftRight N p lo i) else some m

/-- `for (int32_t i = start; i > 0; --i) data()[i] = std::move(data()[i - 1])`: the
comparison is a signed one, so a counter that starts negative ends the loop at once. -/
def shiftRightSigned (N : Nat) (p : Ptr) (start : Nat) (m : Mem α) : Option (Mem α) :=
  if toInt32 start < 0 then some m else shiftRight N p 0 (toInt32 start).toNat m

/-- `for (int32_t i = start; i > index_; --i) data()[i] = std::move(data()[i - 1])` with
`index_` a `size_type`: the counter is converted to unsigned for the comparison, so a
negative counter passes the test and the body indexes before the storage. -/
def shiftRightUnsigned (N : Nat) (p : Ptr) (index_ start : Nat) (m : Mem α) : Option (Mem α) :=
  if toInt32 start < 0 then none else shiftRight N p index_ (toInt32 start).toNat m

/-- `for (size_t i = first; i < bound; ++i) data()[i] = std::move(data()[i + 1])`,
as `steps = bound - first` iterations from `i = first`. -/
def shiftLeft (N : Nat) (p : Ptr) : Nat → Nat → Mem α → Option (Mem α)
  | 0, _, m => some m
  | steps + 1, i, m => (m.moveSlot N p i (i + 1)).bind (shiftLeft N p steps (i + 1))

/-! ## Iterator -/

/-- Source `Iterator<IsConst>`: a block (or sentinel) address and an index in the block. -/
structure Iterator where
  ptr_ : Ptr
  index_ : Nat
  deriving DecidableEq, Repr

/-- Source `operator*`: `static_cast<node_ptr>(ptr_)->data()[index_]`. -/
def Iterator.deref (N : Nat) (m : Mem α) (it : Iterator) : Option α :=
  (m.slot N it.ptr_ it.index_).bind id

/-- Source `operator++`. -/
def Iterator.inc (m : Mem α) (it : Iterator) : Option Iterator :=
  (m.node it.ptr_).map fun n =>
    if it.index_ + 1 = n.count then ⟨n.next, 0⟩ else ⟨it.ptr_, it.index_ + 1⟩

/-- Source `operator--`. -/
def Iterator.dec (m : Mem α) (it : Iterator) : Option Iterator :=
  if it.index_ = 0 then
    (m.prev it.ptr_).bind fun p => (m.count p).map fun k => ⟨p, decr k⟩
  else some ⟨it.ptr_, it.index_ - 1⟩

/-! ## The container -/

/-- Source `class unrolled_list`: the address of its member `fake_node_` (the sentinel
object itself lives in the memory) and the member `size_`. -/
structure unrolled_list where
  fake_node_ : Ptr
  size_ : Nat
  deriving DecidableEq, Repr

/-- Source `unrolled_list()`: `fake_node_(&fake_node_, &fake_node_), size_(0)`; the
container object takes the next fresh address. -/
def unrolled_list.new (m : Mem α) : unrolled_list × Mem α :=
  (⟨m.brk, 0⟩,
   { obj := fun q => if q = m.brk then some (Obj.base ⟨m.brk, m.brk⟩) else m.obj q,
     brk := m.brk + 1 })

/-- Source `empty()`. -/
def unrolled_list.empty (c : unrolled_list) : Bool := c.size_ == 0

/-- Source `size()`. -/
def unrolled_list.size (c : unrolled_list) : Nat := c.size_

/-- Source `begin()` / `cbegin()`: `{fake_node_.next, 0}`. -/
def unrolled_list.cbegin (c : unrolled_list) (m : Mem α) : Option Iterator :=
  (m.next c.fake_node_).map fun p => ⟨p, 0⟩

/-- Source `end()` / `cend()`: `{&fake_node_, 0}`. -/
def unrolled_list.cend (c : unrolled_list) : Iterator := ⟨c.fake_node_, 0⟩

/-- The loop `for (; it != end(); ++it) out.push_back(*it)` with a bound on the number
of steps: `none` when the bound is hit or a step is undefined. -/
def forwardFrom (N : Nat) (c : unrolled_list) (m : Mem α) : Nat → Iterator → Option (List α)
  | 0, _ => none
  | fuel + 1, it =>
    if it = c.cend then some []
    else
      (it.deref N m).bind fun x =>
        (it.inc m).bind fun it2 =>
          (forwardFrom N c m fuel it2).map fun xs => x :: xs

/-- Forward traversal from `begin()` to `end()`. -/
def unrolled_list.toList (N : Nat) (c : unrolled_list) (m : Mem α) (fuel : Nat) :
    Option (List α) :=
  (c.cbegin m).bind (forwardFrom N c m fuel)

/-! ## push / pop at both ends -/

/-- Source `push_back(const T&)`. -/
def unrolled_list.push_back (N : Nat) (c : unrolled_list) (value : α) (m : Mem α) :
    Option (unrolled_list × Mem α) := do
  -- empty() || static_cast<Node*>(fake_node_.prev)->count == NodeMaxSize
  let grow ← (if c.empty then pure true else do
    let last ← m.prev c.fake_node_
    let k ← m.count last
    pure (k == N))
  if grow then
    if c.empty then
      let (new_node, m) := m.newNode c.fake_node_ c.fake_node_
      let m ← m.construct N new_node 0 value
      let m ← m.setPrev c.fake_node_ new_node
      let m ← m.setNext c.fake_node_ new_node
      let k ← m.count new_node
      let m ← m.setCount new_node (k + 1)
      pure ({ c with size_ := c.size_ + 1 }, m)
    else
      let last_prev ← m.prev c.fake_node_
      let (new_node, m) := m.newNode last_prev c.fake_node_
      let m ← m.construct N new_node 0 value
      let m ← m.setNext last_prev new_node
      let m ← m.setPrev c.fake_node_ new_node
      let k ← m.count new_node
      let m ← m.setCount new_node (k + 1)
      pure ({ c with size_ := c.size_ + 1 }, m)
  else
    let back_node ← m.prev c.fake_node_
    let k ← m.count back_node
    let m ← m.construct N back_node k value
    let m ← m.setCount back_node (k + 1)
    pure ({ c with size_ := c.size_ + 1 }, m)

/-- Source `push_front(const T&)`. -/
def unrolled_list.push_front (N : Nat) (c : unrolled_list) (value : α) (m : Mem α) :
    Option (unrolled_list × Mem α) := do
  -- empty() || static_cast<Node*>(fake_node_.next)->count == NodeMaxSize
  let grow ← (if c.empty then pure true else do
    let first ← m.next c.fake_node_
    let k ← m.count first
    pure (k == N))
  if grow then
    if c.empty then
      let (new_node, m) := m.newNode c.fake_node_ c.fake_node_
      let m ← m.construct N new_node 0 value
      let m ← m.setPrev c.fake_node_ new_node
      let m ← m.setNext c.fake_node_ new_node
      let k ← m.count new_node
      let m ← m.setCount new_node (k + 1)
      pure ({ c with size_ := c.size_ + 1 }, m)
    else
      let last_next ← m.next c.fake_node_
      let (new_node, m) := m.newNode c.fake_node_ last_next
      let m ← m.construct N new_node 0 value
      let m ← m.setPrev last_next new_node
      let m ← m.setNext c.fake_node_ new_node
      let k ← m.count new_node
      let m ← m.setCount new_node (k + 1)
      pure ({ c with size_ := c.size_ + 1 }, m)
  else
    let front_node ← m.next c.fake_node_
    let k ← m.count front_node
    -- for (int32_t i = front_node->count; i > 0; --i)
    let m ← shiftRightSigned N front_node k m
    let m ← m.construct N front_node 0 value
    let k ← m.count front_node
    let m ← m.setCount front_node (k + 1)
    pure ({ c with size_ := c.size_ + 1 }, m)

/-- Source `pop_back()`. -/
def unrolled_list.pop_back (N : Nat) (c : unrolled_list) (m : Mem α) :
    Option (unrolled_list × Mem α) := do
  if c.empty then pure (c, m)
  else
    let back_node ← m.prev c.fake_node_
    let k ← m.count back_node
    if 1 < k then
      let m ← m.setCount back_node (decr k)
      let k ← m.count back_node
      let m ← m.destroy N back_node k
      pure ({ c with size_ := decr c.size_ }, m)
    else
      let m ← (if c.size_ = 1 then do
          let m ← m.setNext c.fake_node_ c.fake_node_
          m.setPrev c.fake_node_ c.fake_node_
        else do
          let p ← m.prev back_node
          let m ← m.setNext p c.fake_node_
          let p ← m.prev back_node
          m.setPrev c.fake_node_ p)
      let m ← m.freeNode back_node
      pure ({ c with size_ := decr c.size_ }, m)

/-- Source `pop_front()`. -/
def unrolled_list.pop_front (N : Nat) (c : unrolled_list) (m : Mem α) :
    Option (unrolled_list × Mem α) := do
  if c.empty then pure (c, m)
  else
    let front_node ← m.next c.fake_node_
    let k ← m.count front_node
    if 1 < k then
      let m ← m.destroy N front_node 0
      let m ← m.setCount front_node (decr k)
      let k ← m.count front_node
      -- for (size_t j = 0; j < front_node->count; ++j)
      let m ← shiftLeft N front_node k 0 m
      let m ← m.destroy N front_node k
      pure ({ c with size_ := decr c.size_ }, m)
    else
      let m ← (if c.size_ = 1 then do
          let m ← m.setNext c.fake_node_ c.fake_node_
          m.setPrev c.fake_node_ c.fake_node_
        else do
          let n ← m.next front_node
          let m ← m.setNext c.fake_node_ n
          -- front_node->next->prev = fake_node_.next
          let n ← m.next front_node
          let first ← m.next c.fake_node_
          m.setPrev n first)
      let m ← m.freeNode front_node
      pure ({ c with size_ := decr c.size_ }, m)

/-! ## insert and erase at a position -/

/-- Source `insert(const_iterator, const T&)`. -/
def unrolled_list.insert (N : Nat) (c : unrolled_list) (cpos : Iterator) (value : α)
    (m : Mem α) : Option (Iterator × unrolled_list × Mem α) := do
  if cpos = c.cend then
    if c.empty then
      let c := { c with size_ := c.size_ + 1 }
      let (node, m) := m.newNode c.fake_node_ c.fake_node_
      let m ← m.setCount node 1
      let m ← m.construct N node 0 value
      let m ← m.setPrev c.fake_node_ node
      let m ← m.setNext c.fake_node_ node
      let b ← c.cbegin m
      pure (b, c, m)
    else
      let c := { c with size_ := c.size_ + 1 }
      let back_node ← m.prev c.fake_node_
      let k ← m.count back_node
      if k < N then
        let m ← m.construct N back_node k value
        -- return iterator(back_node, back_node->count++)
        let m ← m.setCount back_node (k + 1)
        pure (⟨back_node, k⟩, c, m)
      else
        let (new_node, m) := m.newNode back_node c.fake_node_
        let m ← m.setCount new_node 1
        let m ← m.construct N new_node 0 value
        pure (⟨new_node, 0⟩, c, m)
  else
    let node := cpos.ptr_
    let k ← m.count node
    if k < N then
      -- for (int32_t i = node->count; i > cpos.index_; --i)
      let m ← shiftRightUnsigned N node cpos.index_ k m
      let m ← m.construct N node cpos.index_ value
      let c := { c with size_ := c.size_ + 1 }
      let k ← m.count node
      let m ← m.setCount node (k + 1)
      pure (⟨node, cpos.index_⟩, c, m)
    else
      let nxt ← m.next node
      let (next_node, m) ← (if nxt = c.fake_node_ then do
          let (next_node, m) := m.newNode node c.fake_node_
          let m ← m.setNext node next_node
          let m ← m.setPrev c.fake_node_ next_node
          pure (next_node, m)
        else do
          let kn ← m.count nxt
          if kn = N then
            let (next_node, m) := m.newNode node nxt
            let m ← m.setPrev nxt next_node
            let m ← m.setNext node next_node
            pure (next_node, m)
          else
            pure (nxt, m))
      -- for (int32_t i = next_node->count; i > 0; --i)
      let kn ← m.count next_node
      let m ← shiftRightSigned N next_node kn m
      let m ← m.setCount next_node (kn + 1)
      -- next_node->data()[0] = std::move(node->data()[node->count - 1])
      let k ← m.count node
      let x ← m.slot N node (decr k)
      let m ← m.setSlot N next_node 0 x
      -- for (int32_t i = node->count - 1; i > cpos.index_; --i)
      let m ← shiftRightUnsigned N node cpos.index_ (decr k) m
      let c := { c with size_ := c.size_ + 1 }
      let m ← m.setSlot N node cpos.index_ (some value)
      pure (⟨node, cpos.index_⟩, c, m)

/-- Source `erase(const_iterator)`. -/
def unrolled_list.erase (N : Nat) (c : unrolled_list) (cpos : Iterator) (m : Mem α) :
    Option (Iterator × unrolled_list × Mem α) := do
  let node := cpos.ptr_
  let result : Iterator := ⟨node, cpos.index_⟩
  let c := { c with size_ := decr c.size_ }
  -- for (size_t i = cpos.index_; i < node->count - 1; ++i)
  let k ← m.count node
  let m ← shiftLeft N node (decr k - cpos.index_) cpos.index_ m
  let m ← m.setCount node (decr k)
  let next_node ← m.next node
  let prev_node ← m.prev node
  let k ← m.count node
  if k = 0 then
    let m ← m.freeNode node
    if next_node = c.fake_node_ then
      if prev_node = c.fake_node_ then
        let m ← m.setNext c.fake_node_ c.fake_node_
        let m ← m.setPrev c.fake_node_ c.fake_node_
        let b ← c.cbegin m
        pure (b, c, m)
      else
        let m ← m.setPrev c.fake_node_ prev_node
        let m ← m.setNext prev_node c.fake_node_
        -- return --end()
        let r ← c.cend.dec m
        pure (r, c, m)
    else if prev_node = c.fake_node_ then
      let m ← m.setNext c.fake_node_ next_node
      let m ← m.setPrev next_node c.fake_node_
      let b ← c.cbegin m
      pure (b, c, m)
    else
      let m ← m.setNext prev_node next_node
      let m ← m.setPrev next_node prev_node
      pure (⟨next_node, 0⟩, c, m)
  else
    pure (result, c, m)

/-! ## Well-formed containers

The data model of the specification: the blocks reachable from the sentinel, in chain
order, are the addresses `as`; block `i` holds the elements `bs[i]` in its first slots;
the logical sequence is `bs.flatten`. -/

/-- The `Node` at `a` holds exactly the elements `b` (`count = |b|`, slot `j` holds
`b[j]`), its `next` link is `nx`, and its `prev` link is `pv` when one is required. -/
def IsBlock (m : Mem α) (a : Ptr) (pv : Option Ptr) (nx : Ptr) (b : List α) : Prop :=
  ∃ n : Node α, m.obj a = some (Obj.node n) ∧ (∀ p, pv = some p → n.prev = p) ∧
    n.next = nx ∧ n.count = b.length ∧ ∀ j, j < b.length → n.storage j = b[j]?

/-- The blocks at `as` hold `bs` and are linked in this order: each block's `next` is its
successor (`e` after the last one), each block's `prev` is its predecessor; the `prev`
of the first block is `pv` when one is required. -/
def Chain (m : Mem α) : Option Ptr → List Ptr → List (List α) → Ptr → Prop
  | _, [], [], _ => True
  | pv, a :: as, b :: bs, e => IsBlock m a pv (as.headD e) b ∧ Chain m (some a) as bs e
  | _, _, _, _ => False

/-- The container `c` in memory `m` consists of the blocks `as` holding `bs`; `pv` is the
requirement on the first block's `prev` link. -/
structure Rep (N : Nat) (m : Mem α) (c : unrolled_list) (pv : Option Ptr) (as : List Ptr)
    (bs : List (List α)) : Prop where
  /-- `static_assert(NodeMaxSize != 0)` -/
  cap_pos : 0 < N
  /-- the sentinel: `next` is the first block, `prev` the last, itself when there is none -/
  sentinel : ∃ f : BaseNode, m.obj c.fake_node_ = some (Obj.base f) ∧
    f.next = as.headD c.fake_node_ ∧ f.prev = as.getLastD c.fake_node_
  chain : Chain m pv as bs c.fake_node_
  /-- `1 ≤ count ≤ NodeMaxSize` for every reachable block -/
  counts : ∀ b ∈ bs, 0 < b.length ∧ b.length ≤ N
  nodup : as.Nodup
  fake_not_block : c.fake_node_ ∉ as
  /-- the element count is the sum of the blocks' counts -/
  size_eq : c.size_ = bs.flatten.length
  /-- nothing lives at the addresses the allocator has not handed out yet -/
  fresh : ∀ p, m.brk ≤ p → m.obj p = none

/-- A well-formed container: a circular doubly linked chain of blocks with
`1 ≤ count ≤ N`, closed through the sentinel in both directions, `size_` the sum of the
counts. -/
def WellFormed (N : Nat) (m : Mem α) (c : unrolled_list) (as : List Ptr)
    (bs : List (List α)) : Prop :=
  Rep N m c (some c.fake_node_) as bs

/-- The valid position at logical index `k`: block and in-block index of the `k`-th
element, and `end()` (`⟨e, 0⟩`, `e` the sentinel) for `k` the number of elements. -/
def posAt (e : Ptr) : List Ptr → List (List α) → Nat → Iterator
  | a :: as, b :: bs, k => if k < b.length then ⟨a, k⟩ else posAt e as bs (k - b.length)
  | _, _, _ => ⟨e, 0⟩

/-- The logical sequence of `c` is `s`: forward traversal from `begin()` reaches `end()`
after producing exactly `s`, whenever it is given more than `|s|` steps. -/
def LogicalSeq (N : Nat) (c : unrolled_list) (m : Mem α) (s : List α) : Prop :=
  ∀ fuel, s.length < fuel → c.toList N m fuel = some s

/-- The `prev` link required of the block that follows the blocks `as`: the last of
`as`, and `pv` when `as` is empty. -/
def lastPtr (pv : Option Ptr) (as : List Ptr) : Option Ptr :=
  match as.getLast? with
  | some a => some a
  | none => pv

/-! ## A concrete container

Capacity 2, elements `1, 2, 3` in two blocks `[1, 2]` (at address 2) and `[3]` (at
address 3); the sentinel is at address 1. -/

/-- Memory of the example container. -/
def exMem : Mem Nat :=
  { obj := fun q =>
      if q = 1 then some (Obj.base ⟨3, 2⟩)
      else if q = 2 then
        some (Obj.node ⟨1, 3, fun j => if j = 0 then some 1 else if j = 1 then some 2 else none, 2⟩)
      else if q = 3 then some (Obj.node ⟨2, 1, fun j => if j = 0 then some 3 else none, 1⟩)
      else none,
    brk := 4 }

/-- The example container: sentinel at address 1, three elements. -/
def exList : unrolled_list := ⟨1, 3⟩

/-! ## Operation sequences against a reference list

The tests drive the container and a `std::list` with the same operations and compare
the two after each step; a position is given by its logical index and reached with
`std::advance(begin(), k)`. -/

/-- `std::advance(it, k)` for `k ≥ 0`: `k` times `++it`. -/
def advance (m : Mem α) : Nat → Iterator → Option Iterator
  | 0, it => some it
  | k + 1, it => (it.inc m).bind (advance m k)

/-- One operation of a test sequence. -/
inductive Op (α : Type) where
  | push_back (v : α)
  | push_front (v : α)
  | insert (k : Nat) (v : α)
  | erase (k : Nat)
  | pop_back
  | pop_front

/-- The operation applied to the container. -/
def Op.run (N : Nat) : Op α → unrolled_list × Mem α → Option (unrolled_list × Mem α)
  | Op.push_back v, s => s.1.push_back N v s.2
  | Op.push_front v, s => s.1.push_front N v s.2
  | Op.insert k v, s =>
    (s.1.cbegin s.2).bind fun b => (advance s.2 k b).bind fun p =>
      (s.1.insert N p v s.2).map fun r => r.2
  | Op.erase k, s =>
    (s.1.cbegin s.2).bind fun b => (advance s.2 k b).bind fun p =>
      (s.1.erase N p s.2).map fun r => r.2
  | Op.pop_back, s => s.1.pop_back N s.2
  | Op.pop_front, s => s.1.pop_front N s.2

/-- The operation applied to the reference list. -/
def Op.ref : Op α → List α → List α
  | Op.push_back v, s => s ++ [v]
  | Op.push_front v, s => v :: s
  | Op.insert k v, s => s.take k ++ [v] ++ s.drop k
  | Op.erase k, s => s.eraseIdx k
  | Op.pop_back, s => s.dropLast
  | Op.pop_front, s => s.tail

/-- A sequence of operations applied to the container, in order. -/
def runOps (N : Nat) : List (Op α) → unrolled_list × Mem α → Option (unrolled_list × Mem α)
  | [], s => some s
  | op :: ops, s => (op.run N s).bind (runOps N ops)

/-- A sequence of operations applied to the reference list, in order. -/
def refOps : List (Op α) → List α → List α
  | [], s => s
  | op :: ops, s => refOps ops (op.ref s)

/-- An empty memory in which a first container is constructed. -/
def emptyMem : Mem Nat := ⟨fun _ => none, 1⟩

/-- Memory of a second example container: capacity 2, the single full block `[1, 2]`
at address 2, the sentinel at address 1. -/
def exFullMem : Mem Nat :=
  { obj := fun q =>
      if q = 1 then some (Obj.base ⟨2, 2⟩)
      else if q = 2 then
        some (Obj.node ⟨1, 1, fun j => if j = 0 then some 1 else if j = 1 then some 2 else none, 2⟩)
      else none,
    brk := 3 }

/-- The second example container: sentinel at address 1, two elements. -/
def exFullList : unrolled_list := ⟨1, 2⟩

/-- Memory of a third example container: capacity `2^31 + 1`, a single block at address
2 holding the `2^31` elements `0, 1, ..., 2^31 - 1`, the sentinel at address 1. -/
def bigMem : Mem Nat :=
  { obj := fun q =>
      if q = 1 then some (Obj.base ⟨2, 2⟩)
      else if q = 2 then
        some (Obj.node ⟨1, 1, fun j => if j < 2 ^ 31 then some j else none, 2 ^ 31⟩)
      else none,
    brk := 3 }

/-- The third example container: sentinel at address 1, `2^31` elements. -/
def bigList : unrolled_list := ⟨1, 2 ^ 31⟩

/-- The list `l` with `v` inserted before index `j`: `l[0..j) ++ [v] ++ l[j..)`. -/
def insAt (j : Nat) (v : α) (l : List α) : List α := l.take j ++ v :: l.drop j

/-! ## Reverse traversal -/

/-- The loop `for (it = end(); it != begin();) { --it; out.push_back(*it); }`, which is
what the `std::reverse_iterator` range `rbegin()..rend()` runs, with a bound on the number
of steps: `none` when the bound is hit or a step is undefined.  `b` is `begin()`. -/
def backwardFrom (N : Nat) (m : Mem α) (b : Iterator) : Nat → Iterator → Option (List α)
  | 0, _ => none
  | fuel + 1, it =>
    if it = b then some []
    else
      (it.dec m).bind fun it2 =>
        (it2.deref N m).bind fun x =>
          (backwardFrom N m b fuel it2).map fun xs => x :: xs

/-- Reverse traversal from `end()` back to `begin()`. -/
def unrolled_list.toListRev (N : Nat) (c : unrolled_list) (m : Mem α) (fuel : Nat) :
    Option (List α) :=
  (c.cbegin m).bind fun b => backwardFrom N m b fuel c.cend

/-! ## Constructors of blocks and containers -/

/-- The null pointer. -/
def nullptr : Ptr := 0

/-- `NodeAllocTraits::allocate(allocator, 1)`: the next fresh address; no object lives
there yet. -/
def Mem.allocate (m : Mem α) : Ptr × Mem α := (m.brk, { m with brk := m.brk + 1 })

/-- The elements `new_data[0..new_count)` of the block at `src`, as read by the loop of
`Node(BaseNode*, BaseNode*, T*, size_type)`: `none` when a slot read holds no element or
lies outside the storage. -/
def copySlots (N : Nat) (m : Mem α) (src : Ptr) : Nat → Option (List α)
  | 0 => some []
  | i + 1 =>
    (copySlots N m src i).bind fun xs =>
      ((m.slot N src i).bind id).map fun x => xs ++ [x]

/-- `NodeAllocTraits::construct(allocator, p, left, right, src->data(), new_count)`, the
constructor `Node(BaseNode* left, BaseNode* right, T* new_data, size_type new_count)
: BaseNode(left, right)`: copies `new_data[0..new_count)` into the first slots and sets
`count`. -/
def Mem.constructNodeCopy (N : Nat) (m : Mem α) (p left right src : Ptr) (new_count : Nat) :
    Option (Mem α) :=
  (copySlots N m src new_count).map fun xs =>
    m.write p (Obj.node ⟨left, right, fun j => xs[j]?, new_count⟩)

/-- `NodeAllocTraits::construct(allocator, p, left, right, value, new_count)`, the
constructor `Node(BaseNode*, BaseNode*, const T& value, size_type new_count)`.  It has no
initialiser for its `BaseNode` part, so `left` and `right` are dropped and `prev`, `next`
keep the indeterminate value `ind` of the raw storage; `new_count` copies of `value` fill
the first slots. -/
def Mem.constructNodeFill (N : Nat) (m : Mem α) (p ind : Ptr) (value : α) (new_count : Nat) :
    Option (Mem α) :=
  if new_count ≤ N then
    some (m.write p
      (Obj.node ⟨ind, ind, fun j => if j < new_count then some value else none, new_count⟩))
  else none

/-- The loop `for (cur = other.fake_node_.next; cur != &other.fake_node_; cur = cur->next)`
of the copy constructors, with a bound on the number of rounds; `fake` is the address of
the sentinel of the container under construction. -/
def copyLoop (N : Nat) (fake other_fake : Ptr) :
    Nat → Ptr → Bool → Option Ptr → Mem α → Option (Option Ptr × Mem α)
  | 0, _, _, _, _ => none
  | fuel + 1, cur, is_first, prev_node, m =>
    if cur = other_fake then some (prev_node, m)
    else do
      let k ← m.count cur
      if is_first then
        let (first_node, m) := m.allocate
        let m ← m.constructNodeCopy N first_node fake nullptr cur k
        let m ← m.setNext fake first_node
        let nxt ← m.next cur
        copyLoop N fake other_fake fuel nxt false (some first_node) m
      else
        let (new_node, m) := m.allocate
        let pn ← prev_node
        let m ← m.constructNodeCopy N new_node pn nullptr cur k
        let m ← m.setNext pn new_node
        let nxt ← m.next cur
        copyLoop N fake other_fake fuel nxt false (some new_node) m

/-- Source `unrolled_list(const unrolled_list& other)` and
`unrolled_list(const unrolled_list& other, allocator_type)` (the two bodies differ in the
allocation policy only).  The new container object takes the next fresh address; its
member `fake_node_` is default-initialised, so its links start with the indeterminate
value `ind`. -/
def unrolled_list.new_copy (N : Nat) (other : unrolled_list) (ind : Ptr) (m : Mem α)
    (fuel : Nat) : Option (unrolled_list × Mem α) := do
  let fake := m.brk
  let m : Mem α :=
    { obj := fun q => if q = m.brk then some (Obj.base ⟨ind, ind⟩) else m.obj q,
      brk := m.brk + 1 }
  let first ← m.next other.fake_node_
  let (prev_node, m) ← copyLoop N fake other.fake_node_ fuel first true none m
  let m ← (match prev_node with
    | some p => do
      let m ← m.setNext p fake
      m.setPrev fake p
    | none => do
      let m ← m.setNext fake fake
      m.setPrev fake fake)
  pure (⟨fake, other.size_⟩, m)

/-- The loop `for (size_t i = 0; i < size / NodeMaxSize; ++i)` of
`unrolled_list(size_type, const T&)`: `rounds` rounds are left, `i` is the counter. -/
def fillLoop (N : Nat) (fake ind : Ptr) (value : α) :
    Nat → Nat → Option Ptr → Mem α → Option (Option Ptr × Mem α)
  | 0, _, prev_node, m => some (prev_node, m)
  | rounds + 1, i, prev_node, m => do
    let (new_node, m) := m.allocate
    if i = 0 then
      let m ← m.setNext fake new_node
      let m ← m.constructNodeFill N new_node ind value N
      fillLoop N fake ind value rounds (i + 1) (some new_node) m
    else
      let pn ← prev_node
      let m ← m.setNext pn new_node
      let m ← m.constructNodeFill N new_node ind value N
      fillLoop N fake ind value rounds (i + 1) (some new_node) m

/-- Source `unrolled_list(size_type size, const T& value)`.  The new container object
takes the next fresh address; `fake_node_` is default-initialised (links `ind`).  The
`++size_` of the source act on the not yet initialised member and are overwritten by the
final `size_ = size`. -/
def unrolled_list.new_fill (N : Nat) (size : Nat) (value : α) (ind : Ptr) (m : Mem α) :
    Option (unrolled_list × Mem α) := do
  let fake := m.brk
  let m : Mem α :=
    { obj := fun q => if q = m.brk then some (Obj.base ⟨ind, ind⟩) else m.obj q,
      brk := m.brk + 1 }
  if size = 0 then
    let m ← m.setPrev fake fake
    let m ← m.setNext fake fake
    pure (⟨fake, 0⟩, m)
  else
    let (prev_node, m) ← fillLoop N fake ind value (size / N) 0 none m
    let (prev_node, m) ← (if size % N > 0 then do
        let (new_node, m) := m.allocate
        let m ← m.constructNodeFill N new_node ind value (size % N)
        let m ← (match prev_node with
          | some pn => m.setNext pn new_node
          | none => do
            let m ← m.setPrev fake new_node
            m.setNext fake new_node)
        pure (some new_node, m)
      else pure (prev_node, m))
    let m ← (match prev_node with
      | some pn => do
        let m ← m.setNext pn fake
        m.setPrev fake pn
      | none => pure m)
    pure (⟨fake, size⟩, m)

/-! ## Comparison and swap -/

/-- The loop `for (; it != end(); ++it, ++other_it) if (*it != *other_it) return false;`
of `operator==`, with a bound on the number of rounds. -/
def eqLoop [DecidableEq α] (N : Nat) (c : unrolled_list) (m : Mem α) :
    Nat → Iterator → Iterator → Option Bool
  | 0, _, _ => none
  | fuel + 1, it, other_it =>
    if it = c.cend then some true
    else do
      let x ← it.deref N m
      let y ← other_it.deref N m
      if x ≠ y then pure false
      else
        let it2 ← it.inc m
        let other_it2 ← other_it.inc m
        eqLoop N c m fuel it2 other_it2

/-- Source `operator==(const unrolled_list& other)`. -/
def unrolled_list.eq [DecidableEq α] (N : Nat) (c other : unrolled_list) (m : Mem α)
    (fuel : Nat) : Option Bool :=
  if c.size_ ≠ other.size_ then some false
  else do
    let it ← c.cbegin m
    let other_it ← other.cbegin m
    eqLoop N c m fuel it other_it

/-- The statements `s.prev = p; s.next = n` on the sentinel at `s`. -/
def Mem.setLinks (m : Mem α) (s p n : Ptr) : Option (Mem α) :=
  (m.setPrev s p).bind fun m => m.setNext s n

/-- The statements `s.prev->next = &s; s.next->prev = &s` on the sentinel at `s`: the
last and the first block of the chain that now hangs on `s` are made to point at it. -/
def Mem.closeChain (m : Mem α) (s : Ptr) : Option (Mem α) :=
  (m.prev s).bind fun p => (m.setNext p s).bind fun m =>
    (m.next s).bind fun n => m.setPrev n s

/-- Source `swap(unrolled_list& other)`; the result is `*this`, `other` and the memory. -/
def unrolled_list.swap (c other : unrolled_list) (m : Mem α) :
    Option (unrolled_list × unrolled_list × Mem α) := do
  -- std::swap(size_, other.size_)
  let c2 : unrolled_list := { c with size_ := other.size_ }
  let other2 : unrolled_list := { other with size_ := c.size_ }
  let prev_node ← m.next c.fake_node_
  let next_node ← m.prev c.fake_node_
  let other_prev_node ← m.next other.fake_node_
  let other_next_node ← m.prev other.fake_node_
  if prev_node = c.fake_node_ then
    if other_next_node = other.fake_node_ then pure (c2, other2, m)
    else
      let m ← m.setLinks other.fake_node_ other.fake_node_ other.fake_node_
      let m ← m.setLinks c.fake_node_ other_next_node other_prev_node
      let m ← m.closeChain c.fake_node_
      pure (c2, other2, m)
  else if other_next_node = other.fake_node_ then
    let m ← m.setLinks c.fake_node_ c.fake_node_ c.fake_node_
    let m ← m.setLinks other.fake_node_ next_node prev_node
    let m ← m.closeChain other.fake_node_
    pure (c2, other2, m)
  else
    let m ← m.setLinks other.fake_node_ next_node prev_node
    let m ← m.setLinks c.fake_node_ other_next_node other_prev_node
    let m ← m.closeChain other.fake_node_
    let m ← m.closeChain c.fake_node_
    pure (c2, other2, m)

/-! ## clear, assign, destructor -/

/-- The loop `for (cur = fake_node_.next; cur != &fake_node_; cur = next_node)` of
`clear()` and of the destructor, which destroys and deallocates every block, with a
bound on the number of rounds. -/
def freeLoop (fake : Ptr) : Nat → Ptr → Mem α → Option (Mem α)
  | 0, _, _ => none
  | fuel + 1, cur, m =>
    if cur = fake then some m
    else do
      let n ← m.node cur
      let next_node := n.next
      let m ← m.freeNode cur
      freeLoop fake fuel next_node m

/-- Source `clear()`. -/
def unrolled_list.clear (c : unrolled_list) (m : Mem α) (fuel : Nat) :
    Option (unrolled_list × Mem α) := do
  if c.empty then pure (c, m)
  else
    let c : unrolled_list := { c with size_ := 0 }
    let first ← m.next c.fake_node_
    let m ← freeLoop c.fake_node_ fuel first m
    let m ← m.setNext c.fake_node_ c.fake_node_
    let m ← m.setPrev c.fake_node_ c.fake_node_
    pure (c, m)

/-- The loop `for (...) push_back(*it)` over the values `xs`. -/
def pushBackAll (N : Nat) : List α → unrolled_list → Mem α → Option (unrolled_list × Mem α)
  | [], c, m => some (c, m)
  | x :: xs, c, m => (c.push_back N x m).bind fun r => pushBackAll N xs r.1 r.2

/-- Source `assign(InputIt first, InputIt last)` and `assign(std::initializer_list<T>)`;
`xs` are the values of the range. -/
def unrolled_list.assign (N : Nat) (c : unrolled_list) (xs : List α) (m : Mem α) (fuel : Nat) :
    Option (unrolled_list × Mem α) :=
  (c.clear m fuel).bind fun r => pushBackAll N xs r.1 r.2

/-- The loop `for (size_t i = 0; i < new_size; ++i) push_back(value)`. -/
def pushBackN (N : Nat) (value : α) : Nat → unrolled_list → Mem α →
    Option (unrolled_list × Mem α)
  | 0, c, m => some (c, m)
  | k + 1, c, m => (c.push_back N value m).bind fun r => pushBackN N value k r.1 r.2

/-- Source `assign(size_type new_size, const T& value)`. -/
def unrolled_list.assign_n (N : Nat) (c : unrolled_list) (new_size : Nat) (value : α)
    (m : Mem α) (fuel : Nat) : Option (unrolled_list × Mem α) :=
  (c.clear m fuel).bind fun r => pushBackN N value new_size r.1 r.2

/-- Source `~unrolled_list()`: every block is destroyed and deallocated, then the
container object, with its sentinel, ceases to exist. -/
def unrolled_list.destroy (c : unrolled_list) (m : Mem α) (fuel : Nat) : Option (Mem α) := do
  let first ← m.next c.fake_node_
  let m ← freeLoop c.fake_node_ fuel first m
  pure { m with obj := fun q => if q = c.fake_node_ then none else m.obj q }

/-! ## Bulk insertion -/

/-- The loop `for (it = first; it != last; ++it) { current = insert(current, *it);
++current; }` over the values `xs`. -/
def insertRangeLoop (N : Nat) :
    List α → unrolled_list → Iterator → Mem α → Option (unrolled_list × Mem α)
  | [], c, _, m => some (c, m)
  | x :: xs, c, current, m => do
    let (current, c, m) ← c.insert N current x m
    let current ← current.inc m
    insertRangeLoop N xs c current m

/-- Source `insert(const_iterator cpos, InputIt first, InputIt last)`; `xs` are the values
of the range.  The result is the iterator built from `cpos` before the loop. -/
def unrolled_list.insert_range (N : Nat) (c : unrolled_list) (cpos : Iterator) (xs : List α)
    (m : Mem α) : Option (Iterator × unrolled_list × Mem α) :=
  (insertRangeLoop N xs c ⟨cpos.ptr_, cpos.index_⟩ m).map fun r =>
    (⟨cpos.ptr_, cpos.index_⟩, r.1, r.2)

/-- The loop `for (; i < size; ++i, it = insert(it++, value)) {}` with `rounds` rounds
left: `it++` steps `it` and hands its old value to `insert`, whose result is assigned
to `it`. -/
def insertNLoop (N : Nat) (value : α) :
    Nat → unrolled_list → Iterator → Mem α → Option (unrolled_list × Mem α)
  | 0, c, _, m => some (c, m)
  | rounds + 1, c, it, m => do
    let _ ← it.inc m
    let (it, c, m) ← c.insert N it value m
    insertNLoop N value rounds c it m

/-- Source `insert(const_iterator cpos, size_type size, const T& value)`: one `insert`
before the loop, then the loop for `i = 1, ..., size - 1`. -/
def unrolled_list.insert_n (N : Nat) (c : unrolled_list) (cpos : Iterator) (size : Nat)
    (value : α) (m : Mem α) : Option (Iterator × unrolled_list × Mem α) := do
  let (it, c, m) ← c.insert N cpos value m
  let result := it
  let (c, m) ← insertNLoop N value (size - 1) c it m
  pure (result, c, m)

/-- Memory of a fourth example container, the one `unrolled_list<T, 1>(2, 7)` builds in
the empty memory: capacity 1, the sentinel at address 1, two blocks `[7]` at addresses 2
and 3 whose `next` links are set and whose `prev` links hold the indeterminate value
`ind`. -/
def filledMem (ind : Ptr) : Mem Nat :=
  { obj := fun q =>
      if q = 1 then some (Obj.base ⟨3, 2⟩)
      else if q = 2 then some (Obj.node ⟨ind, 3, fun j => if j < 1 then some 7 else none, 1⟩)
      else if q = 3 then some (Obj.node ⟨ind, 1, fun j => if j < 1 then some 7 else none, 1⟩)
      else none,
    brk := 4 }
/-- Memory holding two containers of capacity 2 with the same elements `1, 2, 3`:
the container of `exMem` (sentinel 1, blocks `[1, 2]` at 2 and `[3]` at 3) and a second
one (sentinel 4) that has them in the blocks `[1]` at 5 and `[2, 3]` at 6. -/
def exMem2 : Mem Nat :=
  { obj := fun q =>
      if q = 1 then some (Obj.base ⟨3, 2⟩)
      else if q = 2 then
        some (Obj.node ⟨1, 3, fun j => if j = 0 then some 1 else if j = 1 then some 2 else none, 2⟩)
      else if q = 3 then some (Obj.node ⟨2, 1, fun j => if j = 0 then some 3 else none, 1⟩)
      else if q = 4 then some (Obj.base ⟨6, 5⟩)
      else if q = 5 then some (Obj.node ⟨4, 6, fun j => if j = 0 then some 1 else none, 1⟩)
      else if q = 6 then
        some (Obj.node ⟨5, 4, fun j => if j = 0 then some 2 else if j = 1 then some 3 else none, 2⟩)
      else none,
    brk := 7 }

/-- The second container of `exMem2`: sentinel at address 4, three elements. -/
def exList2 : unrolled_list := ⟨4, 3⟩

/-- State of the copy loop after the blocks `bs1` have been copied: the copies live at
the consecutive fresh addresses `ds` behind the new sentinel `F`, they are chained with
the last `next` link still null, the sentinel's `next` is the first copy, and the
objects that existed before (`m0`, below `F`) are as they were. -/
structure CopyState (m0 : Mem α) (F ind : Ptr) (ds : List Ptr) (bs1 : List (List α))
    (m1 : Mem α) : Prop where
  brk_eq : m1.brk = F + 1 + ds.length
  addrs : ds = List.range' (F + 1) ds.length
  old : ∀ q, q < F → m1.obj q = m0.obj q
  fake : m1.obj F = some (Obj.base ⟨ind, ds.headD ind⟩)
  chain : Chain m1 (some F) ds bs1 nullptr
  fresh : ∀ p, m1.brk ≤ p → m1.obj p = none

/-- The memory `m2` arises from `m` by steps that stay within the region `S` of addresses:
outside `S` every object is as in `m`, the links of the objects in `S` lead to `S`, `S`
holds all the addresses that were fresh in `m`, and nothing lives at the addresses that
are still fresh. -/
structure Within (S : Ptr → Prop) (m m2 : Mem α) : Prop where
  brk_le : m.brk ≤ m2.brk
  above : ∀ q, m.brk ≤ q → S q
  frame : ∀ q, ¬ S q → m2.obj q = m.obj q
  closed : ∀ p x, S p → (m2.prev p = some x ∨ m2.next p = some x) → S x
  fresh : ∀ p, m2.brk ≤ p → m2.obj p = none

/-- Every defined result of `x` satisfies `P`. -/
def Post {β : Type} (P : β → Prop) (x : Option β) : Prop := ∀ r, x = some r → P r

/-- A mutator call on a container: one of the six operations of `Op` (a position is
given by its logical index), `clear()`, `assign(first, last)` with the values `xs`, or
`assign(n, v)`. -/
inductive Mutator (α : Type) where
  | op (o : Op α)
  | clear
  | assign (xs : List α)
  | assign_n (n : Nat) (v : α)

/-- The mutator applied to the container; `fuel` bounds the rounds of the loop of
`clear()`. -/
def Mutator.run (N fuel : Nat) : Mutator α → unrolled_list × Mem α →
    Option (unrolled_list × Mem α)
  | Mutator.op o, s => o.run N s
  | Mutator.clear, s => s.1.clear s.2 fuel
  | Mutator.assign xs, s => s.1.assign N xs s.2 fuel
  | Mutator.assign_n n v, s => s.1.assign_n N n v s.2 fuel

/-- A sequence of mutator calls applied to the container, in order. -/
def runMutators (N fuel : Nat) : List (Mutator α) → unrolled_list × Mem α →
    Option (unrolled_list × Mem α)
  | [], s => some s
  | mu :: mus, s => (mu.run N fuel s).bind (runMutators N fuel mus)

/-! ## front, back and the initializer-list insert -/

/-- Source `front()`: `*static_cast<Node*>(fake_node_.next)->data()`. -/
def unrolled_list.front (N : Nat) (c : unrolled_list) (m : Mem α) : Option α := do
  let front_node ← m.next c.fake_node_
  (m.slot N front_node 0).bind id

/-- Source `back()`: `*(back_node->data() + (back_node->count - 1))` for
`back_node = fake_node_.prev`. -/
def unrolled_list.back (N : Nat) (c : unrolled_list) (m : Mem α) : Option α := do
  let back_node ← m.prev c.fake_node_
  let k ← m.count back_node
  (m.slot N back_node (decr k)).bind id

/-- The loop `for (init_it = init_list.begin() + 1; init_it != init_list.end(); ++init_it)
it = insert(++it, *init_it);` over the remaining values. -/
def insertListLoop (N : Nat) :
    List α → unrolled_list → Iterator → Mem α → Option (unrolled_list × Mem α)
  | [], c, _, m => some (c, m)
  | x :: xs, c, it, m => do
    let it ← it.inc m
    let (it, c, m) ← c.insert N it x m
    insertListLoop N xs c it m

/-- Source `insert(const_iterator cpos, std::initializer_list<T> init_list)`: an empty list
returns the position at once; otherwise the first value is inserted at `cpos` and each
further value right after the one before. -/
def unrolled_list.insert_list (N : Nat) (c : unrolled_list) (cpos : Iterator)
    (init_list : List α) (m : Mem α) : Option (Iterator × unrolled_list × Mem α) :=
  match init_list with
  | [] => some (⟨cpos.ptr_, cpos.index_⟩, c, m)
  | x :: rest => do
    let (it, c, m) ← c.insert N cpos x m
    let result := it
    let (c, m) ← insertListLoop N rest c it m
    pure (result, c, m)

/-! ## Further constructors -/

/-- Source `unrolled_list(InputIt first, InputIt last)`,
`unrolled_list(InputIt, InputIt, const allocator_type&)` and
`unrolled_list(std::initializer_list<T>)`; `xs` are the values given.  The member
initialisers set `size_(0)` only: `fake_node_` is default-initialised, so its links start
with the indeterminate value `ind`; then every value is passed to `push_back`. -/
def unrolled_list.new_range (N : Nat) (xs : List α) (ind : Ptr) (m : Mem α) :
    Option (unrolled_list × Mem α) :=
  pushBackAll N xs ⟨m.brk, 0⟩
    { obj := fun q => if q = m.brk then some (Obj.base ⟨ind, ind⟩) else m.obj q,
      brk := m.brk + 1 }

/-- `NodeAllocTraits::construct(allocator_, p, left, right)` on storage already allocated:
the constructor `Node(BaseNode* left, BaseNode* right) : count(0), BaseNode(left, right)`. -/
def Mem.constructNode (m : Mem α) (p left right : Ptr) : Mem α :=
  m.write p (Obj.node ⟨left, right, fun _ => none, 0⟩)

/-- The loop `for (size_t j = 0; j < n; ++j) AllocTraits::construct(allocator,
new_node->data() + j)`, which default-constructs the slots; `dflt` is the value of a
default-constructed element, `steps` rounds are left and `j` is the counter. -/
def constructDefaults (N : Nat) (p : Ptr) (dflt : α) : Nat → Nat → Mem α → Option (Mem α)
  | 0, _, m => some m
  | steps + 1, j, m => (m.construct N p j dflt).bind (constructDefaults N p dflt steps (j + 1))

/-- The loop `for (size_t i = 0; i < size / NodeMaxSize; ++i)` of
`unrolled_list(size_type, allocator_type)`: `rounds` rounds are left, `i` is the counter,
`prev_node` is `none` while the source variable is null. -/
def defaultLoop (N : Nat) (fake : Ptr) (dflt : α) :
    Nat → Nat → Option Ptr → Mem α → Option (Option Ptr × Mem α)
  | 0, _, prev_node, m => some (prev_node, m)
  | rounds + 1, i, prev_node, m => do
    let (new_node, m) := m.allocate
    if i = 0 then
      let m ← m.setNext fake new_node
      let m := m.constructNode new_node fake nullptr
      let m ← m.setCount new_node N
      let m ← constructDefaults N new_node dflt N 0 m
      defaultLoop N fake dflt rounds (i + 1) (some new_node) m
    else
      let pn ← prev_node
      let m ← m.setNext pn new_node
      let m := m.constructNode new_node pn nullptr
      let m ← m.setCount new_node N
      let m ← constructDefaults N new_node dflt N 0 m
      defaultLoop N fake dflt rounds (i + 1) (some new_node) m

/-- Source `unrolled_list(size_type size, allocator_type allocator)`.  The new container
object takes the next fresh address; `fake_node_` is default-initialised (links `ind`),
`size_` is initialised with `size`. -/
def unrolled_list.new_default (N : Nat) (size : Nat) (dflt : α) (ind : Ptr) (m : Mem α) :
    Option (unrolled_list × Mem α) := do
  let fake := m.brk
  let m : Mem α :=
    { obj := fun q => if q = m.brk then some (Obj.base ⟨ind, ind⟩) else m.obj q,
      brk := m.brk + 1 }
  if size = 0 then
    let m ← m.setPrev fake fake
    let m ← m.setNext fake fake
    pure (⟨fake, 0⟩, m)
  else
    let (prev_node, m) ← defaultLoop N fake dflt (size / N) 0 none m
    let m ← (if size % N > 0 then do
        let (new_node, m) := m.allocate
        let m := m.constructNode new_node (prev_node.getD nullptr) nullptr
        let m ← m.setCount new_node (size % N)
        let m ← (match prev_node with
          | none => do
            let m ← m.setPrev new_node fake
            let m ← m.setNext new_node fake
            let m ← m.setNext fake new_node
            m.setPrev fake new_node
          | some pn => do
            let m ← m.setNext pn new_node
            m.setNext new_node fake)
        constructDefaults N new_node dflt (size % N) 0 m
      else pure m)
    pure (⟨fake, size⟩, m)

/-! ## Failure during push_back and push_front -/

/-- The step of a `push_back` / `push_front` call that fails: the allocation of a block
(`NodeAllocTraits::allocate` throws) or the construction of the new element
(`AllocTraits::construct(alloc, slot, value)` throws). -/
inductive Fault where
  | alloc
  | construct
  deriving DecidableEq, Repr

/-- How a call ends: it returns, or an exception propagates to the caller; either way
the container and the memory are in some state. -/
inductive Outcome (α : Type) where
  | returned (c : unrolled_list) (m : Mem α)
  | thrown (c : unrolled_list) (m : Mem α)

/-- Whether an exception propagated. -/
def Outcome.isThrown : Outcome α → Bool
  | Outcome.returned _ _ => false
  | Outcome.thrown _ _ => true

/-- The container at the end of the call. -/
def Outcome.container : Outcome α → unrolled_list
  | Outcome.returned c _ => c
  | Outcome.thrown c _ => c

/-- The memory at the end of the call. -/
def Outcome.mem : Outcome α → Mem α
  | Outcome.returned _ m => m
  | Outcome.thrown _ m => m

/-- `NodeAllocTraits::deallocate(allocator_, p, 1)` in a handler: the storage at `p` is
given back and what was constructed there is gone. -/
def Mem.deallocate (m : Mem α) (p : Ptr) : Option (Mem α) :=
  (m.obj p).map fun _ => { m with obj := fun q => if q = p then none else m.obj q }

/-- Source `push_back(const T&)` on the run in which the step `fault` throws.  A failing
allocation propagates before anything is written; a failing element construction in a
new block runs the handler `catch (...) { deallocate(new_node); throw; }`; in the last
block with spare capacity it propagates from the `construct` call, before `count` and
`size_` are incremented.  Where the call does not reach the failing step it returns as
`push_back` does. -/
def unrolled_list.push_back_faulty (N : Nat) (c : unrolled_list) (value : α) (m : Mem α)
    (fault : Fault) : Option (Outcome α) := do
  let grow ← (if c.empty then pure true else do
    let last ← m.prev c.fake_node_
    let k ← m.count last
    pure (k == N))
  if grow then
    match fault with
    | Fault.alloc => pure (Outcome.thrown c m)
    | Fault.construct =>
      if c.empty then
        let (new_node, m) := m.newNode c.fake_node_ c.fake_node_
        let m ← m.deallocate new_node
        pure (Outcome.thrown c m)
      else
        let last_prev ← m.prev c.fake_node_
        let (new_node, m) := m.newNode last_prev c.fake_node_
        let m ← m.deallocate new_node
        pure (Outcome.thrown c m)
  else
    match fault with
    | Fault.alloc => (c.push_back N value m).map fun r => Outcome.returned r.1 r.2
    | Fault.construct =>
      let back_node ← m.prev c.fake_node_
      let _ ← m.count back_node
      pure (Outcome.thrown c m)

/-- Source `push_front(const T&)` on the run in which the step `fault` throws.  The
new-block branches have the same handlers as in `push_back`.  In the first block with
spare capacity the elements are shifted one slot to the right first and the `construct`
call for slot 0 has no handler: the exception propagates with the block shifted. -/
def unrolled_list.push_front_faulty (N : Nat) (c : unrolled_list) (value : α) (m : Mem α)
    (fault : Fault) : Option (Outcome α) := do
  let grow ← (if c.empty then pure true else do
    let first ← m.next c.fake_node_
    let k ← m.count first
    pure (k == N))
  if grow then
    match fault with
    | Fault.alloc => pure (Outcome.thrown c m)
    | Fault.construct =>
      if c.empty then
        let (new_node, m) := m.newNode c.fake_node_ c.fake_node_
        let m ← m.deallocate new_node
        pure (Outcome.thrown c m)
      else
        let last_next ← m.next c.fake_node_
        let (new_node, m) := m.newNode c.fake_node_ last_next
        let m ← m.deallocate new_node
        pure (Outcome.thrown c m)
  else
    match fault with
    | Fault.alloc => (c.push_front N value m).map fun r => Outcome.returned r.1 r.2
    | Fault.construct =>
      let front_node ← m.next c.fake_node_
      let k ← m.count front_node
      -- for (int32_t i = front_node->count; i > 0; --i)
      let m ← shiftRightSigned N front_node k m
      pure (Outcome.thrown c m)

/-! ## Containers with a forward chain

The count-and-value constructor leaves the `prev` links of its blocks unset; what it
builds is described by the data model without its requirements on those links. -/

/-- The blocks at `as` hold `bs` and each block's `next` is its successor (`e` after the
last one); nothing is required of the `prev` links. -/
def FChain (m : Mem α) : List Ptr → List (List α) → Ptr → Prop
  | [], [], _ => True
  | a :: as, b :: bs, e => IsBlock m a none (as.headD e) b ∧ FChain m as bs e
  | _, _, _ => False

/-- The container `c` in memory `m` consists of the blocks `as` holding `bs`, linked
forwards; the sentinel's links are as in `Rep`. -/
structure FwdRep (N : Nat) (m : Mem α) (c : unrolled_list) (as : List Ptr)
    (bs : List (List α)) : Prop where
  cap_pos : 0 < N
  sentinel : ∃ f : BaseNode, m.obj c.fake_node_ = some (Obj.base f) ∧
    f.next = as.headD c.fake_node_ ∧ f.prev = as.getLastD c.fake_node_
  chain : FChain m as bs c.fake_node_
  counts : ∀ b ∈ bs, 0 < b.length ∧ b.length ≤ N
  nodup : as.Nodup
  fake_not_block : c.fake_node_ ∉ as
  size_eq : c.size_ = bs.flatten.length
  fresh : ∀ p, m.brk ≤ p → m.obj p = none

/-- The scenario `unrolled_list<int, 1> ul = {1, 2, 3, 4, 5, 6}`; `ul.insert(p, 6)` for
`p` the position of the element valued 3 (two steps after `begin()`); then
`ul.insert(++ul.begin(), l.begin(), l.end())` for `l = {7, 2, 3}`.  The container is
built in the empty memory; `ind` is the indeterminate initial value of its sentinel's
links. -/
def insertScenario (ind : Ptr) : Option (unrolled_list × Mem Nat) := do
  let (ul, m) ← unrolled_list.new_range 1 [1, 2, 3, 4, 5, 6] ind emptyMem
  let b ← ul.cbegin m
  let p ← advance m 2 b
  let (_, ul, m) ← ul.insert 1 p 6 m
  let b ← ul.cbegin m
  let p ← b.inc m
  let (_, ul, m) ← ul.insert_range 1 p [7, 2, 3] m
  pure (ul, m)

/-- The first half of the scenario: the container `{1, 2, 3, 4, 5, 6}` of capacity 1 and
the position two steps after `begin()`. -/
def scenarioStart (ind : Ptr) : Option (Iterator × unrolled_list × Mem Nat) := do
  let (ul, m) ← unrolled_list.new_range 1 [1, 2, 3, 4, 5, 6] ind emptyMem
  let b ← ul.cbegin m
  let p ← advance m 2 b
  pure (p, ul, m)

/-- The scenario of test `InsertByTwoIterators3`: the container `{1, 2, 3, 4, 5, 6}` of
capacity 1 and the range insert of `{7, 2, 3}` at `++begin()` alone. -/
def rangeScenario (ind : Ptr) : Option (unrolled_list × Mem Nat) := do
  let (ul, m) ← unrolled_list.new_range 1 [1, 2, 3, 4, 5, 6] ind emptyMem
  let b ← ul.cbegin m
  let p ← b.inc m
  let (_, ul, m) ← ul.insert_range 1 p [7, 2, 3] m
  pure (ul, m)

/-- State of the count-and-value constructor after the blocks `bs` have been built: they
live at the consecutive fresh addresses `ds` behind the new sentinel `F`, each block's
`next` is its successor and the last one's still holds the indeterminate value `ind`,
the sentinel's `next` is the first block, and the objects that existed before (`m0`,
below `F`) are as they were. -/
structure FillState (m0 : Mem α) (F ind : Ptr) (ds : List Ptr) (bs : List (List α))
    (m1 : Mem α) : Prop where
  brk_eq : m1.brk = F + 1 + ds.length
  addrs : ds = List.range' (F + 1) ds.length
  old : ∀ q, q < F → m1.obj q = m0.obj q
  fake : m1.obj F = some (Obj.base ⟨ind, ds.headD ind⟩)
  chain : FChain m1 ds bs ind
  fresh : ∀ p, m1.brk ≤ p → m1.obj p = none

/-- An empty memory for containers of `int`, in which a first container is constructed. -/
def emptyIntMem : Mem Int := ⟨fun _ => none, 1⟩

/-- Memory of a fifth example container, the one `unrolled_list<int, 2>(2, allocator)`
builds in the empty memory: capacity 2, the sentinel at address 1 with `next` the block
and `prev` still the indeterminate value `ind`, one full block `[0, 0]` at address 2 whose
`next` link is null. -/
def defaultMem (ind : Ptr) : Mem Nat :=
  { obj := fun q =>
      if q = 1 then some (Obj.base ⟨ind, 2⟩)
      else if q = 2 then
        some (Obj.node
          ⟨1, nullptr, fun j => if j = 0 then some 0 else if j = 1 then some 0 else none, 2⟩)
      else none,
    brk := 3 }

/-! ## Failure during insert -/

/-- Source `insert(const_iterator, const T&)` on the run in which the step `fault` throws.
At `end()` the source increments `size_` first (lines 971, 986): a failing allocation,
and a failing element construction after the handler `catch (...) { deallocate(node);
throw; }` or, in the last block with spare capacity, straight from the `construct` call,
propagate with `size_` incremented.  In a block with spare capacity the elements are
shifted right, the construction fails and the handler shifts them back (lines
1013-1018).  In a full block no element is constructed, and a block is allocated only
when the next block is the sentinel or is full.  Where the call does not reach the
failing step it returns as `insert` does. -/
def unrolled_list.insert_faulty (N : Nat) (c : unrolled_list) (cpos : Iterator) (value : α)
    (m : Mem α) (fault : Fault) : Option (Outcome α) := do
  if cpos = c.cend then
    if c.empty then
      let c := { c with size_ := c.size_ + 1 }
      match fault with
      | Fault.alloc => pure (Outcome.thrown c m)
      | Fault.construct =>
        let (node, m) := m.newNode c.fake_node_ c.fake_node_
        let m ← m.setCount node 1
        let m ← m.deallocate node
        pure (Outcome.thrown c m)
    else
      let c1 := { c with size_ := c.size_ + 1 }
      let back_node ← m.prev c.fake_node_
      let k ← m.count back_node
      if k < N then
        match fault with
        | Fault.alloc => (c.insert N cpos value m).map fun r => Outcome.returned r.2.1 r.2.2
        | Fault.construct => pure (Outcome.thrown c1 m)
      else
        match fault with
        | Fault.alloc => pure (Outcome.thrown c1 m)
        | Fault.construct =>
          let (new_node, m) := m.newNode back_node c.fake_node_
          let m ← m.setCount new_node 1
          let m ← m.deallocate new_node
          pure (Outcome.thrown c1 m)
  else
    let node := cpos.ptr_
    let k ← m.count node
    if k < N then
      match fault with
      | Fault.alloc => (c.insert N cpos value m).map fun r => Outcome.returned r.2.1 r.2.2
      | Fault.construct =>
        -- for (int32_t i = node->count; i > cpos.index_; --i)
        let m ← shiftRightUnsigned N node cpos.index_ k m
        -- catch (...): for (size_t i = cpos.index_; i < node->count; ++i)
        let k ← m.count node
        let m ← shiftLeft N node (k - cpos.index_) cpos.index_ m
        pure (Outcome.thrown c m)
    else
      let nxt ← m.next node
      match fault with
      | Fault.construct => (c.insert N cpos value m).map fun r => Outcome.returned r.2.1 r.2.2
      | Fault.alloc =>
        if nxt = c.fake_node_ then pure (Outcome.thrown c m)
        else
          let kn ← m.count nxt
          if kn = N then pure (Outcome.thrown c m)
          else (c.insert N cpos value m).map fun r => Outcome.returned r.2.1 r.2.2

/-- The handler loop `for (size_t j = 0; j < n; ++j) erase(result);` of the bulk inserts:
`n` calls of `erase` at the same position `result`. -/
def eraseTimes (N : Nat) (result : Iterator) :
    Nat → unrolled_list → Mem α → Option (unrolled_list × Mem α)
  | 0, c, m => some (c, m)
  | n + 1, c, m => (c.erase N result m).bind fun r => eraseTimes N result n r.2.1 r.2.2

/-- The loop of the range insert on the run in which the call of `insert` that follows
`j` successful ones throws at the step `fault`; `i` is the loop counter.  The result is
the value of `i` and the state when the loop is left, by an exception or at its end. -/
def insertRangeLoopFaulty (N : Nat) (fault : Fault) :
    Nat → List α → Nat → unrolled_list → Iterator → Mem α → Option (Nat × Outcome α)
  | _, [], i, c, _, m => some (i, Outcome.returned c m)
  | 0, x :: xs, i, c, current, m => do
    let o ← c.insert_faulty N current x m fault
    match o with
    | Outcome.thrown c m => pure (i, Outcome.thrown c m)
    | Outcome.returned _ _ =>
      let (current, c, m) ← c.insert N current x m
      let current ← current.inc m
      let (c, m) ← insertRangeLoop N xs c current m
      pure (i + 1 + xs.length, Outcome.returned c m)
  | j + 1, x :: xs, i, c, current, m => do
    let (current, c, m) ← c.insert N current x m
    let current ← current.inc m
    insertRangeLoopFaulty N fault j xs (i + 1) c current m

/-- Source `insert(const_iterator cpos, InputIt first, InputIt last)` on the run in which
the call of `insert` that follows `j` successful ones throws: the handler (lines 946-951)
calls `erase(result)` `i` times and rethrows. -/
def unrolled_list.insert_range_faulty (N : Nat) (c : unrolled_list) (cpos : Iterator)
    (xs : List α) (m : Mem α) (j : Nat) (fault : Fault) : Option (Outcome α) := do
  let result : Iterator := ⟨cpos.ptr_, cpos.index_⟩
  let (i, o) ← insertRangeLoopFaulty N fault j xs 0 c result m
  match o with
  | Outcome.returned c m => pure (Outcome.returned c m)
  | Outcome.thrown c m =>
    -- for (size_t j = 0; j < i; ++j) erase(result);
    let (c, m) ← eraseTimes N result i c m
    pure (Outcome.thrown c m)

/-- The loop `for (; i < size; ++i, it = insert(it++, value)) {}` on the run in which the
call of `insert` that follows `j` successful ones throws; `rounds` rounds are left.  The
counter `i` is incremented before `insert` is called. -/
def insertNLoopFaulty (N : Nat) (value : α) (fault : Fault) :
    Nat → Nat → Nat → unrolled_list → Iterator → Mem α → Option (Nat × Outcome α)
  | _, 0, i, c, _, m => some (i, Outcome.returned c m)
  | 0, rounds + 1, i, c, it, m => do
    let _ ← it.inc m
    let o ← c.insert_faulty N it value m fault
    match o with
    | Outcome.thrown c m => pure (i + 1, Outcome.thrown c m)
    | Outcome.returned _ _ =>
      let (it, c, m) ← c.insert N it value m
      let (c, m) ← insertNLoop N value rounds c it m
      pure (i + 1 + rounds, Outcome.returned c m)
  | j + 1, rounds + 1, i, c, it, m => do
    let _ ← it.inc m
    let (it, c, m) ← c.insert N it value m
    insertNLoopFaulty N value fault j rounds (i + 1) c it m

/-- Source `insert(const_iterator cpos, size_type size, const T& value)` on the run in
which the call of `insert` that follows `j` successful ones throws.  The first call
(line 1067) stands before the `try`; the handler (lines 1072-1077) calls `erase(result)`
for `j = 0, ..., i`, that is `i + 1` times, and rethrows. -/
def unrolled_list.insert_n_faulty (N : Nat) (c : unrolled_list) (cpos : Iterator)
    (size : Nat) (value : α) (m : Mem α) (j : Nat) (fault : Fault) : Option (Outcome α) :=
  match j with
  | 0 => do
    let o ← c.insert_faulty N cpos value m fault
    match o with
    | Outcome.thrown c m => pure (Outcome.thrown c m)
    | Outcome.returned _ _ =>
      (c.insert_n N cpos size value m).map fun r => Outcome.returned r.2.1 r.2.2
  | j + 1 => do
    let (it, c, m) ← c.insert N cpos value m
    let result := it
    let (i, o) ← insertNLoopFaulty N value fault j (size - 1) 1 c it m
    match o with
    | Outcome.returned c m => pure (Outcome.returned c m)
    | Outcome.thrown c m =>
      -- for (size_t j = 0; j <= i; ++j) erase(result);
      let (c, m) ← eraseTimes N result (i + 1) c m
      pure (Outcome.thrown c m)

/-- The loop `for (init_it = init_list.begin() + 1; ...) { it = insert(++it, *init_it);
++i; }` on the run in which the call of `insert` that follows `j` successful ones of the
loop throws. -/
def insertListLoopFaulty (N : Nat) (fault : Fault) :
    Nat → List α → Nat → unrolled_list → Iterator → Mem α → Option (Nat × Outcome α)
  | _, [], i, c, _, m => some (i, Outcome.returned c m)
  | 0, x :: xs, i, c, it, m => do
    let it ← it.inc m
    let o ← c.insert_faulty N it x m fault
    match o with
    | Outcome.thrown c m => pure (i, Outcome.thrown c m)
    | Outcome.returned _ _ =>
      let (it, c, m) ← c.insert N it x m
      let (c, m) ← insertListLoop N xs c it m
      pure (i + 1 + xs.length, Outcome.returned c m)
  | j + 1, x :: xs, i, c, it, m => do
    let it ← it.inc m
    let (it, c, m) ← c.insert N it x m
    insertListLoopFaulty N fault j xs (i + 1) c it m

/-- Source `insert(const_iterator cpos, std::initializer_list<T> init_list)` on the run in
which the call of `insert` that follows `j` successful ones throws.  The first call (line
1088) stands before the `try`; the handler (lines 1096-1101) calls `erase(result)` `i`
times, `i` the number of values inserted by the loop, and rethrows. -/
def unrolled_list.insert_list_faulty (N : Nat) (c : unrolled_list) (cpos : Iterator)
    (init_list : List α) (m : Mem α) (j : Nat) (fault : Fault) : Option (Outcome α) :=
  match init_list, j with
  | [], _ => some (Outcome.returned c m)
  | x :: rest, 0 => do
    let o ← c.insert_faulty N cpos x m fault
    match o with
    | Outcome.thrown c m => pure (Outcome.thrown c m)
    | Outcome.returned _ _ =>
      (c.insert_list N cpos (x :: rest) m).map fun r => Outcome.returned r.2.1 r.2.2
  | x :: rest, j + 1 => do
    let (it, c, m) ← c.insert N cpos x m
    let result := it
    let (i, o) ← insertListLoopFaulty N fault j rest 0 c it m
    match o with
    | Outcome.returned c m => pure (Outcome.returned c m)
    | Outcome.thrown c m =>
      -- for (size_t j = 0; j < i; ++j) erase(result);
      let (c, m) ← eraseTimes N result i c m
      pure (Outcome.thrown c m)

/-! ## Failure during copy construction -/

/-- The loop of the copy constructors on the run in which an element copy fails in the
source block that follows `j` copied ones: the block's storage has been allocated, the
constructor `Node(BaseNode*, BaseNode*, T*, size_type)` destroys the elements it had
copied and the exception leaves the loop before the new block is linked.  The result
tells whether the loop was left by the exception. -/
def copyLoopFaulty (N : Nat) (fake other_fake : Ptr) :
    Nat → Nat → Ptr → Bool → Option Ptr → Mem α → Option (Bool × Option Ptr × Mem α)
  | 0, _, _, _, _, _ => none
  | fuel + 1, j, cur, is_first, prev_node, m =>
    if cur = other_fake then some (false, prev_node, m)
    else
      match j with
      | 0 => do
        let _ ← m.count cur
        let (_, m) := m.allocate
        pure (true, prev_node, m)
      | j + 1 => do
        let k ← m.count cur
        if is_first then
          let (first_node, m) := m.allocate
          let m ← m.constructNodeCopy N first_node fake nullptr cur k
          let m ← m.setNext fake first_node
          let nxt ← m.next cur
          copyLoopFaulty N fake other_fake fuel j nxt false (some first_node) m
        else
          let (new_node, m) := m.allocate
          let pn ← prev_node
          let m ← m.constructNodeCopy N new_node pn nullptr cur k
          let m ← m.setNext pn new_node
          let nxt ← m.next cur
          copyLoopFaulty N fake other_fake fuel j nxt false (some new_node) m

/-- Source `unrolled_list(const unrolled_list& other)` on the run in which an element
copy fails in the source block that follows `j` copied ones.  The handler (lines 396-410)
walks the new chain from `fake_node_.next` until it meets the sentinel, destroying and
deallocating every block, then links the sentinel to itself, sets `size_ = 0` and
rethrows. -/
def unrolled_list.new_copy_faulty (N : Nat) (other : unrolled_list) (ind : Ptr) (m : Mem α)
    (fuel : Nat) (j : Nat) : Option (Outcome α) := do
  let fake := m.brk
  let m : Mem α :=
    { obj := fun q => if q = m.brk then some (Obj.base ⟨ind, ind⟩) else m.obj q,
      brk := m.brk + 1 }
  let first ← m.next other.fake_node_
  let (failed, prev_node, m) ← copyLoopFaulty N fake other.fake_node_ fuel j first true none m
  if failed then
    -- for (BaseNode* cur = fake_node_.next; cur != &fake_node_; cur = next_node)
    let start ← m.next fake
    let m ← freeLoop fake fuel start m
    let m ← m.setPrev fake fake
    let m ← m.setNext fake fake
    pure (Outcome.thrown ⟨fake, 0⟩ m)
  else
    let m ← (match prev_node with
      | some p => do
        let m ← m.setNext p fake
        m.setPrev fake p
      | none => do
        let m ← m.setNext fake fake
        m.setPrev fake fake)
    pure (Outcome.returned ⟨fake, other.size_⟩ m)

/-! ## The allocator constructor, construction by push_back -/

/-- Source `unrolled_list(Allocator allocator) : allocator_(allocator), size_(0) {}`.  The
new container object takes the next fresh address; `fake_node_` is default-initialised, so
its links hold the indeterminate value `ind`, and the body assigns nothing. -/
def unrolled_list.new_alloc (ind : Ptr) (m : Mem α) : unrolled_list × Mem α :=
  (⟨m.brk, 0⟩,
   { obj := fun q => if q = m.brk then some (Obj.base ⟨ind, ind⟩) else m.obj q,
     brk := m.brk + 1 })

/-- The specification of the count-and-value constructor, in its own words: an empty
container is built, then the value is appended `size` times through `push_back`. -/
def unrolled_list.new_fill_spec (N : Nat) (size : Nat) (value : α) (m : Mem α) :
    Option (unrolled_list × Mem α) :=
  pushBackN N value size (unrolled_list.new m).1 (unrolled_list.new m).2

/-! ## Assignment to elements that are not trivially copyable -/

/-- `p->data()[i] = p->data()[j]` (also with `std::move`) for an element type with a
non-trivial assignment operator or destructor, such as `std::string`: the statement calls
a member function of the object in slot `i`, so it is defined only when slot `i` holds a
live element, and it reads the live element of slot `j`.  Afterwards slot `i` holds the
value of slot `j`. -/
def Mem.assignSlot (N : Nat) (m : Mem α) (p : Ptr) (i j : Nat) : Option (Mem α) :=
  (m.slot N p j).bind fun x =>
    (m.slot N p i).bind fun d =>
      match x, d with
      | some _, some _ => m.setSlot N p i x
      | _, _ => none

/-- `for (size_t j = first; j < bound; ++j) data()[j] = data()[j + 1]` for such an element
type, as `steps = bound - first` iterations from `i = first`. -/
def shiftLeftChecked (N : Nat) (p : Ptr) : Nat → Nat → Mem α → Option (Mem α)
  | 0, _, m => some m
  | steps + 1, i, m =>
    (m.assignSlot N p i (i + 1)).bind (shiftLeftChecked N p steps (i + 1))

/-- Source `pop_front()` for an element type that is not trivially copyable: the
statements of `pop_front`, the assignments of its shift loop being those of
`Mem.assignSlot`. -/
def unrolled_list.pop_front_checked (N : Nat) (c : unrolled_list) (m : Mem α) :
    Option (unrolled_list × Mem α) := do
  if c.empty then pure (c, m)
  else
    let front_node ← m.next c.fake_node_
    let k ← m.count front_node
    if 1 < k then
      let m ← m.destroy N front_node 0
      let m ← m.setCount front_node (decr k)
      let k ← m.count front_node
      -- for (size_t j = 0; j < front_node->count; ++j)
      let m ← shiftLeftChecked N front_node k 0 m
      let m ← m.destroy N front_node k
      pure ({ c with size_ := decr c.size_ }, m)
    else
      let m ← (if c.size_ = 1 then do
          let m ← m.setNext c.fake_node_ c.fake_node_
          m.setPrev c.fake_node_ c.fake_node_
        else do
          let n ← m.next front_node
          let m ← m.setNext c.fake_node_ n
          -- front_node->next->prev = fake_node_.next
          let n ← m.next front_node
          let first ← m.next c.fake_node_
          m.setPrev n first)
      let m ← m.freeNode front_node
      pure ({ c with size_ := decr c.size_ }, m)

/-- Memory in which the container of `exFullMem` (`[1, 2]`, capacity 2, sentinel 1, block
2) has been copied: the copy has its sentinel at address 3 and its block `[1, 2]` at
address 4. -/
def exFullCopyMem : Mem Nat :=
  { obj := fun q =>
      if q = 3 then some (Obj.base ⟨4, 4⟩)
      else if q = 4 then some (Obj.node ⟨3, 3, fun j => [1, 2][j]?, 2⟩)
      else exFullMem.obj q,
    brk := 5 }

/-! ## Memory lemmas -/

@[simp] theorem Mem.write_obj_same (m : Mem α) (p : Ptr) (o : Obj α) :
    (m.write p o).obj p = some o := by
  simp [Mem.write]

theorem Mem.write_obj_ne (m : Mem α) {p q : Ptr} (o : Obj α) (h : q ≠ p) :
    (m.write p o).obj q = m.obj q := by
  simp [Mem.write, h]

@[simp] theorem Mem.write_brk (m : Mem α) (p : Ptr) (o : Obj α) :
    (m.write p o).brk = m.brk := rfl

theorem Mem.write_write (m : Mem α) (p : Ptr) (o1 o2 : Obj α) :
    (m.write p o1).write p o2 = m.write p o2 := by
  simp only [Mem.write]
  congr 1
  funext q
  by_cases h : q = p <;> simp [h]

theorem Mem.write_self {m : Mem α} {p : Ptr} {o : Obj α} (h : m.obj p = some o) :
    m.write p o = m := by
  cases m with
  | mk obj brk =>
    simp only [Mem.write]
    congr 1
    funext q
    by_cases hq : q = p
    · subst hq; simpa using h.symm
    · simp [hq]

theorem Mem.prev_node {m : Mem α} {p : Ptr} {n : Node α} (h : m.obj p = some (Obj.node n)) :
    m.prev p = some n.prev := by
  simp [Mem.prev, h]

theorem Mem.next_node {m : Mem α} {p : Ptr} {n : Node α} (h : m.obj p = some (Obj.node n)) :
    m.next p = some n.next := by
  simp [Mem.next, h]

theorem Mem.prev_base {m : Mem α} {p : Ptr} {f : BaseNode} (h : m.obj p = some (Obj.base f)) :
    m.prev p = some f.prev := by
  simp [Mem.prev, h]

theorem Mem.next_base {m : Mem α} {p : Ptr} {f : BaseNode} (h : m.obj p = some (Obj.base f)) :
    m.next p = some f.next := by
  simp [Mem.next, h]

theorem Mem.node_node {m : Mem α} {p : Ptr} {n : Node α} (h : m.obj p = some (Obj.node n)) :
    m.node p = some n := by
  simp [Mem.node, h]

theorem Mem.count_node {m : Mem α} {p : Ptr} {n : Node α} (h : m.obj p = some (Obj.node n)) :
    m.count p = some n.count := by
  simp [Mem.count, Mem.node, h]

theorem Mem.setPrev_node {m : Mem α} {p : Ptr} {n : Node α} (h : m.obj p = some (Obj.node n))
    (x : Ptr) : m.setPrev p x = some (m.write p (Obj.node { n with prev := x })) := by
  simp [Mem.setPrev, h]

theorem Mem.setNext_node {m : Mem α} {p : Ptr} {n : Node α} (h : m.obj p = some (Obj.node n))
    (x : Ptr) : m.setNext p x = some (m.write p (Obj.node { n with next := x })) := by
  simp [Mem.setNext, h]

theorem Mem.setPrev_base {m : Mem α} {p : Ptr} {f : BaseNode} (h : m.obj p = some (Obj.base f))
    (x : Ptr) : m.setPrev p x = some (m.write p (Obj.base { f with prev := x })) := by
  simp [Mem.setPrev, h]

theorem Mem.setNext_base {m : Mem α} {p : Ptr} {f : BaseNode} (h : m.obj p = some (Obj.base f))
    (x : Ptr) : m.setNext p x = some (m.write p (Obj.base { f with next := x })) := by
  simp [Mem.setNext, h]

theorem Mem.setCount_node {m : Mem α} {p : Ptr} {n : Node α} (h : m.obj p = some (Obj.node n))
    (k : Nat) : m.setCount p k = some (m.write p (Obj.node { n with count := k })) := by
  simp [Mem.setCount, Mem.node, h]

theorem Mem.slot_node {N : Nat} {m : Mem α} {p : Ptr} {n : Node α}
    (h : m.obj p = some (Obj.node n)) {i : Nat} (hi : i < N) :
    m.slot N p i = some (n.storage i) := by
  simp [Mem.slot, Mem.node, h, hi]

theorem Mem.setSlot_node {N : Nat} {m : Mem α} {p : Ptr} {n : Node α}
    (h : m.obj p = some (Obj.node n)) {i : Nat} (hi : i < N) (x : Option α) :
    m.setSlot N p i x = some (m.write p
      (Obj.node { n with storage := fun j => if j = i then x else n.storage j })) := by
  simp [Mem.setSlot, Mem.node, h, hi]

theorem Mem.moveSlot_node {N : Nat} {m : Mem α} {p : Ptr} {n : Node α}
    (h : m.obj p = some (Obj.node n)) {i j : Nat} (hi : i < N) (hj : j < N) :
    m.moveSlot N p i j = some (m.write p
      (Obj.node { n with storage := fun t => if t = i then n.storage j else n.storage t })) := by
  simp [Mem.moveSlot, Mem.slot_node h hj, Mem.setSlot_node h hi]

theorem Mem.freeNode_node {m : Mem α} {p : Ptr} {n : Node α} (h : m.obj p = some (Obj.node n)) :
    m.freeNode p = some { m with obj := fun q => if q = p then none else m.obj q } := by
  simp [Mem.freeNode, Mem.node, h]

theorem decr_pos {x : Nat} (h : 0 < x) : decr x = x - 1 := by
  simp [decr, Nat.pos_iff_ne_zero.mp h]

theorem toInt32_small {x : Nat} (h : x < 2 ^ 31) : toInt32 x = (x : Int) := by
  have h2 : x % 2 ^ 32 = x := Nat.mod_eq_of_lt (by omega)
  unfold toInt32
  rw [h2, if_pos h]

/-! ## The shift loops -/

theorem shiftRight_node (N : Nat) (p : Ptr) (lo : Nat) :
    ∀ (hi : Nat) (m : Mem α) (n : Node α), m.obj p = some (Obj.node n) → hi < N →
      shiftRight N p lo hi m = some (m.write p (Obj.node { n with
        storage := fun j => if lo < j ∧ j ≤ hi then n.storage (j - 1) else n.storage j }))
  | 0, m, n, h, _ => by
    have : (fun j => if lo < j ∧ j ≤ 0 then n.storage (j - 1) else n.storage j) = n.storage := by
      funext j
      have : ¬ (lo < j ∧ j ≤ 0) := by omega
      rw [if_neg this]
    simp only [shiftRight, this]
    exact congrArg some (Mem.write_self h).symm
  | i + 1, m, n, h, hN => by
    by_cases hlo : lo < i + 1
    · have hmove := Mem.moveSlot_node h hN (show i < N by omega)
      simp only [shiftRight, hlo, if_true, hmove, Option.some_bind]
      rw [shiftRight_node N p lo i _ _ (Mem.write_obj_same _ _ _) (by omega)]
      simp only [Mem.write_write]
      congr 4
      funext j
      by_cases h1 : j = i + 1
      · subst h1
        have : ¬ (lo < i + 1 ∧ i + 1 ≤ i) := by omega
        simp [this, hlo]
      · by_cases h2 : lo < j ∧ j ≤ i
        · have h3 : lo < j ∧ j ≤ i + 1 := by omega
          have h4 : j - 1 ≠ i + 1 := by omega
          simp [h1, h2, h3, h4]
        · have h3 : ¬ (lo < j ∧ j ≤ i + 1) := by omega
          simp [h1, h2, h3]
    · have : (fun j => if lo < j ∧ j ≤ i + 1 then n.storage (j - 1) else n.storage j)
          = n.storage := by
        funext j
        have : ¬ (lo < j ∧ j ≤ i + 1) := by omega
        rw [if_neg this]
      simp only [shiftRight, hlo, if_false, this]
      exact congrArg some (Mem.write_self h).symm

theorem shiftLeft_node (N : Nat) (p : Ptr) :
    ∀ (steps i : Nat) (m : Mem α) (n : Node α), m.obj p = some (Obj.node n) →
      i + steps < N →
      shiftLeft N p steps i m = some (m.write p (Obj.node { n with
        storage := fun j => if i ≤ j ∧ j < i + steps then n.storage (j + 1) else n.storage j }))
  | 0, i, m, n, h, _ => by
    have : (fun j => if i ≤ j ∧ j < i + 0 then n.storage (j + 1) else n.storage j)
        = n.storage := by
      funext j
      have : ¬ (i ≤ j ∧ j < i + 0) := by omega
      rw [if_neg this]
    simp only [shiftLeft, this]
    exact congrArg some (Mem.write_self h).symm
  | steps + 1, i, m, n, h, hN => by
    have hmove := Mem.moveSlot_node h (show i < N by omega) (show i + 1 < N by omega)
    simp only [shiftLeft, hmove, Option.some_bind]
    rw [shiftLeft_node N p steps (i + 1) _ _ (Mem.write_obj_same _ _ _) (by omega)]
    simp only [Mem.write_write]
    congr 4
    funext j
    by_cases h1 : j = i
    · subst h1
      have h2 : ¬ (j + 1 ≤ j ∧ j < j + 1 + steps) := by omega
      have h3 : j ≤ j ∧ j < j + (steps + 1) := by omega
      simp [h2, h3]
    · by_cases h2 : i + 1 ≤ j ∧ j < i + 1 + steps
      · have h3 : i ≤ j ∧ j < i + (steps + 1) := by omega
        have h4 : j + 1 ≠ i := by omega
        simp [h1, h2, h3, h4]
      · have h3 : ¬ (i ≤ j ∧ j < i + (steps + 1)) := by omega
        simp [h1, h2, h3]

/-! ## Chains -/

theorem lastPtr_nil (pv : Option Ptr) : lastPtr pv [] = pv := rfl

theorem lastPtr_cons (pv : Option Ptr) (a : Ptr) (as : List Ptr) :
    lastPtr pv (a :: as) = lastPtr (some a) as := by
  cases as with
  | nil => rfl
  | cons x xs =>
    have h : (a :: x :: xs).getLast? = (x :: xs).getLast? := List.getLast?_cons_cons
    have h2 : (x :: xs).getLast? = some ((x :: xs).getLast (by simp)) :=
      List.getLast?_eq_getLast _ _
    simp only [lastPtr, h, h2]

theorem lastPtr_concat (pv : Option Ptr) (as : List Ptr) (a : Ptr) :
    lastPtr pv (as ++ [a]) = some a := by
  simp [lastPtr]

theorem Chain.len_eq {m : Mem α} :
    ∀ {pv : Option Ptr} {as : List Ptr} {bs : List (List α)} {e : Ptr},
      Chain m pv as bs e → as.length = bs.length
  | _, [], [], _, _ => rfl
  | _, [], _ :: _, _, h => by simp [Chain] at h
  | _, _ :: _, [], _, h => by simp [Chain] at h
  | _, _ :: _, _ :: _, _, h => by
    simp only [Chain] at h
    simp [Chain.len_eq h.2]

theorem IsBlock.congr_obj {m1 m2 : Mem α} {a : Ptr} {pv : Option Ptr} {nx : Ptr} {b : List α}
    (h : m2.obj a = m1.obj a) (hb : IsBlock m1 a pv nx b) : IsBlock m2 a pv nx b := by
  obtain ⟨n, hn, h1, h2, h3, h4⟩ := hb
  exact ⟨n, by rw [h, hn], h1, h2, h3, h4⟩

theorem IsBlock.drop_prev {m : Mem α} {a : Ptr} {pv : Option Ptr} {nx : Ptr} {b : List α}
    (hb : IsBlock m a pv nx b) : IsBlock m a none nx b := by
  obtain ⟨n, hn, _, h2, h3, h4⟩ := hb
  exact ⟨n, hn, by simp, h2, h3, h4⟩

theorem Chain.congr {m1 m2 : Mem α} :
    ∀ {pv : Option Ptr} {as : List Ptr} {bs : List (List α)} {e : Ptr},
      (∀ a ∈ as, m2.obj a = m1.obj a) → Chain m1 pv as bs e → Chain m2 pv as bs e
  | _, [], [], _, _, _ => trivial
  | _, [], _ :: _, _, _, h => by simp [Chain] at h
  | _, _ :: _, [], _, _, h => by simp [Chain] at h
  | _, a :: as, _ :: _, _, hm, h => by
    simp only [Chain] at h ⊢
    exact ⟨h.1.congr_obj (hm a (by simp)), Chain.congr (fun x hx => hm x (by simp [hx])) h.2⟩

theorem Chain.weaken {m : Mem α} {pv : Option Ptr} {as : List Ptr} {bs : List (List α)}
    {e : Ptr} (h : Chain m pv as bs e) : Chain m none as bs e := by
  cases as with
  | nil => cases bs with
    | nil => trivial
    | cons b bs => simp [Chain] at h
  | cons a as => cases bs with
    | nil => simp [Chain] at h
    | cons b bs =>
      simp only [Chain] at h ⊢
      exact ⟨h.1.drop_prev, h.2⟩

theorem chain_append {m : Mem α} {e : Ptr} (as2 : List Ptr) (bs2 : List (List α)) :
    ∀ (pv : Option Ptr) (as1 : List Ptr) (bs1 : List (List α)), as1.length = bs1.length →
      (Chain m pv (as1 ++ as2) (bs1 ++ bs2) e ↔
        Chain m pv as1 bs1 (as2.headD e) ∧ Chain m (lastPtr pv as1) as2 bs2 e)
  | pv, [], [], _ => by simp [Chain, lastPtr_nil]
  | _, [], _ :: _, h => by simp at h
  | _, _ :: _, [], h => by simp at h
  | pv, a :: as1, b :: bs1, h => by
    have hl : as1.length = bs1.length := by simpa using h
    have ih := chain_append (m := m) (e := e) as2 bs2 (some a) as1 bs1 hl
    have hh : (as1 ++ as2).headD e = as1.headD (as2.headD e) := by
      cases as1 <;> simp
    rw [List.cons_append, List.cons_append]
    simp only [Chain, ih, hh, lastPtr_cons]
    tauto

theorem chain_middle {m : Mem α} {e : Ptr} {pv : Option Ptr} {as1 as2 : List Ptr}
    {bs1 bs2 : List (List α)} {a : Ptr} {b : List α} (hl : as1.length = bs1.length) :
    Chain m pv (as1 ++ a :: as2) (bs1 ++ b :: bs2) e ↔
      Chain m pv as1 bs1 a ∧ IsBlock m a (lastPtr pv as1) (as2.headD e) b ∧
        Chain m (some a) as2 bs2 e := by
  rw [chain_append (a :: as2) (b :: bs2) pv as1 bs1 hl]
  simp [Chain]

theorem chain_concat {m : Mem α} {e : Ptr} {pv : Option Ptr} {as1 : List Ptr}
    {bs1 : List (List α)} {a : Ptr} {b : List α} (hl : as1.length = bs1.length) :
    Chain m pv (as1 ++ [a]) (bs1 ++ [b]) e ↔
      Chain m pv as1 bs1 a ∧ IsBlock m a (lastPtr pv as1) e b := by
  rw [chain_middle hl]
  simp [Chain]

/-! ## Forward traversal of a chain -/

theorem forwardFrom_block {N : Nat} {c : unrolled_list} {m : Mem α} {a : Ptr}
    {pv : Option Ptr} {nx : Ptr} {b : List α} (hb : IsBlock m a pv nx b)
    (hN : b.length ≤ N) (ha : a ≠ c.fake_node_) (fuel : Nat) :
    ∀ (d j : Nat), j + d = b.length → 0 < d →
      forwardFrom N c m (fuel + d) ⟨a, j⟩ =
        (forwardFrom N c m fuel ⟨nx, 0⟩).map fun xs => b.drop j ++ xs
  | 0, _, _, h => by omega
  | d + 1, j, hj, _ => by
    have hb2 := hb
    obtain ⟨n, hn, _, hnx, hcnt, hst⟩ := hb2
    have hjb : j < b.length := by omega
    have hne : (⟨a, j⟩ : Iterator) ≠ c.cend := by
      intro h
      exact ha (congrArg Iterator.ptr_ h)
    have hderef : Iterator.deref N m ⟨a, j⟩ = some b[j] := by
      simp [Iterator.deref, Mem.slot_node hn (show j < N by omega), hst j hjb,
        List.getElem?_eq_getElem hjb]
    have hdrop : b.drop j = b[j] :: b.drop (j + 1) := by
      rw [List.drop_eq_getElem_cons hjb]
    rw [show fuel + (d + 1) = (fuel + d) + 1 from rfl]
    simp only [forwardFrom, hne, if_false, hderef, Option.some_bind]
    by_cases hd : d = 0
    · subst hd
      have hinc : Iterator.inc m ⟨a, j⟩ = some ⟨nx, 0⟩ := by
        simp [Iterator.inc, Mem.node_node hn, hcnt, hnx, show j + 1 = b.length by omega]
      have hnil : b.drop (j + 1) = [] := List.drop_eq_nil_of_le (by omega)
      simp [hinc, hdrop, hnil]
    · have hinc : Iterator.inc m ⟨a, j⟩ = some ⟨a, j + 1⟩ := by
        simp [Iterator.inc, Mem.node_node hn, hcnt, show j + 1 ≠ b.length by omega]
      have ih := forwardFrom_block hb hN ha fuel d (j + 1) (by omega) (by omega)
      simp only [hinc, Option.some_bind, ih, Option.map_map, hdrop]
      rfl

theorem forwardFrom_chain {N : Nat} {c : unrolled_list} {m : Mem α} :
    ∀ (as : List Ptr) (bs : List (List α)) (pv : Option Ptr) (fuel : Nat),
      Chain m pv as bs c.fake_node_ → (∀ b ∈ bs, 0 < b.length ∧ b.length ≤ N) →
      c.fake_node_ ∉ as → bs.flatten.length < fuel →
      forwardFrom N c m fuel ⟨as.headD c.fake_node_, 0⟩ = some bs.flatten
  | [], [], _, fuel, _, _, _, hf => by
    obtain ⟨k, rfl⟩ : ∃ k, fuel = k + 1 := ⟨fuel - 1, by simp at hf; omega⟩
    simp [forwardFrom, unrolled_list.cend]
  | [], _ :: _, _, _, h, _, _, _ => by simp [Chain] at h
  | _ :: _, [], _, _, h, _, _, _ => by simp [Chain] at h
  | a :: as, b :: bs, pv, fuel, h, hc, hnot, hf => by
    simp only [Chain] at h
    have hb := hc b (by simp)
    have hlen : (b :: bs).flatten.length = b.length + bs.flatten.length := by simp
    obtain ⟨k, rfl⟩ : ∃ k, fuel = k + b.length := ⟨fuel - b.length, by omega⟩
    have ha : a ≠ c.fake_node_ := fun h => hnot (by simp [h])
    have ih := forwardFrom_chain as bs (some a) k h.2 (fun x hx => hc x (by simp [hx]))
      (fun hx => hnot (by simp [hx])) (by omega)
    rw [List.headD_cons, forwardFrom_block h.1 hb.2 ha k b.length 0 (by simp) hb.1, ih]
    simp

theorem Rep.cbegin {N : Nat} {m : Mem α} {c : unrolled_list} {pv : Option Ptr}
    {as : List Ptr} {bs : List (List α)} (h : Rep N m c pv as bs) :
    c.cbegin m = some ⟨as.headD c.fake_node_, 0⟩ := by
  obtain ⟨f, hf, hnext, _⟩ := h.sentinel
  simp [unrolled_list.cbegin, Mem.next_base hf, hnext]

theorem Rep.logicalSeq {N : Nat} {m : Mem α} {c : unrolled_list} {pv : Option Ptr}
    {as : List Ptr} {bs : List (List α)} (h : Rep N m c pv as bs) :
    LogicalSeq N c m bs.flatten := by
  intro fuel hfuel
  simp only [unrolled_list.toList, h.cbegin, Option.some_bind]
  exact forwardFrom_chain as bs pv fuel h.chain h.counts h.fake_not_block hfuel

/-! ## Facts about a represented container -/

theorem Rep.lt_brk {N : Nat} {m : Mem α} {c : unrolled_list} {pv : Option Ptr}
    {as : List Ptr} {bs : List (List α)} (h : Rep N m c pv as bs) {p : Ptr} {o : Obj α}
    (hp : m.obj p = some o) : p < m.brk := by
  by_contra hge
  have := h.fresh p (Nat.le_of_not_lt hge)
  rw [hp] at this
  exact Option.noConfusion this

theorem Rep.brk_ne_fake {N : Nat} {m : Mem α} {c : unrolled_list} {pv : Option Ptr}
    {as : List Ptr} {bs : List (List α)} (h : Rep N m c pv as bs) :
    m.brk ≠ c.fake_node_ := by
  obtain ⟨f, hf, _, _⟩ := h.sentinel
  exact Nat.ne_of_gt (h.lt_brk hf)

theorem IsBlock.obj_ne_none {m : Mem α} {a : Ptr} {pv : Option Ptr} {nx : Ptr} {b : List α}
    (hb : IsBlock m a pv nx b) : ∃ o, m.obj a = some o := by
  obtain ⟨n, hn, _⟩ := hb
  exact ⟨_, hn⟩

theorem Chain.obj_of_mem {m : Mem α} :
    ∀ {pv : Option Ptr} {as : List Ptr} {bs : List (List α)} {e : Ptr},
      Chain m pv as bs e → ∀ a ∈ as, ∃ o, m.obj a = some o
  | _, [], [], _, _ => by simp
  | _, [], _ :: _, _, h => by simp [Chain] at h
  | _, _ :: _, [], _, h => by simp [Chain] at h
  | _, x :: as, _ :: _, _, h => by
    simp only [Chain] at h
    intro a ha
    rcases List.mem_cons.mp ha with rfl | ha
    · exact h.1.obj_ne_none
    · exact Chain.obj_of_mem h.2 a ha

theorem Rep.brk_not_mem {N : Nat} {m : Mem α} {c : unrolled_list} {pv : Option Ptr}
    {as : List Ptr} {bs : List (List α)} (h : Rep N m c pv as bs) : m.brk ∉ as := by
  intro hmem
  obtain ⟨o, ho⟩ := h.chain.obj_of_mem _ hmem
  exact Nat.lt_irrefl _ (h.lt_brk ho)

theorem Rep.length_eq {N : Nat} {m : Mem α} {c : unrolled_list} {pv : Option Ptr}
    {as : List Ptr} {bs : List (List α)} (h : Rep N m c pv as bs) :
    as.length = bs.length := h.chain.len_eq

theorem Rep.empty_iff {N : Nat} {m : Mem α} {c : unrolled_list} {pv : Option Ptr}
    {as : List Ptr} {bs : List (List α)} (h : Rep N m c pv as bs) :
    c.size_ = 0 ↔ bs = [] := by
  rw [h.size_eq]
  constructor
  · intro h0
    cases bs with
    | nil => rfl
    | cons b bs =>
      have := (h.counts b (by simp)).1
      simp only [List.flatten_cons, List.length_append] at h0
      omega
  · rintro rfl
    rfl

theorem split_last {as : List Ptr} {bs0 : List (List α)} {b : List α}
    (hl : as.length = (bs0 ++ [b]).length) :
    ∃ as0 a, as = as0 ++ [a] ∧ as0.length = bs0.length := by
  rcases List.eq_nil_or_concat as with rfl | ⟨as0, a, rfl⟩
  · simp at hl
  · refine ⟨as0, a, by simp, ?_⟩
    simpa using hl

theorem split_head {as : List Ptr} {bs : List (List α)} {b : List α}
    (hl : as.length = (b :: bs).length) :
    ∃ a as1, as = a :: as1 ∧ as1.length = bs.length := by
  cases as with
  | nil => simp at hl
  | cons a as1 => exact ⟨a, as1, rfl, by simpa using hl⟩

theorem split_middle {as : List Ptr} {bs1 bs2 : List (List α)} {b : List α}
    (hl : as.length = (bs1 ++ b :: bs2).length) :
    ∃ as1 a as2, as = as1 ++ a :: as2 ∧ as1.length = bs1.length ∧ as2.length = bs2.length := by
  have h1 : bs1.length < as.length := by simp at hl; omega
  refine ⟨as.take bs1.length, as[bs1.length], as.drop (bs1.length + 1), ?_, ?_, ?_⟩
  · rw [← List.drop_eq_getElem_cons h1, List.take_append_drop]
  · simp; omega
  · simp at hl ⊢; omega

/-! ## push_back -/

theorem push_back_eval_spare {N : Nat} {m : Mem α} {c : unrolled_list} {f : BaseNode}
    {n : Node α} (v : α) (hsize : c.size_ ≠ 0) (hf : m.obj c.fake_node_ = some (Obj.base f))
    (hn : m.obj f.prev = some (Obj.node n)) (hlt : n.count < N) :
    c.push_back N v m = some ({ c with size_ := c.size_ + 1 },
      m.write f.prev (Obj.node { n with
        storage := fun j => if j = n.count then some v else n.storage j,
        count := n.count + 1 })) := by
  have hne : n.count ≠ N := by omega
  simp [unrolled_list.push_back, unrolled_list.empty, hsize, Mem.prev_base hf,
    Mem.count_node hn, hne, Mem.construct, Mem.setSlot_node hn hlt,
    Mem.count_node (Mem.write_obj_same _ _ _), Mem.setCount_node (Mem.write_obj_same _ _ _),
    Mem.write_write]

theorem push_back_eval_full {N : Nat} {m : Mem α} {c : unrolled_list} {f : BaseNode}
    {n : Node α} (v : α) (hsize : c.size_ ≠ 0) (hf : m.obj c.fake_node_ = some (Obj.base f))
    (hn : m.obj f.prev = some (Obj.node n)) (hfull : n.count = N) (hN : 0 < N)
    (h1 : f.prev ≠ m.brk) (h2 : c.fake_node_ ≠ m.brk) (h3 : c.fake_node_ ≠ f.prev) :
    c.push_back N v m = some ({ c with size_ := c.size_ + 1 },
      { obj := fun q =>
          if q = m.brk then
            some (Obj.node ⟨f.prev, c.fake_node_, fun j => if j = 0 then some v else none, 1⟩)
          else if q = c.fake_node_ then some (Obj.base { f with prev := m.brk })
          else if q = f.prev then some (Obj.node { n with next := m.brk })
          else m.obj q,
        brk := m.brk + 1 }) := by
  simp [unrolled_list.push_back, unrolled_list.empty, hsize, Mem.prev_base hf,
    Mem.count_node hn, hfull, Mem.construct, Mem.setSlot, Mem.setNext, Mem.setPrev,
    Mem.count, Mem.setCount, Mem.node, Mem.newNode, Mem.write, hN, h1, h2, h3, hf, hn,
    Ne.symm h1, Ne.symm h2, Ne.symm h3]
  funext q
  by_cases hq1 : q = m.brk
  · simp [hq1]
  · by_cases hq2 : q = c.fake_node_
    · simp [hq1, hq2, h2, h3]
    · by_cases hq3 : q = f.prev
      · simp [hq3, h1, Ne.symm h3]
      · simp [hq1, hq2, hq3]

theorem push_back_eval_empty {N : Nat} {m : Mem α} {c : unrolled_list} {f : BaseNode}
    (v : α) (hsize : c.size_ = 0) (hf : m.obj c.fake_node_ = some (Obj.base f))
    (hN : 0 < N) (h2 : c.fake_node_ ≠ m.brk) :
    c.push_back N v m = some ({ c with size_ := c.size_ + 1 },
      { obj := fun q =>
          if q = m.brk then
            some (Obj.node ⟨c.fake_node_, c.fake_node_, fun j => if j = 0 then some v else none, 1⟩)
          else if q = c.fake_node_ then some (Obj.base ⟨m.brk, m.brk⟩)
          else m.obj q,
        brk := m.brk + 1 }) := by
  simp [unrolled_list.push_back, unrolled_list.empty, hsize, Mem.construct, Mem.setSlot,
    Mem.setNext, Mem.setPrev, Mem.count, Mem.setCount, Mem.node, Mem.newNode, Mem.write,
    hN, h2, hf, Ne.symm h2]
  funext q
  by_cases hq1 : q = m.brk
  · simp [hq1]
  · by_cases hq2 : q = c.fake_node_
    · simp [hq2, h2]
    · simp [hq1, hq2]

theorem getLastD_concat (as : List Ptr) (a e : Ptr) : (as ++ [a]).getLastD e = a := by
  simp [List.getLastD_eq_getLast?]

theorem headD_concat (as : List Ptr) (a e : Ptr) : (as ++ [a]).headD e = as.headD a := by
  cases as <;> simp

theorem headD_append_cons (as rest : List Ptr) (a e : Ptr) :
    (as ++ a :: rest).headD e = as.headD a := by
  cases as <;> simp

theorem length_flatten_concat (bs : List (List α)) (b : List α) :
    (bs ++ [b]).flatten.length = bs.flatten.length + b.length := by
  simp

theorem push_back_rep_spare {N : Nat} {m : Mem α} {c : unrolled_list} {pv : Option Ptr}
    {as : List Ptr} {bs0 : List (List α)} {b : List α} (v : α)
    (h : Rep N m c pv as (bs0 ++ [b])) (hlt : b.length < N) :
    ∃ m2, c.push_back N v m = some ({ c with size_ := c.size_ + 1 }, m2) ∧
      Rep N m2 { c with size_ := c.size_ + 1 } pv as (bs0 ++ [b ++ [v]]) := by
  obtain ⟨as0, a, rfl, hl⟩ := split_last h.length_eq
  obtain ⟨hch0, n, hn, hprev, hnext, hcnt, hst⟩ := (chain_concat hl).1 h.chain
  obtain ⟨f, hf, hfnext, hfprev⟩ := h.sentinel
  rw [getLastD_concat] at hfprev
  have hsize : c.size_ ≠ 0 := by
    rw [Ne, h.empty_iff]; simp
  have hnd := h.nodup
  rw [List.nodup_append] at hnd
  have ha0 : a ∉ as0 := fun hx => hnd.2.2 hx (by simp)
  have hfa : c.fake_node_ ≠ a := fun hx => h.fake_not_block (by simp [hx])
  refine ⟨_, push_back_eval_spare v hsize hf (by rw [hfprev]; exact hn) (by omega), ?_⟩
  rw [hfprev]
  exact
    { cap_pos := h.cap_pos
      sentinel := ⟨f, by rw [Mem.write_obj_ne _ _ hfa]; exact hf, hfnext, by
        rw [getLastD_concat]; exact hfprev⟩
      chain := (chain_concat hl).2
        ⟨hch0.congr (fun x hx => Mem.write_obj_ne _ _ (fun hxa => ha0 (hxa ▸ hx))),
          _, Mem.write_obj_same _ _ _, hprev, hnext, by simp [hcnt], by
            intro j hj
            simp only [List.length_append, List.length_singleton] at hj
            by_cases hjb : j = b.length
            · subst hjb
              simp [hcnt]
            · have hj2 : j < b.length := by omega
              simp [hcnt, hjb, hst j hj2, List.getElem?_append_left hj2]⟩
      counts := by
        intro x hx
        rcases List.mem_append.mp hx with hx | hx
        · exact h.counts x (by simp [hx])
        · simp only [List.mem_singleton] at hx
          subst hx
          simp only [List.length_append, List.length_singleton]
          omega
      nodup := h.nodup
      fake_not_block := h.fake_not_block
      size_eq := by
        show c.size_ + 1 = _
        rw [h.size_eq, length_flatten_concat, length_flatten_concat]
        simp only [List.length_append, List.length_singleton]
        omega
      fresh := by
        intro p hp
        have hap : p ≠ a := by
          rintro rfl
          exact Nat.lt_irrefl _ (Nat.lt_of_lt_of_le (h.lt_brk hn) hp)
        rw [Mem.write_obj_ne _ _ hap]
        exact h.fresh p hp }

theorem push_back_rep_full {N : Nat} {m : Mem α} {c : unrolled_list} {pv : Option Ptr}
    {as : List Ptr} {bs0 : List (List α)} {b : List α} (v : α)
    (h : Rep N m c pv as (bs0 ++ [b])) (hfull : b.length = N) :
    ∃ m2, c.push_back N v m = some ({ c with size_ := c.size_ + 1 }, m2) ∧
      Rep N m2 { c with size_ := c.size_ + 1 } pv (as ++ [m.brk]) (bs0 ++ [b] ++ [[v]]) := by
  obtain ⟨as0, a, rfl, hl⟩ := split_last h.length_eq
  obtain ⟨hch0, n, hn, hprev, hnext, hcnt, hst⟩ := (chain_concat hl).1 h.chain
  obtain ⟨f, hf, hfnext, hfprev⟩ := h.sentinel
  rw [getLastD_concat] at hfprev
  rw [headD_concat] at hfnext
  have hsize : c.size_ ≠ 0 := by
    rw [Ne, h.empty_iff]; simp
  have hnd := h.nodup
  rw [List.nodup_append] at hnd
  have ha0 : a ∉ as0 := fun hx => hnd.2.2 hx (by simp)
  have hfa : c.fake_node_ ≠ a := fun hx => h.fake_not_block (by simp [hx])
  have hf0 : c.fake_node_ ∉ as0 := fun hx => h.fake_not_block (by simp [hx])
  have hbrk0 : m.brk ∉ as0 := fun hx => h.brk_not_mem (by simp [hx])
  have habrk : a ≠ m.brk := Nat.ne_of_lt (h.lt_brk hn)
  have hfbrk : c.fake_node_ ≠ m.brk := Nat.ne_of_lt (h.lt_brk hf)
  have hl2 : (as0 ++ [a]).length = (bs0 ++ [b]).length := by simp [hl]
  refine ⟨_, push_back_eval_full v hsize hf (by rw [hfprev]; exact hn) (by omega) h.cap_pos
    (by rw [hfprev]; exact habrk) hfbrk (by rw [hfprev]; exact hfa), ?_⟩
  rw [hfprev]
  exact
    { cap_pos := h.cap_pos
      sentinel := ⟨{ f with prev := m.brk }, by simp [hfbrk], by
        show f.next = _
        rw [List.append_assoc, List.singleton_append, headD_append_cons]; exact hfnext, by
        rw [getLastD_concat]⟩
      chain := (chain_concat hl2).2
        ⟨(chain_concat hl).2
          ⟨hch0.congr (fun x hx => by
              have h1 : x ≠ m.brk := fun hxa => hbrk0 (hxa ▸ hx)
              have h2 : x ≠ c.fake_node_ := fun hxa => hf0 (hxa ▸ hx)
              have h3 : x ≠ a := fun hxa => ha0 (hxa ▸ hx)
              simp [h1, h2, h3]),
            { n with next := m.brk }, by simp [habrk, Ne.symm hfa], hprev, rfl, hcnt, hst⟩,
          ⟨a, c.fake_node_, fun j => if j = 0 then some v else none, 1⟩, by simp,
          by simp [lastPtr_concat], rfl, rfl, by
            intro j hj
            simp only [List.length_singleton] at hj
            have : j = 0 := by omega
            subst this
            simp⟩
      counts := by
        intro x hx
        rcases List.mem_append.mp hx with hx | hx
        · exact h.counts x hx
        · simp only [List.mem_singleton] at hx
          subst hx
          simp only [List.length_singleton]
          exact ⟨by omega, h.cap_pos⟩
      nodup := by
        rw [List.nodup_append]
        refine ⟨h.nodup, by simp, ?_⟩
        intro x hx hx2
        simp only [List.mem_singleton] at hx2
        subst hx2
        exact h.brk_not_mem hx
      fake_not_block := by
        intro hx
        rcases List.mem_append.mp hx with hx | hx
        · exact h.fake_not_block hx
        · simp only [List.mem_singleton] at hx
          exact hfbrk hx
      size_eq := by
        show c.size_ + 1 = _
        rw [h.size_eq, length_flatten_concat, length_flatten_concat, length_flatten_concat]
        rfl
      fresh := by
        intro p hp
        have hp0 : m.brk < p := hp
        have h1 : p ≠ m.brk := Nat.ne_of_gt hp0
        have h2 : p ≠ c.fake_node_ := Nat.ne_of_gt (Nat.lt_trans (h.lt_brk hf) hp0)
        have h3 : p ≠ a := Nat.ne_of_gt (Nat.lt_trans (h.lt_brk hn) hp0)
        simp only [h1, h2, h3, if_false]
        exact h.fresh p (Nat.le_of_lt hp0) }

theorem push_back_rep_empty {N : Nat} {m : Mem α} {c : unrolled_list} {pv : Option Ptr}
    (v : α) (h : Rep N m c pv [] []) :
    ∃ m2, c.push_back N v m = some ({ c with size_ := c.size_ + 1 }, m2) ∧
      Rep N m2 { c with size_ := c.size_ + 1 } (some c.fake_node_) [m.brk] [[v]] := by
  obtain ⟨f, hf, hfnext, hfprev⟩ := h.sentinel
  have hsize : c.size_ = 0 := h.empty_iff.2 rfl
  have hfbrk : c.fake_node_ ≠ m.brk := Nat.ne_of_lt (h.lt_brk hf)
  refine ⟨_, push_back_eval_empty v hsize hf h.cap_pos hfbrk, ?_⟩
  exact
    { cap_pos := h.cap_pos
      sentinel := ⟨⟨m.brk, m.brk⟩, by simp [hfbrk], rfl, rfl⟩
      chain := by
        simp only [Chain, and_true]
        refine ⟨⟨c.fake_node_, c.fake_node_, fun j => if j = 0 then some v else none, 1⟩,
          by simp, by simp, rfl, rfl, ?_⟩
        intro j hj
        simp only [List.length_singleton] at hj
        have : j = 0 := by omega
        subst this
        simp
      counts := by
        intro x hx
        simp only [List.mem_singleton] at hx
        subst hx
        exact ⟨by simp, h.cap_pos⟩
      nodup := by simp
      fake_not_block := by
        simp only [List.mem_singleton]
        exact hfbrk
      size_eq := by
        show c.size_ + 1 = _
        simp [hsize]
      fresh := by
        intro p hp
        have hp0 : m.brk < p := hp
        have h1 : p ≠ m.brk := Nat.ne_of_gt hp0
        have h2 : p ≠ c.fake_node_ := Nat.ne_of_gt (Nat.lt_trans (h.lt_brk hf) hp0)
        simp only [h1, h2, if_false]
        exact h.fresh p (Nat.le_of_lt hp0) }

/-! ## push_front -/

theorem shiftRightSigned_node {N : Nat} {m : Mem α} {p : Ptr} {n : Node α}
    (h : m.obj p = some (Obj.node n)) {k : Nat} (hk : k < N) (h31 : k < 2 ^ 31) :
    shiftRightSigned N p k m = some (m.write p (Obj.node { n with
      storage := fun j => if 0 < j ∧ j ≤ k then n.storage (j - 1) else n.storage j })) := by
  have h0 : ¬ (toInt32 k < 0) := by rw [toInt32_small h31]; omega
  simp only [shiftRightSigned, h0, if_false, toInt32_small h31, Int.toNat_ofNat]
  exact shiftRight_node N p 0 k m n h hk

theorem shiftRightUnsigned_node {N : Nat} {m : Mem α} {p : Ptr} {n : Node α}
    (h : m.obj p = some (Obj.node n)) (lo : Nat) {k : Nat} (hk : k < N) (h31 : k < 2 ^ 31) :
    shiftRightUnsigned N p lo k m = some (m.write p (Obj.node { n with
      storage := fun j => if lo < j ∧ j ≤ k then n.storage (j - 1) else n.storage j })) := by
  have h0 : ¬ (toInt32 k < 0) := by rw [toInt32_small h31]; omega
  simp only [shiftRightUnsigned, h0, if_false, toInt32_small h31, Int.toNat_ofNat]
  exact shiftRight_node N p lo k m n h hk

theorem push_front_eval_spare {N : Nat} {m : Mem α} {c : unrolled_list} {f : BaseNode}
    {n : Node α} (v : α) (hsize : c.size_ ≠ 0) (hf : m.obj c.fake_node_ = some (Obj.base f))
    (hn : m.obj f.next = some (Obj.node n)) (hlt : n.count < N) (h31 : n.count < 2 ^ 31) :
    c.push_front N v m = some ({ c with size_ := c.size_ + 1 },
      m.write f.next (Obj.node { n with
        storage := fun j => if j = 0 then some v
          else if 0 < j ∧ j ≤ n.count then n.storage (j - 1) else n.storage j,
        count := n.count + 1 })) := by
  have hne : n.count ≠ N := by omega
  have hN : 0 < N := by omega
  simp [unrolled_list.push_front, unrolled_list.empty, hsize, Mem.next_base hf,
    Mem.count_node hn, hne, shiftRightSigned_node hn hlt h31, Mem.construct,
    Mem.setSlot_node (Mem.write_obj_same _ _ _) hN,
    Mem.count_node (Mem.write_obj_same _ _ _), Mem.setCount_node (Mem.write_obj_same _ _ _),
    Mem.write_write]

theorem push_front_eval_full {N : Nat} {m : Mem α} {c : unrolled_list} {f : BaseNode}
    {n : Node α} (v : α) (hsize : c.size_ ≠ 0) (hf : m.obj c.fake_node_ = some (Obj.base f))
    (hn : m.obj f.next = some (Obj.node n)) (hfull : n.count = N) (hN : 0 < N)
    (h1 : f.next ≠ m.brk) (h2 : c.fake_node_ ≠ m.brk) (h3 : c.fake_node_ ≠ f.next) :
    c.push_front N v m = some ({ c with size_ := c.size_ + 1 },
      { obj := fun q =>
          if q = m.brk then
            some (Obj.node ⟨c.fake_node_, f.next, fun j => if j = 0 then some v else none, 1⟩)
          else if q = c.fake_node_ then some (Obj.base { f with next := m.brk })
          else if q = f.next then some (Obj.node { n with prev := m.brk })
          else m.obj q,
        brk := m.brk + 1 }) := by
  simp [unrolled_list.push_front, unrolled_list.empty, hsize, Mem.next_base hf,
    Mem.count_node hn, hfull, Mem.construct, Mem.setSlot, Mem.setNext, Mem.setPrev,
    Mem.count, Mem.setCount, Mem.node, Mem.newNode, Mem.write, hN, h1, h2, h3, hf, hn,
    Ne.symm h1, Ne.symm h2, Ne.symm h3]
  funext q
  by_cases hq1 : q = m.brk
  · simp [hq1]
  · by_cases hq2 : q = c.fake_node_
    · simp [hq1, hq2, h2, h3]
    · by_cases hq3 : q = f.next
      · simp [hq3, h1, Ne.symm h3]
      · simp [hq1, hq2, hq3]

theorem push_front_eval_empty {N : Nat} {m : Mem α} {c : unrolled_list} {f : BaseNode}
    (v : α) (hsize : c.size_ = 0) (hf : m.obj c.fake_node_ = some (Obj.base f))
    (hN : 0 < N) (h2 : c.fake_node_ ≠ m.brk) :
    c.push_front N v m = some ({ c with size_ := c.size_ + 1 },
      { obj := fun q =>
          if q = m.brk then
            some (Obj.node ⟨c.fake_node_, c.fake_node_, fun j => if j = 0 then some v else none, 1⟩)
          else if q = c.fake_node_ then some (Obj.base ⟨m.brk, m.brk⟩)
          else m.obj q,
        brk := m.brk + 1 }) := by
  simp [unrolled_list.push_front, unrolled_list.empty, hsize, Mem.construct, Mem.setSlot,
    Mem.setNext, Mem.setPrev, Mem.count, Mem.setCount, Mem.node, Mem.newNode, Mem.write,
    hN, h2, hf, Ne.symm h2]
  funext q
  by_cases hq1 : q = m.brk
  · simp [hq1]
  · by_cases hq2 : q = c.fake_node_
    · simp [hq2, h2]
    · simp [hq1, hq2]

theorem getLastD_cons_cons (x a e : Ptr) (as : List Ptr) :
    (x :: a :: as).getLastD e = (a :: as).getLastD e := by
  simp [List.getLastD_eq_getLast?, List.getLast?_cons_cons]

theorem push_front_rep_spare {N : Nat} {m : Mem α} {c : unrolled_list} {pv : Option Ptr}
    {as : List Ptr} {bs1 : List (List α)} {b : List α} (v : α)
    (h : Rep N m c pv as (b :: bs1)) (hlt : b.length < N) (hcap : N ≤ 2 ^ 31) :
    ∃ m2, c.push_front N v m = some ({ c with size_ := c.size_ + 1 }, m2) ∧
      Rep N m2 { c with size_ := c.size_ + 1 } pv as ((v :: b) :: bs1) := by
  obtain ⟨a, as1, rfl, hl⟩ := split_head h.length_eq
  have hch := h.chain
  simp only [Chain] at hch
  obtain ⟨⟨n, hn, hprev, hnext, hcnt, hst⟩, hch1⟩ := hch
  obtain ⟨f, hf, hfnext, hfprev⟩ := h.sentinel
  rw [List.headD_cons] at hfnext
  have hsize : c.size_ ≠ 0 := by
    rw [Ne, h.empty_iff]; simp
  have hnd := h.nodup
  rw [List.nodup_cons] at hnd
  have hfa : c.fake_node_ ≠ a := fun hx => h.fake_not_block (by simp [hx])
  refine ⟨_, push_front_eval_spare v hsize hf (by rw [hfnext]; exact hn) (by omega)
    (by omega), ?_⟩
  rw [hfnext]
  exact
    { cap_pos := h.cap_pos
      sentinel := ⟨f, by rw [Mem.write_obj_ne _ _ hfa]; exact hf, hfnext, hfprev⟩
      chain := by
        simp only [Chain]
        refine ⟨⟨_, Mem.write_obj_same _ _ _, hprev, hnext, by simp [hcnt], ?_⟩,
          hch1.congr (fun x hx => Mem.write_obj_ne _ _ (fun hxa => hnd.1 (hxa ▸ hx)))⟩
        intro j hj
        simp only [List.length_cons] at hj
        by_cases hj0 : j = 0
        · subst hj0
          simp
        · have hj1 : 0 < j ∧ j ≤ n.count := by omega
          have hj2 : j - 1 < b.length := by omega
          obtain ⟨i, rfl⟩ : ∃ i, j = i + 1 := ⟨j - 1, by omega⟩
          simp only [hj0, if_false, hj1, and_self, if_true, Nat.add_sub_cancel,
            List.getElem?_cons_succ]
          exact hst i (by omega)
      counts := by
        intro x hx
        rcases List.mem_cons.mp hx with hx | hx
        · subst hx
          simp only [List.length_cons]
          omega
        · exact h.counts x (by simp [hx])
      nodup := h.nodup
      fake_not_block := h.fake_not_block
      size_eq := by
        show c.size_ + 1 = _
        rw [h.size_eq]
        simp only [List.flatten_cons, List.length_append, List.length_cons]
        omega
      fresh := by
        intro p hp
        have hap : p ≠ a := by
          rintro rfl
          exact Nat.lt_irrefl _ (Nat.lt_of_lt_of_le (h.lt_brk hn) hp)
        rw [Mem.write_obj_ne _ _ hap]
        exact h.fresh p hp }

theorem push_front_rep_full {N : Nat} {m : Mem α} {c : unrolled_list} {pv : Option Ptr}
    {as : List Ptr} {bs1 : List (List α)} {b : List α} (v : α)
    (h : Rep N m c pv as (b :: bs1)) (hfull : b.length = N) :
    ∃ m2, c.push_front N v m = some ({ c with size_ := c.size_ + 1 }, m2) ∧
      Rep N m2 { c with size_ := c.size_ + 1 } (some c.fake_node_) (m.brk :: as)
        ([v] :: b :: bs1) := by
  obtain ⟨a, as1, rfl, hl⟩ := split_head h.length_eq
  have hch := h.chain
  simp only [Chain] at hch
  obtain ⟨⟨n, hn, hprev, hnext, hcnt, hst⟩, hch1⟩ := hch
  obtain ⟨f, hf, hfnext, hfprev⟩ := h.sentinel
  rw [List.headD_cons] at hfnext
  have hsize : c.size_ ≠ 0 := by
    rw [Ne, h.empty_iff]; simp
  have hnd := h.nodup
  rw [List.nodup_cons] at hnd
  have hfa : c.fake_node_ ≠ a := fun hx => h.fake_not_block (by simp [hx])
  have hf1 : c.fake_node_ ∉ as1 := fun hx => h.fake_not_block (by simp [hx])
  have hbrk1 : m.brk ∉ as1 := fun hx => h.brk_not_mem (by simp [hx])
  have habrk : a ≠ m.brk := Nat.ne_of_lt (h.lt_brk hn)
  have hfbrk : c.fake_node_ ≠ m.brk := Nat.ne_of_lt (h.lt_brk hf)
  refine ⟨_, push_front_eval_full v hsize hf (by rw [hfnext]; exact hn) (by omega) h.cap_pos
    (by rw [hfnext]; exact habrk) hfbrk (by rw [hfnext]; exact hfa), ?_⟩
  rw [hfnext]
  exact
    { cap_pos := h.cap_pos
      sentinel := ⟨{ f with next := m.brk }, by simp [hfbrk], rfl, by
        show f.prev = _
        rw [getLastD_cons_cons]; exact hfprev⟩
      chain := by
        simp only [Chain]
        refine ⟨⟨⟨c.fake_node_, a, fun j => if j = 0 then some v else none, 1⟩, by simp,
            by simp, rfl, rfl, ?_⟩,
          ⟨{ n with prev := m.brk }, by simp [habrk, Ne.symm hfa], by simp, hnext, hcnt, hst⟩,
          hch1.congr (fun x hx => by
            have h1 : x ≠ m.brk := fun hxa => hbrk1 (hxa ▸ hx)
            have h2 : x ≠ c.fake_node_ := fun hxa => hf1 (hxa ▸ hx)
            have h3 : x ≠ a := fun hxa => hnd.1 (hxa ▸ hx)
            simp [h1, h2, h3])⟩
        intro j hj
        simp only [List.length_singleton] at hj
        have : j = 0 := by omega
        subst this
        simp
      counts := by
        intro x hx
        rcases List.mem_cons.mp hx with hx | hx
        · subst hx
          simp only [List.length_singleton]
          exact ⟨by omega, h.cap_pos⟩
        · exact h.counts x hx
      nodup := by
        rw [List.nodup_cons]
        exact ⟨h.brk_not_mem, h.nodup⟩
      fake_not_block := by
        intro hx
        rcases List.mem_cons.mp hx with hx | hx
        · exact hfbrk hx
        · exact h.fake_not_block hx
      size_eq := by
        show c.size_ + 1 = _
        rw [h.size_eq]
        simp only [List.flatten_cons, List.length_append, List.length_singleton]
        omega
      fresh := by
        intro p hp
        have hp0 : m.brk < p := hp
        have h1 : p ≠ m.brk := Nat.ne_of_gt hp0
        have h2 : p ≠ c.fake_node_ := Nat.ne_of_gt (Nat.lt_trans (h.lt_brk hf) hp0)
        have h3 : p ≠ a := Nat.ne_of_gt (Nat.lt_trans (h.lt_brk hn) hp0)
        simp only [h1, h2, h3, if_false]
        exact h.fresh p (Nat.le_of_lt hp0) }

theorem push_front_rep_empty {N : Nat} {m : Mem α} {c : unrolled_list} {pv : Option Ptr}
    (v : α) (h : Rep N m c pv [] []) :
    ∃ m2, c.push_front N v m = some ({ c with size_ := c.size_ + 1 }, m2) ∧
      Rep N m2 { c with size_ := c.size_ + 1 } (some c.fake_node_) [m.brk] [[v]] := by
  obtain ⟨m2, h1, h2⟩ := push_back_rep_empty v h
  obtain ⟨f, hf, _, _⟩ := h.sentinel
  have hsize : c.size_ = 0 := h.empty_iff.2 rfl
  have hfbrk : c.fake_node_ ≠ m.brk := Nat.ne_of_lt (h.lt_brk hf)
  rw [push_back_eval_empty v hsize hf h.cap_pos hfbrk] at h1
  refine ⟨m2, ?_, h2⟩
  rw [push_front_eval_empty v hsize hf h.cap_pos hfbrk]
  exact h1

/-! ## pop_back -/

theorem pop_back_eval_shrink {N : Nat} {m : Mem α} {c : unrolled_list} {f : BaseNode}
    {n : Node α} (hsize : c.size_ ≠ 0) (hf : m.obj c.fake_node_ = some (Obj.base f))
    (hn : m.obj f.prev = some (Obj.node n)) (hk : 1 < n.count) (hN : n.count ≤ N) :
    c.pop_back N m = some ({ c with size_ := c.size_ - 1 },
      m.write f.prev (Obj.node { n with
        storage := fun j => if j = n.count - 1 then none else n.storage j,
        count := n.count - 1 })) := by
  have h1 : decr n.count = n.count - 1 := decr_pos (by omega)
  have h2 : decr c.size_ = c.size_ - 1 := decr_pos (by omega)
  have h3 : n.count - 1 < N := by omega
  simp [unrolled_list.pop_back, unrolled_list.empty, hsize, Mem.prev_base hf,
    Mem.count_node hn, hk, h1, h2, Mem.setCount_node hn, Mem.destroy,
    Mem.count_node (Mem.write_obj_same _ _ _), Mem.setSlot_node (Mem.write_obj_same _ _ _) h3,
    Mem.write_write]

theorem pop_back_eval_only {N : Nat} {m : Mem α} {c : unrolled_list} {f : BaseNode}
    {n : Node α} (hsize : c.size_ = 1) (hf : m.obj c.fake_node_ = some (Obj.base f))
    (hn : m.obj f.prev = some (Obj.node n)) (hk : n.count = 1)
    (h3 : c.fake_node_ ≠ f.prev) :
    c.pop_back N m = some ({ c with size_ := 0 },
      { obj := fun q =>
          if q = f.prev then none
          else if q = c.fake_node_ then some (Obj.base ⟨c.fake_node_, c.fake_node_⟩)
          else m.obj q,
        brk := m.brk }) := by
  simp [unrolled_list.pop_back, unrolled_list.empty, hsize, Mem.prev_base hf,
    Mem.count_node hn, hk, decr, Mem.setNext, Mem.setPrev, Mem.freeNode, Mem.node,
    Mem.write, hf, hn, h3, Ne.symm h3]
  funext q
  by_cases hq1 : q = f.prev
  · simp [hq1]
  · by_cases hq2 : q = c.fake_node_
    · simp [hq2, h3]
    · simp [hq1, hq2]

theorem pop_back_eval_unlink {N : Nat} {m : Mem α} {c : unrolled_list} {f : BaseNode}
    {n n0 : Node α} (hsize0 : c.size_ ≠ 0) (hsize1 : c.size_ ≠ 1)
    (hf : m.obj c.fake_node_ = some (Obj.base f))
    (hn : m.obj f.prev = some (Obj.node n)) (hk : n.count = 1)
    (hn0 : m.obj n.prev = some (Obj.node n0))
    (h1 : f.prev ≠ n.prev) (h2 : c.fake_node_ ≠ n.prev) (h3 : c.fake_node_ ≠ f.prev) :
    c.pop_back N m = some ({ c with size_ := c.size_ - 1 },
      { obj := fun q =>
          if q = f.prev then none
          else if q = c.fake_node_ then some (Obj.base { f with prev := n.prev })
          else if q = n.prev then some (Obj.node { n0 with next := c.fake_node_ })
          else m.obj q,
        brk := m.brk }) := by
  have hd : decr c.size_ = c.size_ - 1 := decr_pos (by omega)
  simp [unrolled_list.pop_back, unrolled_list.empty, hsize0, hsize1, Mem.prev_base hf,
    Mem.count_node hn, hk, hd, Mem.setNext, Mem.setPrev, Mem.prev, Mem.freeNode, Mem.node,
    Mem.write, hf, hn, hn0, h1, h2, h3, Ne.symm h1, Ne.symm h2, Ne.symm h3]

theorem getElem?_dropLast_lt (b : List α) {j : Nat} (hj : j < b.length - 1) :
    b.dropLast[j]? = b[j]? := by
  rw [List.dropLast_eq_take, List.getElem?_take_of_lt hj]

theorem pop_back_rep_shrink {N : Nat} {m : Mem α} {c : unrolled_list} {pv : Option Ptr}
    {as : List Ptr} {bs0 : List (List α)} {b : List α}
    (h : Rep N m c pv as (bs0 ++ [b])) (hk : 1 < b.length) :
    ∃ m2, c.pop_back N m = some ({ c with size_ := c.size_ - 1 }, m2) ∧
      Rep N m2 { c with size_ := c.size_ - 1 } pv as (bs0 ++ [b.dropLast]) := by
  obtain ⟨as0, a, rfl, hl⟩ := split_last h.length_eq
  obtain ⟨hch0, n, hn, hprev, hnext, hcnt, hst⟩ := (chain_concat hl).1 h.chain
  obtain ⟨f, hf, hfnext, hfprev⟩ := h.sentinel
  rw [getLastD_concat] at hfprev
  have hsize : c.size_ ≠ 0 := by
    rw [Ne, h.empty_iff]; simp
  have hnd := h.nodup
  rw [List.nodup_append] at hnd
  have ha0 : a ∉ as0 := fun hx => hnd.2.2 hx (by simp)
  have hfa : c.fake_node_ ≠ a := fun hx => h.fake_not_block (by simp [hx])
  have hbN := (h.counts b (by simp)).2
  refine ⟨_, pop_back_eval_shrink hsize hf (by rw [hfprev]; exact hn) (by omega) (by omega), ?_⟩
  rw [hfprev]
  exact
    { cap_pos := h.cap_pos
      sentinel := ⟨f, by rw [Mem.write_obj_ne _ _ hfa]; exact hf, hfnext, by
        rw [getLastD_concat]; exact hfprev⟩
      chain := (chain_concat hl).2
        ⟨hch0.congr (fun x hx => Mem.write_obj_ne _ _ (fun hxa => ha0 (hxa ▸ hx))),
          _, Mem.write_obj_same _ _ _, hprev, hnext, by simp [hcnt], by
            intro j hj
            simp only [List.length_dropLast] at hj
            have hjne : j ≠ n.count - 1 := by omega
            simp only [hjne, if_false]
            rw [getElem?_dropLast_lt b hj]
            exact hst j (by omega)⟩
      counts := by
        intro x hx
        rcases List.mem_append.mp hx with hx | hx
        · exact h.counts x (by simp [hx])
        · simp only [List.mem_singleton] at hx
          subst hx
          simp only [List.length_dropLast]
          omega
      nodup := h.nodup
      fake_not_block := h.fake_not_block
      size_eq := by
        show c.size_ - 1 = _
        rw [h.size_eq, length_flatten_concat, length_flatten_concat]
        simp only [List.length_dropLast]
        omega
      fresh := by
        intro p hp
        have hap : p ≠ a := by
          rintro rfl
          exact Nat.lt_irrefl _ (Nat.lt_of_lt_of_le (h.lt_brk hn) hp)
        rw [Mem.write_obj_ne _ _ hap]
        exact h.fresh p hp }

theorem pop_back_rep_only {N : Nat} {m : Mem α} {c : unrolled_list} {pv : Option Ptr}
    (pv2 : Option Ptr) {as : List Ptr} {x : α} (h : Rep N m c pv as [[x]]) :
    ∃ m2, c.pop_back N m = some ({ c with size_ := 0 }, m2) ∧
      Rep N m2 { c with size_ := 0 } pv2 [] [] := by
  obtain ⟨a, as1, rfl, hl⟩ := split_head h.length_eq
  have has1 : as1 = [] := List.length_eq_zero.mp (by simpa using hl)
  subst has1
  have hch := h.chain
  simp only [Chain] at hch
  obtain ⟨⟨n, hn, hprev, hnext, hcnt, hst⟩, -⟩ := hch
  obtain ⟨f, hf, hfnext, hfprev⟩ := h.sentinel
  have hfprev2 : f.prev = a := hfprev
  have hsize : c.size_ = 1 := by rw [h.size_eq]; simp
  have hfa : c.fake_node_ ≠ a := fun hx => h.fake_not_block (by simp [hx])
  refine ⟨_, pop_back_eval_only hsize hf (by rw [hfprev2]; exact hn) (by simpa using hcnt)
    (by rw [hfprev2]; exact hfa), ?_⟩
  rw [hfprev2]
  exact
    { cap_pos := h.cap_pos
      sentinel := ⟨⟨c.fake_node_, c.fake_node_⟩, by simp [hfa], rfl, rfl⟩
      chain := trivial
      counts := by simp
      nodup := by simp
      fake_not_block := by simp
      size_eq := rfl
      fresh := by
        intro p hp
        by_cases h1 : p = a
        · simp [h1]
        · have h2 : p ≠ c.fake_node_ := Nat.ne_of_gt (Nat.lt_of_lt_of_le (h.lt_brk hf) hp)
          simp only [h1, h2, if_false]
          exact h.fresh p hp }

theorem pop_back_rep_unlink {N : Nat} {m : Mem α} {c : unrolled_list} {pv : Option Ptr}
    {as : List Ptr} {bs0 : List (List α)} {b0 : List α} {x : α}
    (h : Rep N m c pv as (bs0 ++ [b0] ++ [[x]])) :
    ∃ m2, c.pop_back N m = some ({ c with size_ := c.size_ - 1 }, m2) ∧
      Rep N m2 { c with size_ := c.size_ - 1 } pv as.dropLast (bs0 ++ [b0]) := by
  obtain ⟨as1, a, rfl, hl1⟩ := split_last h.length_eq
  obtain ⟨as0, a0, rfl, hl0⟩ := split_last hl1
  obtain ⟨hch1, n, hn, hprev, hnext, hcnt, hst⟩ := (chain_concat hl1).1 h.chain
  obtain ⟨hch0, n0, hn0, hprev0, hnext0, hcnt0, hst0⟩ := (chain_concat hl0).1 hch1
  obtain ⟨f, hf, hfnext, hfprev⟩ := h.sentinel
  rw [getLastD_concat] at hfprev
  have hnp : n.prev = a0 := hprev a0 (lastPtr_concat _ _ _)
  have hb0 := (h.counts b0 (by simp)).1
  have hsize0 : c.size_ ≠ 0 := by
    rw [Ne, h.empty_iff]; simp
  have hsize1 : c.size_ ≠ 1 := by
    rw [h.size_eq, length_flatten_concat, length_flatten_concat]
    simp only [List.length_singleton]
    omega
  have hnd := h.nodup
  rw [List.nodup_append] at hnd
  have hnd0 := hnd.1
  rw [List.nodup_append] at hnd0
  have ha1 : a ∉ as0 ++ [a0] := fun hx => hnd.2.2 hx (by simp)
  have haa0 : a ≠ a0 := fun hx => ha1 (by simp [hx])
  have ha0 : a ∉ as0 := fun hx => ha1 (by simp [hx])
  have ha00 : a0 ∉ as0 := fun hx => hnd0.2.2 hx (by simp)
  have hfa : c.fake_node_ ≠ a := fun hx => h.fake_not_block (by simp [hx])
  have hfa0 : c.fake_node_ ≠ a0 := fun hx => h.fake_not_block (by simp [hx])
  have hf0 : c.fake_node_ ∉ as0 := fun hx => h.fake_not_block (by simp [hx])
  refine ⟨_, pop_back_eval_unlink hsize0 hsize1 hf (by rw [hfprev]; exact hn)
    (by simpa using hcnt) (by rw [hnp]; exact hn0) (by rw [hfprev, hnp]; exact haa0)
    (by rw [hnp]; exact hfa0) (by rw [hfprev]; exact hfa), ?_⟩
  rw [hfprev, hnp, List.dropLast_concat]
  exact
    { cap_pos := h.cap_pos
      sentinel := ⟨{ f with prev := a0 }, by simp [hfa], by
        show f.next = _
        rw [hfnext, List.append_assoc, List.singleton_append, headD_append_cons,
          headD_concat], by
        rw [getLastD_concat]⟩
      chain := (chain_concat hl0).2
        ⟨hch0.congr (fun x hx => by
            have h1 : x ≠ a := fun hxa => ha0 (hxa ▸ hx)
            have h2 : x ≠ c.fake_node_ := fun hxa => hf0 (hxa ▸ hx)
            have h3 : x ≠ a0 := fun hxa => ha00 (hxa ▸ hx)
            simp [h1, h2, h3]),
          { n0 with next := c.fake_node_ }, by simp [Ne.symm haa0, Ne.symm hfa0], hprev0, rfl,
          hcnt0, hst0⟩
      counts := fun y hy => h.counts y (by simp [List.mem_append] at hy ⊢; tauto)
      nodup := hnd.1
      fake_not_block := fun hx => h.fake_not_block (by simp [List.mem_append] at hx ⊢; tauto)
      size_eq := by
        show c.size_ - 1 = _
        rw [h.size_eq, length_flatten_concat (bs0 ++ [b0])]
        simp
      fresh := by
        intro p hp
        by_cases h1 : p = a
        · simp [h1]
        · have h2 : p ≠ c.fake_node_ := Nat.ne_of_gt (Nat.lt_of_lt_of_le (h.lt_brk hf) hp)
          have h3 : p ≠ a0 := Nat.ne_of_gt (Nat.lt_of_lt_of_le (h.lt_brk hn0) hp)
          simp only [h1, h2, h3, if_false]
          exact h.fresh p hp }

/-! ## pop_front -/

theorem pop_front_eval_shrink {N : Nat} {m : Mem α} {c : unrolled_list} {f : BaseNode}
    {n : Node α} (hsize : c.size_ ≠ 0) (hf : m.obj c.fake_node_ = some (Obj.base f))
    (hn : m.obj f.next = some (Obj.node n)) (hk : 1 < n.count) (hN : n.count ≤ N) :
    c.pop_front N m = some ({ c with size_ := c.size_ - 1 },
      m.write f.next (Obj.node { n with
        storage := fun j => if j = n.count - 1 then none
          else if j < n.count - 1 then (if j + 1 = 0 then none else n.storage (j + 1))
          else if j = 0 then none else n.storage j,
        count := n.count - 1 })) := by
  have h1 : decr n.count = n.count - 1 := decr_pos (by omega)
  have h2 : decr c.size_ = c.size_ - 1 := decr_pos (by omega)
  have h3 : n.count - 1 < N := by omega
  have h0 : 0 < N := by omega
  have hsl := shiftLeft_node N f.next (n.count - 1) 0
    (m.write f.next (Obj.node { n with
      storage := fun j => if j = 0 then none else n.storage j, count := n.count - 1 }))
    _ (Mem.write_obj_same _ _ _) (by omega)
  simp only [Mem.write_write] at hsl
  simp [unrolled_list.pop_front, unrolled_list.empty, hsize, Mem.next_base hf,
    Mem.count_node hn, hk, h1, h2, Mem.destroy, Mem.setSlot_node hn h0,
    Mem.setCount_node (Mem.write_obj_same _ _ _), Mem.count_node (Mem.write_obj_same _ _ _),
    Mem.write_write, hsl, Mem.setSlot_node (Mem.write_obj_same _ _ _) h3]

theorem pop_front_eval_only {N : Nat} {m : Mem α} {c : unrolled_list} {f : BaseNode}
    {n : Node α} (hsize : c.size_ = 1) (hf : m.obj c.fake_node_ = some (Obj.base f))
    (hn : m.obj f.next = some (Obj.node n)) (hk : n.count = 1)
    (h3 : c.fake_node_ ≠ f.next) :
    c.pop_front N m = some ({ c with size_ := 0 },
      { obj := fun q =>
          if q = f.next then none
          else if q = c.fake_node_ then some (Obj.base ⟨c.fake_node_, c.fake_node_⟩)
          else m.obj q,
        brk := m.brk }) := by
  simp [unrolled_list.pop_front, unrolled_list.empty, hsize, Mem.next_base hf,
    Mem.count_node hn, hk, decr, Mem.setNext, Mem.setPrev, Mem.freeNode, Mem.node,
    Mem.write, hf, hn, h3, Ne.symm h3]
  funext q
  by_cases hq1 : q = f.next
  · simp [hq1]
  · by_cases hq2 : q = c.fake_node_
    · simp [hq2, h3]
    · simp [hq1, hq2]

theorem pop_front_eval_unlink {N : Nat} {m : Mem α} {c : unrolled_list} {f : BaseNode}
    {n n2 : Node α} (hsize0 : c.size_ ≠ 0) (hsize1 : c.size_ ≠ 1)
    (hf : m.obj c.fake_node_ = some (Obj.base f))
    (hn : m.obj f.next = some (Obj.node n)) (hk : n.count = 1)
    (hn2 : m.obj n.next = some (Obj.node n2))
    (h1 : f.next ≠ n.next) (h2 : c.fake_node_ ≠ n.next) (h3 : c.fake_node_ ≠ f.next) :
    c.pop_front N m = some ({ c with size_ := c.size_ - 1 },
      { obj := fun q =>
          if q = f.next then none
          else if q = n.next then some (Obj.node { n2 with prev := n.next })
          else if q = c.fake_node_ then some (Obj.base { f with next := n.next })
          else m.obj q,
        brk := m.brk }) := by
  have hd : decr c.size_ = c.size_ - 1 := decr_pos (by omega)
  simp [unrolled_list.pop_front, unrolled_list.empty, hsize0, hsize1, Mem.next_base hf,
    Mem.count_node hn, hk, hd, Mem.setNext, Mem.setPrev, Mem.next, Mem.freeNode, Mem.node,
    Mem.write, hf, hn, hn2, h1, h2, h3, Ne.symm h1, Ne.symm h2, Ne.symm h3]

theorem pop_front_rep_shrink {N : Nat} {m : Mem α} {c : unrolled_list} {pv : Option Ptr}
    {as : List Ptr} {bs1 : List (List α)} {b : List α}
    (h : Rep N m c pv as (b :: bs1)) (hk : 1 < b.length) :
    ∃ m2, c.pop_front N m = some ({ c with size_ := c.size_ - 1 }, m2) ∧
      Rep N m2 { c with size_ := c.size_ - 1 } pv as (b.tail :: bs1) := by
  obtain ⟨a, as1, rfl, hl⟩ := split_head h.length_eq
  have hch := h.chain
  simp only [Chain] at hch
  obtain ⟨⟨n, hn, hprev, hnext, hcnt, hst⟩, hch1⟩ := hch
  obtain ⟨f, hf, hfnext, hfprev⟩ := h.sentinel
  rw [List.headD_cons] at hfnext
  have hsize : c.size_ ≠ 0 := by
    rw [Ne, h.empty_iff]; simp
  have hnd := h.nodup
  rw [List.nodup_cons] at hnd
  have hfa : c.fake_node_ ≠ a := fun hx => h.fake_not_block (by simp [hx])
  have hbN := (h.counts b (by simp)).2
  refine ⟨_, pop_front_eval_shrink hsize hf (by rw [hfnext]; exact hn) (by omega)
    (by omega), ?_⟩
  rw [hfnext]
  exact
    { cap_pos := h.cap_pos
      sentinel := ⟨f, by rw [Mem.write_obj_ne _ _ hfa]; exact hf, hfnext, hfprev⟩
      chain := by
        simp only [Chain]
        refine ⟨⟨_, Mem.write_obj_same _ _ _, hprev, hnext, by simp [hcnt], ?_⟩,
          hch1.congr (fun x hx => Mem.write_obj_ne _ _ (fun hxa => hnd.1 (hxa ▸ hx)))⟩
        intro j hj
        simp only [List.length_tail] at hj
        have hj1 : j ≠ n.count - 1 := by omega
        have hj2 : j < n.count - 1 := by omega
        simp only [hj1, if_false, hj2, if_true, Nat.succ_ne_zero]
        rw [hst (j + 1) (by omega)]
        cases b with
        | nil => simp at hk
        | cons y ys => simp
      counts := by
        intro x hx
        rcases List.mem_cons.mp hx with hx | hx
        · subst hx
          simp only [List.length_tail]
          omega
        · exact h.counts x (by simp [hx])
      nodup := h.nodup
      fake_not_block := h.fake_not_block
      size_eq := by
        show c.size_ - 1 = _
        rw [h.size_eq]
        simp only [List.flatten_cons, List.length_append, List.length_tail]
        omega
      fresh := by
        intro p hp
        have hap : p ≠ a := by
          rintro rfl
          exact Nat.lt_irrefl _ (Nat.lt_of_lt_of_le (h.lt_brk hn) hp)
        rw [Mem.write_obj_ne _ _ hap]
        exact h.fresh p hp }

theorem pop_front_rep_only {N : Nat} {m : Mem α} {c : unrolled_list} {pv : Option Ptr}
    (pv2 : Option Ptr) {as : List Ptr} {x : α} (h : Rep N m c pv as [[x]]) :
    ∃ m2, c.pop_front N m = some ({ c with size_ := 0 }, m2) ∧
      Rep N m2 { c with size_ := 0 } pv2 [] [] := by
  obtain ⟨a, as1, rfl, hl⟩ := split_head h.length_eq
  have has1 : as1 = [] := List.length_eq_zero.mp (by simpa using hl)
  subst has1
  have hch := h.chain
  simp only [Chain] at hch
  obtain ⟨⟨n, hn, hprev, hnext, hcnt, hst⟩, -⟩ := hch
  obtain ⟨f, hf, hfnext, hfprev⟩ := h.sentinel
  have hfnext2 : f.next = a := hfnext
  have hsize : c.size_ = 1 := by rw [h.size_eq]; simp
  have hfa : c.fake_node_ ≠ a := fun hx => h.fake_not_block (by simp [hx])
  refine ⟨_, pop_front_eval_only hsize hf (by rw [hfnext2]; exact hn) (by simpa using hcnt)
    (by rw [hfnext2]; exact hfa), ?_⟩
  rw [hfnext2]
  exact
    { cap_pos := h.cap_pos
      sentinel := ⟨⟨c.fake_node_, c.fake_node_⟩, by simp [hfa], rfl, rfl⟩
      chain := trivial
      counts := by simp
      nodup := by simp
      fake_not_block := by simp
      size_eq := rfl
      fresh := by
        intro p hp
        by_cases h1 : p = a
        · simp [h1]
        · have h2 : p ≠ c.fake_node_ := Nat.ne_of_gt (Nat.lt_of_lt_of_le (h.lt_brk hf) hp)
          simp only [h1, h2, if_false]
          exact h.fresh p hp }

theorem pop_front_rep_unlink {N : Nat} {m : Mem α} {c : unrolled_list} {pv : Option Ptr}
    {as : List Ptr} {bs2 : List (List α)} {b2 : List α} {x : α}
    (h : Rep N m c pv as ([x] :: b2 :: bs2)) :
    ∃ m2, c.pop_front N m = some ({ c with size_ := c.size_ - 1 }, m2) ∧
      Rep N m2 { c with size_ := c.size_ - 1 } (as.tail.head?) as.tail (b2 :: bs2) := by
  obtain ⟨a, as1, rfl, hl1⟩ := split_head h.length_eq
  obtain ⟨a2, as2, rfl, hl2⟩ := split_head hl1
  have hch := h.chain
  simp only [Chain] at hch
  obtain ⟨⟨n, hn, hprev, hnext, hcnt, hst⟩, ⟨n2, hn2, hprev2, hnext2, hcnt2, hst2⟩, hch2⟩ := hch
  obtain ⟨f, hf, hfnext, hfprev⟩ := h.sentinel
  rw [List.headD_cons] at hfnext hnext
  have hb2 := (h.counts b2 (by simp)).1
  have hsize0 : c.size_ ≠ 0 := by
    rw [Ne, h.empty_iff]; simp
  have hsize1 : c.size_ ≠ 1 := by
    rw [h.size_eq]
    simp only [List.flatten_cons, List.length_append, List.length_singleton]
    omega
  have hnd := h.nodup
  rw [List.nodup_cons] at hnd
  have hnd2 := hnd.2
  rw [List.nodup_cons] at hnd2
  have haa2 : a ≠ a2 := fun hx => hnd.1 (by simp [hx])
  have ha2 : a ∉ as2 := fun hx => hnd.1 (by simp [hx])
  have hfa : c.fake_node_ ≠ a := fun hx => h.fake_not_block (by simp [hx])
  have hfa2 : c.fake_node_ ≠ a2 := fun hx => h.fake_not_block (by simp [hx])
  have hf2 : c.fake_node_ ∉ as2 := fun hx => h.fake_not_block (by simp [hx])
  refine ⟨_, pop_front_eval_unlink hsize0 hsize1 hf (by rw [hfnext]; exact hn)
    (by simpa using hcnt) (by rw [hnext]; exact hn2) (by rw [hfnext, hnext]; exact haa2)
    (by rw [hnext]; exact hfa2) (by rw [hfnext]; exact hfa), ?_⟩
  rw [hfnext, hnext]
  exact
    { cap_pos := h.cap_pos
      sentinel := ⟨{ f with next := a2 }, by simp [hfa, hfa2], rfl, by
        show f.prev = _
        rw [hfprev, getLastD_cons_cons]
        rfl⟩
      chain := by
        simp only [Chain, List.tail_cons]
        refine ⟨⟨{ n2 with prev := a2 }, by simp [Ne.symm haa2], by simp, hnext2, hcnt2, hst2⟩,
          hch2.congr (fun x hx => by
            have h1 : x ≠ a := fun hxa => ha2 (hxa ▸ hx)
            have h2 : x ≠ c.fake_node_ := fun hxa => hf2 (hxa ▸ hx)
            have h3 : x ≠ a2 := fun hxa => hnd2.1 (hxa ▸ hx)
            simp [h1, h2, h3])⟩
      counts := fun y hy => h.counts y (by simp at hy ⊢; tauto)
      nodup := hnd.2
      fake_not_block := fun hx => h.fake_not_block (by simp at hx ⊢; tauto)
      size_eq := by
        show c.size_ - 1 = _
        rw [h.size_eq]
        simp only [List.flatten_cons, List.length_append, List.length_singleton]
        omega
      fresh := by
        intro p hp
        by_cases h1 : p = a
        · simp [h1]
        · have h2 : p ≠ c.fake_node_ := Nat.ne_of_gt (Nat.lt_of_lt_of_le (h.lt_brk hf) hp)
          have h3 : p ≠ a2 := Nat.ne_of_gt (Nat.lt_of_lt_of_le (h.lt_brk hn2) hp)
          simp only [h1, h2, h3, if_false]
          exact h.fresh p hp }

/-! ## The concrete container is well formed -/

theorem exMem_wellFormed : WellFormed 2 exMem exList [2, 3] [[1, 2], [3]] :=
  { cap_pos := by decide
    sentinel := ⟨⟨3, 2⟩, rfl, rfl, rfl⟩
    chain := by
      refine ⟨⟨⟨1, 3, fun j => if j = 0 then some 1 else if j = 1 then some 2 else none, 2⟩,
        rfl, ?_, rfl, rfl, ?_⟩, ⟨⟨2, 1, fun j => if j = 0 then some 3 else none, 1⟩,
        rfl, ?_, rfl, rfl, ?_⟩, trivial⟩
      · intro p hp
        exact (Option.some.inj hp)
      · intro j hj
        have : j = 0 ∨ j = 1 := by simp at hj; omega
        rcases this with rfl | rfl <;> rfl
      · intro p hp
        exact (Option.some.inj hp)
      · intro j hj
        have : j = 0 := by simp at hj; omega
        subst this
        rfl
    counts := by
      intro b hb
      simp only [List.mem_cons, List.mem_singleton, List.not_mem_nil, or_false] at hb
      rcases hb with rfl | rfl <;> simp
    nodup := by decide
    fake_not_block := by decide
    size_eq := rfl
    fresh := by
      intro p hp
      have hp4 : 4 ≤ p := hp
      have h1 : p ≠ 1 := fun h => absurd (h ▸ hp4) (by decide)
      have h2 : p ≠ 2 := fun h => absurd (h ▸ hp4) (by decide)
      have h3 : p ≠ 3 := fun h => absurd (h ▸ hp4) (by decide)
      simp [exMem, h1, h2, h3] }

/-! ## push_back, push_front, pop_back, pop_front on well-formed containers -/

theorem getLast?_concat_eq {β : Type} (l : List β) (x : β) : (l ++ [x]).getLast? = some x := by
  simp

theorem push_back_wf {N : Nat} {m : Mem α} {c : unrolled_list} {pv : Option Ptr}
    {as : List Ptr} {bs : List (List α)} (v : α) (h : Rep N m c pv as bs) :
    ∃ c2 m2 pv2 as2 bs2, c.push_back N v m = some (c2, m2) ∧ Rep N m2 c2 pv2 as2 bs2 ∧
      c2.fake_node_ = c.fake_node_ ∧ c2.size_ = c.size_ + 1 ∧
      (as = [] → pv2 = some c.fake_node_) ∧ (as ≠ [] → pv2 = pv) ∧
      bs2.flatten = bs.flatten ++ [v] ∧
      ((∀ b, bs.getLast? = some b → b.length = N) → as2 = as ++ [m.brk] ∧ bs2 = bs ++ [[v]]) ∧
      (∀ b, bs.getLast? = some b → b.length < N →
        as2 = as ∧ bs2 = bs.dropLast ++ [b ++ [v]]) := by
  rcases List.eq_nil_or_concat bs with rfl | ⟨bs0, b, rfl⟩
  · have has : as = [] := List.length_eq_zero.mp h.length_eq
    subst has
    obtain ⟨m2, he, hr⟩ := push_back_rep_empty v h
    exact ⟨_, m2, _, _, _, he, hr, rfl, rfl, fun _ => rfl, fun hne => absurd rfl hne, by simp,
      fun _ => ⟨rfl, rfl⟩, fun b hb => by simp at hb⟩
  · rw [List.concat_eq_append] at h ⊢
    have hasne : as ≠ [] := by
      intro has
      have := h.length_eq
      rw [has] at this
      simp at this
    by_cases hfull : b.length = N
    · obtain ⟨m2, he, hr⟩ := push_back_rep_full v h hfull
      refine ⟨_, m2, _, _, _, he, hr, rfl, rfl, fun has => absurd has hasne, fun _ => rfl,
        by simp, fun _ => ⟨rfl, rfl⟩, fun b2 hb2 hlt => ?_⟩
      rw [getLast?_concat_eq] at hb2
      cases hb2
      omega
    · have hlt : b.length < N := lt_of_le_of_ne (h.counts b (by simp)).2 hfull
      obtain ⟨m2, he, hr⟩ := push_back_rep_spare v h hlt
      refine ⟨_, m2, _, _, _, he, hr, rfl, rfl, fun has => absurd has hasne, fun _ => rfl,
        by simp, fun hall => ?_, fun b2 hb2 _ => ?_⟩
      · exact absurd (hall b (getLast?_concat_eq _ _)) hfull
      · rw [getLast?_concat_eq] at hb2
        cases hb2
        simp

theorem push_front_wf {N : Nat} {m : Mem α} {c : unrolled_list} {pv : Option Ptr}
    {as : List Ptr} {bs : List (List α)} (v : α) (hcap : N ≤ 2 ^ 31)
    (h : Rep N m c pv as bs) :
    ∃ c2 m2 pv2 as2 bs2, c.push_front N v m = some (c2, m2) ∧ Rep N m2 c2 pv2 as2 bs2 ∧
      c2.fake_node_ = c.fake_node_ ∧ c2.size_ = c.size_ + 1 ∧
      bs2.flatten = v :: bs.flatten ∧
      ((∀ b, bs.head? = some b → b.length = N) →
        pv2 = some c.fake_node_ ∧ as2 = m.brk :: as ∧ bs2 = [v] :: bs) ∧
      (∀ b, bs.head? = some b → b.length < N →
        pv2 = pv ∧ as2 = as ∧ bs2 = (v :: b) :: bs.tail) := by
  cases bs with
  | nil =>
    have has : as = [] := List.length_eq_zero.mp h.length_eq
    subst has
    obtain ⟨m2, he, hr⟩ := push_front_rep_empty v h
    exact ⟨_, m2, _, _, _, he, hr, rfl, rfl, by simp, fun _ => ⟨rfl, rfl, rfl⟩,
      fun b hb => by simp at hb⟩
  | cons b bs1 =>
    by_cases hfull : b.length = N
    · obtain ⟨m2, he, hr⟩ := push_front_rep_full v h hfull
      refine ⟨_, m2, _, _, _, he, hr, rfl, rfl, by simp, fun _ => ⟨rfl, rfl, rfl⟩,
        fun b2 hb2 hlt => ?_⟩
      simp only [List.head?_cons, Option.some.injEq] at hb2
      subst hb2
      omega
    · have hlt : b.length < N := lt_of_le_of_ne (h.counts b (by simp)).2 hfull
      obtain ⟨m2, he, hr⟩ := push_front_rep_spare v h hlt hcap
      refine ⟨_, m2, _, _, _, he, hr, rfl, rfl, by simp, fun hall => ?_, fun b2 hb2 _ => ?_⟩
      · exact absurd (hall b rfl) hfull
      · simp only [List.head?_cons, Option.some.injEq] at hb2
        subst hb2
        exact ⟨rfl, rfl, rfl⟩

theorem flatten_concat_dropLast (bs0 : List (List α)) (b : List α) (hb : b ≠ []) :
    (bs0 ++ [b]).flatten.dropLast = (bs0 ++ [b.dropLast]).flatten := by
  simp only [List.flatten_append, List.flatten_singleton]
  exact List.dropLast_append_of_ne_nil _ hb

theorem pop_back_wf {N : Nat} {m : Mem α} {c : unrolled_list} {pv : Option Ptr}
    {as : List Ptr} {bs : List (List α)} (h : Rep N m c pv as bs) (hne : bs ≠ []) :
    ∃ c2 m2 as2 bs2, c.pop_back N m = some (c2, m2) ∧ Rep N m2 c2 pv as2 bs2 ∧
      c2.fake_node_ = c.fake_node_ ∧ c2.size_ = c.size_ - 1 ∧
      bs2.flatten = bs.flatten.dropLast ∧
      (∀ b, bs.getLast? = some b → b.length = 1 → as2 = as.dropLast ∧ bs2 = bs.dropLast) ∧
      (∀ b, bs.getLast? = some b → 1 < b.length →
        as2 = as ∧ bs2 = bs.dropLast ++ [b.dropLast]) := by
  rcases List.eq_nil_or_concat bs with rfl | ⟨bs1, b, rfl⟩
  · exact absurd rfl hne
  rw [List.concat_eq_append] at h ⊢
  have hb := (h.counts b (by simp)).1
  have hbne : b ≠ [] := List.ne_nil_of_length_pos hb
  by_cases hk : 1 < b.length
  · obtain ⟨m2, he, hr⟩ := pop_back_rep_shrink h hk
    refine ⟨_, m2, _, _, he, hr, rfl, rfl, (flatten_concat_dropLast bs1 b hbne).symm,
      fun b2 hb2 h1 => ?_, fun b2 hb2 _ => ?_⟩
    · rw [getLast?_concat_eq] at hb2
      cases hb2
      omega
    · rw [getLast?_concat_eq] at hb2
      cases hb2
      simp
  · have hb1 : b.length = 1 := by omega
    obtain ⟨x, rfl⟩ := List.length_eq_one.mp hb1
    rcases List.eq_nil_or_concat bs1 with rfl | ⟨bs0, b0, rfl⟩
    · rw [List.nil_append] at h
      obtain ⟨m2, he, hr⟩ := pop_back_rep_only pv h
      have has : as.dropLast = [] := by
        have := h.length_eq
        obtain ⟨a, rfl⟩ := List.length_eq_one.mp (by simpa using this)
        rfl
      have hsz : c.size_ - 1 = 0 := by rw [h.size_eq]; simp
      refine ⟨_, m2, [], [], he, hr, rfl, hsz.symm, by simp, fun _ _ _ => ⟨has.symm, by simp⟩,
        fun b2 hb2 h1 => ?_⟩
      simp at hb2
      subst hb2
      simp at h1
    · rw [List.concat_eq_append] at h ⊢
      obtain ⟨m2, he, hr⟩ := pop_back_rep_unlink h
      refine ⟨_, m2, _, _, he, hr, rfl, rfl, ?_, fun _ _ _ => ⟨rfl, by simp⟩,
        fun b2 hb2 h1 => ?_⟩
      · rw [flatten_concat_dropLast _ _ (by simp)]
        simp
      · rw [getLast?_concat_eq] at hb2
        cases hb2
        simp at h1

theorem flatten_cons_tail (b : List α) (bs1 : List (List α)) (hb : b ≠ []) :
    (b :: bs1).flatten.tail = (b.tail :: bs1).flatten := by
  cases b with
  | nil => exact absurd rfl hb
  | cons x xs => simp

theorem pop_front_wf {N : Nat} {m : Mem α} {c : unrolled_list} {pv : Option Ptr}
    {as : List Ptr} {bs : List (List α)} (h : Rep N m c pv as bs) (hne : bs ≠ []) :
    ∃ c2 m2 pv2 as2 bs2, c.pop_front N m = some (c2, m2) ∧ Rep N m2 c2 pv2 as2 bs2 ∧
      c2.fake_node_ = c.fake_node_ ∧ c2.size_ = c.size_ - 1 ∧
      bs2.flatten = bs.flatten.tail ∧
      (∀ b, bs.head? = some b → b.length = 1 →
        as2 = as.tail ∧ bs2 = bs.tail ∧ (bs.tail ≠ [] → pv2 = as.tail.head?)) ∧
      (∀ b, bs.head? = some b → 1 < b.length →
        pv2 = pv ∧ as2 = as ∧ bs2 = b.tail :: bs.tail) := by
  cases bs with
  | nil => exact absurd rfl hne
  | cons b bs1 =>
    have hb := (h.counts b (by simp)).1
    have hbne : b ≠ [] := List.ne_nil_of_length_pos hb
    by_cases hk : 1 < b.length
    · obtain ⟨m2, he, hr⟩ := pop_front_rep_shrink h hk
      refine ⟨_, m2, _, _, _, he, hr, rfl, rfl, (flatten_cons_tail b bs1 hbne).symm,
        fun b2 hb2 h1 => ?_, fun b2 hb2 _ => ?_⟩
      · simp only [List.head?_cons, Option.some.injEq] at hb2
        subst hb2
        omega
      · simp only [List.head?_cons, Option.some.injEq] at hb2
        subst hb2
        exact ⟨rfl, rfl, rfl⟩
    · have hb1 : b.length = 1 := by omega
      obtain ⟨x, rfl⟩ := List.length_eq_one.mp hb1
      cases bs1 with
      | nil =>
        obtain ⟨m2, he, hr⟩ := pop_front_rep_only pv h
        have has : as.tail = [] := by
          have := h.length_eq
          obtain ⟨a, rfl⟩ := List.length_eq_one.mp (by simpa using this)
          rfl
        have hsz : c.size_ - 1 = 0 := by rw [h.size_eq]; simp
        refine ⟨_, m2, pv, [], [], he, hr, rfl, hsz.symm, by simp,
          fun _ _ _ => ⟨has.symm, by simp, fun hx => absurd rfl hx⟩, fun b2 hb2 h1 => ?_⟩
        simp at hb2
        subst hb2
        simp at h1
      | cons b2 bs2 =>
        obtain ⟨m2, he, hr⟩ := pop_front_rep_unlink h
        refine ⟨_, m2, _, _, _, he, hr, rfl, rfl, by simp,
          fun _ _ _ => ⟨rfl, rfl, fun _ => rfl⟩, fun b3 hb3 h1 => ?_⟩
        simp only [List.head?_cons, Option.some.injEq] at hb3
        subst hb3
        simp at h1

/-! ## erase at a position -/

theorem erase_eval_shrink {N : Nat} {m : Mem α} {c : unrolled_list} {a : Ptr} {j : Nat}
    {n : Node α} (hn : m.obj a = some (Obj.node n)) (hj : j < n.count) (hk : 1 < n.count)
    (hN : n.count ≤ N) :
    c.erase N ⟨a, j⟩ m = some (⟨a, j⟩, { c with size_ := decr c.size_ },
      m.write a (Obj.node { n with
        storage := fun t => if j ≤ t ∧ t < j + (n.count - 1 - j) then n.storage (t + 1)
          else n.storage t,
        count := n.count - 1 })) := by
  have h1 : decr n.count = n.count - 1 := decr_pos (by omega)
  have hsl := shiftLeft_node N a (n.count - 1 - j) j m n hn (by omega)
  have h0 : n.count - 1 ≠ 0 := by omega
  simp [unrolled_list.erase, Mem.count_node hn, h1, hsl,
    Mem.setCount_node (Mem.write_obj_same _ _ _), Mem.write_write,
    Mem.next_node (Mem.write_obj_same _ _ _), Mem.prev_node (Mem.write_obj_same _ _ _),
    Mem.count_node (Mem.write_obj_same _ _ _), h0]

theorem erase_eval_only {N : Nat} {m : Mem α} {c : unrolled_list} {a : Ptr} {f : BaseNode}
    {n : Node α} (hf : m.obj c.fake_node_ = some (Obj.base f))
    (hn : m.obj a = some (Obj.node n)) (hk : n.count = 1)
    (hnext : n.next = c.fake_node_) (hprev : n.prev = c.fake_node_)
    (hfa : c.fake_node_ ≠ a) :
    c.erase N ⟨a, 0⟩ m = some (⟨c.fake_node_, 0⟩, { c with size_ := decr c.size_ },
      { obj := fun q =>
          if q = a then none
          else if q = c.fake_node_ then some (Obj.base ⟨c.fake_node_, c.fake_node_⟩)
          else m.obj q,
        brk := m.brk }) := by
  have h1 : decr 1 = 0 := rfl
  unfold unrolled_list.erase
  simp only [Mem.count_node hn, hk, h1, shiftLeft, Mem.setCount_node hn, Option.bind_eq_bind,
    Option.some_bind, Nat.zero_sub, bind, pure,
    Mem.next_node (Mem.write_obj_same _ _ _), Mem.prev_node (Mem.write_obj_same _ _ _),
    Mem.count_node (Mem.write_obj_same _ _ _), hnext, hprev, if_true]
  simp [Mem.freeNode, Mem.node, Mem.setNext, Mem.setPrev, unrolled_list.cbegin, Mem.next,
    Mem.write, hf, hfa, Ne.symm hfa]
  funext q
  by_cases hq1 : q = a
  · simp [hq1, Ne.symm hfa]
  · by_cases hq2 : q = c.fake_node_
    · simp [hq2, hfa]
    · simp [hq1, hq2]

theorem erase_eval_last {N : Nat} {m : Mem α} {c : unrolled_list} {a a0 : Ptr} {f : BaseNode}
    {n n0 : Node α} (hf : m.obj c.fake_node_ = some (Obj.base f))
    (hn : m.obj a = some (Obj.node n)) (hk : n.count = 1)
    (hn0 : m.obj a0 = some (Obj.node n0))
    (hnext : n.next = c.fake_node_) (hprev : n.prev = a0)
    (hfa : c.fake_node_ ≠ a) (hfa0 : c.fake_node_ ≠ a0) (haa0 : a ≠ a0) :
    c.erase N ⟨a, 0⟩ m = some (⟨a0, decr n0.count⟩, { c with size_ := decr c.size_ },
      { obj := fun q =>
          if q = a then none
          else if q = a0 then some (Obj.node { n0 with next := c.fake_node_ })
          else if q = c.fake_node_ then some (Obj.base { f with prev := a0 })
          else m.obj q,
        brk := m.brk }) := by
  have h1 : decr 1 = 0 := rfl
  unfold unrolled_list.erase
  simp only [Mem.count_node hn, hk, h1, shiftLeft, Mem.setCount_node hn, Option.bind_eq_bind,
    Option.some_bind, Nat.zero_sub, bind, pure,
    Mem.next_node (Mem.write_obj_same _ _ _), Mem.prev_node (Mem.write_obj_same _ _ _),
    Mem.count_node (Mem.write_obj_same _ _ _), hnext, hprev, if_true, Ne.symm hfa0, if_false]
  simp [Mem.freeNode, Mem.node, Mem.setNext, Mem.setPrev, unrolled_list.cend, Iterator.dec,
    Mem.prev, Mem.count,
    Mem.write, hf, hn0, hfa, Ne.symm hfa, hfa0, Ne.symm hfa0, haa0, Ne.symm haa0]
  funext q
  by_cases hq1 : q = a
  · subst hq1; simp [haa0, Ne.symm hfa]
  · simp [hq1]

theorem erase_eval_first {N : Nat} {m : Mem α} {c : unrolled_list} {a a2 : Ptr} {f : BaseNode}
    {n n2 : Node α} (hf : m.obj c.fake_node_ = some (Obj.base f))
    (hn : m.obj a = some (Obj.node n)) (hk : n.count = 1)
    (hn2 : m.obj a2 = some (Obj.node n2))
    (hnext : n.next = a2) (hprev : n.prev = c.fake_node_)
    (hfa : c.fake_node_ ≠ a) (hfa2 : c.fake_node_ ≠ a2) (haa2 : a ≠ a2) :
    c.erase N ⟨a, 0⟩ m = some (⟨a2, 0⟩, { c with size_ := decr c.size_ },
      { obj := fun q =>
          if q = a then none
          else if q = a2 then some (Obj.node { n2 with prev := c.fake_node_ })
          else if q = c.fake_node_ then some (Obj.base { f with next := a2 })
          else m.obj q,
        brk := m.brk }) := by
  have h1 : decr 1 = 0 := rfl
  unfold unrolled_list.erase
  simp only [Mem.count_node hn, hk, h1, shiftLeft, Mem.setCount_node hn, Option.bind_eq_bind,
    Option.some_bind, Nat.zero_sub, bind, pure,
    Mem.next_node (Mem.write_obj_same _ _ _), Mem.prev_node (Mem.write_obj_same _ _ _),
    Mem.count_node (Mem.write_obj_same _ _ _), hnext, hprev, if_true, Ne.symm hfa2, if_false]
  simp [Mem.freeNode, Mem.node, Mem.setNext, Mem.setPrev, unrolled_list.cbegin, Mem.next,
    Mem.write, hf, hn2, hfa, Ne.symm hfa, hfa2, Ne.symm hfa2, haa2, Ne.symm haa2]
  funext q
  by_cases hq1 : q = a
  · subst hq1; simp [haa2, Ne.symm hfa]
  · simp [hq1]

theorem erase_eval_inner {N : Nat} {m : Mem α} {c : unrolled_list} {a a0 a2 : Ptr}
    {n n0 n2 : Node α}
    (hn : m.obj a = some (Obj.node n)) (hk : n.count = 1)
    (hn0 : m.obj a0 = some (Obj.node n0)) (hn2 : m.obj a2 = some (Obj.node n2))
    (hnext : n.next = a2) (hprev : n.prev = a0)
    (hfa0 : c.fake_node_ ≠ a0) (hfa2 : c.fake_node_ ≠ a2) (haa0 : a ≠ a0) (haa2 : a ≠ a2)
    (ha02 : a0 ≠ a2) :
    c.erase N ⟨a, 0⟩ m = some (⟨a2, 0⟩, { c with size_ := decr c.size_ },
      { obj := fun q =>
          if q = a then none
          else if q = a2 then some (Obj.node { n2 with prev := a0 })
          else if q = a0 then some (Obj.node { n0 with next := a2 })
          else m.obj q,
        brk := m.brk }) := by
  have h1 : decr 1 = 0 := rfl
  unfold unrolled_list.erase
  simp only [Mem.count_node hn, hk, h1, shiftLeft, Mem.setCount_node hn, Option.bind_eq_bind,
    Option.some_bind, Nat.zero_sub, bind, pure,
    Mem.next_node (Mem.write_obj_same _ _ _), Mem.prev_node (Mem.write_obj_same _ _ _),
    Mem.count_node (Mem.write_obj_same _ _ _), hnext, hprev, if_true, Ne.symm hfa2,
    Ne.symm hfa0, if_false]
  simp [Mem.freeNode, Mem.node, Mem.setNext, Mem.setPrev, Mem.write, hn0, hn2, hfa0,
    Ne.symm hfa0, hfa2, Ne.symm hfa2, haa0, Ne.symm haa0, haa2, Ne.symm haa2, ha02,
    Ne.symm ha02]
  funext q
  by_cases hq1 : q = a
  · subst hq1; simp [haa0, haa2]
  · simp [hq1]
theorem getLastD_append_cons (l r : List Ptr) (x e : Ptr) :
    (l ++ x :: r).getLastD e = (x :: r).getLastD e := by
  simp [List.getLastD_eq_getLast?, List.getLast?_append, List.getLast?_eq_getLast]

theorem getLastD_cons_ne (x e1 e2 : Ptr) (r : List Ptr) :
    (x :: r).getLastD e1 = (x :: r).getLastD e2 := by
  simp [List.getLastD_eq_getLast?, List.getLast?_eq_getLast]

theorem Rep.size_pos {N : Nat} {m : Mem α} {c : unrolled_list} {pv : Option Ptr}
    {as : List Ptr} {bs : List (List α)} (h : Rep N m c pv as bs) (hne : bs ≠ []) :
    decr c.size_ = c.size_ - 1 := by
  apply decr_pos
  have : c.size_ ≠ 0 := fun h0 => hne (h.empty_iff.1 h0)
  omega

theorem erase_rep_shrink {N : Nat} {m : Mem α} {c : unrolled_list} {pv : Option Ptr}
    {as : List Ptr} {bs1 bs2 : List (List α)} {b : List α} {j : Nat}
    (h : Rep N m c pv as (bs1 ++ b :: bs2)) (hj : j < b.length) (hk : 1 < b.length) :
    ∃ m2, c.erase N ⟨(as.drop bs1.length).headD c.fake_node_, j⟩ m =
        some (⟨(as.drop bs1.length).headD c.fake_node_, j⟩, { c with size_ := c.size_ - 1 }, m2) ∧
      Rep N m2 { c with size_ := c.size_ - 1 } pv as (bs1 ++ b.eraseIdx j :: bs2) := by
  obtain ⟨as1, a, as2, rfl, hl1, hl2⟩ := split_middle h.length_eq
  obtain ⟨hch1, ⟨n, hn, hprev, hnext, hcnt, hst⟩, hch2⟩ := (chain_middle hl1).1 h.chain
  obtain ⟨f, hf, hfnext, hfprev⟩ := h.sentinel
  have hdrop : ((as1 ++ a :: as2).drop bs1.length).headD c.fake_node_ = a := by
    rw [← hl1, List.drop_left]; rfl
  have hnd := h.nodup
  have hfnb := h.fake_not_block
  simp only [List.nodup_append, List.nodup_cons, List.mem_append, List.mem_cons,
    List.mem_singleton, not_or, List.disjoint_left] at hnd hfnb
  obtain ⟨hnd1, ⟨haas2, hnd2⟩, hdisj⟩ := hnd
  obtain ⟨hf1, hfa, hf2⟩ := hfnb
  have hbN := (h.counts b (by simp)).2
  have hsz := h.size_pos (by simp)
  have he := erase_eval_shrink (N := N) (c := c) (j := j) hn (by omega) (by omega) (by omega)
  rw [hsz] at he
  rw [hdrop]
  refine ⟨_, he, ?_⟩
  exact
    { cap_pos := h.cap_pos
      sentinel := ⟨f, by rw [Mem.write_obj_ne _ _ hfa]; exact hf, hfnext, hfprev⟩
      chain := (chain_middle hl1).2
        ⟨hch1.congr (fun x hx => Mem.write_obj_ne _ _ (hdisj hx).1),
          ⟨_, Mem.write_obj_same _ _ _, hprev, hnext, by
            simp [hcnt, List.length_eraseIdx, hj], by
            intro t ht
            rw [List.length_eraseIdx, if_pos hj] at ht
            rw [List.getElem?_eraseIdx]
            by_cases htj : t < j
            · have h1 : ¬ (j ≤ t ∧ t < j + (n.count - 1 - j)) := by omega
              simp only [h1, if_false, htj, if_true]
              exact hst t (by omega)
            · have h1 : j ≤ t ∧ t < j + (n.count - 1 - j) := by omega
              simp only [h1, and_self, if_true, htj, if_false]
              exact hst (t + 1) (by omega)⟩,
          hch2.congr (fun x hx => Mem.write_obj_ne _ _ (fun hxa => haas2 (hxa ▸ hx)))⟩
      counts := by
        intro x hx
        rcases List.mem_append.mp hx with hx | hx
        · exact h.counts x (by simp [hx])
        · rcases List.mem_cons.mp hx with hx | hx
          · subst hx
            rw [List.length_eraseIdx, if_pos hj]
            omega
          · exact h.counts x (by simp [hx])
      nodup := h.nodup
      fake_not_block := h.fake_not_block
      size_eq := by
        show c.size_ - 1 = _
        rw [h.size_eq]
        simp only [List.flatten_append, List.flatten_cons, List.length_append,
          List.length_eraseIdx, if_pos hj]
        omega
      fresh := by
        intro p hp
        have hap : p ≠ a := by
          rintro rfl
          exact Nat.lt_irrefl _ (Nat.lt_of_lt_of_le (h.lt_brk hn) hp)
        rw [Mem.write_obj_ne _ _ hap]
        exact h.fresh p hp }

theorem erase_rep_only {N : Nat} {m : Mem α} {c : unrolled_list} (pv2 : Option Ptr)
    {a : Ptr} {x : α} (h : Rep N m c (some c.fake_node_) [a] [[x]]) :
    ∃ m2, c.erase N ⟨a, 0⟩ m = some (⟨c.fake_node_, 0⟩, { c with size_ := c.size_ - 1 }, m2) ∧
      Rep N m2 { c with size_ := c.size_ - 1 } pv2 [] [] ∧ m2.obj a = none := by
  have hch := h.chain
  simp only [Chain] at hch
  obtain ⟨⟨n, hn, hprev, hnext, hcnt, hst⟩, -⟩ := hch
  obtain ⟨f, hf, hfnext, hfprev⟩ := h.sentinel
  have hfa : c.fake_node_ ≠ a := fun hx => h.fake_not_block (by simp [hx])
  have hsz := h.size_pos (by simp)
  have he := erase_eval_only (N := N) hf hn (by simpa using hcnt) hnext (hprev _ rfl) hfa
  rw [hsz] at he
  refine ⟨_, he, ?_, by simp⟩
  exact
    { cap_pos := h.cap_pos
      sentinel := ⟨⟨c.fake_node_, c.fake_node_⟩, by simp [hfa], rfl, rfl⟩
      chain := trivial
      counts := by simp
      nodup := by simp
      fake_not_block := by simp
      size_eq := by
        show c.size_ - 1 = _
        rw [h.size_eq]
        rfl
      fresh := by
        intro p hp
        by_cases h1 : p = a
        · simp [h1]
        · have h2 : p ≠ c.fake_node_ := Nat.ne_of_gt (Nat.lt_of_lt_of_le (h.lt_brk hf) hp)
          simp only [h1, h2, if_false]
          exact h.fresh p hp }

theorem erase_rep_last {N : Nat} {m : Mem α} {c : unrolled_list} {pv : Option Ptr}
    {as0 : List Ptr} {a0 a : Ptr} {bs0 : List (List α)} {b0 : List α} {x : α}
    (h : Rep N m c pv (as0 ++ [a0] ++ [a]) (bs0 ++ [b0] ++ [[x]])) :
    ∃ m2, c.erase N ⟨a, 0⟩ m =
        some (⟨a0, b0.length - 1⟩, { c with size_ := c.size_ - 1 }, m2) ∧
      Rep N m2 { c with size_ := c.size_ - 1 } pv (as0 ++ [a0]) (bs0 ++ [b0]) ∧
      m2.obj a = none := by
  have hl1 : (as0 ++ [a0]).length = (bs0 ++ [b0]).length := by
    have := h.length_eq
    simp only [List.length_append, List.length_singleton] at this ⊢
    omega
  have hl0 : as0.length = bs0.length := by
    simp only [List.length_append, List.length_singleton] at hl1
    omega
  obtain ⟨hch1, n, hn, hprev, hnext, hcnt, hst⟩ := (chain_concat hl1).1 h.chain
  obtain ⟨hch0, n0, hn0, hprev0, hnext0, hcnt0, hst0⟩ := (chain_concat hl0).1 hch1
  obtain ⟨f, hf, hfnext, hfprev⟩ := h.sentinel
  have hnp : n.prev = a0 := hprev a0 (lastPtr_concat _ _ _)
  have hb0 := (h.counts b0 (by simp)).1
  have hnd := h.nodup
  have hfnb := h.fake_not_block
  simp only [List.nodup_append, List.nodup_cons, List.mem_append, List.mem_cons,
    List.mem_singleton, not_or, List.disjoint_left, List.nodup_nil, List.not_mem_nil,
    not_false_eq_true, and_true, true_and, List.append_assoc, List.singleton_append]
    at hnd hfnb
  obtain ⟨hnd0, ha0a, hdisj⟩ := hnd
  obtain ⟨hf0, hfa0, hfa⟩ := hfnb
  have hsz := h.size_pos (by simp)
  have he := erase_eval_last (N := N) hf hn (by simpa using hcnt) hn0 hnext hnp hfa hfa0
    (Ne.symm ha0a)
  have hit : decr n0.count = b0.length - 1 := by rw [decr_pos (by omega), hcnt0]
  rw [hsz, hit] at he
  refine ⟨_, he, ?_, by simp⟩
  exact
    { cap_pos := h.cap_pos
      sentinel := ⟨{ f with prev := a0 }, by simp [hfa, hfa0], by
        show f.next = _
        rw [hfnext, List.append_assoc, List.singleton_append, headD_append_cons,
          headD_concat], by
        rw [getLastD_concat]⟩
      chain := (chain_concat hl0).2
        ⟨hch0.congr (fun y hy => by
            have h1 := hdisj hy
            have h3 : y ≠ c.fake_node_ := fun hyf => hf0 (hyf ▸ hy)
            simp [h1.1, h1.2, h3]),
          { n0 with next := c.fake_node_ }, by simp [ha0a], hprev0, rfl, hcnt0, hst0⟩
      counts := fun y hy => h.counts y (by simp [List.mem_append] at hy ⊢; tauto)
      nodup := by
        rw [List.nodup_append]
        refine ⟨hnd0, by simp, ?_⟩
        intro y hy hy2
        simp only [List.mem_singleton] at hy2
        exact (hdisj hy).1 hy2
      fake_not_block := by
        intro hx
        rcases List.mem_append.mp hx with hx | hx
        · exact hf0 hx
        · simp only [List.mem_singleton] at hx
          exact hfa0 hx
      size_eq := by
        show c.size_ - 1 = _
        rw [h.size_eq, length_flatten_concat (bs0 ++ [b0])]
        simp
      fresh := by
        intro p hp
        by_cases h1 : p = a
        · simp [h1]
        · have h2 : p ≠ c.fake_node_ := Nat.ne_of_gt (Nat.lt_of_lt_of_le (h.lt_brk hf) hp)
          have h3 : p ≠ a0 := Nat.ne_of_gt (Nat.lt_of_lt_of_le (h.lt_brk hn0) hp)
          simp only [h1, h2, h3, if_false]
          exact h.fresh p hp }
theorem erase_rep_first {N : Nat} {m : Mem α} {c : unrolled_list}
    {as2 : List Ptr} {a a2 : Ptr} {bs2 : List (List α)} {b2 : List α} {x : α}
    (h : Rep N m c (some c.fake_node_) (a :: a2 :: as2) ([x] :: b2 :: bs2)) :
    ∃ m2, c.erase N ⟨a, 0⟩ m = some (⟨a2, 0⟩, { c with size_ := c.size_ - 1 }, m2) ∧
      Rep N m2 { c with size_ := c.size_ - 1 } (some c.fake_node_) (a2 :: as2) (b2 :: bs2) ∧
      m2.obj a = none := by
  have hch := h.chain
  simp only [Chain] at hch
  obtain ⟨⟨n, hn, hprev, hnext, hcnt, hst⟩, ⟨n2, hn2, hprev2, hnext2, hcnt2, hst2⟩, hch2⟩ := hch
  obtain ⟨f, hf, hfnext, hfprev⟩ := h.sentinel
  rw [List.headD_cons] at hnext
  have hnd := h.nodup
  have hfnb := h.fake_not_block
  simp only [List.nodup_cons, List.mem_cons, not_or] at hnd hfnb
  obtain ⟨⟨haa2, haas2⟩, ha2as2, hnd2⟩ := hnd
  obtain ⟨hfa, hfa2, hf2⟩ := hfnb
  have hsz := h.size_pos (by simp)
  have he := erase_eval_first (N := N) hf hn (by simpa using hcnt) hn2 hnext (hprev _ rfl)
    hfa hfa2 haa2
  rw [hsz] at he
  refine ⟨_, he, ?_, by simp⟩
  exact
    { cap_pos := h.cap_pos
      sentinel := ⟨{ f with next := a2 }, by simp [hfa, hfa2], rfl, by
        show f.prev = _
        rw [hfprev, getLastD_cons_cons]⟩
      chain := by
        simp only [Chain]
        refine ⟨⟨{ n2 with prev := c.fake_node_ }, by simp [Ne.symm haa2], by simp, hnext2,
            hcnt2, hst2⟩,
          hch2.congr (fun y hy => by
            have h1 : y ≠ a := fun hya => haas2 (hya ▸ hy)
            have h2 : y ≠ a2 := fun hya => ha2as2 (hya ▸ hy)
            have h3 : y ≠ c.fake_node_ := fun hyf => hf2 (hyf ▸ hy)
            simp [h1, h2, h3])⟩
      counts := fun y hy => h.counts y (by simp at hy ⊢; tauto)
      nodup := by
        rw [List.nodup_cons]
        exact ⟨ha2as2, hnd2⟩
      fake_not_block := by
        simp only [List.mem_cons, not_or]
        exact ⟨hfa2, hf2⟩
      size_eq := by
        show c.size_ - 1 = _
        rw [h.size_eq]
        simp only [List.flatten_cons, List.length_append, List.length_singleton]
        omega
      fresh := by
        intro p hp
        by_cases h1 : p = a
        · simp [h1]
        · have h2 : p ≠ c.fake_node_ := Nat.ne_of_gt (Nat.lt_of_lt_of_le (h.lt_brk hf) hp)
          have h3 : p ≠ a2 := Nat.ne_of_gt (Nat.lt_of_lt_of_le (h.lt_brk hn2) hp)
          simp only [h1, h2, h3, if_false]
          exact h.fresh p hp }

theorem erase_rep_inner {N : Nat} {m : Mem α} {c : unrolled_list} {pv : Option Ptr}
    {as0 as2 : List Ptr} {a0 a a2 : Ptr} {bs0 bs2 : List (List α)} {b0 b2 : List α} {x : α}
    (hl0 : as0.length = bs0.length)
    (h : Rep N m c pv (as0 ++ [a0] ++ a :: a2 :: as2) (bs0 ++ [b0] ++ [x] :: b2 :: bs2)) :
    ∃ m2, c.erase N ⟨a, 0⟩ m = some (⟨a2, 0⟩, { c with size_ := c.size_ - 1 }, m2) ∧
      Rep N m2 { c with size_ := c.size_ - 1 } pv (as0 ++ [a0] ++ a2 :: as2)
        (bs0 ++ [b0] ++ b2 :: bs2) ∧
      m2.obj a = none := by
  have hl1 : (as0 ++ [a0]).length = (bs0 ++ [b0]).length := by simp [hl0]
  obtain ⟨hch1, ⟨n, hn, hprev, hnext, hcnt, hst⟩, hch2⟩ := (chain_middle hl1).1 h.chain
  obtain ⟨hch0, n0, hn0, hprev0, hnext0, hcnt0, hst0⟩ := (chain_concat hl0).1 hch1
  simp only [Chain] at hch2
  obtain ⟨⟨n2, hn2, hprev2, hnext2, hcnt2, hst2⟩, hch3⟩ := hch2
  obtain ⟨f, hf, hfnext, hfprev⟩ := h.sentinel
  rw [List.headD_cons] at hnext
  have hnp : n.prev = a0 := hprev a0 (lastPtr_concat _ _ _)
  have hnd := h.nodup
  have hfnb := h.fake_not_block
  simp only [List.nodup_append, List.nodup_cons, List.mem_append, List.mem_cons,
    List.mem_singleton, not_or, List.disjoint_left, List.nodup_nil, List.not_mem_nil,
    not_false_eq_true, and_true, true_and, List.append_assoc, List.singleton_append]
    at hnd hfnb
  obtain ⟨hnd0, ⟨⟨ha0a, ha0a2, ha0as2⟩, ⟨haa2, haas2⟩, ha2as2, hnd2⟩, hdisj⟩ := hnd
  obtain ⟨hf0, hfa0, hfa, hfa2, hf2⟩ := hfnb
  have hsz := h.size_pos (by simp)
  have he := erase_eval_inner (N := N) (c := c) hn (by simpa using hcnt) hn0 hn2 hnext hnp
    hfa0 hfa2 (Ne.symm ha0a) haa2 ha0a2
  rw [hsz] at he
  refine ⟨_, he, ?_, by simp⟩
  exact
    { cap_pos := h.cap_pos
      sentinel := ⟨f, by simp [hfa, hfa0, hfa2, hf], by
        rw [hfnext, List.append_assoc, List.singleton_append, headD_append_cons,
          List.append_assoc, List.singleton_append, headD_append_cons], by
        rw [hfprev, getLastD_append_cons, getLastD_append_cons, getLastD_cons_cons]⟩
      chain := (chain_middle hl1).2
        ⟨(chain_concat hl0).2
          ⟨hch0.congr (fun y hy => by
              have h1 := hdisj hy
              simp [h1.1, h1.2.1, h1.2.2.1]),
            { n0 with next := a2 }, by simp [ha0a, ha0a2], hprev0, rfl, hcnt0, hst0⟩,
          ⟨{ n2 with prev := a0 }, by simp [Ne.symm haa2], by simp [lastPtr_concat], hnext2,
            hcnt2, hst2⟩,
          hch3.congr (fun y hy => by
            have h1 : y ≠ a := fun hya => haas2 (hya ▸ hy)
            have h2 : y ≠ a2 := fun hya => ha2as2 (hya ▸ hy)
            have h3 : y ≠ a0 := fun hya => ha0as2 (hya ▸ hy)
            simp [h1, h2, h3])⟩
      counts := fun y hy => h.counts y (by simp at hy ⊢; tauto)
      nodup := by
        simp only [List.nodup_append, List.nodup_cons, List.mem_append, List.mem_cons,
          List.mem_singleton, not_or, List.disjoint_left, List.nodup_nil, List.not_mem_nil,
          not_false_eq_true, and_true, true_and, List.append_assoc, List.singleton_append]
        exact ⟨hnd0, ⟨⟨ha0a2, ha0as2⟩, ha2as2, hnd2⟩,
          fun y hy => ⟨(hdisj hy).1, (hdisj hy).2.2.1, (hdisj hy).2.2.2⟩⟩
      fake_not_block := by
        simp only [List.mem_append, List.mem_cons, List.mem_singleton, not_or,
          List.not_mem_nil, not_false_eq_true, and_true]
        exact ⟨⟨hf0, hfa0⟩, hfa2, hf2⟩
      size_eq := by
        show c.size_ - 1 = _
        rw [h.size_eq]
        simp only [List.flatten_append, List.flatten_cons, List.length_append,
          List.length_singleton]
        omega
      fresh := by
        intro p hp
        by_cases h1 : p = a
        · simp [h1]
        · have h2 : p ≠ a0 := Nat.ne_of_gt (Nat.lt_of_lt_of_le (h.lt_brk hn0) hp)
          have h3 : p ≠ a2 := Nat.ne_of_gt (Nat.lt_of_lt_of_le (h.lt_brk hn2) hp)
          simp only [h1, h2, h3, if_false]
          exact h.fresh p hp }
theorem posAt_split (e : Ptr) :
    ∀ (bs : List (List α)) (as : List Ptr) (k : Nat), as.length = bs.length →
      k < bs.flatten.length →
      ∃ bs1 b bs2 j, bs = bs1 ++ b :: bs2 ∧ j < b.length ∧ k = bs1.flatten.length + j ∧
        posAt e as bs k = ⟨(as.drop bs1.length).headD e, j⟩
  | [], _, k, _, hk => by simp at hk
  | b :: bs, [], _, hl, _ => by simp at hl
  | b :: bs, a :: as, k, hl, hk => by
    by_cases hkb : k < b.length
    · exact ⟨[], b, bs, k, rfl, hkb, by simp, by simp [posAt, hkb]⟩
    · have hl2 : as.length = bs.length := by simpa using hl
      have hk2 : k - b.length < bs.flatten.length := by
        simp only [List.flatten_cons, List.length_append] at hk
        omega
      obtain ⟨bs1, b2, bs2, j, hbs, hj, hkj, hpos⟩ := posAt_split e bs as (k - b.length) hl2 hk2
      refine ⟨b :: bs1, b2, bs2, j, by rw [hbs]; rfl, hj, ?_, ?_⟩
      · simp only [List.flatten_cons, List.length_append]
        omega
      · simp only [posAt, hkb, if_false, hpos, List.length_cons, List.drop_succ_cons]

theorem posAt_end (e : Ptr) :
    ∀ (bs : List (List α)) (as : List Ptr), as.length = bs.length →
      posAt e as bs bs.flatten.length = ⟨e, 0⟩ ∨ ∃ b ∈ bs, b.length = 0
  | [], [], _ => Or.inl rfl
  | [], _ :: _, hl => by simp at hl
  | b :: bs, [], hl => by simp at hl
  | b :: bs, a :: as, hl => by
    by_cases hb : b.length = 0
    · exact Or.inr ⟨b, by simp, hb⟩
    · have hl2 : as.length = bs.length := by simpa using hl
      rcases posAt_end e bs as hl2 with h | ⟨b2, hb2, h0⟩
      · left
        have hlt : ¬ (b.length + bs.flatten.length < b.length) := by omega
        simp only [posAt, List.flatten_cons, List.length_append, hlt, if_false,
          Nat.add_sub_cancel_left, h]
      · exact Or.inr ⟨b2, by simp [hb2], h0⟩

theorem flatten_eraseIdx_middle (bs1 bs2 : List (List α)) (b : List α) {j : Nat}
    (hj : j < b.length) :
    (bs1 ++ b :: bs2).flatten.eraseIdx (bs1.flatten.length + j) =
      (bs1 ++ b.eraseIdx j :: bs2).flatten := by
  simp only [List.flatten_append, List.flatten_cons]
  rw [List.eraseIdx_append_of_length_le (by omega), Nat.add_sub_cancel_left,
    List.eraseIdx_append_of_lt_length hj]

theorem flatten_eraseIdx_single (bs1 bs2 : List (List α)) (x : α) :
    (bs1 ++ [x] :: bs2).flatten.eraseIdx bs1.flatten.length = (bs1 ++ bs2).flatten := by
  have := flatten_eraseIdx_middle bs1 bs2 [x] (j := 0) (by simp)
  simpa using this

/-- Single-position erase on a well-formed container, at the position `⟨a, j⟩` of the
`j`-th element of the block `b` at `a`. -/
theorem erase_wf_split {N : Nat} {m : Mem α} {c : unrolled_list} {as1 as2 : List Ptr}
    {a : Ptr} {bs1 bs2 : List (List α)} {b : List α} {j : Nat}
    (h : WellFormed N m c (as1 ++ a :: as2) (bs1 ++ b :: bs2))
    (hl : as1.length = bs1.length) (hj : j < b.length) :
    ∃ it m2, c.erase N ⟨a, j⟩ m = some (it, { c with size_ := c.size_ - 1 }, m2) ∧
      (1 < b.length →
        WellFormed N m2 { c with size_ := c.size_ - 1 } (as1 ++ a :: as2)
          (bs1 ++ b.eraseIdx j :: bs2) ∧ it = ⟨a, j⟩) ∧
      (b.length = 1 →
        WellFormed N m2 { c with size_ := c.size_ - 1 } (as1 ++ as2) (bs1 ++ bs2) ∧
        m2.obj a = none ∧
        (∀ a2 r, as2 = a2 :: r → it = ⟨a2, 0⟩) ∧
        (as2 = [] → as1 = [] → it = ⟨c.fake_node_, 0⟩) ∧
        (∀ as0 a0 bs0 b0, as2 = [] → as1 = as0 ++ [a0] → bs1 = bs0 ++ [b0] →
          it = ⟨a0, b0.length - 1⟩)) := by
  by_cases hk : 1 < b.length
  · obtain ⟨m2, he, hr⟩ := erase_rep_shrink h hj hk
    have hdrop : ((as1 ++ a :: as2).drop bs1.length).headD c.fake_node_ = a := by
      rw [← hl, List.drop_left]; rfl
    rw [hdrop] at he
    exact ⟨_, m2, he, fun _ => ⟨hr, rfl⟩, fun h1 => by omega⟩
  · have hb1 : b.length = 1 := by omega
    obtain ⟨x, rfl⟩ := List.length_eq_one.mp hb1
    have hj0 : j = 0 := by simpa using hj
    subst hj0
    have hl2 : as2.length = bs2.length := by
      have := h.length_eq
      simp only [List.length_append, List.length_cons] at this
      omega
    rcases List.eq_nil_or_concat as1 with rfl | ⟨as0, a0, rfl⟩
    · have hbs1 : bs1 = [] := List.length_eq_zero.mp hl.symm
      subst hbs1
      cases as2 with
      | nil =>
        have hbs2 : bs2 = [] := List.length_eq_zero.mp hl2.symm
        subst hbs2
        obtain ⟨m2, he, hr, hfree⟩ := erase_rep_only (some c.fake_node_) h
        exact ⟨_, m2, he, fun h1 => by simp at h1, fun _ => ⟨hr, hfree,
          fun a2 r h2 => by simp at h2, fun _ _ => rfl,
          fun as0 a0 bs0 b0 _ h3 => by simp at h3⟩⟩
      | cons a2 as2 =>
        obtain ⟨b2, bs2, rfl⟩ : ∃ b2 r, bs2 = b2 :: r := by
          cases bs2 with
          | nil => simp at hl2
          | cons b2 r => exact ⟨b2, r, rfl⟩
        obtain ⟨m2, he, hr, hfree⟩ := erase_rep_first h
        exact ⟨_, m2, he, fun h1 => by simp at h1, fun _ => ⟨hr, hfree,
          fun a3 r h2 => by simp at h2; rw [h2.1], fun h2 => by simp at h2,
          fun as0 a0 bs0 b0 h2 => by simp at h2⟩⟩
    · rw [List.concat_eq_append] at h hl ⊢
      obtain ⟨bs0, b0, rfl⟩ : ∃ bs0 b0, bs1 = bs0 ++ [b0] := by
        rcases List.eq_nil_or_concat bs1 with rfl | ⟨bs0, b0, rfl⟩
        · simp at hl
        · exact ⟨bs0, b0, by simp⟩
      have hl0 : as0.length = bs0.length := by simpa using hl
      cases as2 with
      | nil =>
        have hbs2 : bs2 = [] := List.length_eq_zero.mp hl2.symm
        subst hbs2
        obtain ⟨m2, he, hr, hfree⟩ := erase_rep_last h
        refine ⟨_, m2, he, fun h1 => by simp at h1, fun _ => ⟨by simpa using hr, hfree,
          fun a2 r h2 => by simp at h2, fun _ h2 => by simp at h2,
          fun as3 a3 bs3 b3 _ h3 h4 => ?_⟩⟩
        have h5 := List.append_inj' h3 rfl
        have h6 := List.append_inj' h4 rfl
        simp only [List.cons.injEq, and_true] at h5 h6
        rw [h5.2, h6.2]
      | cons a2 as2 =>
        obtain ⟨b2, bs2, rfl⟩ : ∃ b2 r, bs2 = b2 :: r := by
          cases bs2 with
          | nil => simp at hl2
          | cons b2 r => exact ⟨b2, r, rfl⟩
        obtain ⟨m2, he, hr, hfree⟩ := erase_rep_inner hl0 h
        exact ⟨_, m2, he, fun h1 => by simp at h1, fun _ => ⟨hr, hfree,
          fun a3 r h2 => by simp at h2; rw [h2.1], fun h2 => by simp at h2,
          fun as3 a3 bs3 b3 h2 => by simp at h2⟩⟩

/-! ## Claims about push_back, pop_back, pop_front and erase -/

/-- C7: `push_back(v)` on a well-formed container with logical sequence `bs.flatten`
returns; the result is well formed, its logical sequence is `bs.flatten ++ [v]` and its
`size()` is one more.  When the container is empty or its last block is full, a new last
block holding exactly `[v]` is linked (at the fresh address `m.brk`); otherwise `v` goes
into the next free slot of the last block. -/
theorem push_back_spec (N : Nat) (m : Mem α) (c : unrolled_list) (as : List Ptr)
    (bs : List (List α)) (v : α) (h : WellFormed N m c as bs) :
    ∃ c2 m2 as2 bs2, c.push_back N v m = some (c2, m2) ∧ WellFormed N m2 c2 as2 bs2 ∧
      LogicalSeq N c2 m2 (bs.flatten ++ [v]) ∧ c2.size = bs.flatten.length + 1 ∧
      ((∀ b, bs.getLast? = some b → b.length = N) → as2 = as ++ [m.brk] ∧ bs2 = bs ++ [[v]]) ∧
      (∀ b, bs.getLast? = some b → b.length < N →
        as2 = as ∧ bs2 = bs.dropLast ++ [b ++ [v]]) := by
  obtain ⟨c2, m2, pv2, as2, bs2, he, hr, hfk, hsz, hpv1, hpv2, hfl, hA, hB⟩ :=
    push_back_wf v h
  have hpv : pv2 = some c2.fake_node_ := by
    rw [hfk]
    by_cases has : as = []
    · exact hpv1 has
    · exact hpv2 has
  subst hpv
  refine ⟨c2, m2, as2, bs2, he, hr, ?_, ?_, hA, hB⟩
  · rw [← hfl]; exact hr.logicalSeq
  · show c2.size_ = _
    rw [hsz, h.size_eq]

/-- Witness for C7 on the example container `[1, 2] [3]` of capacity 2. -/
theorem push_back_spec_witness :
    WellFormed 2 exMem exList [2, 3] [[1, 2], [3]] ∧
    ∃ c2 m2 as2 bs2, exList.push_back 2 4 exMem = some (c2, m2) ∧
      WellFormed 2 m2 c2 as2 bs2 ∧
      LogicalSeq 2 c2 m2 (([[1, 2], [3]] : List (List Nat)).flatten ++ [4]) ∧
      c2.size = ([[1, 2], [3]] : List (List Nat)).flatten.length + 1 ∧
      ((∀ b, ([[1, 2], [3]] : List (List Nat)).getLast? = some b → b.length = 2) →
        as2 = [2, 3] ++ [exMem.brk] ∧ bs2 = [[1, 2], [3]] ++ [[4]]) ∧
      (∀ b, ([[1, 2], [3]] : List (List Nat)).getLast? = some b → b.length < 2 →
        as2 = [2, 3] ∧ bs2 = ([[1, 2], [3]] : List (List Nat)).dropLast ++ [b ++ [4]]) :=
  ⟨exMem_wellFormed, push_back_spec 2 exMem exList [2, 3] [[1, 2], [3]] 4 exMem_wellFormed⟩

/-- C9: `pop_back()` on a well-formed non-empty container with logical sequence
`bs.flatten` returns; the result is well formed, its logical sequence is `bs.flatten`
without its last element and its `size()` is one less.  When the last block held a
single element that block is removed from the chain, otherwise the last block loses its
last element. -/
theorem pop_back_spec (N : Nat) (m : Mem α) (c : unrolled_list) (as : List Ptr)
    (bs : List (List α)) (h : WellFormed N m c as bs) (hne : bs ≠ []) :
    ∃ c2 m2 as2 bs2, c.pop_back N m = some (c2, m2) ∧ WellFormed N m2 c2 as2 bs2 ∧
      LogicalSeq N c2 m2 bs.flatten.dropLast ∧ c2.size = bs.flatten.length - 1 ∧
      (∀ b, bs.getLast? = some b → b.length = 1 → as2 = as.dropLast ∧ bs2 = bs.dropLast) ∧
      (∀ b, bs.getLast? = some b → 1 < b.length →
        as2 = as ∧ bs2 = bs.dropLast ++ [b.dropLast]) := by
  obtain ⟨c2, m2, as2, bs2, he, hr, hfk, hsz, hfl, hA, hB⟩ := pop_back_wf h hne
  rw [← hfk] at hr
  refine ⟨c2, m2, as2, bs2, he, hr, ?_, ?_, hA, hB⟩
  · rw [← hfl]; exact hr.logicalSeq
  · show c2.size_ = _
    rw [hsz, h.size_eq]

/-- Witness for C9 on the example container `[1, 2] [3]` of capacity 2. -/
theorem pop_back_spec_witness :
    (WellFormed 2 exMem exList [2, 3] [[1, 2], [3]] ∧
      ([[1, 2], [3]] : List (List Nat)) ≠ []) ∧
    ∃ c2 m2 as2 bs2, exList.pop_back 2 exMem = some (c2, m2) ∧ WellFormed 2 m2 c2 as2 bs2 ∧
      LogicalSeq 2 c2 m2 ([[1, 2], [3]] : List (List Nat)).flatten.dropLast ∧
      c2.size = ([[1, 2], [3]] : List (List Nat)).flatten.length - 1 ∧
      (∀ b, ([[1, 2], [3]] : List (List Nat)).getLast? = some b → b.length = 1 →
        as2 = ([2, 3] : List Ptr).dropLast ∧
        bs2 = ([[1, 2], [3]] : List (List Nat)).dropLast) ∧
      (∀ b, ([[1, 2], [3]] : List (List Nat)).getLast? = some b → 1 < b.length →
        as2 = [2, 3] ∧ bs2 = ([[1, 2], [3]] : List (List Nat)).dropLast ++ [b.dropLast]) :=
  ⟨⟨exMem_wellFormed, by decide⟩,
    pop_back_spec 2 exMem exList [2, 3] [[1, 2], [3]] exMem_wellFormed (by decide)⟩

/-- `pop_front()` for a trivially copyable element type (the shift of `Mem.moveSlot`), on
a well-formed non-empty container with logical sequence `bs.flatten`: the call returns; in
the result the blocks `as2` holding `bs2` are chained from the
sentinel (`Rep`, for some requirement `pv2` on the first block's `prev` link), the
logical sequence is `bs.flatten` without its first element and `size()` is one less.
When the first block held a single element that block is removed from the chain,
otherwise the first block loses its first element. -/
theorem pop_front_spec (N : Nat) (m : Mem α) (c : unrolled_list) (as : List Ptr)
    (bs : List (List α)) (h : WellFormed N m c as bs) (hne : bs ≠ []) :
    ∃ c2 m2 pv2 as2 bs2, c.pop_front N m = some (c2, m2) ∧ Rep N m2 c2 pv2 as2 bs2 ∧
      LogicalSeq N c2 m2 bs.flatten.tail ∧ c2.size = bs.flatten.length - 1 ∧
      (∀ b, bs.head? = some b → b.length = 1 → as2 = as.tail ∧ bs2 = bs.tail) ∧
      (∀ b, bs.head? = some b → 1 < b.length → as2 = as ∧ bs2 = b.tail :: bs.tail) := by
  obtain ⟨c2, m2, pv2, as2, bs2, he, hr, hfk, hsz, hfl, hA, hB⟩ := pop_front_wf h hne
  refine ⟨c2, m2, pv2, as2, bs2, he, hr, ?_, ?_, ?_, ?_⟩
  · rw [← hfl]; exact hr.logicalSeq
  · show c2.size_ = _
    rw [hsz, h.size_eq]
  · intro b hb h1
    exact ⟨(hA b hb h1).1, (hA b hb h1).2.1⟩
  · intro b hb h1
    exact ⟨(hB b hb h1).2.1, (hB b hb h1).2.2⟩

/-- The same on the example container `[1, 2] [3]` of capacity 2. -/
theorem pop_front_spec_witness :
    (WellFormed 2 exMem exList [2, 3] [[1, 2], [3]] ∧
      ([[1, 2], [3]] : List (List Nat)) ≠ []) ∧
    ∃ c2 m2 pv2 as2 bs2, exList.pop_front 2 exMem = some (c2, m2) ∧
      Rep 2 m2 c2 pv2 as2 bs2 ∧
      LogicalSeq 2 c2 m2 ([[1, 2], [3]] : List (List Nat)).flatten.tail ∧
      c2.size = ([[1, 2], [3]] : List (List Nat)).flatten.length - 1 ∧
      (∀ b, ([[1, 2], [3]] : List (List Nat)).head? = some b → b.length = 1 →
        as2 = ([2, 3] : List Ptr).tail ∧ bs2 = ([[1, 2], [3]] : List (List Nat)).tail) ∧
      (∀ b, ([[1, 2], [3]] : List (List Nat)).head? = some b → 1 < b.length →
        as2 = [2, 3] ∧ bs2 = b.tail :: ([[1, 2], [3]] : List (List Nat)).tail) :=
  ⟨⟨exMem_wellFormed, by decide⟩,
    pop_front_spec 2 exMem exList [2, 3] [[1, 2], [3]] exMem_wellFormed (by decide)⟩

/-- C4: `erase(p)` at the valid position `p` of logical index `k` of a well-formed
container with logical sequence `bs.flatten` returns; the result is well formed, its
logical sequence is `bs.flatten` with the `k`-th element removed and its `size()` is one
less.  Either the chain keeps its blocks, or exactly the block of `p` (whose count
reached 0) is unlinked from the chain and freed. -/
theorem erase_spec (N : Nat) (m : Mem α) (c : unrolled_list) (as : List Ptr)
    (bs : List (List α)) (k : Nat) (h : WellFormed N m c as bs)
    (hk : k < bs.flatten.length) :
    ∃ it c2 m2 as2 bs2, c.erase N (posAt c.fake_node_ as bs k) m = some (it, c2, m2) ∧
      WellFormed N m2 c2 as2 bs2 ∧ LogicalSeq N c2 m2 (bs.flatten.eraseIdx k) ∧
      c2.size = bs.flatten.length - 1 ∧
      (as2 = as ∨
        (as2 = as.erase (posAt c.fake_node_ as bs k).ptr_ ∧
          (posAt c.fake_node_ as bs k).ptr_ ∈ as ∧
          m2.obj (posAt c.fake_node_ as bs k).ptr_ = none)) := by
  obtain ⟨bs1, b, bs2, j, rfl, hj, rfl, hpos⟩ := posAt_split c.fake_node_ bs as k h.length_eq hk
  obtain ⟨as1, a, as2, rfl, hl1, hl2⟩ := split_middle h.length_eq
  have hdrop : ((as1 ++ a :: as2).drop bs1.length).headD c.fake_node_ = a := by
    rw [← hl1, List.drop_left]; rfl
  rw [hpos, hdrop]
  obtain ⟨it, m2, he, hA, hB⟩ := erase_wf_split h hl1 hj
  have hsize : ({ c with size_ := c.size_ - 1 } : unrolled_list).size =
      (bs1 ++ b :: bs2).flatten.length - 1 := by
    show c.size_ - 1 = _
    rw [h.size_eq]
  by_cases hb : 1 < b.length
  · obtain ⟨hr, -⟩ := hA hb
    refine ⟨it, _, m2, _, _, he, hr, ?_, hsize, Or.inl rfl⟩
    rw [flatten_eraseIdx_middle bs1 bs2 b hj]
    exact hr.logicalSeq
  · have hb1 : b.length = 1 := by omega
    obtain ⟨hr, hfree, -⟩ := hB hb1
    obtain ⟨x, rfl⟩ := List.length_eq_one.mp hb1
    have hj0 : j = 0 := by simpa using hj
    subst hj0
    have hnd := h.nodup
    rw [List.nodup_middle, List.nodup_cons] at hnd
    have ha1 : a ∉ as1 := fun hx => hnd.1 (by simp [hx])
    refine ⟨it, _, m2, _, _, he, hr, ?_, hsize, Or.inr ⟨?_, by simp, hfree⟩⟩
    · rw [Nat.add_zero, flatten_eraseIdx_single]
      exact hr.logicalSeq
    · show as1 ++ as2 = (as1 ++ a :: as2).erase a
      rw [List.erase_append_right _ ha1, List.erase_cons_head]

/-- Witness for C4 on the example container `[1, 2] [3]` of capacity 2, erasing the
element at logical index 2. -/
theorem erase_spec_witness :
    (WellFormed 2 exMem exList [2, 3] [[1, 2], [3]] ∧
      2 < ([[1, 2], [3]] : List (List Nat)).flatten.length) ∧
    ∃ it c2 m2 as2 bs2,
      exList.erase 2 (posAt exList.fake_node_ [2, 3] [[1, 2], [3]] 2) exMem = some (it, c2, m2) ∧
      WellFormed 2 m2 c2 as2 bs2 ∧
      LogicalSeq 2 c2 m2 (([[1, 2], [3]] : List (List Nat)).flatten.eraseIdx 2) ∧
      c2.size = ([[1, 2], [3]] : List (List Nat)).flatten.length - 1 ∧
      (as2 = [2, 3] ∨
        (as2 = ([2, 3] : List Ptr).erase (posAt exList.fake_node_ [2, 3] [[1, 2], [3]] 2).ptr_ ∧
          (posAt exList.fake_node_ [2, 3] [[1, 2], [3]] 2).ptr_ ∈ ([2, 3] : List Ptr) ∧
          m2.obj (posAt exList.fake_node_ [2, 3] [[1, 2], [3]] 2).ptr_ = none)) :=
  ⟨⟨exMem_wellFormed, by decide⟩,
    erase_spec 2 exMem exList [2, 3] [[1, 2], [3]] 2 exMem_wellFormed (by decide)⟩

theorem forwardFrom_mono {N : Nat} {c : unrolled_list} {m : Mem α} :
    ∀ (fuel : Nat) (it : Iterator) (xs : List α),
      forwardFrom N c m fuel it = some xs → forwardFrom N c m (fuel + 1) it = some xs
  | 0, _, _, h => by simp [forwardFrom] at h
  | fuel + 1, it, xs, h => by
    rw [forwardFrom] at h ⊢
    by_cases he : it = c.cend
    · simpa [he] using h
    · simp only [he, if_false] at h ⊢
      cases hd : it.deref N m with
      | none => simp [hd] at h
      | some x =>
        cases hi : it.inc m with
        | none => simp [hd, hi] at h
        | some it2 =>
          cases hr : forwardFrom N c m fuel it2 with
          | none => simp [hd, hi, hr] at h
          | some ys =>
            simp only [hd, hi, hr, Option.some_bind, Option.map_some'] at h
            simp only [Option.some_bind, forwardFrom_mono fuel it2 ys hr, Option.map_some']
            exact h

theorem toList_mono {N : Nat} {c : unrolled_list} {m : Mem α} {xs : List α} {fuel : Nat}
    (h : c.toList N m fuel = some xs) : ∀ k, c.toList N m (fuel + k) = some xs
  | 0 => h
  | k + 1 => by
    have ih := toList_mono h k
    simp only [unrolled_list.toList] at ih ⊢
    cases hb : c.cbegin m with
    | none => simp [hb] at ih
    | some b =>
      simp only [hb, Option.some_bind] at ih ⊢
      exact forwardFrom_mono _ _ _ ih

theorem toList_unique {N : Nat} {c : unrolled_list} {m : Mem α} {xs ys : List α}
    {f g : Nat} (h1 : c.toList N m f = some xs) (h2 : c.toList N m g = some ys) : xs = ys := by
  have a := toList_mono h1 g
  have b := toList_mono h2 f
  rw [Nat.add_comm] at b
  rw [a] at b
  exact Option.some.inj b

theorem logicalSeq_of_toList {N : Nat} {c : unrolled_list} {m : Mem α} {xs : List α}
    (h : c.toList N m (xs.length + 1) = some xs) : LogicalSeq N c m xs := by
  intro fuel hf
  obtain ⟨k, rfl⟩ : ∃ k, fuel = xs.length + 1 + k := ⟨fuel - (xs.length + 1), by omega⟩
  exact toList_mono h k

theorem exFullMem_wellFormed : WellFormed 2 exFullMem exFullList [2] [[1, 2]] :=
  { cap_pos := by decide
    sentinel := ⟨⟨2, 2⟩, rfl, rfl, rfl⟩
    chain := by
      refine ⟨⟨⟨1, 1, fun j => if j = 0 then some 1 else if j = 1 then some 2 else none, 2⟩,
        rfl, ?_, rfl, rfl, ?_⟩, trivial⟩
      · intro p hp
        exact (Option.some.inj hp)
      · intro j hj
        have : j = 0 ∨ j = 1 := by simp at hj; omega
        rcases this with rfl | rfl <;> rfl
    counts := by
      intro b hb
      simp only [List.mem_singleton] at hb
      subst hb
      simp
    nodup := by decide
    fake_not_block := by decide
    size_eq := rfl
    fresh := by
      intro p hp
      have hp3 : 3 ≤ p := hp
      have h1 : p ≠ 1 := fun h => absurd (h ▸ hp3) (by decide)
      have h2 : p ≠ 2 := fun h => absurd (h ▸ hp3) (by decide)
      simp [exFullMem, h1, h2] }

/-! ## Where the code departs from the claims -/

/-- C1 (the code departs from the claim): with block capacity 1, after `push_back(1)`
and `insert(end(), 2)` on an initially empty container, forward traversal from `begin()`
reaches `end()` after `[1]`, and with no bound on the steps does it produce `[1, 2]`,
the contents of the reference list; `size()` is 2. -/
theorem ops_match_reference_fails :
    ((runOps 1 [Op.push_back 1, Op.insert 1 2] (unrolled_list.new emptyMem)).bind
      fun s => s.1.toList 1 s.2 3) = some [1] ∧
    (∀ fuel, ((runOps 1 [Op.push_back 1, Op.insert 1 2] (unrolled_list.new emptyMem)).bind
      fun s => s.1.toList 1 s.2 fuel) ≠ some [1, 2]) ∧
    ((runOps 1 [Op.push_back 1, Op.insert 1 2] (unrolled_list.new emptyMem)).map
      fun s => s.1.size) = some 2 ∧
    refOps [Op.push_back 1, Op.insert 1 2] ([] : List Nat) = [1, 2] := by
  have h1 : ((runOps 1 [Op.push_back 1, Op.insert 1 2] (unrolled_list.new emptyMem)).bind
      fun s => s.1.toList 1 s.2 3) = some [1] := by decide
  refine ⟨h1, ?_, by decide, by decide⟩
  intro fuel h2
  cases hr : runOps 1 [Op.push_back 1, Op.insert 1 2] (unrolled_list.new emptyMem) with
  | none => simp [hr] at h1
  | some s =>
    simp only [hr, Option.some_bind] at h1 h2
    exact absurd (toList_unique h1 h2) (by decide)

/-- C3 (the code departs from the claim): on the well-formed container `[1, 2]` of
capacity 2, whose last block is full, `insert(end(), 3)` raises `size()` to 3 but
the sequence reachable from `begin()` stays `[1, 2]` (the new block is not linked into
the chain), whereas `push_back(3)` gives `[1, 2, 3]`. -/
theorem insert_end_full_block_not_linked :
    WellFormed 2 exFullMem exFullList [2] [[1, 2]] ∧
    ((exFullList.insert 2 exFullList.cend 3 exFullMem).bind
      fun r => r.2.1.toList 2 r.2.2 3) = some [1, 2] ∧
    (∀ fuel, ((exFullList.insert 2 exFullList.cend 3 exFullMem).bind
      fun r => r.2.1.toList 2 r.2.2 fuel) ≠ some [1, 2, 3]) ∧
    ((exFullList.insert 2 exFullList.cend 3 exFullMem).map fun r => r.2.1.size) = some 3 ∧
    ((exFullList.push_back 2 3 exFullMem).bind fun r => r.1.toList 2 r.2 4)
      = some [1, 2, 3] := by
  have h1 : ((exFullList.insert 2 exFullList.cend 3 exFullMem).bind
      fun r => r.2.1.toList 2 r.2.2 3) = some [1, 2] := by decide
  refine ⟨exFullMem_wellFormed, h1, ?_, by decide, by decide⟩
  intro fuel h2
  cases hr : exFullList.insert 2 exFullList.cend 3 exFullMem with
  | none => simp [hr] at h1
  | some s =>
    simp only [hr, Option.some_bind] at h1 h2
    exact absurd (toList_unique h1 h2) (by decide)

/-- C5 (the code departs from the claim): on the well-formed container `[1, 2] [3]` of
capacity 2 (blocks at addresses 2 and 3, sentinel at 1), erasing logical index 1, the
last slot of a block that stays non-empty, returns the position `⟨2, 1⟩`, whose index
equals the count of its block, while the element that followed is at `⟨3, 0⟩`; erasing
logical index 2, the only element of the last block, returns `⟨2, 1⟩`, the position
of the last remaining element, while `end()` is `⟨1, 0⟩`. -/
theorem erase_result_not_following :
    WellFormed 2 exMem exList [2, 3] [[1, 2], [3]] ∧
    ((exList.erase 2 (posAt exList.fake_node_ [2, 3] [[1, 2], [3]] 1) exMem).map
      fun r => r.1) = some ⟨2, 1⟩ ∧
    posAt exList.fake_node_ [2, 3] [[1], [3]] 1 = ⟨3, 0⟩ ∧
    ((exList.erase 2 (posAt exList.fake_node_ [2, 3] [[1, 2], [3]] 1) exMem).bind
      fun r => r.2.2.count 2) = some 1 ∧
    ((exList.erase 2 (posAt exList.fake_node_ [2, 3] [[1, 2], [3]] 2) exMem).map
      fun r => r.1) = some ⟨2, 1⟩ ∧
    ((exList.erase 2 (posAt exList.fake_node_ [2, 3] [[1, 2], [3]] 2) exMem).map
      fun r => r.2.1.cend) = some ⟨1, 0⟩ :=
  ⟨exMem_wellFormed, by decide, by decide, by decide, by decide, by decide⟩

theorem bigMem_wellFormed :
    WellFormed (2 ^ 31 + 1) bigMem bigList [2] [List.range (2 ^ 31)] :=
  { cap_pos := by omega
    sentinel := ⟨⟨2, 2⟩, rfl, rfl, rfl⟩
    chain := by
      refine ⟨⟨⟨1, 1, fun j => if j < 2 ^ 31 then some j else none, 2 ^ 31⟩,
        rfl, ?_, rfl, ?_, ?_⟩, trivial⟩
      · intro p hp
        exact (Option.some.inj hp)
      · rw [List.length_range]
      · intro j hj
        rw [List.length_range] at hj
        rw [List.getElem?_range hj]
        simp only [hj, if_true]
    counts := by
      intro b hb
      simp only [List.mem_singleton] at hb
      rw [hb, List.length_range]
      omega
    nodup := by decide
    fake_not_block := by decide
    size_eq := by
      show 2 ^ 31 = _
      rw [List.flatten_singleton, List.length_range]
    fresh := by
      intro p hp
      have hp3 : 3 ≤ p := hp
      have h1 : p ≠ 1 := fun h => absurd (h ▸ hp3) (by decide)
      have h2 : p ≠ 2 := fun h => absurd (h ▸ hp3) (by decide)
      simp [bigMem, h1, h2] }

theorem toList_second {N : Nat} {c : unrolled_list} {m : Mem α} {fuel : Nat} {xs : List α}
    {b b2 : Iterator} {y : α} (h : c.toList N m fuel = some xs)
    (hb : c.cbegin m = some b) (hne : b ≠ c.cend) (hinc : b.inc m = some b2)
    (hne2 : b2 ≠ c.cend) (hd : b2.deref N m = some y) : xs[1]? = some y := by
  simp only [unrolled_list.toList, hb, Option.some_bind] at h
  cases fuel with
  | zero => simp [forwardFrom] at h
  | succ f1 =>
    cases f1 with
    | zero =>
      simp only [forwardFrom, hne, if_false, hinc] at h
      cases hd1 : b.deref N m <;> simp [hd1] at h
    | succ f2 =>
      simp only [forwardFrom, hne, if_false, hinc, hne2, hd, Option.some_bind,
        Option.bind_eq_some, Option.map_eq_some'] at h
      obtain ⟨x, -, ys, ⟨b3, -, ws, -, rfl⟩, rfl⟩ := h
      simp

/-- C8 (the code departs from the claim): the shift loop of `push_front` counts with an
`int32_t` (source line 700).  On the well-formed container of capacity `2^31 + 1` whose
single block holds `0, 1, ..., 2^31 - 1`, the counter starts at `-2^31`, no element is
shifted, and `push_front(7)` overwrites slot 0: the second element of the result is `1`,
the old first element `0` is lost, and the logical sequence is not `7 :: 0 :: 1 :: ...`. -/
theorem push_front_int32_counter :
    WellFormed (2 ^ 31 + 1) bigMem bigList [2] [List.range (2 ^ 31)] ∧
    (bigList.push_front (2 ^ 31 + 1) 7 bigMem).isSome = true ∧
    ((bigList.push_front (2 ^ 31 + 1) 7 bigMem).bind
      fun r => Iterator.deref (2 ^ 31 + 1) r.2 ⟨2, 0⟩) = some 7 ∧
    ((bigList.push_front (2 ^ 31 + 1) 7 bigMem).bind
      fun r => Iterator.deref (2 ^ 31 + 1) r.2 ⟨2, 1⟩) = some 1 ∧
    ∀ r, bigList.push_front (2 ^ 31 + 1) 7 bigMem = some r →
      ¬ LogicalSeq (2 ^ 31 + 1) r.1 r.2 (7 :: List.range (2 ^ 31)) := by
  have hb : ((bigList.push_front (2 ^ 31 + 1) 7 bigMem).bind fun r => r.1.cbegin r.2)
      = some ⟨2, 0⟩ := by decide
  have hi : ((bigList.push_front (2 ^ 31 + 1) 7 bigMem).bind
      fun r => Iterator.inc r.2 ⟨2, 0⟩) = some ⟨2, 1⟩ := by decide
  have hd : ((bigList.push_front (2 ^ 31 + 1) 7 bigMem).bind
      fun r => Iterator.deref (2 ^ 31 + 1) r.2 ⟨2, 1⟩) = some 1 := by decide
  have hf : ((bigList.push_front (2 ^ 31 + 1) 7 bigMem).map fun r => r.1.fake_node_)
      = some 1 := by decide
  refine ⟨bigMem_wellFormed, by decide, by decide, hd, ?_⟩
  intro r hr hseq
  simp only [hr, Option.some_bind, Option.map_some', Option.some.injEq] at hb hi hd hf
  have h := hseq (2 ^ 31 + 2) (by rw [List.length_cons, List.length_range]; omega)
  have hne : ∀ j, (⟨2, j⟩ : Iterator) ≠ r.1.cend := by
    intro j hj
    have := congrArg Iterator.ptr_ hj
    simp only [unrolled_list.cend] at this
    rw [hf] at this
    exact absurd this (by decide)
  have h1 := toList_second h hb (hne 0) hi (hne 1) hd
  rw [List.getElem?_cons_succ, List.getElem?_range (by norm_num)] at h1
  exact absurd (Option.some.inj h1) (by decide)

/-- C2 (the code departs from the claim): the shift loop of `insert` counts with an
`int32_t` compared against the `size_type` index (source line 1007).  On the well-formed
container of capacity `2^31 + 1` whose single, non-full block holds `2^31` elements,
`insert` at the valid position of logical index 0 starts the counter at `-2^31`, which
passes the unsigned comparison, and the loop body indexes before the block's storage:
the call has no defined result. -/
theorem insert_int32_counter :
    WellFormed (2 ^ 31 + 1) bigMem bigList [2] [List.range (2 ^ 31)] ∧
    posAt bigList.fake_node_ [2] [List.range (2 ^ 31)] 0 = ⟨2, 0⟩ ∧
    bigList.insert (2 ^ 31 + 1) ⟨2, 0⟩ 7 bigMem = none := by
  refine ⟨bigMem_wellFormed, ?_, rfl⟩
  simp [posAt, List.length_range]

/-! ## insert at a position -/

theorem insert_eval_spare {N : Nat} {m : Mem α} {c : unrolled_list} {a : Ptr} {j : Nat}
    {n : Node α} (v : α) (hn : m.obj a = some (Obj.node n)) (hfa : c.fake_node_ ≠ a)
    (hj : j < N) (hlt : n.count < N) (h31 : n.count < 2 ^ 31) :
    c.insert N ⟨a, j⟩ v m = some (⟨a, j⟩, { c with size_ := c.size_ + 1 },
      m.write a (Obj.node { n with
        storage := fun t => if t = j then some v
          else if j < t ∧ t ≤ n.count then n.storage (t - 1) else n.storage t,
        count := n.count + 1 })) := by
  have hne : (⟨a, j⟩ : Iterator) ≠ c.cend := fun h => hfa (congrArg Iterator.ptr_ h).symm
  unfold unrolled_list.insert
  simp only [hne, if_false, bind, pure, Option.bind_eq_bind, Mem.count_node hn,
    Option.some_bind, hlt, if_true, shiftRightUnsigned_node hn j hlt h31, Mem.construct,
    Mem.setSlot_node (Mem.write_obj_same _ _ _) hj, Mem.write_write,
    Mem.count_node (Mem.write_obj_same _ _ _), Mem.setCount_node (Mem.write_obj_same _ _ _)]

theorem insert_eval_end_empty {N : Nat} {m : Mem α} {c : unrolled_list} {f : BaseNode}
    (v : α) (hsize : c.size_ = 0) (hf : m.obj c.fake_node_ = some (Obj.base f))
    (hN : 0 < N) (h2 : c.fake_node_ ≠ m.brk) :
    c.insert N c.cend v m = some (⟨m.brk, 0⟩, { c with size_ := c.size_ + 1 },
      { obj := fun q =>
          if q = m.brk then
            some (Obj.node ⟨c.fake_node_, c.fake_node_, fun j => if j = 0 then some v else none, 1⟩)
          else if q = c.fake_node_ then some (Obj.base ⟨m.brk, m.brk⟩)
          else m.obj q,
        brk := m.brk + 1 }) := by
  unfold unrolled_list.insert
  simp only [if_true, unrolled_list.empty, hsize, beq_self_eq_true, bind, pure,
    Option.bind_eq_bind, Mem.newNode]
  simp [Mem.setCount, Mem.construct, Mem.setSlot, Mem.setNext, Mem.setPrev, Mem.node,
    Mem.write, unrolled_list.cbegin, Mem.next, hN, h2, hf, Ne.symm h2]
  funext q
  by_cases hq1 : q = m.brk
  · simp [hq1, Ne.symm h2]
  · by_cases hq2 : q = c.fake_node_
    · simp [hq2, h2]
    · simp [hq1, hq2]

theorem insert_eval_end_spare {N : Nat} {m : Mem α} {c : unrolled_list} {f : BaseNode}
    {n : Node α} (v : α) (hsize : c.size_ ≠ 0) (hf : m.obj c.fake_node_ = some (Obj.base f))
    (hn : m.obj f.prev = some (Obj.node n)) (hlt : n.count < N) :
    c.insert N c.cend v m = some (⟨f.prev, n.count⟩, { c with size_ := c.size_ + 1 },
      m.write f.prev (Obj.node { n with
        storage := fun j => if j = n.count then some v else n.storage j,
        count := n.count + 1 })) := by
  unfold unrolled_list.insert
  simp only [if_true, unrolled_list.empty, hsize, beq_iff_eq, if_false, bind, pure,
    Option.bind_eq_bind, Mem.prev_base hf, Option.some_bind, Mem.count_node hn, hlt,
    Mem.construct, Mem.setSlot_node hn hlt, Mem.setCount_node (Mem.write_obj_same _ _ _),
    Mem.write_write]

theorem insert_eval_end_full {N : Nat} {m : Mem α} {c : unrolled_list} {f : BaseNode}
    {n : Node α} (v : α) (hsize : c.size_ ≠ 0) (hf : m.obj c.fake_node_ = some (Obj.base f))
    (hn : m.obj f.prev = some (Obj.node n)) (hfull : n.count = N) (hN : 0 < N) :
    c.insert N c.cend v m = some (⟨m.brk, 0⟩, { c with size_ := c.size_ + 1 },
      { obj := fun q =>
          if q = m.brk then
            some (Obj.node ⟨f.prev, c.fake_node_, fun j => if j = 0 then some v else none, 1⟩)
          else m.obj q,
        brk := m.brk + 1 }) := by
  unfold unrolled_list.insert
  simp only [if_true, unrolled_list.empty, hsize, beq_iff_eq, if_false, bind, pure,
    Option.bind_eq_bind, Mem.prev_base hf, Option.some_bind, Mem.count_node hn, hfull,
    lt_irrefl, Mem.newNode]
  simp [Mem.setCount, Mem.construct, Mem.setSlot, Mem.node, Mem.write, hN]
  funext q
  by_cases hq1 : q = m.brk
  · simp [hq1]
  · simp [hq1]

theorem insert_eval_spill_next {N : Nat} {m : Mem α} {c : unrolled_list} {a a2 : Ptr}
    {j : Nat} {n n2 : Node α} (v : α) (hn : m.obj a = some (Obj.node n))
    (hn2 : m.obj a2 = some (Obj.node n2)) (hfa : c.fake_node_ ≠ a) (hfa2 : c.fake_node_ ≠ a2)
    (haa2 : a ≠ a2) (hnext : n.next = a2)
    (hj : j < N) (hfull : n.count = N) (hcap : N ≤ 2 ^ 31) (hlt2 : n2.count < N) :
    c.insert N ⟨a, j⟩ v m = some (⟨a, j⟩, { c with size_ := c.size_ + 1 },
      { obj := fun q =>
          if q = a then some (Obj.node { n with
            storage := fun t => if t = j then some v
              else if j < t ∧ t ≤ N - 1 then n.storage (t - 1) else n.storage t })
          else if q = a2 then some (Obj.node { n2 with
            storage := fun t => if t = 0 then n.storage (N - 1)
              else if 0 < t ∧ t ≤ n2.count then n2.storage (t - 1) else n2.storage t,
            count := n2.count + 1 })
          else m.obj q,
        brk := m.brk }) := by
  have hne : (⟨a, j⟩ : Iterator) ≠ c.cend := fun h => hfa (congrArg Iterator.ptr_ h).symm
  have hnl : ¬ (n.count < N) := by omega
  have hne2 : n2.count ≠ N := by omega
  have hN0 : 0 < N := by omega
  have hdec : decr N = N - 1 := decr_pos hN0
  unfold unrolled_list.insert
  simp only [hne, if_false, bind, pure, Option.bind_eq_bind, Mem.count_node hn,
    Option.some_bind, hnl, Mem.next_node hn, hnext, Ne.symm hfa2, Mem.count_node hn2, hne2,
    shiftRightSigned_node hn2 hlt2 (by omega),
    Mem.setCount_node (Mem.write_obj_same _ _ _), Mem.write_write, hfull, hdec]
  have hobj_a : ∀ o, (m.write a2 o).obj a = some (Obj.node n) := fun o => by
    rw [Mem.write_obj_ne _ _ haa2]; exact hn
  simp only [Mem.count_node (hobj_a _), hfull, hdec, Option.some_bind,
    Mem.slot_node (hobj_a _) (show N - 1 < N by omega),
    Mem.setSlot_node (Mem.write_obj_same _ _ _) hN0, Mem.write_write]
  have hobj_a2 : ∀ o, (m.write a2 o).obj a = some (Obj.node n) := hobj_a
  rw [shiftRightUnsigned_node (hobj_a2 _) j (show N - 1 < N by omega) (by omega)]
  simp only [Option.some_bind, Mem.setSlot_node (Mem.write_obj_same _ _ _) hj, Mem.write_write]
  simp only [Mem.write, lt_irrefl, if_false, hnext, hfull]

theorem insert_eval_spill_last {N : Nat} {m : Mem α} {c : unrolled_list} {a : Ptr}
    {j : Nat} {n : Node α} {f : BaseNode} (v : α) (hn : m.obj a = some (Obj.node n))
    (hf : m.obj c.fake_node_ = some (Obj.base f)) (hfa : c.fake_node_ ≠ a)
    (habrk : a ≠ m.brk) (hfbrk : c.fake_node_ ≠ m.brk) (hnext : n.next = c.fake_node_)
    (hj : j < N) (hfull : n.count = N) (hcap : N ≤ 2 ^ 31) :
    c.insert N ⟨a, j⟩ v m = some (⟨a, j⟩, { c with size_ := c.size_ + 1 },
      { obj := fun q =>
          if q = a then some (Obj.node { n with
            next := m.brk,
            storage := fun t => if t = j then some v
              else if j < t ∧ t ≤ N - 1 then n.storage (t - 1) else n.storage t })
          else if q = m.brk then some (Obj.node ⟨a, c.fake_node_,
            fun t => if t = 0 then n.storage (N - 1) else none, 1⟩)
          else if q = c.fake_node_ then some (Obj.base { f with prev := m.brk })
          else m.obj q,
        brk := m.brk + 1 }) := by
  have hne : (⟨a, j⟩ : Iterator) ≠ c.cend := fun h => hfa (congrArg Iterator.ptr_ h).symm
  have hnl : ¬ (n.count < N) := by omega
  have hN0 : 0 < N := by omega
  have hdec : decr N = N - 1 := decr_pos hN0
  have h1 : (m.newNode a c.fake_node_).2.obj a = some (Obj.node n) := by
    simp [Mem.newNode, habrk, hn]
  have h2 : ((m.newNode a c.fake_node_).2.write a (Obj.node { n with next := m.brk })).obj
      c.fake_node_ = some (Obj.base f) := by
    simp [Mem.newNode, Mem.write, hfa, hfbrk, hf]
  unfold unrolled_list.insert
  simp only [hne, if_false, bind, pure, Option.bind_eq_bind, Mem.count_node hn,
    Option.some_bind, hnl, Mem.next_node hn, hnext, if_true]
  have e1 : m.newNode a c.fake_node_ = (m.brk, (m.newNode a c.fake_node_).2) := rfl
  rw [e1]
  simp only [Mem.setNext_node h1, Option.some_bind, Mem.setPrev_base h2]
  simp [Mem.count, Mem.node, Mem.write, Mem.newNode, Mem.slot, Mem.setSlot, Mem.setCount,
    shiftRightSigned, shiftRight, toInt32, hN0, hfa, Ne.symm hfa, habrk, Ne.symm habrk,
    hfbrk, Ne.symm hfbrk, hdec, hfull]
  rw [shiftRightUnsigned_node (n := ⟨n.prev, m.brk, n.storage, N⟩)
    (by simp [habrk, Ne.symm hfa]) j (show N - 1 < N by omega) (by omega)]
  simp only [Option.some_bind, Mem.write, if_true, hj]
  simp only [Option.some.injEq, Prod.mk.injEq, true_and, Mem.mk.injEq, and_true]
  funext q
  by_cases hq1 : q = a
  · subst hq1
    simp
  · by_cases hq2 : q = m.brk
    · simp [hq2, Ne.symm habrk]
    · simp [hq1, hq2]

theorem insert_eval_spill_between {N : Nat} {m : Mem α} {c : unrolled_list} {a a2 : Ptr}
    {j : Nat} {n n2 : Node α} (v : α) (hn : m.obj a = some (Obj.node n))
    (hn2 : m.obj a2 = some (Obj.node n2)) (hfa : c.fake_node_ ≠ a) (hfa2 : c.fake_node_ ≠ a2)
    (haa2 : a ≠ a2) (habrk : a ≠ m.brk) (ha2brk : a2 ≠ m.brk) (hnext : n.next = a2)
    (hj : j < N) (hfull : n.count = N) (hcap : N ≤ 2 ^ 31) (hfull2 : n2.count = N) :
    c.insert N ⟨a, j⟩ v m = some (⟨a, j⟩, { c with size_ := c.size_ + 1 },
      { obj := fun q =>
          if q = a then some (Obj.node { n with
            next := m.brk,
            storage := fun t => if t = j then some v
              else if j < t ∧ t ≤ N - 1 then n.storage (t - 1) else n.storage t })
          else if q = m.brk then some (Obj.node ⟨a, a2,
            fun t => if t = 0 then n.storage (N - 1) else none, 1⟩)
          else if q = a2 then some (Obj.node { n2 with prev := m.brk })
          else m.obj q,
        brk := m.brk + 1 }) := by
  have hne : (⟨a, j⟩ : Iterator) ≠ c.cend := fun h => hfa (congrArg Iterator.ptr_ h).symm
  have hnl : ¬ (n.count < N) := by omega
  have hN0 : 0 < N := by omega
  have hdec : decr N = N - 1 := decr_pos hN0
  have h1 : (m.newNode a a2).2.obj a2 = some (Obj.node n2) := by
    simp [Mem.newNode, ha2brk, hn2]
  have h2 : ((m.newNode a a2).2.write a2 (Obj.node { n2 with prev := m.brk })).obj a
      = some (Obj.node n) := by
    simp [Mem.newNode, Mem.write, haa2, habrk, hn]
  unfold unrolled_list.insert
  simp only [hne, if_false, bind, pure, Option.bind_eq_bind, Mem.count_node hn,
    Option.some_bind, hnl, Mem.next_node hn, hnext, Ne.symm hfa2, Mem.count_node hn2, hfull2,
    if_true]
  have e1 : m.newNode a a2 = (m.brk, (m.newNode a a2).2) := rfl
  rw [e1]
  simp only [Mem.setPrev_node h1, Option.some_bind, Mem.setNext_node h2]
  simp [Mem.count, Mem.node, Mem.write, Mem.newNode, Mem.slot, Mem.setSlot, Mem.setCount,
    shiftRightSigned, shiftRight, toInt32, hN0, haa2, Ne.symm haa2, habrk, Ne.symm habrk,
    ha2brk, Ne.symm ha2brk, hdec, hfull]
  rw [shiftRightUnsigned_node (n := ⟨n.prev, m.brk, n.storage, N⟩)
    (by simp [habrk, haa2]) j (show N - 1 < N by omega) (by omega)]
  simp only [Option.some_bind, Mem.write, if_true, hj]
  simp only [Option.some.injEq, Prod.mk.injEq, true_and, Mem.mk.injEq, and_true]
  funext q
  by_cases hq1 : q = a
  · subst hq1
    simp
  · by_cases hq2 : q = m.brk
    · simp [hq2, Ne.symm habrk]
    · simp [hq1, hq2, hfull2]


theorem insAt_length {j : Nat} (v : α) {l : List α} (hj : j ≤ l.length) :
    (insAt j v l).length = l.length + 1 := by
  simp only [insAt, List.length_append, List.length_take, List.length_cons, List.length_drop]
  omega

theorem insAt_getElem? {j : Nat} (v : α) {l : List α} (hj : j ≤ l.length) (t : Nat) :
    (insAt j v l)[t]? = if t = j then some v else if t < j then l[t]? else l[t - 1]? := by
  have hlen : (l.take j).length = j := by simp [List.length_take, hj]
  unfold insAt
  by_cases h1 : t < j
  · have hne : t ≠ j := by omega
    rw [List.getElem?_append_left (by omega), if_neg hne, if_pos h1, List.getElem?_take_of_lt h1]
  · rw [List.getElem?_append_right (by omega), hlen]
    by_cases h2 : t = j
    · subst h2
      simp
    · obtain ⟨i, hi⟩ : ∃ i, t - j = i + 1 := ⟨t - j - 1, by omega⟩
      rw [if_neg h2, if_neg h1, hi, List.getElem?_cons_succ, List.getElem?_drop]
      congr 1
      omega

theorem insAt_concat {j : Nat} (v x : α) {l : List α} (hj : j ≤ l.length) :
    insAt j v l ++ [x] = insAt j v (l ++ [x]) := by
  unfold insAt
  rw [List.take_append_of_le_length hj, List.drop_append_of_le_length hj]
  simp

theorem flatten_insAt_middle (bs1 bs2 : List (List α)) (b : List α) (v : α) {j : Nat}
    (hj : j ≤ b.length) :
    (bs1 ++ insAt j v b :: bs2).flatten =
      insAt (bs1.flatten.length + j) v (bs1 ++ b :: bs2).flatten := by
  simp only [insAt, List.flatten_append, List.flatten_cons]
  rw [List.take_append, List.drop_append, List.take_append_of_le_length hj,
    List.drop_append_of_le_length hj]
  simp

theorem insert_rep_spare {N : Nat} {m : Mem α} {c : unrolled_list} {pv : Option Ptr}
    {as1 as2 : List Ptr} {a : Ptr} {bs1 bs2 : List (List α)} {b : List α} {j : Nat} (v : α)
    (h : Rep N m c pv (as1 ++ a :: as2) (bs1 ++ b :: bs2)) (hl : as1.length = bs1.length)
    (hj : j ≤ b.length) (hlt : b.length < N) (hcap : N ≤ 2 ^ 31) :
    ∃ m2, c.insert N ⟨a, j⟩ v m = some (⟨a, j⟩, { c with size_ := c.size_ + 1 }, m2) ∧
      Rep N m2 { c with size_ := c.size_ + 1 } pv (as1 ++ a :: as2)
        (bs1 ++ insAt j v b :: bs2) := by
  obtain ⟨hch1, ⟨n, hn, hprev, hnext, hcnt, hst⟩, hch2⟩ := (chain_middle hl).1 h.chain
  obtain ⟨f, hf, hfnext, hfprev⟩ := h.sentinel
  have hnd := h.nodup
  have hfnb := h.fake_not_block
  simp only [List.nodup_append, List.nodup_cons, List.mem_append, List.mem_cons,
    List.mem_singleton, not_or, List.disjoint_left] at hnd hfnb
  obtain ⟨hnd1, ⟨haas2, hnd2⟩, hdisj⟩ := hnd
  obtain ⟨hf1, hfa, hf2⟩ := hfnb
  refine ⟨_, insert_eval_spare v hn hfa (by omega) (by omega) (by omega), ?_⟩
  exact
    { cap_pos := h.cap_pos
      sentinel := ⟨f, by rw [Mem.write_obj_ne _ _ hfa]; exact hf, hfnext, hfprev⟩
      chain := (chain_middle hl).2
        ⟨hch1.congr (fun x hx => Mem.write_obj_ne _ _ (hdisj hx).1),
          ⟨_, Mem.write_obj_same _ _ _, hprev, hnext, by
            simp only [hcnt, insAt_length v hj], by
            intro t ht
            rw [insAt_length v hj] at ht
            rw [insAt_getElem? v hj]
            by_cases h1 : t = j
            · simp only [h1, if_true]
            · simp only [h1, if_false]
              by_cases h2 : t < j
              · have h3 : ¬ (j < t ∧ t ≤ n.count) := by omega
                simp only [h3, if_false, h2, if_true]
                exact hst t (by omega)
              · have h3 : j < t ∧ t ≤ n.count := by omega
                simp only [h3, and_self, if_true, h2, if_false]
                exact hst (t - 1) (by omega)⟩,
          hch2.congr (fun x hx => Mem.write_obj_ne _ _ (fun hxa => haas2 (hxa ▸ hx)))⟩
      counts := by
        intro x hx
        rcases List.mem_append.mp hx with hx | hx
        · exact h.counts x (by simp [hx])
        · rcases List.mem_cons.mp hx with hx | hx
          · subst hx
            rw [insAt_length v hj]
            omega
          · exact h.counts x (by simp [hx])
      nodup := h.nodup
      fake_not_block := h.fake_not_block
      size_eq := by
        show c.size_ + 1 = _
        rw [h.size_eq]
        simp only [List.flatten_append, List.flatten_cons, List.length_append,
          insAt_length v hj]
        omega
      fresh := by
        intro p hp
        have hap : p ≠ a := by
          rintro rfl
          exact Nat.lt_irrefl _ (Nat.lt_of_lt_of_le (h.lt_brk hn) hp)
        rw [Mem.write_obj_ne _ _ hap]
        exact h.fresh p hp }

theorem getElem?_concat_length (l : List α) (x : α) : (l ++ [x])[l.length]? = some x := by
  simp

theorem insert_rep_spill_next {N : Nat} {m : Mem α} {c : unrolled_list} {pv : Option Ptr}
    {as1 as2 : List Ptr} {a a2 : Ptr} {bs1 bs2 : List (List α)} {b0 b2 : List α} {x : α}
    {j : Nat} (v : α)
    (h : Rep N m c pv (as1 ++ a :: a2 :: as2) (bs1 ++ (b0 ++ [x]) :: b2 :: bs2))
    (hl : as1.length = bs1.length) (hj : j ≤ b0.length) (hfull : b0.length + 1 = N)
    (hlt2 : b2.length < N) (hcap : N ≤ 2 ^ 31) :
    ∃ m2, c.insert N ⟨a, j⟩ v m = some (⟨a, j⟩, { c with size_ := c.size_ + 1 }, m2) ∧
      Rep N m2 { c with size_ := c.size_ + 1 } pv (as1 ++ a :: a2 :: as2)
        (bs1 ++ insAt j v b0 :: (x :: b2) :: bs2) := by
  obtain ⟨hch1, ⟨n, hn, hprev, hnext, hcnt, hst⟩, hch2⟩ := (chain_middle hl).1 h.chain
  simp only [Chain] at hch2
  obtain ⟨⟨n2, hn2, hprev2, hnext2, hcnt2, hst2⟩, hch3⟩ := hch2
  rw [List.headD_cons] at hnext
  obtain ⟨f, hf, hfnext, hfprev⟩ := h.sentinel
  have hnd := h.nodup
  have hfnb := h.fake_not_block
  simp only [List.nodup_append, List.nodup_cons, List.mem_append, List.mem_cons,
    List.mem_singleton, not_or, List.disjoint_left] at hnd hfnb
  obtain ⟨hnd1, ⟨⟨haa2, haas2⟩, ha2as2, hnd2⟩, hdisj⟩ := hnd
  obtain ⟨hf1, hfa, hfa2, hf2⟩ := hfnb
  have hcntN : n.count = N := by rw [hcnt]; simp [hfull]
  have hxs : n.storage (N - 1) = some x := by
    have := hst b0.length (by simp)
    rw [getElem?_concat_length] at this
    rw [← this]
    congr 1
    omega
  refine ⟨_, insert_eval_spill_next v hn hn2 hfa hfa2 haa2 hnext (by omega) hcntN hcap
    (by omega), ?_⟩
  exact
    { cap_pos := h.cap_pos
      sentinel := ⟨f, by simp [hfa, hfa2, hf], hfnext, hfprev⟩
      chain := (chain_middle hl).2
        ⟨hch1.congr (fun y hy => by
            have h1 := hdisj hy
            simp [h1.1, h1.2.1]),
          ⟨(⟨n.prev, n.next, fun t => if t = j then some v
              else if j < t ∧ t ≤ N - 1 then n.storage (t - 1) else n.storage t,
              n.count⟩ : Node α),
            by simp, hprev, by simp [hnext], by
            simp only [hcnt, insAt_length v hj, List.length_append, List.length_singleton], by
            intro t ht
            rw [insAt_length v hj] at ht
            rw [insAt_getElem? v hj]
            by_cases h1 : t = j
            · simp only [h1, if_true]
            · simp only [h1, if_false]
              by_cases h2 : t < j
              · have h3 : ¬ (j < t ∧ t ≤ N - 1) := by omega
                simp only [h3, if_false, h2, if_true]
                rw [hst t (by simp; omega), List.getElem?_append_left (by omega)]
              · have h3 : j < t ∧ t ≤ N - 1 := by omega
                simp only [h3, and_self, if_true, h2, if_false]
                rw [hst (t - 1) (by simp; omega), List.getElem?_append_left (by omega)]⟩,
          ⟨(⟨n2.prev, n2.next, fun t => if t = 0 then n.storage (N - 1)
              else if 0 < t ∧ t ≤ n2.count then n2.storage (t - 1) else n2.storage t,
              n2.count + 1⟩ : Node α),
            by simp [Ne.symm haa2], hprev2, hnext2, by simp [hcnt2], by
            intro t ht
            simp only [List.length_cons] at ht
            by_cases h1 : t = 0
            · subst h1
              simp [hxs]
            · obtain ⟨i, rfl⟩ : ∃ i, t = i + 1 := ⟨t - 1, by omega⟩
              have h3 : 0 < i + 1 ∧ i + 1 ≤ n2.count := by omega
              simp only [h1, if_false, h3, and_self, if_true, Nat.add_sub_cancel,
                List.getElem?_cons_succ]
              exact hst2 i (by omega)⟩,
          hch3.congr (fun y hy => by
            have h1 : y ≠ a := fun hya => haas2 (hya ▸ hy)
            have h2 : y ≠ a2 := fun hya => ha2as2 (hya ▸ hy)
            simp [h1, h2])⟩
      counts := by
        intro y hy
        simp only [List.mem_append, List.mem_cons] at hy
        rcases hy with hy | hy | hy | hy
        · exact h.counts y (by simp [hy])
        · subst hy
          rw [insAt_length v hj]
          omega
        · subst hy
          simp only [List.length_cons]
          omega
        · exact h.counts y (by simp [hy])
      nodup := h.nodup
      fake_not_block := h.fake_not_block
      size_eq := by
        show c.size_ + 1 = _
        rw [h.size_eq]
        simp only [List.flatten_append, List.flatten_cons, List.length_append,
          insAt_length v hj, List.length_cons, List.length_singleton, List.length_nil]
        omega
      fresh := by
        intro p hp
        have h1 : p ≠ a := Nat.ne_of_gt (Nat.lt_of_lt_of_le (h.lt_brk hn) hp)
        have h2 : p ≠ a2 := Nat.ne_of_gt (Nat.lt_of_lt_of_le (h.lt_brk hn2) hp)
        simp only [h1, h2, if_false]
        exact h.fresh p hp }

theorem insert_rep_spill_last {N : Nat} {m : Mem α} {c : unrolled_list} {pv : Option Ptr}
    {as1 : List Ptr} {a : Ptr} {bs1 : List (List α)} {b0 : List α} {x : α}
    {j : Nat} (v : α)
    (h : Rep N m c pv (as1 ++ [a]) (bs1 ++ [b0 ++ [x]]))
    (hl : as1.length = bs1.length) (hj : j ≤ b0.length) (hfull : b0.length + 1 = N)
    (hcap : N ≤ 2 ^ 31) :
    ∃ m2, c.insert N ⟨a, j⟩ v m = some (⟨a, j⟩, { c with size_ := c.size_ + 1 }, m2) ∧
      Rep N m2 { c with size_ := c.size_ + 1 } pv (as1 ++ [a] ++ [m.brk])
        (bs1 ++ [insAt j v b0] ++ [[x]]) := by
  obtain ⟨hch1, n, hn, hprev, hnext, hcnt, hst⟩ := (chain_concat hl).1 h.chain
  obtain ⟨f, hf, hfnext, hfprev⟩ := h.sentinel
  rw [headD_concat] at hfnext
  have hnd := h.nodup
  have hfnb := h.fake_not_block
  simp only [List.nodup_append, List.nodup_cons, List.mem_append, List.mem_cons,
    List.mem_singleton, not_or, List.disjoint_left, List.nodup_nil, List.not_mem_nil,
    not_false_eq_true, and_true, true_and] at hnd hfnb
  obtain ⟨hnd1, hdisj⟩ := hnd
  obtain ⟨hf1, hfa⟩ := hfnb
  have hbrk1 : m.brk ∉ as1 := fun hx => h.brk_not_mem (by simp [hx])
  have habrk : a ≠ m.brk := Nat.ne_of_lt (h.lt_brk hn)
  have hfbrk : c.fake_node_ ≠ m.brk := Nat.ne_of_lt (h.lt_brk hf)
  have hcntN : n.count = N := by rw [hcnt]; simp [hfull]
  have hxs : n.storage (N - 1) = some x := by
    have := hst b0.length (by simp)
    rw [getElem?_concat_length] at this
    rw [← this]
    congr 1
    omega
  have hl2 : (as1 ++ [a]).length = (bs1 ++ [insAt j v b0]).length := by simp [hl]
  refine ⟨_, insert_eval_spill_last v hn hf hfa habrk hfbrk hnext (by omega) hcntN hcap, ?_⟩
  exact
    { cap_pos := h.cap_pos
      sentinel := ⟨{ f with prev := m.brk }, by simp [hfa, hfbrk], by
        show f.next = _
        rw [List.append_assoc, List.singleton_append, headD_append_cons]; exact hfnext, by
        rw [getLastD_concat]⟩
      chain := (chain_concat hl2).2
        ⟨(chain_concat hl).2
          ⟨hch1.congr (fun y hy => by
              have h1 : y ≠ a := hdisj hy
              have h2 : y ≠ m.brk := fun hyb => hbrk1 (hyb ▸ hy)
              have h3 : y ≠ c.fake_node_ := fun hyf => hf1 (hyf ▸ hy)
              simp [h1, h2, h3]),
            (⟨n.prev, m.brk, fun t => if t = j then some v
              else if j < t ∧ t ≤ N - 1 then n.storage (t - 1) else n.storage t,
              n.count⟩ : Node α),
            by simp, hprev, rfl, by
              simp only [hcnt, insAt_length v hj, List.length_append, List.length_singleton], by
              intro t ht
              rw [insAt_length v hj] at ht
              rw [insAt_getElem? v hj]
              by_cases h1 : t = j
              · simp only [h1, if_true]
              · simp only [h1, if_false]
                by_cases h2 : t < j
                · have h3 : ¬ (j < t ∧ t ≤ N - 1) := by omega
                  simp only [h3, if_false, h2, if_true]
                  rw [hst t (by simp; omega), List.getElem?_append_left (by omega)]
                · have h3 : j < t ∧ t ≤ N - 1 := by omega
                  simp only [h3, and_self, if_true, h2, if_false]
                  rw [hst (t - 1) (by simp; omega), List.getElem?_append_left (by omega)]⟩,
          (⟨a, c.fake_node_, fun t => if t = 0 then n.storage (N - 1) else none, 1⟩ : Node α),
          by simp [Ne.symm habrk], by simp [lastPtr_concat], rfl, rfl, by
            intro t ht
            simp only [List.length_singleton] at ht
            have : t = 0 := by omega
            subst this
            simp [hxs]⟩
      counts := by
        intro y hy
        simp only [List.mem_append, List.mem_singleton] at hy
        rcases hy with (hy | hy) | hy
        · exact h.counts y (by simp [hy])
        · subst hy
          rw [insAt_length v hj]
          omega
        · subst hy
          simp only [List.length_singleton]
          exact ⟨by omega, h.cap_pos⟩
      nodup := by
        rw [List.nodup_append]
        refine ⟨h.nodup, by simp, ?_⟩
        intro y hy hy2
        simp only [List.mem_singleton] at hy2
        subst hy2
        exact h.brk_not_mem hy
      fake_not_block := by
        intro hx
        rcases List.mem_append.mp hx with hx | hx
        · exact h.fake_not_block hx
        · simp only [List.mem_singleton] at hx
          exact hfbrk hx
      size_eq := by
        show c.size_ + 1 = _
        rw [h.size_eq]
        simp only [List.flatten_append, List.flatten_cons, List.length_append,
          insAt_length v hj, List.length_cons, List.length_singleton, List.length_nil,
          List.flatten_nil]
      fresh := by
        intro p hp
        have hp0 : m.brk < p := hp
        have h1 : p ≠ m.brk := Nat.ne_of_gt hp0
        have h2 : p ≠ c.fake_node_ := Nat.ne_of_gt (Nat.lt_trans (h.lt_brk hf) hp0)
        have h3 : p ≠ a := Nat.ne_of_gt (Nat.lt_trans (h.lt_brk hn) hp0)
        simp only [h1, h2, h3, if_false]
        exact h.fresh p (Nat.le_of_lt hp0) }

theorem insert_rep_spill_between {N : Nat} {m : Mem α} {c : unrolled_list} {pv : Option Ptr}
    {as1 as2 : List Ptr} {a a2 : Ptr} {bs1 bs2 : List (List α)} {b0 b2 : List α} {x : α}
    {j : Nat} (v : α)
    (h : Rep N m c pv (as1 ++ a :: a2 :: as2) (bs1 ++ (b0 ++ [x]) :: b2 :: bs2))
    (hl : as1.length = bs1.length) (hj : j ≤ b0.length) (hfull : b0.length + 1 = N)
    (hfull2 : b2.length = N) (hcap : N ≤ 2 ^ 31) :
    ∃ m2, c.insert N ⟨a, j⟩ v m = some (⟨a, j⟩, { c with size_ := c.size_ + 1 }, m2) ∧
      Rep N m2 { c with size_ := c.size_ + 1 } pv (as1 ++ a :: m.brk :: a2 :: as2)
        (bs1 ++ insAt j v b0 :: [x] :: b2 :: bs2) := by
  obtain ⟨hch1, ⟨n, hn, hprev, hnext, hcnt, hst⟩, hch2⟩ := (chain_middle hl).1 h.chain
  simp only [Chain] at hch2
  obtain ⟨⟨n2, hn2, hprev2, hnext2, hcnt2, hst2⟩, hch3⟩ := hch2
  rw [List.headD_cons] at hnext
  obtain ⟨f, hf, hfnext, hfprev⟩ := h.sentinel
  have hnd := h.nodup
  have hfnb := h.fake_not_block
  have hbrk := h.brk_not_mem
  simp only [List.nodup_append, List.nodup_cons, List.mem_append, List.mem_cons,
    List.mem_singleton, not_or, List.disjoint_left] at hnd hfnb hbrk
  obtain ⟨hnd1, ⟨⟨haa2, haas2⟩, ha2as2, hnd2⟩, hdisj⟩ := hnd
  obtain ⟨hf1, hfa, hfa2, hf2⟩ := hfnb
  obtain ⟨hbrk1, hbrka, hbrka2, hbrk2⟩ := hbrk
  have hfbrk : c.fake_node_ ≠ m.brk := Nat.ne_of_lt (h.lt_brk hf)
  have hcntN : n.count = N := by rw [hcnt]; simp [hfull]
  have hxs : n.storage (N - 1) = some x := by
    have := hst b0.length (by simp)
    rw [getElem?_concat_length] at this
    rw [← this]
    congr 1
    omega
  refine ⟨_, insert_eval_spill_between v hn hn2 hfa hfa2 haa2 (Ne.symm hbrka) (Ne.symm hbrka2)
    hnext (by omega) hcntN hcap (by omega), ?_⟩
  exact
    { cap_pos := h.cap_pos
      sentinel := ⟨f, by simp [hfa, hfa2, hfbrk, hf], by
        rw [hfnext, headD_append_cons, headD_append_cons], by
        rw [hfprev, getLastD_append_cons, getLastD_append_cons, getLastD_cons_cons,
          getLastD_cons_cons, getLastD_cons_cons]⟩
      chain := (chain_middle hl).2
        ⟨hch1.congr (fun y hy => by
            have h1 := hdisj hy
            have h2 : y ≠ m.brk := fun hyb => hbrk1 (hyb ▸ hy)
            simp [h1.1, h1.2.1, h2]),
          ⟨(⟨n.prev, m.brk, fun t => if t = j then some v
              else if j < t ∧ t ≤ N - 1 then n.storage (t - 1) else n.storage t,
              n.count⟩ : Node α),
            by simp, hprev, rfl, by
            simp only [hcnt, insAt_length v hj, List.length_append, List.length_singleton], by
            intro t ht
            rw [insAt_length v hj] at ht
            rw [insAt_getElem? v hj]
            by_cases h1 : t = j
            · simp only [h1, if_true]
            · simp only [h1, if_false]
              by_cases h2 : t < j
              · have h3 : ¬ (j < t ∧ t ≤ N - 1) := by omega
                simp only [h3, if_false, h2, if_true]
                rw [hst t (by simp; omega), List.getElem?_append_left (by omega)]
              · have h3 : j < t ∧ t ≤ N - 1 := by omega
                simp only [h3, and_self, if_true, h2, if_false]
                rw [hst (t - 1) (by simp; omega), List.getElem?_append_left (by omega)]⟩,
          by
            simp only [Chain]
            refine ⟨⟨(⟨a, a2, fun t => if t = 0 then n.storage (N - 1) else none, 1⟩ : Node α),
              by simp [hbrka], by simp, rfl, rfl, ?_⟩,
              ⟨{ n2 with prev := m.brk }, by simp [Ne.symm haa2, Ne.symm hbrka2], by simp,
                hnext2, hcnt2, hst2⟩,
              hch3.congr (fun y hy => by
                have h1 : y ≠ a := fun hya => haas2 (hya ▸ hy)
                have h2 : y ≠ a2 := fun hya => ha2as2 (hya ▸ hy)
                have h3 : y ≠ m.brk := fun hyb => hbrk2 (hyb ▸ hy)
                simp [h1, h2, h3])⟩
            intro t ht
            simp only [List.length_singleton] at ht
            have : t = 0 := by omega
            subst this
            simp [hxs]⟩
      counts := by
        intro y hy
        simp only [List.mem_append, List.mem_cons] at hy
        rcases hy with hy | hy | hy | hy | hy
        · exact h.counts y (by simp [hy])
        · subst hy
          rw [insAt_length v hj]
          omega
        · subst hy
          simp only [List.length_singleton]
          exact ⟨by omega, h.cap_pos⟩
        · subst hy
          exact ⟨by omega, by omega⟩
        · exact h.counts y (by simp [hy])
      nodup := by
        simp only [List.nodup_append, List.nodup_cons, List.mem_append, List.mem_cons,
          List.mem_singleton, not_or, List.disjoint_left]
        exact ⟨hnd1, ⟨⟨Ne.symm hbrka, haa2, haas2⟩, ⟨hbrka2, hbrk2⟩, ha2as2, hnd2⟩,
          fun y hy => ⟨(hdisj hy).1, fun hyb => hbrk1 (hyb ▸ hy), (hdisj hy).2.1,
            (hdisj hy).2.2⟩⟩
      fake_not_block := by
        simp only [List.mem_append, List.mem_cons, not_or]
        exact ⟨hf1, hfa, hfbrk, hfa2, hf2⟩
      size_eq := by
        show c.size_ + 1 = _
        rw [h.size_eq]
        simp only [List.flatten_append, List.flatten_cons, List.length_append,
          insAt_length v hj, List.length_cons, List.length_singleton, List.length_nil]
        omega
      fresh := by
        intro p hp
        have hp0 : m.brk < p := hp
        have h1 : p ≠ m.brk := Nat.ne_of_gt hp0
        have h2 : p ≠ a2 := Nat.ne_of_gt (Nat.lt_trans (h.lt_brk hn2) hp0)
        have h3 : p ≠ a := Nat.ne_of_gt (Nat.lt_trans (h.lt_brk hn) hp0)
        simp only [h1, h2, h3, if_false]
        exact h.fresh p (Nat.le_of_lt hp0) }
theorem insert_end_rep_empty {N : Nat} {m : Mem α} {c : unrolled_list} {pv : Option Ptr}
    (v : α) (h : Rep N m c pv [] []) :
    ∃ m2, c.insert N c.cend v m = some (⟨m.brk, 0⟩, { c with size_ := c.size_ + 1 }, m2) ∧
      Rep N m2 { c with size_ := c.size_ + 1 } (some c.fake_node_) [m.brk] [[v]] := by
  obtain ⟨m2, h1, h2⟩ := push_back_rep_empty v h
  obtain ⟨f, hf, _, _⟩ := h.sentinel
  have hsize : c.size_ = 0 := h.empty_iff.2 rfl
  have hfbrk : c.fake_node_ ≠ m.brk := Nat.ne_of_lt (h.lt_brk hf)
  rw [push_back_eval_empty v hsize hf h.cap_pos hfbrk] at h1
  have hm2 := (Prod.mk.inj (Option.some.inj h1)).2
  refine ⟨m2, ?_, h2⟩
  rw [insert_eval_end_empty v hsize hf h.cap_pos hfbrk, hm2]

theorem insert_end_rep_spare {N : Nat} {m : Mem α} {c : unrolled_list} {pv : Option Ptr}
    {as : List Ptr} {bs0 : List (List α)} {b : List α} (v : α)
    (h : Rep N m c pv as (bs0 ++ [b])) (hlt : b.length < N) :
    ∃ m2, c.insert N c.cend v m =
        some (⟨as.getLastD c.fake_node_, b.length⟩, { c with size_ := c.size_ + 1 }, m2) ∧
      Rep N m2 { c with size_ := c.size_ + 1 } pv as (bs0 ++ [b ++ [v]]) := by
  obtain ⟨m2, h1, h2⟩ := push_back_rep_spare v h hlt
  obtain ⟨as0, a, rfl, hl⟩ := split_last h.length_eq
  obtain ⟨hch0, n, hn, hprev, hnext, hcnt, hst⟩ := (chain_concat hl).1 h.chain
  obtain ⟨f, hf, hfnext, hfprev⟩ := h.sentinel
  have hsize : c.size_ ≠ 0 := by
    rw [Ne, h.empty_iff]; simp
  have hn2 : m.obj f.prev = some (Obj.node n) := by
    rw [hfprev, getLastD_concat]; exact hn
  rw [push_back_eval_spare v hsize hf hn2 (by omega)] at h1
  have hm2 := (Prod.mk.inj (Option.some.inj h1)).2
  refine ⟨m2, ?_, h2⟩
  rw [insert_eval_end_spare v hsize hf hn2 (by omega), hm2, hfprev, hcnt]

/-- A well-formed list stays well-formed when an object is placed at the fresh address:
no block and no link of the chain is touched. -/
theorem Rep.alloc {N : Nat} {m : Mem α} {c : unrolled_list} {pv : Option Ptr}
    {as : List Ptr} {bs : List (List α)} (o : Option (Obj α)) (h : Rep N m c pv as bs) :
    Rep N { obj := fun q => if q = m.brk then o else m.obj q, brk := m.brk + 1 } c pv as bs := by
  obtain ⟨f, hf, hfnext, hfprev⟩ := h.sentinel
  have hfbrk : c.fake_node_ ≠ m.brk := Nat.ne_of_lt (h.lt_brk hf)
  exact
    { cap_pos := h.cap_pos
      sentinel := ⟨f, by simp [hfbrk, hf], hfnext, hfprev⟩
      chain := h.chain.congr (fun y hy => by
        have h1 : y ≠ m.brk := fun hyb => h.brk_not_mem (hyb ▸ hy)
        simp [h1])
      counts := h.counts
      nodup := h.nodup
      fake_not_block := h.fake_not_block
      size_eq := h.size_eq
      fresh := by
        intro p hp
        have hp0 : m.brk < p := hp
        have h1 : p ≠ m.brk := Nat.ne_of_gt hp0
        simp only [h1, if_false]
        exact h.fresh p (Nat.le_of_lt hp0) }

theorem forwardFrom_size (N : Nat) (c : unrolled_list) (m : Mem α) (k fuel : Nat)
    (it : Iterator) :
    forwardFrom N { c with size_ := k } m fuel it = forwardFrom N c m fuel it := by
  induction fuel generalizing it with
  | zero => rfl
  | succ fuel ih =>
    simp only [forwardFrom, unrolled_list.cend]
    by_cases hit : it = ⟨c.fake_node_, 0⟩
    · simp [hit]
    · simp only [hit, if_false, ih]

/-- Forward traversal does not read `size_`. -/
theorem toList_size (N : Nat) (c : unrolled_list) (m : Mem α) (k fuel : Nat) :
    unrolled_list.toList N { c with size_ := k } m fuel = c.toList N m fuel := by
  unfold unrolled_list.toList unrolled_list.cbegin
  cases m.next c.fake_node_ with
  | none => rfl
  | some p => exact forwardFrom_size N c m k fuel ⟨p, 0⟩

/-- Insertion at `end()` when the last block is full: the new block is built at the
fresh address but no link of the chain is changed, so the chain still holds the old
blocks while `size_` has grown by one. -/
theorem insert_end_full_unlinked {N : Nat} {m : Mem α} {c : unrolled_list} {pv : Option Ptr}
    {as : List Ptr} {bs0 : List (List α)} {b : List α} (v : α)
    (h : Rep N m c pv as (bs0 ++ [b])) (hfull : b.length = N) :
    ∃ m2, c.insert N c.cend v m = some (⟨m.brk, 0⟩, { c with size_ := c.size_ + 1 }, m2) ∧
      Rep N m2 c pv as (bs0 ++ [b]) ∧
      LogicalSeq N { c with size_ := c.size_ + 1 } m2 (bs0 ++ [b]).flatten ∧
      m2.obj m.brk = some (Obj.node ⟨as.getLastD c.fake_node_, c.fake_node_,
        fun j => if j = 0 then some v else none, 1⟩) := by
  have h0 := h
  obtain ⟨as0, a, rfl, hl⟩ := split_last h.length_eq
  obtain ⟨hch0, n, hn, hprev, hnext, hcnt, hst⟩ := (chain_concat hl).1 h.chain
  obtain ⟨f, hf, hfnext, hfprev⟩ := h.sentinel
  have hsize : c.size_ ≠ 0 := by
    rw [Ne, h.empty_iff]; simp
  have hn2 : m.obj f.prev = some (Obj.node n) := by
    rw [hfprev, getLastD_concat]; exact hn
  have hrep := h0.alloc (some (Obj.node ⟨f.prev, c.fake_node_,
    fun j => if j = 0 then some v else none, 1⟩))
  refine ⟨_, insert_eval_end_full v hsize hf hn2 (by omega) h.cap_pos, hrep, ?_, ?_⟩
  · intro fuel hfuel
    rw [toList_size]
    exact hrep.logicalSeq fuel hfuel
  · simp [hfprev]

theorem posAt_middle (e : Ptr) (a : Ptr) (b : List α) (as2 : List Ptr) (bs2 : List (List α))
    {j : Nat} (hj : j < b.length) :
    ∀ (bs1 : List (List α)) (as1 : List Ptr), as1.length = bs1.length →
      posAt e (as1 ++ a :: as2) (bs1 ++ b :: bs2) (bs1.flatten.length + j) = ⟨a, j⟩
  | [], [], _ => by simp [posAt, hj]
  | [], _ :: _, hl => by simp at hl
  | _ :: _, [], hl => by simp at hl
  | b1 :: bs1, a1 :: as1, hl => by
    have hl2 : as1.length = bs1.length := by simpa using hl
    have h1 : ¬ (b1.length + bs1.flatten.length + j < b1.length) := by omega
    have h2 : b1.length + bs1.flatten.length + j - b1.length = bs1.flatten.length + j := by
      omega
    simp only [List.cons_append, posAt, List.flatten_cons, List.length_append, h1, if_false, h2]
    exact posAt_middle e a b as2 bs2 hj bs1 as1 hl2

/-- Single-element insert on a well-formed container of capacity at most `2 ^ 31`, before
the `j`-th element of the block `b` at `a`, in the four cases of the source: `b` has
room; `b` is full and last; `b` and the next block are full; `b` is full and the next
block has room. -/
theorem insert_wf_split {N : Nat} {m : Mem α} {c : unrolled_list} {pv : Option Ptr}
    {as1 as2 : List Ptr} {a : Ptr} {bs1 bs2 : List (List α)} {b : List α} {j : Nat} (v : α)
    (h : Rep N m c pv (as1 ++ a :: as2) (bs1 ++ b :: bs2))
    (hl : as1.length = bs1.length) (hj : j < b.length) (hcap : N ≤ 2 ^ 31) :
    ∃ m2 as3 bs3,
      c.insert N ⟨a, j⟩ v m = some (⟨a, j⟩, { c with size_ := c.size_ + 1 }, m2) ∧
      Rep N m2 { c with size_ := c.size_ + 1 } pv as3 bs3 ∧
      bs3.flatten = insAt (bs1.flatten.length + j) v (bs1 ++ b :: bs2).flatten ∧
      posAt c.fake_node_ as3 bs3 (bs1.flatten.length + j) = ⟨a, j⟩ ∧
      (b.length < N → as3 = as1 ++ a :: as2 ∧ bs3 = bs1 ++ insAt j v b :: bs2) ∧
      (b.length = N → as2 = [] →
        as3 = as1 ++ [a, m.brk] ∧
        bs3 = bs1 ++ [insAt j v b.dropLast, b.drop (b.length - 1)]) ∧
      (b.length = N → ∀ a2 r b2 s, as2 = a2 :: r → bs2 = b2 :: s → b2.length = N →
        as3 = as1 ++ a :: m.brk :: a2 :: r ∧
        bs3 = bs1 ++ insAt j v b.dropLast :: b.drop (b.length - 1) :: b2 :: s) ∧
      (b.length = N → ∀ a2 r b2 s, as2 = a2 :: r → bs2 = b2 :: s → b2.length < N →
        as3 = as1 ++ a :: a2 :: r ∧
        bs3 = bs1 ++ insAt j v b.dropLast :: (b.drop (b.length - 1) ++ b2) :: s) := by
  have hl2 : as2.length = bs2.length := by
    have := h.length_eq
    simp only [List.length_append, List.length_cons] at this
    omega
  have hbN : b.length ≤ N := (h.counts b (by simp)).2
  by_cases hlt : b.length < N
  · obtain ⟨m2, he, hr⟩ := insert_rep_spare v h hl (Nat.le_of_lt hj) hlt hcap
    refine ⟨m2, _, _, he, hr, flatten_insAt_middle bs1 bs2 b v (Nat.le_of_lt hj), ?_,
      fun _ => ⟨rfl, rfl⟩, fun h1 => by omega, fun h1 => by omega, fun h1 => by omega⟩
    exact posAt_middle _ a _ as2 bs2 (by rw [insAt_length v (Nat.le_of_lt hj)]; omega) bs1 as1 hl
  · have hfull : b.length = N := by omega
    obtain ⟨b0, x, rfl⟩ : ∃ b0 x, b = b0 ++ [x] := by
      rcases List.eq_nil_or_concat b with rfl | ⟨b0, x, rfl⟩
      · simp at hj
      · exact ⟨b0, x, by simp⟩
    have hj0 : j ≤ b0.length := by
      simp only [List.length_append, List.length_singleton] at hj
      omega
    have hfull0 : b0.length + 1 = N := by simpa using hfull
    have hdl : (b0 ++ [x]).dropLast = b0 := by simp
    have hdr : (b0 ++ [x]).drop ((b0 ++ [x]).length - 1) = [x] := by simp
    have hpos : ∀ (as4 : List Ptr) (bs4 : List (List α)),
        posAt c.fake_node_ (as1 ++ a :: as4) (bs1 ++ insAt j v b0 :: bs4)
          (bs1.flatten.length + j) = ⟨a, j⟩ := fun as4 bs4 =>
      posAt_middle _ a _ as4 bs4 (by rw [insAt_length v hj0]; omega) bs1 as1 hl
    have hflat : ∀ (bs4 : List (List α)),
        (bs1 ++ insAt j v b0 :: [x] :: bs4).flatten =
          insAt (bs1.flatten.length + j) v (bs1 ++ (b0 ++ [x]) :: bs4).flatten := by
      intro bs4
      rw [flatten_insAt_middle bs1 ([x] :: bs4) b0 v hj0]
      simp
    rw [hdl, hdr]
    cases as2 with
    | nil =>
      have hbs2 : bs2 = [] := List.length_eq_zero.mp hl2.symm
      subst hbs2
      obtain ⟨m2, he, hr⟩ := insert_rep_spill_last v h hl hj0 hfull0 hcap
      rw [List.append_assoc, List.append_assoc] at hr
      refine ⟨m2, _, _, he, hr, hflat [], hpos _ _, fun h1 => by omega,
        fun _ _ => ⟨rfl, rfl⟩, fun _ a2 r b2 s h1 => by simp at h1,
        fun _ a2 r b2 s h1 => by simp at h1⟩
    | cons a2 as2 =>
      obtain ⟨b2, bs2, rfl⟩ : ∃ b2 r, bs2 = b2 :: r := by
        cases bs2 with
        | nil => simp at hl2
        | cons b2 r => exact ⟨b2, r, rfl⟩
      have hb2N : b2.length ≤ N := (h.counts b2 (by simp)).2
      by_cases hlt2 : b2.length < N
      · obtain ⟨m2, he, hr⟩ := insert_rep_spill_next v h hl hj0 hfull0 hlt2 hcap
        refine ⟨m2, _, _, he, hr, ?_, hpos _ _, fun h1 => by omega,
          fun _ h1 => by simp at h1, ?_, ?_⟩
        · rw [flatten_insAt_middle bs1 ((x :: b2) :: bs2) b0 v hj0]
          simp
        · intro _ a3 r b3 s h1 h2 h3
          simp only [List.cons.injEq] at h1 h2
          rw [← h2.1] at h3
          omega
        · intro _ a3 r b3 s h1 h2 _
          simp only [List.cons.injEq] at h1 h2
          rw [← h1.1, ← h1.2, ← h2.1, ← h2.2]
          exact ⟨rfl, rfl⟩
      · have hfull2 : b2.length = N := by omega
        obtain ⟨m2, he, hr⟩ := insert_rep_spill_between v h hl hj0 hfull0 hfull2 hcap
        refine ⟨m2, _, _, he, hr, hflat _, hpos _ _, fun h1 => by omega,
          fun _ h1 => by simp at h1, ?_, ?_⟩
        · intro _ a3 r b3 s h1 h2 _
          simp only [List.cons.injEq] at h1 h2
          rw [← h1.1, ← h1.2, ← h2.1, ← h2.2]
          exact ⟨rfl, rfl⟩
        · intro _ a3 r b3 s h1 h2 h3
          simp only [List.cons.injEq] at h1 h2
          rw [← h2.1] at h3
          omega

/-- Single-element insert at the valid non-end position of logical index `k`, for block
capacities up to `2 ^ 31`: the call returns the position it was given, the result is a
well-formed chain whose logical sequence is `s[0..k) ++ [v] ++ s[k..)`, `size()` grows
by one, and the returned position lies at logical index `k` of the result. -/
theorem insert_wf {N : Nat} {m : Mem α} {c : unrolled_list} {pv : Option Ptr}
    {as : List Ptr} {bs : List (List α)} (v : α) (k : Nat) (h : Rep N m c pv as bs)
    (hk : k < bs.flatten.length) (hcap : N ≤ 2 ^ 31) :
    ∃ m2 as3 bs3,
      c.insert N (posAt c.fake_node_ as bs k) v m =
        some (posAt c.fake_node_ as bs k, { c with size_ := c.size_ + 1 }, m2) ∧
      Rep N m2 { c with size_ := c.size_ + 1 } pv as3 bs3 ∧
      LogicalSeq N { c with size_ := c.size_ + 1 } m2
        (bs.flatten.take k ++ [v] ++ bs.flatten.drop k) ∧
      bs3.flatten = bs.flatten.take k ++ [v] ++ bs.flatten.drop k ∧
      c.size_ + 1 = bs.flatten.length + 1 ∧
      posAt c.fake_node_ as3 bs3 k = posAt c.fake_node_ as bs k := by
  obtain ⟨bs1, b, bs2, j, rfl, hj, rfl, hpos⟩ := posAt_split c.fake_node_ bs as k h.length_eq hk
  obtain ⟨as1, a, as2, rfl, hl1, hl2⟩ := split_middle h.length_eq
  have hdrop : ((as1 ++ a :: as2).drop bs1.length).headD c.fake_node_ = a := by
    rw [← hl1, List.drop_left]; rfl
  rw [hpos, hdrop]
  obtain ⟨m2, as3, bs3, he, hr, hflat, hp, -⟩ := insert_wf_split v h hl1 hj hcap
  have hins : insAt (bs1.flatten.length + j) v (bs1 ++ b :: bs2).flatten =
      (bs1 ++ b :: bs2).flatten.take (bs1.flatten.length + j) ++ [v] ++
        (bs1 ++ b :: bs2).flatten.drop (bs1.flatten.length + j) := by
    simp [insAt]
  rw [hins] at hflat
  refine ⟨m2, as3, bs3, he, hr, ?_, hflat, by rw [h.size_eq], hp⟩
  rw [← hflat]
  exact hr.logicalSeq

/-! ## Positions and iterator steps -/

theorem Rep.posAt_zero {N : Nat} {m : Mem α} {c : unrolled_list} {pv : Option Ptr}
    {as : List Ptr} {bs : List (List α)} (h : Rep N m c pv as bs) :
    posAt c.fake_node_ as bs 0 = ⟨as.headD c.fake_node_, 0⟩ := by
  have hl := h.length_eq
  cases as with
  | nil => cases bs <;> rfl
  | cons a as =>
    cases bs with
    | nil => simp at hl
    | cons b bs =>
      have hb := (h.counts b (by simp)).1
      simp [posAt, hb]

theorem Rep.posAt_length {N : Nat} {m : Mem α} {c : unrolled_list} {pv : Option Ptr}
    {as : List Ptr} {bs : List (List α)} (h : Rep N m c pv as bs) :
    posAt c.fake_node_ as bs bs.flatten.length = ⟨c.fake_node_, 0⟩ := by
  rcases posAt_end c.fake_node_ bs as h.length_eq with h1 | ⟨b, hb, hb0⟩
  · exact h1
  · have := (h.counts b hb).1
    omega

/-- A valid non-end position lies in a block `a` of the chain, at an index `j` below the
count of that block. -/
theorem Rep.pos_cases {N : Nat} {m : Mem α} {c : unrolled_list} {pv : Option Ptr}
    {as : List Ptr} {bs : List (List α)} (h : Rep N m c pv as bs) {k : Nat}
    (hk : k < bs.flatten.length) :
    ∃ as1 a as2 bs1 b bs2 j, as = as1 ++ a :: as2 ∧ bs = bs1 ++ b :: bs2 ∧
      as1.length = bs1.length ∧ j < b.length ∧ k = bs1.flatten.length + j ∧
      posAt c.fake_node_ as bs k = ⟨a, j⟩ := by
  obtain ⟨bs1, b, bs2, j, rfl, hj, rfl, hpos⟩ := posAt_split c.fake_node_ bs as k h.length_eq hk
  obtain ⟨as1, a, as2, rfl, hl1, hl2⟩ := split_middle h.length_eq
  have hdrop : ((as1 ++ a :: as2).drop bs1.length).headD c.fake_node_ = a := by
    rw [← hl1, List.drop_left]; rfl
  rw [hdrop] at hpos
  exact ⟨as1, a, as2, bs1, b, bs2, j, rfl, rfl, hl1, hj, rfl, hpos⟩

theorem flatten_getElem?_middle (bs1 bs2 : List (List α)) (b : List α) {j : Nat}
    (hj : j < b.length) : (bs1 ++ b :: bs2).flatten[bs1.flatten.length + j]? = b[j]? := by
  simp only [List.flatten_append, List.flatten_cons]
  rw [List.getElem?_append_right (by omega), Nat.add_sub_cancel_left,
    List.getElem?_append_left hj]

/-- Dereferencing the valid position at logical index `k` yields the `k`-th element. -/
theorem Rep.deref_posAt {N : Nat} {m : Mem α} {c : unrolled_list} {pv : Option Ptr}
    {as : List Ptr} {bs : List (List α)} (h : Rep N m c pv as bs) {k : Nat}
    (hk : k < bs.flatten.length) :
    (posAt c.fake_node_ as bs k).deref N m = bs.flatten[k]? := by
  obtain ⟨as1, a, as2, bs1, b, bs2, j, rfl, rfl, hl, hj, rfl, hpos⟩ := h.pos_cases hk
  obtain ⟨-, ⟨n, hn, -, -, hcnt, hst⟩, -⟩ := (chain_middle hl).1 h.chain
  have hbN := (h.counts b (by simp)).2
  rw [hpos, flatten_getElem?_middle bs1 bs2 b hj]
  simp [Iterator.deref, Mem.slot_node hn (show j < N by omega), hst j hj]

/-- A valid non-end position is not `end()`. -/
theorem Rep.posAt_ne_end {N : Nat} {m : Mem α} {c : unrolled_list} {pv : Option Ptr}
    {as : List Ptr} {bs : List (List α)} (h : Rep N m c pv as bs) {k : Nat}
    (hk : k < bs.flatten.length) : posAt c.fake_node_ as bs k ≠ c.cend := by
  obtain ⟨as1, a, as2, bs1, b, bs2, j, rfl, rfl, hl, hj, rfl, hpos⟩ := h.pos_cases hk
  rw [hpos]
  intro he
  have : a = c.fake_node_ := congrArg Iterator.ptr_ he
  exact h.fake_not_block (by simp [this])

/-- `++p` at the valid position of logical index `k` is the valid position of logical
index `k + 1`. -/
theorem Rep.inc_posAt {N : Nat} {m : Mem α} {c : unrolled_list} {pv : Option Ptr}
    {as : List Ptr} {bs : List (List α)} (h : Rep N m c pv as bs) {k : Nat}
    (hk : k < bs.flatten.length) :
    (posAt c.fake_node_ as bs k).inc m = some (posAt c.fake_node_ as bs (k + 1)) := by
  have h0 := h
  obtain ⟨as1, a, as2, bs1, b, bs2, j, rfl, rfl, hl, hj, rfl, hpos⟩ := h.pos_cases hk
  obtain ⟨-, ⟨n, hn, -, hnext, hcnt, -⟩, -⟩ := (chain_middle hl).1 h.chain
  rw [hpos]
  by_cases hlast : j + 1 = b.length
  · have hinc : Iterator.inc m ⟨a, j⟩ = some ⟨as2.headD c.fake_node_, 0⟩ := by
      simp [Iterator.inc, Mem.node_node hn, hcnt, hnext, hlast]
    rw [hinc]
    have hl2 : as2.length = bs2.length := by
      have := h.length_eq
      simp only [List.length_append, List.length_cons] at this
      omega
    cases as2 with
    | nil =>
      have hbs2 : bs2 = [] := List.length_eq_zero.mp hl2.symm
      subst hbs2
      have hlen : bs1.flatten.length + j + 1 = (bs1 ++ [b]).flatten.length := by
        simp; omega
      rw [hlen, h0.posAt_length]
      rfl
    | cons a2 as2 =>
      obtain ⟨b2, bs2, rfl⟩ : ∃ b2 r, bs2 = b2 :: r := by
        cases bs2 with
        | nil => simp at hl2
        | cons b2 r => exact ⟨b2, r, rfl⟩
      have hb2 := (h.counts b2 (by simp)).1
      have hlen : bs1.flatten.length + j + 1 = (bs1 ++ [b]).flatten.length + 0 := by
        simp; omega
      have e1 : as1 ++ a :: a2 :: as2 = (as1 ++ [a]) ++ a2 :: as2 := by simp
      have e2 : bs1 ++ b :: b2 :: bs2 = (bs1 ++ [b]) ++ b2 :: bs2 := by simp
      rw [hlen, e1, e2, posAt_middle _ a2 b2 as2 bs2 hb2 (bs1 ++ [b]) (as1 ++ [a]) (by simp [hl])]
      rfl
  · have hinc : Iterator.inc m ⟨a, j⟩ = some ⟨a, j + 1⟩ := by
      simp [Iterator.inc, Mem.node_node hn, hcnt, hlast]
    rw [hinc, Nat.add_assoc, posAt_middle _ a b as2 bs2 (by omega) bs1 as1 hl]

/-- `--q` at the valid position of logical index `k > 0` (`end()` for `k` the number of
elements) is the valid position of logical index `k - 1`. -/
theorem Rep.dec_posAt {N : Nat} {m : Mem α} {c : unrolled_list} {pv : Option Ptr}
    {as : List Ptr} {bs : List (List α)} (h : Rep N m c pv as bs) {k : Nat}
    (hk0 : 0 < k) (hk : k ≤ bs.flatten.length) :
    (posAt c.fake_node_ as bs k).dec m = some (posAt c.fake_node_ as bs (k - 1)) := by
  have h0 := h
  rcases Nat.lt_or_ge k bs.flatten.length with hlt | hge
  · obtain ⟨as1, a, as2, bs1, b, bs2, j, rfl, rfl, hl, hj, rfl, hpos⟩ := h.pos_cases hlt
    obtain ⟨hch1, ⟨n, hn, hprev, -, hcnt, -⟩, -⟩ := (chain_middle hl).1 h.chain
    rw [hpos]
    by_cases hj0 : j = 0
    · subst hj0
      rw [Nat.add_zero] at hk0 ⊢
      obtain ⟨bs0, b0, rfl⟩ : ∃ bs0 b0, bs1 = bs0 ++ [b0] := by
        rcases List.eq_nil_or_concat bs1 with rfl | ⟨bs0, b0, rfl⟩
        · simp at hk0
        · exact ⟨bs0, b0, by simp⟩
      · obtain ⟨as0, a0, rfl, hl0⟩ := split_last hl
        obtain ⟨-, n0, hn0, -, -, hcnt0, -⟩ := (chain_concat hl0).1 hch1
        have hb0 := (h.counts b0 (by simp)).1
        have hp : n.prev = a0 := hprev a0 (lastPtr_concat pv as0 a0)
        have hdec : Iterator.dec m ⟨a, 0⟩ = some ⟨a0, b0.length - 1⟩ := by
          simp [Iterator.dec, Mem.prev_node hn, hp, Mem.count_node hn0, hcnt0, decr_pos hb0]
        have hlen : (bs0 ++ [b0]).flatten.length - 1 = bs0.flatten.length + (b0.length - 1) := by
          simp; omega
        rw [hdec, hlen, List.append_assoc, List.append_assoc, List.singleton_append,
          List.singleton_append, posAt_middle _ a0 b0 _ _ (by omega) bs0 as0 hl0]
    · have hdec : Iterator.dec m ⟨a, j⟩ = some ⟨a, j - 1⟩ := by
        simp [Iterator.dec, hj0]
      have hlen : bs1.flatten.length + j - 1 = bs1.flatten.length + (j - 1) := by omega
      rw [hdec, hlen, posAt_middle _ a b as2 bs2 (by omega) bs1 as1 hl]
  · have hke : k = bs.flatten.length := Nat.le_antisymm hk hge
    subst hke
    rw [h.posAt_length]
    obtain ⟨bs0, b0, rfl⟩ : ∃ bs0 b0, bs = bs0 ++ [b0] := by
      rcases List.eq_nil_or_concat bs with rfl | ⟨bs0, b0, rfl⟩
      · simp at hk0
      · exact ⟨bs0, b0, by simp⟩
    · obtain ⟨as0, a0, rfl, hl0⟩ := split_last h.length_eq
      obtain ⟨-, n0, hn0, -, -, hcnt0, -⟩ := (chain_concat hl0).1 h.chain
      obtain ⟨f, hf, -, hfprev⟩ := h.sentinel
      rw [getLastD_concat] at hfprev
      have hb0 := (h.counts b0 (by simp)).1
      have hdec : Iterator.dec m ⟨c.fake_node_, 0⟩ = some ⟨a0, b0.length - 1⟩ := by
        simp [Iterator.dec, Mem.prev_base hf, hfprev, Mem.count_node hn0, hcnt0, decr_pos hb0]
      have hlen : (bs0 ++ [b0]).flatten.length - 1 = bs0.flatten.length + (b0.length - 1) := by
        simp; omega
      have e1 : as0 ++ [a0] = as0 ++ a0 :: [] := rfl
      have e2 : bs0 ++ [b0] = bs0 ++ b0 :: [] := rfl
      rw [hdec, hlen, e1, e2, posAt_middle _ a0 b0 _ _ (by omega) bs0 as0 hl0]
/-! ## Reverse traversal of a chain -/

theorem Rep.posAt_eq_begin {N : Nat} {m : Mem α} {c : unrolled_list} {pv : Option Ptr}
    {as : List Ptr} {bs : List (List α)} (h : Rep N m c pv as bs) {k : Nat}
    (hk : k ≤ bs.flatten.length)
    (he : posAt c.fake_node_ as bs k = posAt c.fake_node_ as bs 0) : k = 0 := by
  by_contra hk0
  rw [h.posAt_zero] at he
  rcases Nat.lt_or_ge k bs.flatten.length with hlt | hge
  · obtain ⟨as1, a, as2, bs1, b, bs2, j, rfl, rfl, hl, hj, rfl, hpos⟩ := h.pos_cases hlt
    rw [hpos] at he
    have hj0 : j = 0 := congrArg Iterator.index_ he
    have ha : a = (as1 ++ a :: as2).headD c.fake_node_ := congrArg Iterator.ptr_ he
    cases as1 with
    | nil =>
      have hbs1 : bs1 = [] := List.length_eq_zero.mp hl.symm
      subst hbs1
      subst hj0
      exact hk0 rfl
    | cons a1 as1 =>
      have hnd := h.nodup
      rw [List.cons_append, List.headD_cons] at ha
      subst ha
      simp at hnd
  · have hke : k = bs.flatten.length := Nat.le_antisymm hk hge
    subst hke
    rw [h.posAt_length] at he
    have hf : c.fake_node_ = as.headD c.fake_node_ := congrArg Iterator.ptr_ he
    cases as with
    | nil =>
      have hbs : bs = [] := List.length_eq_zero.mp h.length_eq.symm
      subst hbs
      exact hk0 rfl
    | cons a as =>
      rw [List.headD_cons] at hf
      exact h.fake_not_block (by simp [hf])

theorem backwardFrom_posAt {N : Nat} {m : Mem α} {c : unrolled_list} {pv : Option Ptr}
    {as : List Ptr} {bs : List (List α)} (h : Rep N m c pv as bs) :
    ∀ (k fuel : Nat), k ≤ bs.flatten.length → k < fuel →
      backwardFrom N m (posAt c.fake_node_ as bs 0) fuel (posAt c.fake_node_ as bs k) =
        some (bs.flatten.take k).reverse
  | 0, fuel, _, hf => by
    obtain ⟨f, rfl⟩ : ∃ f, fuel = f + 1 := ⟨fuel - 1, by omega⟩
    simp [backwardFrom]
  | k + 1, fuel, hk, hf => by
    obtain ⟨f, rfl⟩ : ∃ f, fuel = f + 1 := ⟨fuel - 1, by omega⟩
    have hne : posAt c.fake_node_ as bs (k + 1) ≠ posAt c.fake_node_ as bs 0 := fun he =>
      absurd (h.posAt_eq_begin hk he) (by omega)
    have hdec : (posAt c.fake_node_ as bs (k + 1)).dec m = some (posAt c.fake_node_ as bs k) := by
      simpa using h.dec_posAt (Nat.succ_pos k) hk
    have hklt : k < bs.flatten.length := by omega
    have hderef := h.deref_posAt hklt
    rw [List.getElem?_eq_getElem hklt] at hderef
    have ih := backwardFrom_posAt h k f (by omega) (by omega)
    simp only [backwardFrom, hne, if_false, hdec, Option.some_bind, hderef, ih,
      Option.map_some']
    rw [List.take_succ, List.getElem?_eq_getElem hklt]
    simp only [Option.toList_some, List.reverse_append, List.reverse_cons, List.reverse_nil,
      List.nil_append, List.singleton_append]

/-- Reverse traversal of a represented container yields the elements in reverse order,
whenever it is given more than `|s|` steps. -/
theorem Rep.toListRev {N : Nat} {m : Mem α} {c : unrolled_list} {pv : Option Ptr}
    {as : List Ptr} {bs : List (List α)} (h : Rep N m c pv as bs) (fuel : Nat)
    (hf : bs.flatten.length < fuel) : c.toListRev N m fuel = some bs.flatten.reverse := by
  have hb := backwardFrom_posAt h bs.flatten.length fuel (Nat.le_refl _) hf
  rw [h.posAt_length, h.posAt_zero, List.take_length] at hb
  simp only [unrolled_list.toListRev, h.cbegin, Option.some_bind]
  exact hb

/-- For a represented container `size()` is the number of elements of the forward
traversal and of the reverse traversal. -/
theorem Rep.size_eq_traversals {N : Nat} {m : Mem α} {c : unrolled_list} {pv : Option Ptr}
    {as : List Ptr} {bs : List (List α)} (h : Rep N m c pv as bs) (fuel : Nat)
    (hf : bs.flatten.length < fuel) :
    (c.toList N m fuel).map List.length = some c.size ∧
      (c.toListRev N m fuel).map List.length = some c.size := by
  rw [h.logicalSeq fuel hf, h.toListRev fuel hf]
  simp [unrolled_list.size, h.size_eq]

theorem backwardFrom_mono {N : Nat} {m : Mem α} {b : Iterator} :
    ∀ (fuel : Nat) (it : Iterator) (xs : List α),
      backwardFrom N m b fuel it = some xs → backwardFrom N m b (fuel + 1) it = some xs
  | 0, _, _, h => by simp [backwardFrom] at h
  | fuel + 1, it, xs, h => by
    rw [backwardFrom] at h ⊢
    by_cases he : it = b
    · simpa [he] using h
    · simp only [he, if_false] at h ⊢
      cases hd : it.dec m with
      | none => simp [hd] at h
      | some it2 =>
        cases hx : it2.deref N m with
        | none => simp [hd, hx] at h
        | some x =>
          cases hr : backwardFrom N m b fuel it2 with
          | none => simp [hd, hx, hr] at h
          | some ys =>
            simp only [hd, hx, hr, Option.some_bind, Option.map_some'] at h
            simp only [hx, Option.some_bind, backwardFrom_mono fuel it2 ys hr, Option.map_some']
            exact h

theorem toListRev_mono {N : Nat} {c : unrolled_list} {m : Mem α} {xs : List α} {fuel : Nat}
    (h : c.toListRev N m fuel = some xs) : ∀ k, c.toListRev N m (fuel + k) = some xs
  | 0 => h
  | k + 1 => by
    have ih := toListRev_mono h k
    unfold unrolled_list.toListRev at ih ⊢
    cases hb : c.cbegin m with
    | none => simp [hb] at ih
    | some b =>
      simp only [hb, Option.some_bind] at ih ⊢
      exact backwardFrom_mono _ _ _ ih

theorem toListRev_unique {N : Nat} {c : unrolled_list} {m : Mem α} {xs ys : List α}
    {f g : Nat} (h1 : c.toListRev N m f = some xs) (h2 : c.toListRev N m g = some ys) :
    xs = ys := by
  have a := toListRev_mono h1 g
  have b := toListRev_mono h2 f
  rw [Nat.add_comm] at b
  rw [a] at b
  exact Option.some.inj b

/-- C13: in a well-formed container with logical sequence `bs.flatten`, for every logical
index `k` below the number of elements, `++` at the valid position of index `k` is the
valid position of index `k + 1`, and `--` at the valid position of index `k + 1` is the
valid position of index `k`; hence `--(++p) = p` and `++(--q) = q`.  The valid position
whose index is the number of elements is `end()`. -/
theorem iterator_step_spec (N : Nat) (m : Mem α) (c : unrolled_list) (as : List Ptr)
    (bs : List (List α)) (k : Nat) (h : WellFormed N m c as bs)
    (hk : k < bs.flatten.length) :
    (posAt c.fake_node_ as bs k).inc m = some (posAt c.fake_node_ as bs (k + 1)) ∧
    (posAt c.fake_node_ as bs (k + 1)).dec m = some (posAt c.fake_node_ as bs k) ∧
    ((posAt c.fake_node_ as bs k).inc m).bind (Iterator.dec m) =
      some (posAt c.fake_node_ as bs k) ∧
    ((posAt c.fake_node_ as bs (k + 1)).dec m).bind (Iterator.inc m) =
      some (posAt c.fake_node_ as bs (k + 1)) ∧
    posAt c.fake_node_ as bs bs.flatten.length = c.cend := by
  have hinc := Rep.inc_posAt h hk
  have hdec : (posAt c.fake_node_ as bs (k + 1)).dec m = some (posAt c.fake_node_ as bs k) := by
    simpa using Rep.dec_posAt h (Nat.succ_pos k) (Nat.succ_le_of_lt hk)
  refine ⟨hinc, hdec, ?_, ?_, Rep.posAt_length h⟩
  · rw [hinc, Option.some_bind, hdec]
  · rw [hdec, Option.some_bind, hinc]

/-- Witness for C13 on the example container `[1, 2] [3]` of capacity 2, at logical
index 1 (the step from the last slot of the first block into the second block). -/
theorem iterator_step_spec_witness :
    (WellFormed 2 exMem exList [2, 3] [[1, 2], [3]] ∧
      1 < ([[1, 2], [3]] : List (List Nat)).flatten.length) ∧
    ((posAt exList.fake_node_ [2, 3] [[1, 2], [3]] 1).inc exMem =
        some (posAt exList.fake_node_ [2, 3] [[1, 2], [3]] (1 + 1)) ∧
      (posAt exList.fake_node_ [2, 3] [[1, 2], [3]] (1 + 1)).dec exMem =
        some (posAt exList.fake_node_ [2, 3] [[1, 2], [3]] 1) ∧
      ((posAt exList.fake_node_ [2, 3] [[1, 2], [3]] 1).inc exMem).bind (Iterator.dec exMem) =
        some (posAt exList.fake_node_ [2, 3] [[1, 2], [3]] 1) ∧
      ((posAt exList.fake_node_ [2, 3] [[1, 2], [3]] (1 + 1)).dec exMem).bind
          (Iterator.inc exMem) =
        some (posAt exList.fake_node_ [2, 3] [[1, 2], [3]] (1 + 1)) ∧
      posAt exList.fake_node_ [2, 3] [[1, 2], [3]]
        ([[1, 2], [3]] : List (List Nat)).flatten.length = exList.cend) :=
  ⟨⟨exMem_wellFormed, by decide⟩,
    iterator_step_spec 2 exMem exList [2, 3] [[1, 2], [3]] 1 exMem_wellFormed (by decide)⟩

/-- C11 (the code departs from the claim): on the well-formed container `[1, 2]` of
capacity 2, whose last block is full, after `insert(end(), 3)` the member `size()` is 3
while a full forward traversal from `begin()` to `end()` visits 2 elements and a full
reverse traversal from `end()` back to `begin()` visits 2 elements. -/
theorem size_not_traversal_count_after_insert :
    WellFormed 2 exFullMem exFullList [2] [[1, 2]] ∧
    ((exFullList.insert 2 exFullList.cend 3 exFullMem).map fun r => r.2.1.size) = some 3 ∧
    (∀ fuel xs, ((exFullList.insert 2 exFullList.cend 3 exFullMem).bind
      fun r => r.2.1.toList 2 r.2.2 fuel) = some xs → xs.length = 2) ∧
    (∀ fuel xs, ((exFullList.insert 2 exFullList.cend 3 exFullMem).bind
      fun r => r.2.1.toListRev 2 r.2.2 fuel) = some xs → xs.length = 2) ∧
    ((exFullList.insert 2 exFullList.cend 3 exFullMem).bind
      fun r => r.2.1.toList 2 r.2.2 3) = some [1, 2] ∧
    ((exFullList.insert 2 exFullList.cend 3 exFullMem).bind
      fun r => r.2.1.toListRev 2 r.2.2 3) = some [2, 1] := by
  have h1 : ((exFullList.insert 2 exFullList.cend 3 exFullMem).bind
      fun r => r.2.1.toList 2 r.2.2 3) = some [1, 2] := by decide
  have h2 : ((exFullList.insert 2 exFullList.cend 3 exFullMem).bind
      fun r => r.2.1.toListRev 2 r.2.2 3) = some [2, 1] := by decide
  refine ⟨exFullMem_wellFormed, by decide, ?_, ?_, h1, h2⟩
  · intro fuel xs h3
    cases hr : exFullList.insert 2 exFullList.cend 3 exFullMem with
    | none => simp [hr] at h1
    | some s =>
      simp only [hr, Option.some_bind] at h1 h3
      rw [toList_unique h3 h1]
      rfl
  · intro fuel xs h3
    cases hr : exFullList.insert 2 exFullList.cend 3 exFullMem with
    | none => simp [hr] at h2
    | some s =>
      simp only [hr, Option.some_bind] at h2 h3
      rw [toListRev_unique h3 h2]
      rfl

/-! ## The count-and-value constructor -/

theorem new_fill_two_blocks (ind : Ptr) :
    unrolled_list.new_fill 1 2 7 ind emptyMem = some (⟨1, 2⟩, filledMem ind) := by
  simp [unrolled_list.new_fill, fillLoop, emptyMem, Mem.allocate, Mem.constructNodeFill,
    Mem.setNext, Mem.setPrev, Mem.write, bind, pure, filledMem]
  funext q
  by_cases h1 : q = 1
  · simp [h1]
  · by_cases h2 : q = 2
    · simp [h2]
    · by_cases h3 : q = 3
      · simp [h3]
      · simp [h1, h2, h3]

theorem filledMem_backward (ind : Ptr) (hind : ind ≠ 2) :
    ∀ fuel, backwardFrom 1 (filledMem ind) ⟨2, 0⟩ fuel ⟨3, 0⟩ = none
  | 0 => rfl
  | fuel + 1 => by
    have hne : (⟨3, 0⟩ : Iterator) ≠ ⟨2, 0⟩ := by decide
    have hprev : (filledMem ind).prev 3 = some ind := rfl
    simp only [backwardFrom, hne, if_false, Iterator.dec, if_true, hprev, Option.some_bind]
    by_cases h3 : ind = 3
    · subst h3
      have hcnt : (filledMem 3).count 3 = some 1 := rfl
      have hd : decr 1 = 0 := rfl
      simp only [hcnt, Option.map_some', Option.some_bind, hd, filledMem_backward 3 hind fuel,
        Option.map_none']
      cases Iterator.deref 1 (filledMem 3) ⟨3, 0⟩ <;> rfl
    · have hcnt : (filledMem ind).count ind = none := by
        by_cases h1 : ind = 1
        · subst h1; rfl
        · simp [Mem.count, Mem.node, filledMem, h1, hind, h3]
      simp [hcnt]

/-- C12 (the code departs from the claim): `unrolled_list<T, 1>(2, 7)`, built by the
count-and-value constructor in the empty memory.  The block constructor used there,
`Node(BaseNode*, BaseNode*, const T&, size_type)`, has no initialiser for the `BaseNode`
part, and the container constructor sets the `next` links only: forward traversal yields
`[7, 7]`, but the `prev` link of the second block (address 3) is the indeterminate value
`ind`, and unless that value happens to be the address of the first block, stepping
backwards with `--` from `end()` never reaches `begin()` with a defined result. -/
theorem reverse_traversal_after_fill_constructor (ind : Ptr) (hind : ind ≠ 2) :
    ((unrolled_list.new_fill 1 2 7 ind emptyMem).bind fun r => r.1.toList 1 r.2 3) =
      some [7, 7] ∧
    ((unrolled_list.new_fill 1 2 7 ind emptyMem).map fun r => r.1.size) = some 2 ∧
    ((unrolled_list.new_fill 1 2 7 ind emptyMem).bind fun r => r.1.cbegin r.2) =
      some ⟨2, 0⟩ ∧
    ((unrolled_list.new_fill 1 2 7 ind emptyMem).bind fun r => r.2.prev 3) = some ind ∧
    ∀ fuel, ((unrolled_list.new_fill 1 2 7 ind emptyMem).bind
      fun r => r.1.toListRev 1 r.2 fuel) = none := by
  rw [new_fill_two_blocks]
  refine ⟨rfl, rfl, rfl, rfl, ?_⟩
  intro fuel
  have hb : unrolled_list.cbegin ⟨1, 2⟩ (filledMem ind) = some ⟨2, 0⟩ := rfl
  simp only [Option.some_bind, unrolled_list.toListRev, hb]
  cases fuel with
  | zero => rfl
  | succ fuel =>
    have hne : unrolled_list.cend ⟨1, 2⟩ ≠ (⟨2, 0⟩ : Iterator) := by decide
    have hdec : Iterator.dec (filledMem ind) (unrolled_list.cend ⟨1, 2⟩) = some ⟨3, 0⟩ := rfl
    simp only [backwardFrom, hne, if_false, hdec, Option.some_bind,
      filledMem_backward ind hind fuel, Option.map_none']
    cases Iterator.deref 1 (filledMem ind) ⟨3, 0⟩ <;> rfl

/-- Witness for C12: the indeterminate value is the null pointer. -/
theorem reverse_traversal_after_fill_constructor_witness :
    nullptr ≠ 2 ∧
    (((unrolled_list.new_fill 1 2 7 nullptr emptyMem).bind fun r => r.1.toList 1 r.2 3) =
      some [7, 7] ∧
    ((unrolled_list.new_fill 1 2 7 nullptr emptyMem).map fun r => r.1.size) = some 2 ∧
    ((unrolled_list.new_fill 1 2 7 nullptr emptyMem).bind fun r => r.1.cbegin r.2) =
      some ⟨2, 0⟩ ∧
    ((unrolled_list.new_fill 1 2 7 nullptr emptyMem).bind fun r => r.2.prev 3) =
      some nullptr ∧
    ∀ fuel, ((unrolled_list.new_fill 1 2 7 nullptr emptyMem).bind
      fun r => r.1.toListRev 1 r.2 fuel) = none) :=
  ⟨by decide, reverse_traversal_after_fill_constructor nullptr (by decide)⟩
/-! ## operator== -/

theorem exMem2_wellFormed : WellFormed 2 exMem2 exList [2, 3] [[1, 2], [3]] :=
  { cap_pos := by decide
    sentinel := ⟨⟨3, 2⟩, rfl, rfl, rfl⟩
    chain := by
      refine ⟨⟨⟨1, 3, fun j => if j = 0 then some 1 else if j = 1 then some 2 else none, 2⟩,
        rfl, ?_, rfl, rfl, ?_⟩, ⟨⟨2, 1, fun j => if j = 0 then some 3 else none, 1⟩,
        rfl, ?_, rfl, rfl, ?_⟩, trivial⟩
      · intro p hp
        exact (Option.some.inj hp)
      · intro j hj
        have : j = 0 ∨ j = 1 := by simp at hj; omega
        rcases this with rfl | rfl <;> rfl
      · intro p hp
        exact (Option.some.inj hp)
      · intro j hj
        have : j = 0 := by simp at hj; omega
        subst this
        rfl
    counts := by
      intro b hb
      simp only [List.mem_cons, List.mem_singleton, List.not_mem_nil, or_false] at hb
      rcases hb with rfl | rfl <;> simp
    nodup := by decide
    fake_not_block := by decide
    size_eq := rfl
    fresh := by
      intro p hp
      have hp7 : 7 ≤ p := hp
      have h1 : p ≠ 1 := fun h => absurd (h ▸ hp7) (by decide)
      have h2 : p ≠ 2 := fun h => absurd (h ▸ hp7) (by decide)
      have h3 : p ≠ 3 := fun h => absurd (h ▸ hp7) (by decide)
      have h4 : p ≠ 4 := fun h => absurd (h ▸ hp7) (by decide)
      have h5 : p ≠ 5 := fun h => absurd (h ▸ hp7) (by decide)
      have h6 : p ≠ 6 := fun h => absurd (h ▸ hp7) (by decide)
      simp [exMem2, h1, h2, h3, h4, h5, h6] }

theorem exMem2_wellFormed2 : WellFormed 2 exMem2 exList2 [5, 6] [[1], [2, 3]] :=
  { cap_pos := by decide
    sentinel := ⟨⟨6, 5⟩, rfl, rfl, rfl⟩
    chain := by
      refine ⟨⟨⟨4, 6, fun j => if j = 0 then some 1 else none, 1⟩,
        rfl, ?_, rfl, rfl, ?_⟩,
        ⟨⟨5, 4, fun j => if j = 0 then some 2 else if j = 1 then some 3 else none, 2⟩,
        rfl, ?_, rfl, rfl, ?_⟩, trivial⟩
      · intro p hp
        exact (Option.some.inj hp)
      · intro j hj
        have : j = 0 := by simp at hj; omega
        subst this
        rfl
      · intro p hp
        exact (Option.some.inj hp)
      · intro j hj
        have : j = 0 ∨ j = 1 := by simp at hj; omega
        rcases this with rfl | rfl <;> rfl
    counts := by
      intro b hb
      simp only [List.mem_cons, List.mem_singleton, List.not_mem_nil, or_false] at hb
      rcases hb with rfl | rfl <;> simp
    nodup := by decide
    fake_not_block := by decide
    size_eq := rfl
    fresh := exMem2_wellFormed.fresh }

theorem eqLoop_posAt [DecidableEq α] {N : Nat} {m : Mem α} {a b : unrolled_list}
    {pva pvb : Option Ptr} {asa asb : List Ptr} {bsa bsb : List (List α)}
    (ha : Rep N m a pva asa bsa) (hb : Rep N m b pvb asb bsb)
    (hlen : bsa.flatten.length = bsb.flatten.length) :
    ∀ (d k fuel : Nat), k + d = bsa.flatten.length → d < fuel →
      eqLoop N a m fuel (posAt a.fake_node_ asa bsa k) (posAt b.fake_node_ asb bsb k) =
        some (decide (bsa.flatten.drop k = bsb.flatten.drop k))
  | 0, k, fuel, hk, hf => by
    obtain ⟨f, rfl⟩ : ∃ f, fuel = f + 1 := ⟨fuel - 1, by omega⟩
    have hka : k = bsa.flatten.length := by omega
    subst hka
    rw [ha.posAt_length]
    have h1 : bsa.flatten.drop bsa.flatten.length = [] := List.drop_length _
    have h2 : bsb.flatten.drop bsa.flatten.length = [] := by rw [hlen]; exact List.drop_length _
    simp only [eqLoop, unrolled_list.cend, if_true, h1, h2, decide_True, eq_self_iff_true]
  | d + 1, k, fuel, hk, hf => by
    obtain ⟨f, rfl⟩ : ∃ f, fuel = f + 1 := ⟨fuel - 1, by omega⟩
    have hka : k < bsa.flatten.length := by omega
    have hkb : k < bsb.flatten.length := by omega
    have hne := ha.posAt_ne_end hka
    have hda := ha.deref_posAt hka
    have hdb := hb.deref_posAt hkb
    rw [List.getElem?_eq_getElem hka] at hda
    rw [List.getElem?_eq_getElem hkb] at hdb
    have e1 : bsa.flatten.drop k = bsa.flatten[k] :: bsa.flatten.drop (k + 1) :=
      List.drop_eq_getElem_cons hka
    have e2 : bsb.flatten.drop k = bsb.flatten[k] :: bsb.flatten.drop (k + 1) :=
      List.drop_eq_getElem_cons hkb
    by_cases hxy : bsa.flatten[k] = bsb.flatten[k]
    · have ih := eqLoop_posAt ha hb hlen d (k + 1) f (by omega) (by omega)
      simp only [eqLoop, hne, if_false, bind, pure, Option.bind_eq_bind, hda, hdb,
        Option.some_bind, ne_eq, hxy, not_true_eq_false, ha.inc_posAt hka, hb.inc_posAt hkb, ih,
        e1, e2, List.cons.injEq, true_and]
    · simp only [eqLoop, hne, if_false, bind, pure, Option.bind_eq_bind, hda, hdb,
        Option.some_bind, ne_eq, hxy, not_false_eq_true, if_true, e1, e2, List.cons.injEq,
        false_and, decide_False]

/-- The result of `operator==` on two represented containers that live in the same memory:
with more rounds than elements it returns, and it returns `true` exactly when the two
logical sequences are equal. -/
theorem eq_rep [DecidableEq α] {N : Nat} {m : Mem α} {a b : unrolled_list}
    {pva pvb : Option Ptr} {asa asb : List Ptr} {bsa bsb : List (List α)}
    (ha : Rep N m a pva asa bsa) (hb : Rep N m b pvb asb bsb) (fuel : Nat)
    (hf : bsa.flatten.length < fuel) :
    a.eq N b m fuel = some (decide (bsa.flatten = bsb.flatten)) := by
  unfold unrolled_list.eq
  by_cases hs : a.size_ = b.size_
  · have hlen : bsa.flatten.length = bsb.flatten.length := by
      rw [← ha.size_eq, ← hb.size_eq, hs]
    have h0 := eqLoop_posAt ha hb hlen bsa.flatten.length 0 fuel (by omega) hf
    rw [ha.posAt_zero, hb.posAt_zero] at h0
    simp only [ne_eq, hs, not_true_eq_false, if_false, bind, Option.bind_eq_bind, ha.cbegin,
      hb.cbegin, Option.some_bind, h0, List.drop_zero]
  · have hne : bsa.flatten ≠ bsb.flatten := by
      intro he
      apply hs
      rw [ha.size_eq, hb.size_eq, he]
    simp [hs, hne]

/-- C14: for two well-formed containers `a` and `b` of the same capacity (in the same
memory), `a == b` returns, given more rounds than `a` has elements, and it is `true`
if and only if the logical sequences `bsa.flatten` and `bsb.flatten` are equal, whatever
the division into blocks `bsa`, `bsb`; in particular `a == a` is `true`. -/
theorem eq_spec [DecidableEq α] (N : Nat) (m : Mem α) (a b : unrolled_list)
    (asa asb : List Ptr) (bsa bsb : List (List α)) (fuel : Nat)
    (ha : WellFormed N m a asa bsa) (hb : WellFormed N m b asb bsb)
    (hf : bsa.flatten.length < fuel) :
    (∃ r, a.eq N b m fuel = some r ∧ (r = true ↔ bsa.flatten = bsb.flatten)) ∧
    a.eq N a m fuel = some true := by
  refine ⟨⟨_, eq_rep ha hb fuel hf, by simp⟩, ?_⟩
  rw [eq_rep ha ha fuel hf]
  simp

/-- Witness for C14: the two containers of `exMem2` hold `1, 2, 3` as `[1, 2] [3]` and as
`[1] [2, 3]`. -/
theorem eq_spec_witness :
    (WellFormed 2 exMem2 exList [2, 3] [[1, 2], [3]] ∧
      WellFormed 2 exMem2 exList2 [5, 6] [[1], [2, 3]] ∧
      ([[1, 2], [3]] : List (List Nat)).flatten.length < 4) ∧
    ((∃ r, exList.eq 2 exList2 exMem2 4 = some r ∧
        (r = true ↔ ([[1, 2], [3]] : List (List Nat)).flatten =
          ([[1], [2, 3]] : List (List Nat)).flatten)) ∧
      exList.eq 2 exList exMem2 4 = some true) :=
  ⟨⟨exMem2_wellFormed, exMem2_wellFormed2, by decide⟩,
    eq_spec 2 exMem2 exList exList2 [2, 3] [5, 6] [[1, 2], [3]] [[1], [2, 3]] 4
      exMem2_wellFormed exMem2_wellFormed2 (by decide)⟩

/-! ## Bulk insertion -/

theorem take_insert_step (s xs : List α) (x : α) {k : Nat} (hk : k ≤ s.length) :
    (s.take k ++ [x] ++ s.drop k).take (k + 1) ++ xs ++ (s.take k ++ [x] ++ s.drop k).drop (k + 1)
      = s.take k ++ (x :: xs) ++ s.drop k := by
  have hlen : (s.take k ++ [x]).length = k + 1 := by
    simp [List.length_take, Nat.min_eq_left hk]
  rw [List.take_append_of_le_length (by omega), List.drop_append_of_le_length (by omega),
    List.take_of_length_le (by omega), List.drop_of_length_le (by omega)]
  simp

/-- The loop of the range insert, started at the valid non-end position of logical index
`k` of a represented container of capacity at most `2 ^ 31`: it returns, and the values
`xs` stand, in their order, before the element that was at index `k`. -/
theorem insertRangeLoop_rep {N : Nat} (hcap : N ≤ 2 ^ 31) {pv : Option Ptr} :
    ∀ (xs : List α) (m : Mem α) (c : unrolled_list) (as : List Ptr) (bs : List (List α))
      (k : Nat), Rep N m c pv as bs → k < bs.flatten.length →
      ∃ m2 as2 bs2,
        insertRangeLoop N xs c (posAt c.fake_node_ as bs k) m =
          some ({ c with size_ := c.size_ + xs.length }, m2) ∧
        Rep N m2 { c with size_ := c.size_ + xs.length } pv as2 bs2 ∧
        bs2.flatten = bs.flatten.take k ++ xs ++ bs.flatten.drop k
  | [], m, c, as, bs, k, h, hk => by
    refine ⟨m, as, bs, rfl, h, ?_⟩
    simp
  | x :: xs, m, c, as, bs, k, h, hk => by
    obtain ⟨m1, as1, bs1, he, hr, -, hflat, -, hpos⟩ := insert_wf x k h hk hcap
    have hk1 : k < bs1.flatten.length := by
      rw [hflat]
      simp only [List.length_append, List.length_take, List.length_drop, List.length_singleton]
      omega
    have hinc := hr.inc_posAt hk1
    have hk2 : k + 1 < bs1.flatten.length := by
      rw [hflat]
      simp only [List.length_append, List.length_take, List.length_drop, List.length_singleton]
      omega
    obtain ⟨m2, as2, bs2, he2, hr2, hflat2⟩ :=
      insertRangeLoop_rep hcap xs m1 { c with size_ := c.size_ + 1 } as1 bs1 (k + 1) hr hk2
    have hsz : c.size_ + 1 + xs.length = c.size_ + (x :: xs).length := by
      simp only [List.length_cons]
      omega
    simp only [hsz] at he2 hr2
    refine ⟨m2, as2, bs2, ?_, hr2, ?_⟩
    · simp only [insertRangeLoop, bind, Option.bind_eq_bind, he, Option.some_bind]
      have hinc2 : (posAt c.fake_node_ as bs k).inc m1 =
          some (posAt c.fake_node_ as1 bs1 (k + 1)) := by
        rw [← hpos]
        exact hinc
      rw [hinc2, Option.some_bind]
      exact he2
    · rw [hflat2, hflat]
      exact take_insert_step bs.flatten xs x (Nat.le_of_lt hk)

/-- The range insert `insert(p, first, last)` at the valid non-end position of logical
index `k`, for block capacities up to `2 ^ 31`: the logical sequence becomes
`s[0..k) ++ xs ++ s[k..)` and `size()` grows by `|xs|`. -/
theorem insert_range_wf {N : Nat} {m : Mem α} {c : unrolled_list} {pv : Option Ptr}
    {as : List Ptr} {bs : List (List α)} (xs : List α) (k : Nat) (h : Rep N m c pv as bs)
    (hk : k < bs.flatten.length) (hcap : N ≤ 2 ^ 31) :
    ∃ it c2 m2 as2 bs2,
      c.insert_range N (posAt c.fake_node_ as bs k) xs m = some (it, c2, m2) ∧
      Rep N m2 c2 pv as2 bs2 ∧
      LogicalSeq N c2 m2 (bs.flatten.take k ++ xs ++ bs.flatten.drop k) ∧
      c2.size = bs.flatten.length + xs.length := by
  obtain ⟨m2, as2, bs2, he, hr, hflat⟩ := insertRangeLoop_rep hcap xs m c as bs k h hk
  refine ⟨posAt c.fake_node_ as bs k, _, m2, as2, bs2, ?_, hr, ?_, ?_⟩
  · simp only [unrolled_list.insert_range]
    rw [show (⟨(posAt c.fake_node_ as bs k).ptr_, (posAt c.fake_node_ as bs k).index_⟩ : Iterator)
      = posAt c.fake_node_ as bs k from rfl, he]
    rfl
  · rw [← hflat]
    exact hr.logicalSeq
  · show c.size_ + xs.length = _
    rw [h.size_eq]

theorem insAt_replicate (s : List α) (v : α) (r : Nat) {k : Nat} (hk : k ≤ s.length) :
    (s.take k ++ List.replicate r v ++ s.drop k).take k ++ [v] ++
        (s.take k ++ List.replicate r v ++ s.drop k).drop k
      = s.take k ++ List.replicate (r + 1) v ++ s.drop k := by
  have hlen : (s.take k).length = k := by simp [List.length_take, Nat.min_eq_left hk]
  rw [List.append_assoc (s.take k), List.take_append_of_le_length (by omega),
    List.drop_append_of_le_length (by omega), List.take_of_length_le (by omega),
    List.drop_of_length_le (by omega), List.replicate_succ]
  simp

/-- The loop of the count-and-value insert, with `it` the valid non-end position of
logical index `k` at which the previous copy was inserted. -/
theorem insertNLoop_rep {N : Nat} (hcap : N ≤ 2 ^ 31) {pv : Option Ptr} (v : α) (k : Nat)
    (s : List α) (hks : k ≤ s.length) (e : Ptr) :
    ∀ (rounds r : Nat) (m : Mem α) (c : unrolled_list) (as : List Ptr) (bs : List (List α)),
      Rep N m c pv as bs → c.fake_node_ = e →
      bs.flatten = s.take k ++ List.replicate (r + 1) v ++ s.drop k →
      ∃ m2 as2 bs2,
        insertNLoop N v rounds c (posAt e as bs k) m =
          some ({ c with size_ := c.size_ + rounds }, m2) ∧
        Rep N m2 { c with size_ := c.size_ + rounds } pv as2 bs2 ∧
        bs2.flatten = s.take k ++ List.replicate (r + 1 + rounds) v ++ s.drop k
  | 0, r, m, c, as, bs, h, _, hflat => ⟨m, as, bs, rfl, h, hflat⟩
  | rounds + 1, r, m, c, as, bs, h, he, hflat => by
    subst he
    have hk : k < bs.flatten.length := by
      rw [hflat]
      simp only [List.length_append, List.length_take, List.length_drop, List.length_replicate]
      omega
    obtain ⟨m1, as1, bs1, hins, hr, -, hflat1, -, hpos⟩ := insert_wf v k h hk hcap
    have hflat2 : bs1.flatten = s.take k ++ List.replicate (r + 1 + 1) v ++ s.drop k := by
      rw [hflat1, hflat]
      exact insAt_replicate s v (r + 1) hks
    obtain ⟨m2, as2, bs2, he2, hr2, hflat3⟩ :=
      insertNLoop_rep hcap v k s hks c.fake_node_ rounds (r + 1) m1
        { c with size_ := c.size_ + 1 } as1 bs1 hr rfl hflat2
    have hsz : c.size_ + 1 + rounds = c.size_ + (rounds + 1) := by omega
    have hrr : r + 1 + 1 + rounds = r + 1 + (rounds + 1) := by omega
    simp only [hsz] at he2 hr2
    rw [hrr] at hflat3
    refine ⟨m2, as2, bs2, ?_, hr2, hflat3⟩
    simp only [insertNLoop, bind, Option.bind_eq_bind, h.inc_posAt hk, Option.some_bind, hins]
    rw [← hpos]
    exact he2

/-- The count-and-value insert `insert(p, n, v)` at the valid non-end position of logical
index `k`, for `n ≥ 1` and block capacities up to `2 ^ 31`: the logical sequence becomes
`s[0..k) ++ (n copies of v) ++ s[k..)` and `size()` grows by `n`. -/
theorem insert_n_wf {N : Nat} {m : Mem α} {c : unrolled_list} {pv : Option Ptr}
    {as : List Ptr} {bs : List (List α)} (v : α) (k n : Nat) (h : Rep N m c pv as bs)
    (hk : k < bs.flatten.length) (hn : 0 < n) (hcap : N ≤ 2 ^ 31) :
    ∃ it c2 m2 as2 bs2,
      c.insert_n N (posAt c.fake_node_ as bs k) n v m = some (it, c2, m2) ∧
      Rep N m2 c2 pv as2 bs2 ∧
      LogicalSeq N c2 m2 (bs.flatten.take k ++ List.replicate n v ++ bs.flatten.drop k) ∧
      c2.size = bs.flatten.length + n := by
  obtain ⟨m1, as1, bs1, hins, hr, -, hflat1, -, hpos⟩ := insert_wf v k h hk hcap
  have hflat : bs1.flatten =
      bs.flatten.take k ++ List.replicate (0 + 1) v ++ bs.flatten.drop k := by
    rw [hflat1]
    rfl
  obtain ⟨m2, as2, bs2, he2, hr2, hflat2⟩ :=
    insertNLoop_rep hcap v k bs.flatten (Nat.le_of_lt hk) c.fake_node_ (n - 1) 0 m1
      { c with size_ := c.size_ + 1 } as1 bs1 hr rfl hflat
  have hn1 : 0 + 1 + (n - 1) = n := by omega
  rw [hn1] at hflat2
  refine ⟨posAt c.fake_node_ as bs k, _, m2, as2, bs2, ?_, hr2, ?_, ?_⟩
  · simp only [unrolled_list.insert_n, bind, pure, Option.bind_eq_bind, hins, Option.some_bind]
    rw [← hpos]
    show (insertNLoop N v (n - 1) { c with size_ := c.size_ + 1 }
      (posAt c.fake_node_ as1 bs1 k) m1).bind _ = _
    rw [he2]
    rfl
  · rw [← hflat2]
    exact hr2.logicalSeq
  · show c.size_ + 1 + (n - 1) = _
    rw [h.size_eq]
    omega

/-- C19 (the code departs from the claim): on the well-formed container `[1, 2]` of
capacity 2, whose last block is full, `insert(end(), first, last)` with the range
`3, 4` raises `size()` to 4 but leaves the sequence reachable from `begin()` at `[1, 2]`,
where `s[0..2) ++ xs ++ s[2..)` is `[1, 2, 3, 4]`: each single insert at `end()` builds a
block that is not linked into the chain. -/
theorem insert_range_at_end_not_linked :
    WellFormed 2 exFullMem exFullList [2] [[1, 2]] ∧
    posAt exFullList.fake_node_ [2] [[1, 2]] 2 = exFullList.cend ∧
    ((exFullList.insert_range 2 exFullList.cend [3, 4] exFullMem).bind
      fun r => r.2.1.toList 2 r.2.2 3) = some [1, 2] ∧
    (∀ fuel, ((exFullList.insert_range 2 exFullList.cend [3, 4] exFullMem).bind
      fun r => r.2.1.toList 2 r.2.2 fuel) ≠ some [1, 2, 3, 4]) ∧
    ((exFullList.insert_range 2 exFullList.cend [3, 4] exFullMem).map
      fun r => r.2.1.size) = some 4 ∧
    ([1, 2] : List Nat).take 2 ++ [3, 4] ++ ([1, 2] : List Nat).drop 2 = [1, 2, 3, 4] := by
  have h1 : ((exFullList.insert_range 2 exFullList.cend [3, 4] exFullMem).bind
      fun r => r.2.1.toList 2 r.2.2 3) = some [1, 2] := by decide
  refine ⟨exFullMem_wellFormed, by decide, h1, ?_, by decide, by decide⟩
  intro fuel h2
  cases hr : exFullList.insert_range 2 exFullList.cend [3, 4] exFullMem with
  | none => simp [hr] at h1
  | some s =>
    simp only [hr, Option.some_bind] at h1 h2
    exact absurd (toList_unique h1 h2) (by decide)

/-- C20 (the code departs from the claim): on the well-formed container `[1, 2] [3]` of
capacity 2, `insert(begin(), 0, 9)` with the count `n = 0` inserts one `9`: the sequence
becomes `[9, 1, 2, 3]` and `size()` 4, where `s[0..0) ++ (0 copies of 9) ++ s[0..)` is
`[1, 2, 3]` of size 3.  The source performs one `insert` before it looks at the count. -/
theorem insert_n_zero_inserts_one :
    WellFormed 2 exMem exList [2, 3] [[1, 2], [3]] ∧
    ((exList.insert_n 2 (posAt exList.fake_node_ [2, 3] [[1, 2], [3]] 0) 0 9 exMem).bind
      fun r => r.2.1.toList 2 r.2.2 5) = some [9, 1, 2, 3] ∧
    (∀ fuel, ((exList.insert_n 2 (posAt exList.fake_node_ [2, 3] [[1, 2], [3]] 0) 0 9 exMem).bind
      fun r => r.2.1.toList 2 r.2.2 fuel) ≠ some [1, 2, 3]) ∧
    ((exList.insert_n 2 (posAt exList.fake_node_ [2, 3] [[1, 2], [3]] 0) 0 9 exMem).map
      fun r => r.2.1.size) = some 4 ∧
    ([1, 2, 3] : List Nat).take 0 ++ List.replicate 0 9 ++ ([1, 2, 3] : List Nat).drop 0 =
      [1, 2, 3] := by
  have h1 : ((exList.insert_n 2 (posAt exList.fake_node_ [2, 3] [[1, 2], [3]] 0) 0 9
      exMem).bind fun r => r.2.1.toList 2 r.2.2 5) = some [9, 1, 2, 3] := by decide
  refine ⟨exMem_wellFormed, h1, ?_, by decide, by decide⟩
  intro fuel h2
  cases hr : exList.insert_n 2 (posAt exList.fake_node_ [2, 3] [[1, 2], [3]] 0) 0 9 exMem with
  | none => simp [hr] at h1
  | some s =>
    simp only [hr, Option.some_bind] at h1 h2
    exact absurd (toList_unique h1 h2) (by decide)

/-! ## Copy construction -/

/-- A representation survives any change of the memory that leaves the sentinel and the
blocks of the container as they are and keeps the allocator's fresh addresses empty. -/
theorem Rep.of_agree {N : Nat} {m m2 : Mem α} {c : unrolled_list} {pv : Option Ptr}
    {as : List Ptr} {bs : List (List α)} (h : Rep N m c pv as bs)
    (hfake : m2.obj c.fake_node_ = m.obj c.fake_node_)
    (hobj : ∀ a ∈ as, m2.obj a = m.obj a)
    (hfresh : ∀ p, m2.brk ≤ p → m2.obj p = none) : Rep N m2 c pv as bs := by
  obtain ⟨f, hf, hfnext, hfprev⟩ := h.sentinel
  exact
    { cap_pos := h.cap_pos
      sentinel := ⟨f, by rw [hfake, hf], hfnext, hfprev⟩
      chain := h.chain.congr hobj
      counts := h.counts
      nodup := h.nodup
      fake_not_block := h.fake_not_block
      size_eq := h.size_eq
      fresh := hfresh }

theorem copySlots_block {N : Nat} {m : Mem α} {a : Ptr} {n : Node α} {b : List α}
    (hn : m.obj a = some (Obj.node n)) (hst : ∀ j, j < b.length → n.storage j = b[j]?)
    (hN : b.length ≤ N) : ∀ i, i ≤ b.length → copySlots N m a i = some (b.take i)
  | 0, _ => by simp [copySlots]
  | i + 1, hi => by
    have hib : i < b.length := by omega
    have ih := copySlots_block hn hst hN i (by omega)
    simp only [copySlots, ih, Option.some_bind, Mem.slot_node hn (show i < N by omega),
      hst i hib, List.getElem?_eq_getElem hib, id, Option.map_some']
    rw [List.take_succ, List.getElem?_eq_getElem hib]
    rfl

theorem constructNodeCopy_block {N : Nat} {m : Mem α} {a : Ptr} {n : Node α} {b : List α}
    (hn : m.obj a = some (Obj.node n)) (hst : ∀ j, j < b.length → n.storage j = b[j]?)
    (hN : b.length ≤ N) (p left right : Ptr) :
    m.constructNodeCopy N p left right a b.length =
      some (m.write p (Obj.node ⟨left, right, fun j => b[j]?, b.length⟩)) := by
  simp [Mem.constructNodeCopy, copySlots_block hn hst hN b.length (Nat.le_refl _)]

theorem range_succ_concat (s n : Nat) :
    List.range' s (n + 1) = List.range' s n ++ [s + n] := by
  rw [List.range'_concat]
  simp

theorem range_lt {s n x : Nat} (hx : x ∈ List.range' s n) : s ≤ x ∧ x < s + n := by
  simpa [List.mem_range'_1] using hx

/-- One round of the copy loop at the source block `a` holding `b`. -/
theorem copyLoop_step {N : Nat} {m0 m1 : Mem α} {F ind other_fake a nx : Ptr}
    {pvx : Option Ptr} {ds : List Ptr} {bs1 : List (List α)} {b : List α} (fuel : Nat)
    (hs : CopyState m0 F ind ds bs1 m1) (hb : IsBlock m0 a pvx nx b) (hN : b.length ≤ N)
    (haF : a < F) (hane : a ≠ other_fake) :
    ∃ m2, copyLoop N F other_fake (fuel + 1) a ds.isEmpty ds.getLast? m1 =
        copyLoop N F other_fake fuel nx false (some (F + 1 + ds.length)) m2 ∧
      CopyState m0 F ind (ds ++ [F + 1 + ds.length]) (bs1 ++ [b]) m2 := by
  obtain ⟨n, hn0, -, hnx, hcnt, hst⟩ := hb
  cases m1 with
  | mk obj1 brk1 =>
  have hbrk : brk1 = F + 1 + ds.length := hs.brk_eq
  subst hbrk
  have hn : obj1 a = some (Obj.node n) := by
    have := hs.old a haF
    rw [hn0] at this
    exact this
  have hl := hs.chain.len_eq
  have hFa : F ≠ a := Nat.ne_of_gt haF
  have hpa : F + 1 + ds.length ≠ a := Nat.ne_of_gt (by simp only [Ptr] at *; omega)
  have hpF : F + 1 + ds.length ≠ F := Nat.ne_of_gt (by simp only [Ptr] at *; omega)
  have hn' : ({ obj := obj1, brk := F + 1 + ds.length + 1 } : Mem α).obj a
      = some (Obj.node n) := hn
  have hfresh2 : ∀ (m2 : Mem α), m2.brk = F + 1 + (ds.length + 1) →
      (∀ q, q ≠ F → q ≠ F + 1 + ds.length → q ∉ ds → m2.obj q = obj1 q) →
      ∀ p, m2.brk ≤ p → m2.obj p = none := by
    intro m2 hb2 hq p hp
    rw [hb2] at hp
    have h1 : p ≠ F := Nat.ne_of_gt (by simp only [Ptr] at *; omega)
    have h2 : p ≠ F + 1 + ds.length := Nat.ne_of_gt (by simp only [Ptr] at *; omega)
    have h3 : p ∉ ds := by
      intro hmem
      rw [hs.addrs] at hmem
      have := range_lt hmem
      simp only [Ptr] at *
      omega
    rw [hq p h1 h2 h3]
    exact hs.fresh p (by simp only [Ptr] at *; omega)
  have haddrs : ds ++ [F + 1 + ds.length] =
      List.range' (F + 1) (ds ++ [F + 1 + ds.length]).length := by
    rw [List.length_append, List.length_singleton, range_succ_concat, ← hs.addrs]
  rcases List.eq_nil_or_concat ds with rfl | ⟨ds0, d, rfl⟩
  · have hbs1 : bs1 = [] := List.length_eq_zero.mp hl.symm
    subst hbs1
    have hF : obj1 F = some (Obj.base ⟨ind, ind⟩) := hs.fake
    refine ⟨(({ obj := obj1, brk := F + 1 + ([] : List Ptr).length + 1 } : Mem α).write
        (F + 1 + ([] : List Ptr).length)
        (Obj.node ⟨F, nullptr, fun j => b[j]?, b.length⟩)).write F
          (Obj.base ⟨ind, F + 1 + ([] : List Ptr).length⟩), ?_, ?_⟩
    · have hF2 : (({ obj := obj1, brk := F + 1 + ([] : List Ptr).length + 1 } : Mem α).write
          (F + 1 + ([] : List Ptr).length)
          (Obj.node ⟨F, nullptr, fun j => b[j]?, b.length⟩)).obj F
          = some (Obj.base ⟨ind, ind⟩) := by
        rw [Mem.write_obj_ne _ _ hpF.symm]
        exact hF
      have ha3 : ((({ obj := obj1, brk := F + 1 + ([] : List Ptr).length + 1 } : Mem α).write
          (F + 1 + ([] : List Ptr).length)
          (Obj.node ⟨F, nullptr, fun j => b[j]?, b.length⟩)).write F
            (Obj.base ⟨ind, F + 1 + ([] : List Ptr).length⟩)).obj a = some (Obj.node n) := by
        rw [Mem.write_obj_ne _ _ hFa.symm, Mem.write_obj_ne _ _ hpa.symm]
        exact hn
      have hcn : ({ obj := obj1, brk := F + 1 + ([] : List Ptr).length } : Mem α).count a
          = some n.count := Mem.count_node hn
      simp only [copyLoop, hane, if_false, bind, pure, Option.bind_eq_bind, hcn,
        Option.some_bind, List.isEmpty_nil, if_true, Mem.allocate, hcnt,
        constructNodeCopy_block hn' hst hN, Mem.setNext_base hF2,
        Mem.next_node ha3, hnx]
    · exact
        { brk_eq := by simp
          addrs := haddrs
          old := by
            intro q hq
            have h1 : q ≠ F := Nat.ne_of_lt hq
            have h2 : q ≠ F + 1 + ([] : List Ptr).length :=
              Nat.ne_of_lt (by simp only [Ptr] at *; omega)
            rw [Mem.write_obj_ne _ _ h1, Mem.write_obj_ne _ _ h2]
            exact hs.old q hq
          fake := by simp
          chain := by
            simp only [List.nil_append, Chain, List.headD_nil, and_true]
            refine ⟨⟨F, nullptr, fun j => b[j]?, b.length⟩, ?_, ?_, rfl, rfl, fun j _ => rfl⟩
            · rw [Mem.write_obj_ne _ _ hpF, Mem.write_obj_same]
            · intro p hp
              exact Option.some.inj hp
          fresh := by
            apply hfresh2
            · rfl
            · intro q h1 h2 _
              rw [Mem.write_obj_ne _ _ h1, Mem.write_obj_ne _ _ h2] }
  · rw [List.concat_eq_append] at hs hl hpa hpF haddrs hfresh2 hn' ⊢
    obtain ⟨bs0, b0, rfl⟩ : ∃ bs0 b0, bs1 = bs0 ++ [b0] := by
      rcases List.eq_nil_or_concat bs1 with rfl | ⟨bs0, b0, rfl⟩
      · simp at hl
      · exact ⟨bs0, b0, by simp⟩
    have hl0 : ds0.length = bs0.length := by simpa using hl
    obtain ⟨hch0, nd, hnd, hdprev, hdnext, hdcnt, hdst⟩ := (chain_concat hl0).1 hs.chain
    have hnodup : (ds0 ++ [d]).Nodup := by
      rw [hs.addrs]
      exact List.nodup_range' _ _
    have hd0 : d ∉ ds0 := by
      intro hmem
      have := List.nodup_append.1 hnodup
      exact this.2.2 hmem (by simp)
    have hdmem : d ∈ List.range' (F + 1) (ds0 ++ [d]).length := by
      rw [← hs.addrs]; simp
    have hdr := range_lt hdmem
    have hdF : d ≠ F := Nat.ne_of_gt (by simp only [Ptr] at *; omega)
    have hda : d ≠ a := Nat.ne_of_gt (by simp only [Ptr] at *; omega)
    have hpd : F + 1 + (ds0 ++ [d]).length ≠ d := Nat.ne_of_gt (by simp only [Ptr] at *; omega)
    refine ⟨(({ obj := obj1, brk := F + 1 + (ds0 ++ [d]).length + 1 } : Mem α).write
        (F + 1 + (ds0 ++ [d]).length)
        (Obj.node ⟨d, nullptr, fun j => b[j]?, b.length⟩)).write d
          (Obj.node { nd with next := F + 1 + (ds0 ++ [d]).length }), ?_, ?_⟩
    · have hd2 : (({ obj := obj1, brk := F + 1 + (ds0 ++ [d]).length + 1 } : Mem α).write
          (F + 1 + (ds0 ++ [d]).length)
          (Obj.node ⟨d, nullptr, fun j => b[j]?, b.length⟩)).obj d = some (Obj.node nd) := by
        rw [Mem.write_obj_ne _ _ hpd.symm]
        exact hnd
      have ha3 : ((({ obj := obj1, brk := F + 1 + (ds0 ++ [d]).length + 1 } : Mem α).write
          (F + 1 + (ds0 ++ [d]).length)
          (Obj.node ⟨d, nullptr, fun j => b[j]?, b.length⟩)).write d
            (Obj.node { nd with next := F + 1 + (ds0 ++ [d]).length })).obj a
          = some (Obj.node n) := by
        rw [Mem.write_obj_ne _ _ hda.symm, Mem.write_obj_ne _ _ hpa.symm]
        exact hn
      have hemp : (ds0 ++ [d]).isEmpty = false := by simp
      have hlast : (ds0 ++ [d]).getLast? = some d := by simp
      have hcn : ({ obj := obj1, brk := F + 1 + (ds0 ++ [d]).length } : Mem α).count a
          = some n.count := Mem.count_node hn
      simp only [copyLoop, hane, if_false, bind, pure, Option.bind_eq_bind, hcn,
        Option.some_bind, hemp, Bool.false_eq_true, Mem.allocate, hlast, hcnt,
        constructNodeCopy_block hn' hst hN, Mem.setNext_node hd2, Mem.next_node ha3, hnx]
    · exact
        { brk_eq := by
            rw [List.length_append (ds0 ++ [d]), List.length_singleton]
            rfl
          addrs := haddrs
          old := by
            intro q hq
            have h1 : q ≠ d := Nat.ne_of_lt (by simp only [Ptr] at *; omega)
            have h2 : q ≠ F + 1 + (ds0 ++ [d]).length :=
              Nat.ne_of_lt (by simp only [Ptr] at *; omega)
            rw [Mem.write_obj_ne _ _ h1, Mem.write_obj_ne _ _ h2]
            exact hs.old q hq
          fake := by
            rw [Mem.write_obj_ne _ _ hdF.symm, Mem.write_obj_ne _ _ hpF.symm]
            have := hs.fake
            rw [headD_append_cons] at this ⊢
            rw [headD_append_cons]
            exact this
          chain := by
            have hl1 : (ds0 ++ [d]).length = (bs0 ++ [b0]).length := by simp [hl0]
            rw [chain_concat hl1, chain_concat hl0]
            refine ⟨⟨?_, ?_⟩, ?_⟩
            · refine Chain.congr ?_ hch0
              intro x hx
              have hxd : x ≠ d := fun h => hd0 (h ▸ hx)
              have hxp : x ≠ F + 1 + (ds0 ++ [d]).length := by
                intro h
                have hxm : x ∈ List.range' (F + 1) (ds0 ++ [d]).length := by
                  rw [← hs.addrs]; simp [hx]
                have := range_lt hxm
                simp only [Ptr] at *
                omega
              rw [Mem.write_obj_ne _ _ hxd, Mem.write_obj_ne _ _ hxp]
            · exact ⟨{ nd with next := F + 1 + (ds0 ++ [d]).length }, by simp, hdprev, rfl,
                hdcnt, hdst⟩
            · refine ⟨⟨d, nullptr, fun j => b[j]?, b.length⟩, ?_, ?_, rfl, rfl, fun j _ => rfl⟩
              · rw [Mem.write_obj_ne _ _ hpd, Mem.write_obj_same]
              · intro p hp
                rw [lastPtr_concat] at hp
                exact Option.some.inj hp
          fresh := by
            apply hfresh2
            · rfl
            · intro q _ h2 h3
              have hqd : q ≠ d := fun h => h3 (by simp [h])
              rw [Mem.write_obj_ne _ _ hqd, Mem.write_obj_ne _ _ h2] }

/-- The copy loop over the source blocks `as2` that are still to be copied. -/
theorem copyLoop_chain {N : Nat} {m0 : Mem α} {F ind other_fake : Ptr} :
    ∀ (as2 : List Ptr) (bs2 : List (List α)) (pvx : Option Ptr) (ds : List Ptr)
      (bs1 : List (List α)) (m1 : Mem α) (fuel : Nat),
      Chain m0 pvx as2 bs2 other_fake → (∀ b ∈ bs2, b.length ≤ N) →
      (∀ a ∈ as2, a < F ∧ a ≠ other_fake) → CopyState m0 F ind ds bs1 m1 →
      as2.length < fuel →
      ∃ m2 ds2, copyLoop N F other_fake fuel (as2.headD other_fake) ds.isEmpty ds.getLast? m1
          = some (ds2.getLast?, m2) ∧
        CopyState m0 F ind ds2 (bs1 ++ bs2) m2 ∧ ds2.length = ds.length + as2.length
  | [], [], _, ds, bs1, m1, fuel, _, _, _, hs, hf => by
    obtain ⟨f, rfl⟩ : ∃ f, fuel = f + 1 := ⟨fuel - 1, by simp at hf; omega⟩
    refine ⟨m1, ds, ?_, ?_, rfl⟩
    · simp [copyLoop]
    · simpa using hs
  | [], _ :: _, _, _, _, _, _, h, _, _, _, _ => by simp [Chain] at h
  | _ :: _, [], _, _, _, _, _, h, _, _, _, _ => by simp [Chain] at h
  | a :: as2, b :: bs2, pvx, ds, bs1, m1, fuel, h, hN, hlt, hs, hf => by
    obtain ⟨f, rfl⟩ : ∃ f, fuel = f + 1 := ⟨fuel - 1, by simp at hf; omega⟩
    simp only [Chain] at h
    obtain ⟨m2, hstep, hs2⟩ := copyLoop_step f hs h.1
      (hN b (by simp)) (hlt a (by simp)).1 (hlt a (by simp)).2
    obtain ⟨m3, ds3, hloop, hs3, hlen⟩ := copyLoop_chain as2 bs2 (some a)
      (ds ++ [F + 1 + ds.length]) (bs1 ++ [b]) m2 f h.2 (fun x hx => hN x (by simp [hx]))
      (fun x hx => hlt x (by simp [hx])) hs2 (by simp at hf; omega)
    refine ⟨m3, ds3, ?_, ?_, ?_⟩
    · rw [List.headD_cons, hstep]
      have e1 : (ds ++ [F + 1 + ds.length]).isEmpty = false := by simp
      have e2 : (ds ++ [F + 1 + ds.length]).getLast? = some (F + 1 + ds.length) := by simp
      rw [e1, e2] at hloop
      exact hloop
    · simpa using hs3
    · rw [hlen, List.length_append, List.length_singleton, List.length_cons]
      omega

/-- Copy construction from a represented container `other`: with more rounds than `other`
has blocks the constructor returns; the new container (its sentinel at the first fresh
address, its blocks at the following ones) is well formed and has the blocks `bs` of
`other`, one for one; `other` is as it was. -/
theorem new_copy_rep {N : Nat} {m : Mem α} {other : unrolled_list} {pv : Option Ptr}
    {as : List Ptr} {bs : List (List α)} (h : Rep N m other pv as bs) (ind : Ptr) (fuel : Nat)
    (hf : as.length < fuel) :
    ∃ m2, unrolled_list.new_copy N other ind m fuel = some (⟨m.brk, other.size_⟩, m2) ∧
      WellFormed N m2 ⟨m.brk, other.size_⟩ (List.range' (m.brk + 1) as.length) bs ∧
      Rep N m2 other pv as bs ∧ (∀ q, q < m.brk → m2.obj q = m.obj q) ∧
      m2.brk = m.brk + 1 + as.length := by
  obtain ⟨f0, hf0, hf0next, hf0prev⟩ := h.sentinel
  have hfakelt : other.fake_node_ < m.brk := h.lt_brk hf0
  have hs0 : CopyState m m.brk ind [] []
      ({ obj := fun q => if q = m.brk then some (Obj.base ⟨ind, ind⟩) else m.obj q,
         brk := m.brk + 1 } : Mem α) :=
    { brk_eq := rfl
      addrs := rfl
      old := by
        intro q hq
        have : q ≠ m.brk := Nat.ne_of_lt hq
        simp [this]
      fake := by simp
      chain := trivial
      fresh := by
        intro p hp
        have hp' : m.brk + 1 ≤ p := hp
        have h1 : p ≠ m.brk := Nat.ne_of_gt hp'
        simp only [h1, if_false]
        exact h.fresh p (Nat.le_of_lt hp') }
  have hlt : ∀ a ∈ as, a < m.brk ∧ a ≠ other.fake_node_ := by
    intro a ha
    obtain ⟨o, ho⟩ := h.chain.obj_of_mem a ha
    exact ⟨h.lt_brk ho, fun he => h.fake_not_block (he ▸ ha)⟩
  obtain ⟨m2, ds, hloop, hs, hlen⟩ := copyLoop_chain (N := N) as bs pv [] [] _ fuel h.chain
    (fun b hb => (h.counts b hb).2) hlt hs0 hf
  rw [List.nil_append] at hs
  rw [List.length_nil, Nat.zero_add] at hlen
  have hnext :
      ({ obj := fun q => if q = m.brk then some (Obj.base ⟨ind, ind⟩) else m.obj q,
         brk := m.brk + 1 } : Mem α).next other.fake_node_
        = some (as.headD other.fake_node_) := by
    have : other.fake_node_ ≠ m.brk := Nat.ne_of_lt hfakelt
    simp [Mem.next, this, hf0, hf0next]
  have hl := hs.chain.len_eq
  have hdsr : ds = List.range' (m.brk + 1) as.length := by
    rw [← hlen]
    exact hs.addrs
  have hother : ∀ (m3 : Mem α), (∀ q, q < m.brk → m3.obj q = m2.obj q) →
      (∀ p, m3.brk ≤ p → m3.obj p = none) → Rep N m3 other pv as bs := by
    intro m3 hq hfr
    refine h.of_agree ?_ ?_ hfr
    · rw [hq _ hfakelt, hs.old _ hfakelt]
    · intro a ha
      rw [hq _ (hlt a ha).1, hs.old _ (hlt a ha).1]
  rcases List.eq_nil_or_concat ds with rfl | ⟨ds0, d, rfl⟩
  · have hbs : bs = [] := List.length_eq_zero.mp hl.symm
    have has : as = [] := List.length_eq_zero.mp (by simpa using hlen.symm)
    subst hbs
    subst has
    have hF : m2.obj m.brk = some (Obj.base ⟨ind, ind⟩) := hs.fake
    have hbrk2 : m2.brk = m.brk + 1 := hs.brk_eq
    refine ⟨(m2.write m.brk (Obj.base ⟨ind, m.brk⟩)).write m.brk (Obj.base ⟨m.brk, m.brk⟩),
      ?_, ?_, ?_, ?_, ?_⟩
    · simp only [unrolled_list.new_copy, bind, pure, Option.bind_eq_bind, hnext,
        Option.some_bind]
      have hloop2 : copyLoop N m.brk other.fake_node_ fuel
          (([] : List Ptr).headD other.fake_node_) true none _ = some (none, m2) := hloop
      simp only [hloop2, Option.some_bind, Mem.setNext_base hF,
        Mem.setPrev_base (Mem.write_obj_same _ _ _)]
    · exact
        { cap_pos := h.cap_pos
          sentinel := ⟨⟨m.brk, m.brk⟩, by simp, rfl, rfl⟩
          chain := trivial
          counts := by simp
          nodup := by simp
          fake_not_block := by simp
          size_eq := h.size_eq
          fresh := by
            intro p hp
            have hp' : m.brk + 1 ≤ p := by
              have : m2.brk ≤ p := hp
              rw [hbrk2] at this
              exact this
            have h1 : p ≠ m.brk := Nat.ne_of_gt hp'
            rw [Mem.write_obj_ne _ _ h1, Mem.write_obj_ne _ _ h1]
            exact hs.fresh p (by rw [hbrk2]; exact hp') }
    · apply hother
      · intro q hq
        have h1 : q ≠ m.brk := Nat.ne_of_lt hq
        rw [Mem.write_obj_ne _ _ h1, Mem.write_obj_ne _ _ h1]
      · intro p hp
        have hp' : m.brk + 1 ≤ p := by
          have : m2.brk ≤ p := hp
          rw [hbrk2] at this
          exact this
        have h1 : p ≠ m.brk := Nat.ne_of_gt hp'
        rw [Mem.write_obj_ne _ _ h1, Mem.write_obj_ne _ _ h1]
        exact hs.fresh p (by rw [hbrk2]; exact hp')
    · intro q hq
      have h1 : q ≠ m.brk := Nat.ne_of_lt hq
      rw [Mem.write_obj_ne _ _ h1, Mem.write_obj_ne _ _ h1]
      exact hs.old q hq
    · exact hbrk2
  · rw [List.concat_eq_append] at hs hl hlen hloop hdsr
    obtain ⟨bs0, b0, rfl⟩ : ∃ bs0 b0, bs = bs0 ++ [b0] := by
      rcases List.eq_nil_or_concat bs with rfl | ⟨bs0, b0, rfl⟩
      · simp at hl
      · exact ⟨bs0, b0, by simp⟩
    have hl0 : ds0.length = bs0.length := by simpa using hl
    obtain ⟨hch0, nd, hnd, hdprev, hdnext, hdcnt, hdst⟩ := (chain_concat hl0).1 hs.chain
    have hnodup : (ds0 ++ [d]).Nodup := by
      rw [hs.addrs]
      exact List.nodup_range' _ _
    have hd0 : d ∉ ds0 := by
      intro hmem
      have := List.nodup_append.1 hnodup
      exact this.2.2 hmem (by simp)
    have hmemr : ∀ x ∈ ds0 ++ [d], m.brk + 1 ≤ x ∧ x < m.brk + 1 + (ds0 ++ [d]).length := by
      intro x hx
      rw [hs.addrs] at hx
      exact range_lt hx
    have hdF : d ≠ m.brk := Nat.ne_of_gt (hmemr d (by simp)).1
    have hF : m2.obj m.brk = some (Obj.base ⟨ind, (ds0 ++ [d]).headD ind⟩) := hs.fake
    have hbrk2 : m2.brk = m.brk + 1 + (ds0 ++ [d]).length := hs.brk_eq
    have hfresh3 : ∀ p, m2.brk ≤ p →
        ((m2.write d (Obj.node { nd with next := m.brk })).write m.brk
          (Obj.base ⟨d, (ds0 ++ [d]).headD ind⟩)).obj p = none := by
      intro p hp
      have hp' : m.brk + 1 + (ds0 ++ [d]).length ≤ p := by
        have : m2.brk ≤ p := hp
        rw [hbrk2] at this
        exact this
      have h1 : p ≠ m.brk := Nat.ne_of_gt (by simp only [Ptr] at *; omega)
      have h2 : p ≠ d := by
        have := (hmemr d (by simp)).2
        exact Nat.ne_of_gt (by simp only [Ptr] at *; omega)
      rw [Mem.write_obj_ne _ _ h1, Mem.write_obj_ne _ _ h2]
      exact hs.fresh p hp
    have hold3 : ∀ q, q < m.brk →
        ((m2.write d (Obj.node { nd with next := m.brk })).write m.brk
          (Obj.base ⟨d, (ds0 ++ [d]).headD ind⟩)).obj q = m2.obj q := by
      intro q hq
      have h1 : q ≠ m.brk := Nat.ne_of_lt hq
      have h2 : q ≠ d := by
        have := (hmemr d (by simp)).1
        exact Nat.ne_of_lt (by simp only [Ptr] at *; omega)
      rw [Mem.write_obj_ne _ _ h1, Mem.write_obj_ne _ _ h2]
    refine ⟨(m2.write d (Obj.node { nd with next := m.brk })).write m.brk
        (Obj.base ⟨d, (ds0 ++ [d]).headD ind⟩), ?_, ?_, hother _ hold3 hfresh3, ?_, ?_⟩
    · simp only [unrolled_list.new_copy, bind, pure, Option.bind_eq_bind, hnext,
        Option.some_bind]
      have e1 : ([] : List Ptr).isEmpty = true := rfl
      have e2 : (ds0 ++ [d]).getLast? = some d := by simp
      rw [e2] at hloop
      have hF2 : (m2.write d (Obj.node { nd with next := m.brk })).obj m.brk
          = some (Obj.base ⟨ind, (ds0 ++ [d]).headD ind⟩) := by
        rw [Mem.write_obj_ne _ _ hdF.symm]
        exact hF
      have hloop2 : copyLoop N m.brk other.fake_node_ fuel
          (as.headD other.fake_node_) true none _ = some (some d, m2) := hloop
      simp only [hloop2, Option.some_bind, Mem.setNext_node hnd, Mem.setPrev_base hF2]
    · rw [← hdsr]
      exact
        { cap_pos := h.cap_pos
          sentinel := ⟨⟨d, (ds0 ++ [d]).headD ind⟩, by simp, by
            show (ds0 ++ [d]).headD ind = (ds0 ++ [d]).headD m.brk
            rw [headD_append_cons, headD_append_cons], by
            show d = (ds0 ++ [d]).getLastD m.brk
            rw [getLastD_concat]⟩
          chain := by
            rw [chain_concat hl0]
            refine ⟨?_, ?_⟩
            · refine Chain.congr ?_ hch0
              intro x hx
              have hxd : x ≠ d := fun he => hd0 (he ▸ hx)
              have hxF : x ≠ m.brk := Nat.ne_of_gt (hmemr x (by simp [hx])).1
              rw [Mem.write_obj_ne _ _ hxF, Mem.write_obj_ne _ _ hxd]
            · exact ⟨{ nd with next := m.brk }, by
                rw [Mem.write_obj_ne _ _ hdF, Mem.write_obj_same], hdprev, rfl, hdcnt, hdst⟩
          counts := h.counts
          nodup := hnodup
          fake_not_block := by
            intro hmem
            have := (hmemr m.brk hmem).1
            exact Nat.lt_irrefl _ this
          size_eq := h.size_eq
          fresh := hfresh3 }
    · intro q hq
      rw [hold3 q hq]
      exact hs.old q hq
    · show m2.brk = _
      rw [hbrk2, hlen]

/-- C16: copy construction from a well-formed container `other` with blocks `bs` returns,
given more rounds than `other` has blocks; the new container is well formed, has the same
logical sequence and the same `size()`, and has as many blocks as `other`, the `i`-th
holding the same elements (and so the same count) as the `i`-th block of `other`: its
blocks are again `bs`.  An empty source gives an empty container whose sentinel is linked
to itself. -/
theorem copy_constructor_spec (N : Nat) (m : Mem α) (other : unrolled_list) (as : List Ptr)
    (bs : List (List α)) (ind : Ptr) (fuel : Nat) (h : WellFormed N m other as bs)
    (hf : as.length < fuel) :
    ∃ c2 m2 ds, unrolled_list.new_copy N other ind m fuel = some (c2, m2) ∧
      WellFormed N m2 c2 ds bs ∧ LogicalSeq N c2 m2 bs.flatten ∧ c2.size = other.size ∧
      ds.length = as.length ∧
      (bs = [] → ds = [] ∧ m2.next c2.fake_node_ = some c2.fake_node_ ∧
        m2.prev c2.fake_node_ = some c2.fake_node_) := by
  obtain ⟨m2, he, hw, -, -, -⟩ := new_copy_rep h ind fuel hf
  refine ⟨_, m2, _, he, hw, Rep.logicalSeq hw, rfl, by simp, ?_⟩
  intro hbs
  subst hbs
  have has : as = [] := List.length_eq_zero.mp (Rep.length_eq h)
  subst has
  obtain ⟨f, hfo, hfnext, hfprev⟩ := Rep.sentinel hw
  refine ⟨rfl, ?_, ?_⟩
  · rw [Mem.next_base hfo, hfnext]
    rfl
  · rw [Mem.prev_base hfo, hfprev]
    rfl

/-- Witness for C16: copying the example container `[1, 2] [3]` of capacity 2. -/
theorem copy_constructor_spec_witness :
    (WellFormed 2 exMem exList [2, 3] [[1, 2], [3]] ∧ ([2, 3] : List Ptr).length < 3) ∧
    ∃ c2 m2 ds, unrolled_list.new_copy 2 exList nullptr exMem 3 = some (c2, m2) ∧
      WellFormed 2 m2 c2 ds [[1, 2], [3]] ∧
      LogicalSeq 2 c2 m2 ([[1, 2], [3]] : List (List Nat)).flatten ∧
      c2.size = exList.size ∧ ds.length = ([2, 3] : List Ptr).length ∧
      (([[1, 2], [3]] : List (List Nat)) = [] → ds = [] ∧
        m2.next c2.fake_node_ = some c2.fake_node_ ∧
        m2.prev c2.fake_node_ = some c2.fake_node_) :=
  ⟨⟨exMem_wellFormed, by decide⟩,
    copy_constructor_spec 2 exMem exList [2, 3] [[1, 2], [3]] nullptr 3 exMem_wellFormed
      (by decide)⟩

/-! ## Two containers in one memory -/

theorem Rep.fake_not_other_block {N : Nat} {m : Mem α} {a b : unrolled_list}
    {pva pvb : Option Ptr} {asa asb : List Ptr} {bsa bsb : List (List α)}
    (ha : Rep N m a pva asa bsa) (hb : Rep N m b pvb asb bsb) : a.fake_node_ ∉ asb := by
  intro hmem
  obtain ⟨f, hf, -, -⟩ := ha.sentinel
  obtain ⟨as1, as2, rfl⟩ := List.append_of_mem hmem
  have hl : as1.length = (bsb.take as1.length).length := by
    have := hb.length_eq
    simp only [List.length_append, List.length_cons] at this
    simp only [List.length_take]
    omega
  have hlt : as1.length < bsb.length := by
    have := hb.length_eq
    simp only [List.length_append, List.length_cons] at this
    omega
  have hsplit : bsb = bsb.take as1.length ++ bsb[as1.length] :: bsb.drop (as1.length + 1) := by
    rw [← List.drop_eq_getElem_cons hlt, List.take_append_drop]
  have hch := hb.chain
  rw [hsplit] at hch
  obtain ⟨-, ⟨n, hn, -⟩, -⟩ := (chain_middle hl).1 hch
  rw [hf] at hn
  exact Obj.noConfusion (Option.some.inj hn)

/-- The block at `a` of a chain has its `prev` link on the preceding block, and on `pv`
when it is the first. -/
theorem Chain.prev_of_split {m : Mem α} {pv : Option Ptr} {as1 as2 : List Ptr} {a e : Ptr}
    {bs : List (List α)} (h : Chain m pv (as1 ++ a :: as2) bs e) :
    ∃ n, m.obj a = some (Obj.node n) ∧ ∀ p, lastPtr pv as1 = some p → n.prev = p := by
  have hlen := h.len_eq
  have hl : as1.length = (bs.take as1.length).length := by
    simp only [List.length_append, List.length_cons] at hlen
    simp only [List.length_take]
    omega
  have hlt : as1.length < bs.length := by
    simp only [List.length_append, List.length_cons] at hlen
    omega
  have hsplit : bs = bs.take as1.length ++ bs[as1.length] :: bs.drop (as1.length + 1) := by
    rw [← List.drop_eq_getElem_cons hlt, List.take_append_drop]
  rw [hsplit] at h
  obtain ⟨-, ⟨n, hn, hprev, -⟩, -⟩ := (chain_middle hl).1 h
  exact ⟨n, hn, hprev⟩

theorem lastPtr_some_cases (f : Ptr) (as : List Ptr) :
    lastPtr (some f) as = some f ∨ ∃ x ∈ as, lastPtr (some f) as = some x := by
  rcases List.eq_nil_or_concat as with rfl | ⟨as0, a0, rfl⟩
  · exact Or.inl rfl
  · refine Or.inr ⟨a0, by simp, ?_⟩
    rw [List.concat_eq_append, lastPtr_concat]

/-- Two well-formed containers with different sentinels share no block. -/
theorem wellFormed_disjoint {N : Nat} {m : Mem α} {a b : unrolled_list}
    {asa asb : List Ptr} {bsa bsb : List (List α)}
    (ha : WellFormed N m a asa bsa) (hb : WellFormed N m b asb bsb)
    (hne : a.fake_node_ ≠ b.fake_node_) : ∀ x ∈ asa, x ∉ asb := by
  have hfa : a.fake_node_ ∉ asb := Rep.fake_not_other_block ha hb
  have hfb : b.fake_node_ ∉ asa := Rep.fake_not_other_block hb ha
  have key : ∀ (n : Nat) (as1 as2 : List Ptr) (x : Ptr), asa = as1 ++ x :: as2 →
      as1.length = n → x ∉ asb := by
    intro n
    induction n with
    | zero =>
      intro as1 as2 x hsplit hlen hmem
      have has1 : as1 = [] := List.length_eq_zero.mp hlen
      subst has1
      have hcha : Chain m (some a.fake_node_) ([] ++ x :: as2) bsa a.fake_node_ := by
        rw [← hsplit]; exact Rep.chain ha
      obtain ⟨n1, hn1, hp1⟩ := hcha.prev_of_split
      have hx1 : n1.prev = a.fake_node_ := hp1 _ rfl
      obtain ⟨bs1, bs2, hsb⟩ := List.append_of_mem hmem
      have hchb : Chain m (some b.fake_node_) (bs1 ++ x :: bs2) bsb b.fake_node_ := by
        rw [← hsb]; exact Rep.chain hb
      obtain ⟨n2, hn2, hp2⟩ := hchb.prev_of_split
      rw [hn1] at hn2
      have hnn : n1 = n2 := Obj.node.inj (Option.some.inj hn2)
      subst hnn
      rcases lastPtr_some_cases b.fake_node_ bs1 with h1 | ⟨y, hy, h1⟩
      · exact hne ((hx1.symm.trans (hp2 _ h1)))
      · have : a.fake_node_ = y := hx1.symm.trans (hp2 _ h1)
        exact hfa (by rw [hsb, this]; simp [hy])
    | succ n ih =>
      intro as1 as2 x hsplit hlen hmem
      obtain ⟨as0, a0, rfl⟩ : ∃ as0 a0, as1 = as0 ++ [a0] := by
        rcases List.eq_nil_or_concat as1 with rfl | ⟨as0, a0, rfl⟩
        · simp at hlen
        · exact ⟨as0, a0, by simp⟩
      have hcha : Chain m (some a.fake_node_) ((as0 ++ [a0]) ++ x :: as2) bsa a.fake_node_ := by
        rw [← hsplit]; exact Rep.chain ha
      obtain ⟨n1, hn1, hp1⟩ := hcha.prev_of_split
      have hx1 : n1.prev = a0 := hp1 _ (lastPtr_concat _ _ _)
      have ha0 : a0 ∉ asb :=
        ih as0 (x :: as2) a0 (by rw [hsplit]; simp) (by simpa using hlen)
      obtain ⟨bs1, bs2, hsb⟩ := List.append_of_mem hmem
      have hchb : Chain m (some b.fake_node_) (bs1 ++ x :: bs2) bsb b.fake_node_ := by
        rw [← hsb]; exact Rep.chain hb
      obtain ⟨n2, hn2, hp2⟩ := hchb.prev_of_split
      rw [hn1] at hn2
      have hnn : n1 = n2 := Obj.node.inj (Option.some.inj hn2)
      subst hnn
      rcases lastPtr_some_cases b.fake_node_ bs1 with h1 | ⟨y, hy, h1⟩
      · have : a0 = b.fake_node_ := hx1.symm.trans (hp2 _ h1)
        exact hfb (by rw [hsplit, ← this]; simp)
      · have : a0 = y := hx1.symm.trans (hp2 _ h1)
        exact ha0 (by rw [hsb, this]; simp [hy])
  intro x hx
  obtain ⟨as1, as2, hsplit⟩ := List.append_of_mem hx
  exact key as1.length as1 as2 x hsplit rfl

/-! ## swap -/

theorem setLinks_base {m : Mem α} {s : Ptr} {f : BaseNode} (hf : m.obj s = some (Obj.base f))
    (p n : Ptr) : m.setLinks s p n = some (m.write s (Obj.base ⟨p, n⟩)) := by
  simp [Mem.setLinks, Mem.setPrev_base hf, Mem.setNext_base (Mem.write_obj_same _ _ _),
    Mem.write_write]

/-- The two statements `s.prev->next = &s; s.next->prev = &s` on a sentinel whose links
are the last and the first block of the non-empty chain `as`: the chain becomes one that
is closed through `s` in both directions; nothing but the two blocks is written. -/
theorem closeChain_chain {m : Mem α} {s e : Ptr} {pv : Option Ptr} {a : Ptr} {as : List Ptr}
    {b : List α} {bs : List (List α)}
    (hs : m.obj s = some (Obj.base ⟨(a :: as).getLastD s, a⟩))
    (hch : Chain m pv (a :: as) (b :: bs) e) (hnd : (a :: as).Nodup) (hsn : s ∉ a :: as) :
    ∃ m2, m.closeChain s = some m2 ∧ Chain m2 (some s) (a :: as) (b :: bs) s ∧
      (∀ q, q ∉ a :: as → m2.obj q = m.obj q) ∧ m2.brk = m.brk := by
  have hl := hch.len_eq
  have hl2 : (a :: as).length = ((b :: bs).dropLast ++ [(b :: bs).getLast (by simp)]).length := by
    rw [List.dropLast_append_getLast]; exact hl
  obtain ⟨as0, z, hz, hl0⟩ := split_last hl2
  have hbz : b :: bs = (b :: bs).dropLast ++ [(b :: bs).getLast (by simp)] :=
    (List.dropLast_append_getLast _).symm
  have hch2 := hch
  rw [hz, hbz] at hch2
  obtain ⟨hch0, nz, hnz, hzprev, hznext, hzcnt, hzst⟩ := (chain_concat hl0).1 hch2
  have hlast : (a :: as).getLastD s = z := by rw [hz, getLastD_concat]
  rw [hlast] at hs
  have hzs : z ≠ s := fun h => hsn (by rw [hz, h.symm]; simp)
  have has : a ≠ s := fun h => hsn (by simp [h])
  have hprev : m.prev s = some z := Mem.prev_base hs
  have hs2 : (m.write z (Obj.node { nz with next := s })).obj s
      = some (Obj.base ⟨z, a⟩) := by
    rw [Mem.write_obj_ne _ _ hzs.symm]; exact hs
  have hnext : (m.write z (Obj.node { nz with next := s })).next s = some a :=
    Mem.next_base hs2
  -- the chain after the first write
  have hchA : Chain (m.write z (Obj.node { nz with next := s })) pv (a :: as) (b :: bs) s := by
    rw [hz, hbz, chain_concat hl0]
    have hz0 : z ∉ as0 := by
      have hnd2 := hnd
      rw [hz] at hnd2
      intro hmem
      exact (List.nodup_append.1 hnd2).2.2 hmem (by simp)
    refine ⟨Chain.congr (fun x hx => ?_) hch0, { nz with next := s }, by simp, hzprev, rfl,
      hzcnt, hzst⟩
    have hxz : x ≠ z := fun h => hz0 (h ▸ hx)
    rw [Mem.write_obj_ne _ _ hxz]
  simp only [Chain] at hchA
  obtain ⟨⟨na, hna, -, hanext, hacnt, hast⟩, hrest⟩ := hchA
  have ha0 : a ∉ as := (List.nodup_cons.1 hnd).1
  refine ⟨(m.write z (Obj.node { nz with next := s })).write a (Obj.node { na with prev := s }),
    ?_, ?_, ?_, rfl⟩
  · simp only [Mem.closeChain, hprev, Option.some_bind, Mem.setNext_node hnz, hnext,
      Mem.setPrev_node hna]
  · simp only [Chain]
    refine ⟨⟨{ na with prev := s }, by simp, fun p hp => (Option.some.inj hp), hanext, hacnt,
      hast⟩, Chain.congr (fun x hx => ?_) hrest⟩
    have hxa : x ≠ a := fun h => ha0 (h ▸ hx)
    rw [Mem.write_obj_ne _ _ hxa]
  · intro q hq
    have hqa : q ≠ a := fun h => hq (by simp [h])
    have hqz : q ≠ z := fun h => hq (by rw [hz, h]; simp)
    rw [Mem.write_obj_ne _ _ hqa, Mem.write_obj_ne _ _ hqz]

theorem getLastD_cons_irrel (x : Ptr) (r : List Ptr) (e1 e2 : Ptr) :
    (x :: r).getLastD e1 = (x :: r).getLastD e2 := by
  rw [List.getLastD_eq_getLast?, List.getLastD_eq_getLast?,
    List.getLast?_eq_getLast _ (List.cons_ne_nil x r)]
  rfl

/-- A sentinel linked to itself is an empty well-formed container. -/
theorem wellFormed_empty {N : Nat} {m : Mem α} {s : Ptr} (hN : 0 < N)
    (hs : m.obj s = some (Obj.base ⟨s, s⟩)) (hfresh : ∀ p, m.brk ≤ p → m.obj p = none) :
    WellFormed N m ⟨s, 0⟩ [] [] :=
  { cap_pos := hN
    sentinel := ⟨⟨s, s⟩, hs, rfl, rfl⟩
    chain := trivial
    counts := by simp
    nodup := by simp
    fake_not_block := by simp
    size_eq := rfl
    fresh := hfresh }

/-- A sentinel `s` whose links are the last and the first block of the chain of another
container adopts that chain with `s.prev->next = &s; s.next->prev = &s`. -/
theorem adopt_rep {N : Nat} {m0 m : Mem α} {c0 : unrolled_list} {pv0 : Option Ptr}
    {x : Ptr} {r : List Ptr} {bs : List (List α)} {s : Ptr}
    (hsrc : Rep N m0 c0 pv0 (x :: r) bs) (hobj : ∀ q ∈ x :: r, m.obj q = m0.obj q)
    (hs : m.obj s = some (Obj.base ⟨(x :: r).getLastD s, x⟩)) (hsn : s ∉ x :: r)
    (hfresh : ∀ p, m.brk ≤ p → m.obj p = none) :
    ∃ m2, m.closeChain s = some m2 ∧ WellFormed N m2 ⟨s, c0.size_⟩ (x :: r) bs ∧
      (∀ q, q ∉ x :: r → m2.obj q = m.obj q) ∧ m2.brk = m.brk := by
  obtain ⟨b, bs2, rfl⟩ : ∃ b bs2, bs = b :: bs2 := by
    have hl := hsrc.length_eq
    cases bs with
    | nil => simp at hl
    | cons b bs2 => exact ⟨b, bs2, rfl⟩
  have hch : Chain m pv0 (x :: r) (b :: bs2) c0.fake_node_ := hsrc.chain.congr hobj
  obtain ⟨m2, he, hch2, hframe, hbrk⟩ := closeChain_chain hs hch hsrc.nodup hsn
  refine ⟨m2, he, ?_, hframe, hbrk⟩
  exact
    { cap_pos := hsrc.cap_pos
      sentinel := ⟨⟨(x :: r).getLastD s, x⟩, by rw [hframe s hsn]; exact hs, rfl, rfl⟩
      chain := hch2
      counts := hsrc.counts
      nodup := hsrc.nodup
      fake_not_block := hsn
      size_eq := hsrc.size_eq
      fresh := by
        intro p hp
        have hp2 : m.brk ≤ p := by
          have : m2.brk ≤ p := hp
          rw [hbrk] at this
          exact this
        by_cases hmem : p ∈ x :: r
        · obtain ⟨o, ho⟩ := hsrc.chain.obj_of_mem p hmem
          have h1 := hfresh p hp2
          rw [hobj p hmem, ho] at h1
          exact Option.noConfusion h1
        · rw [hframe p hmem]
          exact hfresh p hp2 }

/-- `swap` on two represented containers with different sentinels and no common block:
the call returns, each container is well formed afterwards and has the blocks (and so the
logical sequence) and the `size_` the other one had; only the two sentinels and the
first and last blocks are written. -/
theorem swap_rep {N : Nat} {m : Mem α} {a b : unrolled_list} {pva pvb : Option Ptr}
    {asa asb : List Ptr} {bsa bsb : List (List α)}
    (ha : Rep N m a pva asa bsa) (hb : Rep N m b pvb asb bsb)
    (hne : a.fake_node_ ≠ b.fake_node_) (hdis : ∀ x ∈ asa, x ∉ asb) :
    ∃ m2, a.swap b m = some (⟨a.fake_node_, b.size_⟩, ⟨b.fake_node_, a.size_⟩, m2) ∧
      WellFormed N m2 ⟨a.fake_node_, b.size_⟩ asb bsb ∧
      WellFormed N m2 ⟨b.fake_node_, a.size_⟩ asa bsa ∧
      (∀ q, q ≠ a.fake_node_ → q ≠ b.fake_node_ → q ∉ asa → q ∉ asb → m2.obj q = m.obj q) ∧
      m2.brk = m.brk := by
  obtain ⟨fa, hfa, hfanext, hfaprev⟩ := ha.sentinel
  obtain ⟨fb, hfb, hfbnext, hfbprev⟩ := hb.sentinel
  have hab : a.fake_node_ ∉ asb := ha.fake_not_other_block hb
  have hba : b.fake_node_ ∉ asa := hb.fake_not_other_block ha
  have hna := Mem.next_base hfa
  have hpa := Mem.prev_base hfa
  have hnb := Mem.next_base hfb
  have hpb := Mem.prev_base hfb
  rw [hfanext] at hna
  rw [hfaprev] at hpa
  rw [hfbnext] at hnb
  rw [hfbprev] at hpb
  cases asa with
  | nil =>
    have hbsa : bsa = [] := List.length_eq_zero.mp ha.length_eq.symm
    subst hbsa
    have hsa : a.size_ = 0 := ha.size_eq
    cases asb with
    | nil =>
      have hbsb : bsb = [] := List.length_eq_zero.mp hb.length_eq.symm
      subst hbsb
      have hsb : b.size_ = 0 := hb.size_eq
      refine ⟨m, ?_, ?_, ?_, fun _ _ _ _ _ => rfl, rfl⟩
      · simp only [unrolled_list.swap, bind, pure, Option.bind_eq_bind, hna, hpa, hnb, hpb,
          Option.some_bind, List.headD_nil, List.getLastD_nil, if_true]
      · rw [hsb]
        refine wellFormed_empty ha.cap_pos ?_ ha.fresh
        rw [hfa]
        simp only [List.headD_nil, List.getLastD_nil] at hfanext hfaprev
        cases fa
        simp only at hfanext hfaprev
        rw [hfanext, hfaprev]
      · rw [hsa]
        refine wellFormed_empty ha.cap_pos ?_ ha.fresh
        rw [hfb]
        simp only [List.headD_nil, List.getLastD_nil] at hfbnext hfbprev
        cases fb
        simp only at hfbnext hfbprev
        rw [hfbnext, hfbprev]
    | cons x r =>
      have hlastb : (x :: r).getLastD b.fake_node_ ≠ b.fake_node_ := by
        intro h
        apply hb.fake_not_block
        rw [← h, List.getLastD_eq_getLast?, List.getLast?_eq_getLast _ (by simp)]
        exact List.getLast_mem _
      have hfb1 : (m.write b.fake_node_ (Obj.base ⟨b.fake_node_, b.fake_node_⟩)).obj a.fake_node_
          = some (Obj.base fa) := by
        rw [Mem.write_obj_ne _ _ hne]; exact hfa
      obtain ⟨m3, hclose, hwa, hframe, hbrk⟩ := adopt_rep (N := N)
        (m := (m.write b.fake_node_ (Obj.base ⟨b.fake_node_, b.fake_node_⟩)).write a.fake_node_
          (Obj.base ⟨(x :: r).getLastD b.fake_node_, x⟩)) (s := a.fake_node_) hb
        (by
          intro q hq
          have h1 : q ≠ a.fake_node_ := fun h => hab (h ▸ hq)
          have h2 : q ≠ b.fake_node_ := fun h => hb.fake_not_block (h ▸ hq)
          rw [Mem.write_obj_ne _ _ h1, Mem.write_obj_ne _ _ h2])
        (by rw [Mem.write_obj_same, getLastD_cons_irrel x r a.fake_node_ b.fake_node_])
        hab
        (by
          intro p hp
          have hp2 : m.brk ≤ p := hp
          have h1 : p ≠ a.fake_node_ := Nat.ne_of_gt (Nat.lt_of_lt_of_le (ha.lt_brk hfa) hp2)
          have h2 : p ≠ b.fake_node_ := Nat.ne_of_gt (Nat.lt_of_lt_of_le (hb.lt_brk hfb) hp2)
          rw [Mem.write_obj_ne _ _ h1, Mem.write_obj_ne _ _ h2]
          exact ha.fresh p hp2)
      refine ⟨m3, ?_, hwa, ?_, ?_, hbrk⟩
      · simp only [unrolled_list.swap, bind, pure, Option.bind_eq_bind, hna, hpa, hnb, hpb,
          Option.some_bind, List.headD_nil, List.getLastD_nil, if_true, hlastb, if_false,
          setLinks_base hfb, setLinks_base hfb1, List.headD_cons, hclose]
      · rw [hsa]
        refine wellFormed_empty ha.cap_pos ?_ hwa.fresh
        rw [hframe _ hb.fake_not_block, Mem.write_obj_ne _ _ hne.symm, Mem.write_obj_same]
      · intro q h1 h2 _ h4
        rw [hframe q h4, Mem.write_obj_ne _ _ h1, Mem.write_obj_ne _ _ h2]
  | cons y t =>
    have hfirsta : y ≠ a.fake_node_ := by
      intro h
      apply ha.fake_not_block
      rw [← h]
      simp
    cases asb with
    | nil =>
      have hbsb : bsb = [] := List.length_eq_zero.mp hb.length_eq.symm
      subst hbsb
      have hsb : b.size_ = 0 := hb.size_eq
      have hfb1 : (m.write a.fake_node_ (Obj.base ⟨a.fake_node_, a.fake_node_⟩)).obj b.fake_node_
          = some (Obj.base fb) := by
        rw [Mem.write_obj_ne _ _ hne.symm]; exact hfb
      obtain ⟨m3, hclose, hwb, hframe, hbrk⟩ := adopt_rep (N := N)
        (m := (m.write a.fake_node_ (Obj.base ⟨a.fake_node_, a.fake_node_⟩)).write b.fake_node_
          (Obj.base ⟨(y :: t).getLastD a.fake_node_, y⟩)) (s := b.fake_node_) ha
        (by
          intro q hq
          have h1 : q ≠ b.fake_node_ := fun h => hba (h ▸ hq)
          have h2 : q ≠ a.fake_node_ := fun h => ha.fake_not_block (h ▸ hq)
          rw [Mem.write_obj_ne _ _ h1, Mem.write_obj_ne _ _ h2])
        (by rw [Mem.write_obj_same, getLastD_cons_irrel y t b.fake_node_ a.fake_node_])
        hba
        (by
          intro p hp
          have hp2 : m.brk ≤ p := hp
          have h1 : p ≠ a.fake_node_ := Nat.ne_of_gt (Nat.lt_of_lt_of_le (ha.lt_brk hfa) hp2)
          have h2 : p ≠ b.fake_node_ := Nat.ne_of_gt (Nat.lt_of_lt_of_le (hb.lt_brk hfb) hp2)
          rw [Mem.write_obj_ne _ _ h2, Mem.write_obj_ne _ _ h1]
          exact ha.fresh p hp2)
      refine ⟨m3, ?_, ?_, hwb, ?_, hbrk⟩
      · simp only [unrolled_list.swap, bind, pure, Option.bind_eq_bind, hna, hpa, hnb, hpb,
          Option.some_bind, List.headD_nil, List.getLastD_nil, if_true, hfirsta, if_false,
          setLinks_base hfa, setLinks_base hfb1, List.headD_cons, hclose]
      · rw [hsb]
        refine wellFormed_empty ha.cap_pos ?_ hwb.fresh
        rw [hframe _ ha.fake_not_block, Mem.write_obj_ne _ _ hne, Mem.write_obj_same]
      · intro q h1 h2 h3 _
        rw [hframe q h3, Mem.write_obj_ne _ _ h2, Mem.write_obj_ne _ _ h1]
    | cons x r =>
      have hlastb : (x :: r).getLastD b.fake_node_ ≠ b.fake_node_ := by
        intro h
        apply hb.fake_not_block
        rw [← h, List.getLastD_eq_getLast?, List.getLast?_eq_getLast _ (by simp)]
        exact List.getLast_mem _
      have hfa1 : (m.write b.fake_node_ (Obj.base ⟨(y :: t).getLastD a.fake_node_, y⟩)).obj
          a.fake_node_ = some (Obj.base fa) := by
        rw [Mem.write_obj_ne _ _ hne]; exact hfa
      have hfresh2 : ∀ p, m.brk ≤ p →
          ((m.write b.fake_node_ (Obj.base ⟨(y :: t).getLastD a.fake_node_, y⟩)).write
            a.fake_node_ (Obj.base ⟨(x :: r).getLastD b.fake_node_, x⟩)).obj p = none := by
        intro p hp2
        have h1 : p ≠ a.fake_node_ := Nat.ne_of_gt (Nat.lt_of_lt_of_le (ha.lt_brk hfa) hp2)
        have h2 : p ≠ b.fake_node_ := Nat.ne_of_gt (Nat.lt_of_lt_of_le (hb.lt_brk hfb) hp2)
        rw [Mem.write_obj_ne _ _ h1, Mem.write_obj_ne _ _ h2]
        exact ha.fresh p hp2
      obtain ⟨m3, hclose3, hwb, hframe3, hbrk3⟩ := adopt_rep (N := N)
        (m := (m.write b.fake_node_ (Obj.base ⟨(y :: t).getLastD a.fake_node_, y⟩)).write
          a.fake_node_ (Obj.base ⟨(x :: r).getLastD b.fake_node_, x⟩)) (s := b.fake_node_) ha
        (by
          intro q hq
          have h1 : q ≠ b.fake_node_ := fun h => hba (h ▸ hq)
          have h2 : q ≠ a.fake_node_ := fun h => ha.fake_not_block (h ▸ hq)
          rw [Mem.write_obj_ne _ _ h2, Mem.write_obj_ne _ _ h1])
        (by
          rw [Mem.write_obj_ne _ _ hne.symm, Mem.write_obj_same,
            getLastD_cons_irrel y t b.fake_node_ a.fake_node_])
        hba hfresh2
      obtain ⟨m4, hclose4, hwa, hframe4, hbrk4⟩ := adopt_rep (N := N) (m := m3)
        (s := a.fake_node_) hb
        (by
          intro q hq
          have h1 : q ≠ a.fake_node_ := fun h => hab (h ▸ hq)
          have h2 : q ≠ b.fake_node_ := fun h => hb.fake_not_block (h ▸ hq)
          have h3 : q ∉ y :: t := fun h => hdis q h hq
          rw [hframe3 q h3, Mem.write_obj_ne _ _ h1, Mem.write_obj_ne _ _ h2])
        (by
          rw [hframe3 _ ha.fake_not_block, Mem.write_obj_same,
            getLastD_cons_irrel x r a.fake_node_ b.fake_node_])
        hab hwb.fresh
      refine ⟨m4, ?_, hwa, ?_, ?_, by rw [hbrk4, hbrk3]; rfl⟩
      · simp only [unrolled_list.swap, bind, pure, Option.bind_eq_bind, hna, hpa, hnb, hpb,
          Option.some_bind, hfirsta, if_false, hlastb, setLinks_base hfb, setLinks_base hfa1,
          List.headD_cons, hclose3, hclose4]
      · refine Rep.of_agree hwb (hframe4 _ hb.fake_not_block) ?_ hwa.fresh
        intro q hq
        exact hframe4 q (hdis q hq)
      · intro q h1 h2 h3 h4
        rw [hframe4 q h4, hframe3 q h3, Mem.write_obj_ne _ _ h1, Mem.write_obj_ne _ _ h2]

/-! ## The footprint of the operations -/

theorem post_bind {β γ : Type} {P : γ → Prop} {x : Option β} {f : β → Option γ}
    (h : ∀ a, x = some a → Post P (f a)) : Post P (x.bind f) := by
  intro r hr
  cases x with
  | none => simp at hr
  | some a => exact h a rfl r hr

theorem post_some {β : Type} {P : β → Prop} {r : β} (h : P r) : Post P (some r) := by
  intro r2 hr
  cases hr
  exact h

theorem post_none {β : Type} {P : β → Prop} : Post P (none : Option β) := by
  intro r hr
  cases hr

theorem post_ite {β : Type} {P : β → Prop} {c : Prop} [Decidable c] {x y : Option β}
    (h1 : c → Post P x) (h2 : ¬ c → Post P y) : Post P (if c then x else y) := by
  by_cases hc : c
  · rw [if_pos hc]; exact h1 hc
  · rw [if_neg hc]; exact h2 hc

theorem post_map {β γ : Type} {P : γ → Prop} {x : Option β} {f : β → γ}
    (h : ∀ a, x = some a → P (f a)) : Post P (x.map f) := by
  intro r hr
  cases x with
  | none => simp at hr
  | some a =>
    simp only [Option.map_some', Option.some.injEq] at hr
    subst hr
    exact h a rfl

theorem Within.refl {S : Ptr → Prop} {m : Mem α} (habove : ∀ q, m.brk ≤ q → S q)
    (hclosed : ∀ p x, S p → (m.prev p = some x ∨ m.next p = some x) → S x)
    (hfresh : ∀ p, m.brk ≤ p → m.obj p = none) : Within S m m :=
  { brk_le := Nat.le_refl _
    above := habove
    frame := fun _ _ => rfl
    closed := hclosed
    fresh := hfresh }

/-- Overwriting an existing object of the region by one whose links lead into the
region. -/
theorem Within.write {S : Ptr → Prop} {m0 m : Mem α} (h : Within S m0 m) {p : Ptr}
    {o : Obj α} (hp : S p) (hex : m.obj p ≠ none)
    (hlinks : ∀ x, ((m.write p o).prev p = some x ∨ (m.write p o).next p = some x) → S x) :
    Within S m0 (m.write p o) :=
  { brk_le := h.brk_le
    above := h.above
    frame := by
      intro q hq
      have hqp : q ≠ p := fun he => hq (he ▸ hp)
      rw [Mem.write_obj_ne _ _ hqp]
      exact h.frame q hq
    closed := by
      intro q x hq hx
      by_cases hqp : q = p
      · subst hqp
        exact hlinks x hx
      · have e1 : (m.write p o).prev q = m.prev q := by
          simp [Mem.prev, Mem.write_obj_ne _ _ hqp]
        have e2 : (m.write p o).next q = m.next q := by
          simp [Mem.next, Mem.write_obj_ne _ _ hqp]
        rw [e1, e2] at hx
        exact h.closed q x hq hx
    fresh := by
      intro q hq
      have hq2 : m.brk ≤ q := hq
      have hqp : q ≠ p := by
        intro he
        subst he
        exact hex (h.fresh q hq2)
      rw [Mem.write_obj_ne _ _ hqp]
      exact h.fresh q hq2 }

theorem Within.read_prev {S : Ptr → Prop} {m0 m : Mem α} (h : Within S m0 m) {p x : Ptr}
    (hp : S p) (hx : m.prev p = some x) : S x := h.closed p x hp (Or.inl hx)

theorem Within.read_next {S : Ptr → Prop} {m0 m : Mem α} (h : Within S m0 m) {p x : Ptr}
    (hp : S p) (hx : m.next p = some x) : S x := h.closed p x hp (Or.inr hx)

theorem Within.setPrev {S : Ptr → Prop} {m0 m m2 : Mem α} (h : Within S m0 m) {p x : Ptr}
    (hp : S p) (hx : S x) (he : m.setPrev p x = some m2) : Within S m0 m2 := by
  unfold Mem.setPrev at he
  cases ho : m.obj p with
  | none => simp [ho] at he
  | some o =>
    cases o with
    | base b =>
      simp only [ho, Option.some.injEq] at he
      subst he
      refine h.write hp (by simp [ho]) ?_
      intro y hy
      simp only [Mem.prev, Mem.next, Mem.write_obj_same, Option.some.injEq] at hy
      rcases hy with rfl | rfl
      · exact hx
      · exact h.closed p _ hp (Or.inr (Mem.next_base ho))
    | node n =>
      simp only [ho, Option.some.injEq] at he
      subst he
      refine h.write hp (by simp [ho]) ?_
      intro y hy
      simp only [Mem.prev, Mem.next, Mem.write_obj_same, Option.some.injEq] at hy
      rcases hy with rfl | rfl
      · exact hx
      · exact h.closed p _ hp (Or.inr (Mem.next_node ho))

theorem Within.setNext {S : Ptr → Prop} {m0 m m2 : Mem α} (h : Within S m0 m) {p x : Ptr}
    (hp : S p) (hx : S x) (he : m.setNext p x = some m2) : Within S m0 m2 := by
  unfold Mem.setNext at he
  cases ho : m.obj p with
  | none => simp [ho] at he
  | some o =>
    cases o with
    | base b =>
      simp only [ho, Option.some.injEq] at he
      subst he
      refine h.write hp (by simp [ho]) ?_
      intro y hy
      simp only [Mem.prev, Mem.next, Mem.write_obj_same, Option.some.injEq] at hy
      rcases hy with rfl | rfl
      · exact h.closed p _ hp (Or.inl (Mem.prev_base ho))
      · exact hx
    | node n =>
      simp only [ho, Option.some.injEq] at he
      subst he
      refine h.write hp (by simp [ho]) ?_
      intro y hy
      simp only [Mem.prev, Mem.next, Mem.write_obj_same, Option.some.injEq] at hy
      rcases hy with rfl | rfl
      · exact h.closed p _ hp (Or.inl (Mem.prev_node ho))
      · exact hx

/-- Overwriting a block of the region by one with the same links. -/
theorem Within.write_node {S : Ptr → Prop} {m0 m : Mem α} (h : Within S m0 m) {p : Ptr}
    {n n2 : Node α} (hp : S p) (hn : m.obj p = some (Obj.node n)) (h1 : n2.prev = n.prev)
    (h2 : n2.next = n.next) : Within S m0 (m.write p (Obj.node n2)) := by
  refine h.write hp (by simp [hn]) ?_
  intro y hy
  simp only [Mem.prev, Mem.next, Mem.write_obj_same, Option.some.injEq] at hy
  rcases hy with rfl | rfl
  · rw [h1]; exact h.closed p _ hp (Or.inl (Mem.prev_node hn))
  · rw [h2]; exact h.closed p _ hp (Or.inr (Mem.next_node hn))

theorem Within.setCount {S : Ptr → Prop} {m0 m m2 : Mem α} (h : Within S m0 m) {p : Ptr}
    {k : Nat} (hp : S p) (he : m.setCount p k = some m2) : Within S m0 m2 := by
  unfold Mem.setCount Mem.node at he
  cases ho : m.obj p with
  | none => simp [ho] at he
  | some o =>
    cases o with
    | base b => simp [ho] at he
    | node n =>
      simp only [ho, Option.map_some', Option.some.injEq] at he
      subst he
      exact h.write_node hp ho rfl rfl

theorem Within.setSlot {S : Ptr → Prop} {m0 m m2 : Mem α} (h : Within S m0 m) {N : Nat}
    {p : Ptr} {i : Nat} {x : Option α} (hp : S p) (he : m.setSlot N p i x = some m2) :
    Within S m0 m2 := by
  unfold Mem.setSlot Mem.node at he
  cases ho : m.obj p with
  | none => simp [ho] at he
  | some o =>
    cases o with
    | base b => simp [ho] at he
    | node n =>
      by_cases hi : i < N
      · simp only [ho, Option.some_bind, hi, if_true, Option.some.injEq] at he
        subst he
        exact h.write_node hp ho rfl rfl
      · simp [ho, hi] at he

theorem Within.construct {S : Ptr → Prop} {m0 m m2 : Mem α} (h : Within S m0 m) {N : Nat}
    {p : Ptr} {i : Nat} {x : α} (hp : S p) (he : m.construct N p i x = some m2) :
    Within S m0 m2 := h.setSlot hp he

theorem Within.destroy {S : Ptr → Prop} {m0 m m2 : Mem α} (h : Within S m0 m) {N : Nat}
    {p : Ptr} {i : Nat} (hp : S p) (he : m.destroy N p i = some m2) :
    Within S m0 m2 := h.setSlot hp he

theorem Within.moveSlot {S : Ptr → Prop} {m0 m m2 : Mem α} (h : Within S m0 m) {N : Nat}
    {p : Ptr} {i j : Nat} (hp : S p) (he : m.moveSlot N p i j = some m2) :
    Within S m0 m2 := by
  unfold Mem.moveSlot at he
  cases hs : m.slot N p j with
  | none => simp [hs] at he
  | some x =>
    simp only [hs, Option.some_bind] at he
    exact h.setSlot hp he

theorem Within.newNode {S : Ptr → Prop} {m0 m : Mem α} (h : Within S m0 m) {l r : Ptr}
    (hl : S l) (hr : S r) : Within S m0 (m.newNode l r).2 ∧ S (m.newNode l r).1 := by
  have hb : S m.brk := h.above _ h.brk_le
  refine ⟨?_, hb⟩
  exact
    { brk_le := Nat.le_succ_of_le h.brk_le
      above := h.above
      frame := by
        intro q hq
        have hqp : q ≠ m.brk := fun he => hq (he ▸ hb)
        simp only [Mem.newNode, hqp, if_false]
        exact h.frame q hq
      closed := by
        intro q x hq hx
        by_cases hqp : q = m.brk
        · subst hqp
          simp only [Mem.prev, Mem.next, Mem.newNode, if_true, Option.some.injEq] at hx
          rcases hx with rfl | rfl
          · exact hl
          · exact hr
        · have e1 : (m.newNode l r).2.prev q = m.prev q := by
            simp [Mem.prev, Mem.newNode, hqp]
          have e2 : (m.newNode l r).2.next q = m.next q := by
            simp [Mem.next, Mem.newNode, hqp]
          rw [e1, e2] at hx
          exact h.closed q x hq hx
      fresh := by
        intro q hq
        have hq2 : m.brk + 1 ≤ q := hq
        have hqp : q ≠ m.brk := Nat.ne_of_gt hq2
        simp only [Mem.newNode, hqp, if_false]
        exact h.fresh q (Nat.le_of_lt hq2) }

theorem Within.freeNode {S : Ptr → Prop} {m0 m m2 : Mem α} (h : Within S m0 m) {p : Ptr}
    (hp : S p) (he : m.freeNode p = some m2) : Within S m0 m2 := by
  unfold Mem.freeNode at he
  cases hn : m.node p with
  | none => simp [hn] at he
  | some n =>
    simp only [hn, Option.map_some', Option.some.injEq] at he
    subst he
    exact
      { brk_le := h.brk_le
        above := h.above
        frame := by
          intro q hq
          have hqp : q ≠ p := fun he => hq (he ▸ hp)
          simp only [hqp, if_false]
          exact h.frame q hq
        closed := by
          intro q x hq hx
          by_cases hqp : q = p
          · subst hqp
            simp [Mem.prev, Mem.next] at hx
          · have e1 : Mem.prev { m with obj := fun q => if q = p then none else m.obj q } q
                = m.prev q := by
              simp [Mem.prev, hqp]
            have e2 : Mem.next { m with obj := fun q => if q = p then none else m.obj q } q
                = m.next q := by
              simp [Mem.next, hqp]
            rw [e1, e2] at hx
            exact h.closed q x hq hx
        fresh := by
          intro q hq
          by_cases hqp : q = p
          · simp [hqp]
          · simp only [hqp, if_false]
            exact h.fresh q hq }

theorem Within.shift_right {S : Ptr → Prop} {m0 : Mem α} {N : Nat} {p : Ptr} (lo : Nat)
    (hp : S p) : ∀ (i : Nat) (m m2 : Mem α), Within S m0 m →
      shiftRight N p lo i m = some m2 → Within S m0 m2
  | 0, m, m2, h, he => by
    simp only [shiftRight, Option.some.injEq] at he
    subst he
    exact h
  | i + 1, m, m2, h, he => by
    simp only [shiftRight] at he
    by_cases hlo : lo < i + 1
    · simp only [hlo, if_true] at he
      cases hm : m.moveSlot N p (i + 1) i with
      | none => simp [hm] at he
      | some m1 =>
        simp only [hm, Option.some_bind] at he
        exact Within.shift_right lo hp i m1 m2 (h.moveSlot hp hm) he
    · simp only [hlo, if_false, Option.some.injEq] at he
      subst he
      exact h

theorem Within.shift_right_signed {S : Ptr → Prop} {m0 m m2 : Mem α} {N : Nat} {p : Ptr}
    {start : Nat} (h : Within S m0 m) (hp : S p)
    (he : shiftRightSigned N p start m = some m2) : Within S m0 m2 := by
  unfold shiftRightSigned at he
  by_cases hneg : toInt32 start < 0
  · simp only [hneg, if_true, Option.some.injEq] at he
    subst he
    exact h
  · simp only [hneg, if_false] at he
    exact Within.shift_right 0 hp _ m m2 h he

theorem Within.shift_right_unsigned {S : Ptr → Prop} {m0 m m2 : Mem α} {N : Nat} {p : Ptr}
    {index_ start : Nat} (h : Within S m0 m) (hp : S p)
    (he : shiftRightUnsigned N p index_ start m = some m2) : Within S m0 m2 := by
  unfold shiftRightUnsigned at he
  by_cases hneg : toInt32 start < 0
  · simp [hneg] at he
  · simp only [hneg, if_false] at he
    exact Within.shift_right index_ hp _ m m2 h he

theorem Within.shift_left {S : Ptr → Prop} {m0 : Mem α} {N : Nat} {p : Ptr} (hp : S p) :
    ∀ (steps i : Nat) (m m2 : Mem α), Within S m0 m →
      shiftLeft N p steps i m = some m2 → Within S m0 m2
  | 0, _, m, m2, h, he => by
    simp only [shiftLeft, Option.some.injEq] at he
    subst he
    exact h
  | steps + 1, i, m, m2, h, he => by
    simp only [shiftLeft] at he
    cases hm : m.moveSlot N p i (i + 1) with
    | none => simp [hm] at he
    | some m1 =>
      simp only [hm, Option.some_bind] at he
      exact Within.shift_left hp steps (i + 1) m1 m2 (h.moveSlot hp hm) he

theorem post_bind_of {β γ : Type} {Q : β → Prop} {P : γ → Prop} {x : Option β}
    {f : β → Option γ} (hx : Post Q x) (h : ∀ a, Q a → Post P (f a)) : Post P (x.bind f) :=
  post_bind fun a ha => h a (hx a ha)

theorem Within.cbegin_mem {S : Ptr → Prop} {m0 m : Mem α} (h : Within S m0 m) {c : unrolled_list}
    (hc : S c.fake_node_) : Post (fun b => S b.ptr_) (c.cbegin m) := by
  unfold unrolled_list.cbegin
  exact post_map fun p hp => h.read_next hc hp

theorem Within.inc {S : Ptr → Prop} {m0 m : Mem α} (h : Within S m0 m) {it : Iterator}
    (hit : S it.ptr_) : Post (fun b => S b.ptr_) (it.inc m) := by
  unfold Iterator.inc
  apply post_map
  intro n hn
  have hnext : m.next it.ptr_ = some n.next := by
    unfold Mem.node at hn
    cases ho : m.obj it.ptr_ with
    | none => simp [ho] at hn
    | some o =>
      cases o with
      | base b => simp [ho] at hn
      | node n2 =>
        simp only [ho, Option.some.injEq] at hn
        subst hn
        exact Mem.next_node ho
  by_cases hk : it.index_ + 1 = n.count
  · simp only [hk, if_true]
    exact h.read_next hit hnext
  · simp only [hk, if_false]
    exact hit

theorem Within.dec {S : Ptr → Prop} {m0 m : Mem α} (h : Within S m0 m) {it : Iterator}
    (hit : S it.ptr_) : Post (fun b => S b.ptr_) (it.dec m) := by
  unfold Iterator.dec
  apply post_ite <;> intro _
  · apply post_bind
    intro p hp
    exact post_map fun k _ => h.read_prev hit hp
  · exact post_some hit

theorem Within.advance {S : Ptr → Prop} {m0 m : Mem α} (h : Within S m0 m) :
    ∀ (k : Nat) (it : Iterator), S it.ptr_ → Post (fun b => S b.ptr_) (advance m k it)
  | 0, it, hit => post_some hit
  | k + 1, it, hit => by
    simp only [UnrolledList.advance]
    exact post_bind_of (h.inc hit) fun a ha => Within.advance h k a ha

theorem push_back_within {S : Ptr → Prop} {m0 m : Mem α} {N : Nat} {c : unrolled_list}
    {v : α} (h : Within S m0 m) (hc : S c.fake_node_) :
    Post (fun r => Within S m0 r.2 ∧ r.1.fake_node_ = c.fake_node_) (c.push_back N v m) := by
  unfold unrolled_list.push_back
  simp only [bind, pure, Option.bind_eq_bind, Mem.newNode]
  apply post_bind; intro grow _
  apply post_ite <;> intro _
  · apply post_ite <;> intro _
    · obtain ⟨hW1, hb⟩ := h.newNode hc hc
      apply post_bind; intro m1 h1
      have hW2 := hW1.construct hb h1
      apply post_bind; intro m2 h2
      have hW3 := hW2.setPrev hc hb h2
      apply post_bind; intro m3 h3
      have hW4 := hW3.setNext hc hb h3
      apply post_bind; intro k _
      apply post_bind; intro m4 h4
      exact post_some ⟨hW4.setCount hb h4, rfl⟩
    · apply post_bind; intro last hlast
      have hl := h.read_prev hc hlast
      obtain ⟨hW1, hb⟩ := h.newNode hl hc
      apply post_bind; intro m1 h1
      have hW2 := hW1.construct hb h1
      apply post_bind; intro m2 h2
      have hW3 := hW2.setNext hl hb h2
      apply post_bind; intro m3 h3
      have hW4 := hW3.setPrev hc hb h3
      apply post_bind; intro k _
      apply post_bind; intro m4 h4
      exact post_some ⟨hW4.setCount hb h4, rfl⟩
  · apply post_bind; intro back hback
    have hbk := h.read_prev hc hback
    apply post_bind; intro k _
    apply post_bind; intro m1 h1
    apply post_bind; intro m2 h2
    exact post_some ⟨(h.construct hbk h1).setCount hbk h2, rfl⟩

theorem push_front_within {S : Ptr → Prop} {m0 m : Mem α} {N : Nat} {c : unrolled_list}
    {v : α} (h : Within S m0 m) (hc : S c.fake_node_) :
    Post (fun r => Within S m0 r.2 ∧ r.1.fake_node_ = c.fake_node_) (c.push_front N v m) := by
  unfold unrolled_list.push_front
  simp only [bind, pure, Option.bind_eq_bind, Mem.newNode]
  apply post_bind; intro grow _
  apply post_ite <;> intro _
  · apply post_ite <;> intro _
    · obtain ⟨hW1, hb⟩ := h.newNode hc hc
      apply post_bind; intro m1 h1
      have hW2 := hW1.construct hb h1
      apply post_bind; intro m2 h2
      have hW3 := hW2.setPrev hc hb h2
      apply post_bind; intro m3 h3
      have hW4 := hW3.setNext hc hb h3
      apply post_bind; intro k _
      apply post_bind; intro m4 h4
      exact post_some ⟨hW4.setCount hb h4, rfl⟩
    · apply post_bind; intro first hfirst
      have hl := h.read_next hc hfirst
      obtain ⟨hW1, hb⟩ := h.newNode hc hl
      apply post_bind; intro m1 h1
      have hW2 := hW1.construct hb h1
      apply post_bind; intro m2 h2
      have hW3 := hW2.setPrev hl hb h2
      apply post_bind; intro m3 h3
      have hW4 := hW3.setNext hc hb h3
      apply post_bind; intro k _
      apply post_bind; intro m4 h4
      exact post_some ⟨hW4.setCount hb h4, rfl⟩
  · apply post_bind; intro front hfront
    have hfr := h.read_next hc hfront
    apply post_bind; intro k _
    apply post_bind; intro m1 h1
    have hW1 := h.shift_right_signed hfr h1
    apply post_bind; intro m2 h2
    have hW2 := hW1.construct hfr h2
    apply post_bind; intro k2 _
    apply post_bind; intro m3 h3
    exact post_some ⟨hW2.setCount hfr h3, rfl⟩

theorem pop_back_within {S : Ptr → Prop} {m0 m : Mem α} {N : Nat} {c : unrolled_list}
    (h : Within S m0 m) (hc : S c.fake_node_) :
    Post (fun r => Within S m0 r.2 ∧ r.1.fake_node_ = c.fake_node_) (c.pop_back N m) := by
  unfold unrolled_list.pop_back
  simp only [bind, pure, Option.bind_eq_bind]
  apply post_ite <;> intro _
  · exact post_some ⟨h, rfl⟩
  · apply post_bind; intro back hback
    have hbk := h.read_prev hc hback
    apply post_bind; intro k _
    apply post_ite <;> intro _
    · apply post_bind; intro m1 h1
      have hW1 := h.setCount hbk h1
      apply post_bind; intro k2 _
      apply post_bind; intro m2 h2
      exact post_some ⟨hW1.destroy hbk h2, rfl⟩
    · refine post_bind_of (Q := fun m1 => Within S m0 m1) ?_ ?_
      · apply post_ite <;> intro _
        · apply post_bind; intro m1 h1
          intro r hr
          exact (h.setNext hc hc h1).setPrev hc hc hr
        · apply post_bind; intro p hp
          have hSp := h.read_prev hbk hp
          apply post_bind; intro m1 h1
          have hW1 := h.setNext hSp hc h1
          apply post_bind; intro p2 hp2
          have hSp2 := hW1.read_prev hbk hp2
          intro r hr
          exact hW1.setPrev hc hSp2 hr
      · intro m1 hW1
        apply post_bind; intro m2 h2
        exact post_some ⟨hW1.freeNode hbk h2, rfl⟩

theorem pop_front_within {S : Ptr → Prop} {m0 m : Mem α} {N : Nat} {c : unrolled_list}
    (h : Within S m0 m) (hc : S c.fake_node_) :
    Post (fun r => Within S m0 r.2 ∧ r.1.fake_node_ = c.fake_node_) (c.pop_front N m) := by
  unfold unrolled_list.pop_front
  simp only [bind, pure, Option.bind_eq_bind]
  apply post_ite <;> intro _
  · exact post_some ⟨h, rfl⟩
  · apply post_bind; intro front hfront
    have hfr := h.read_next hc hfront
    apply post_bind; intro k _
    apply post_ite <;> intro _
    · apply post_bind; intro m1 h1
      have hW1 := h.destroy hfr h1
      apply post_bind; intro m2 h2
      have hW2 := hW1.setCount hfr h2
      apply post_bind; intro k2 _
      apply post_bind; intro m3 h3
      have hW3 := Within.shift_left hfr _ _ _ _ hW2 h3
      apply post_bind; intro m4 h4
      exact post_some ⟨hW3.destroy hfr h4, rfl⟩
    · refine post_bind_of (Q := fun m1 => Within S m0 m1) ?_ ?_
      · apply post_ite <;> intro _
        · apply post_bind; intro m1 h1
          intro r hr
          exact (h.setNext hc hc h1).setPrev hc hc hr
        · apply post_bind; intro n hn
          have hSn := h.read_next hfr hn
          apply post_bind; intro m1 h1
          have hW1 := h.setNext hc hSn h1
          apply post_bind; intro n2 hn2
          have hSn2 := hW1.read_next hfr hn2
          apply post_bind; intro first hfirst
          have hSf := hW1.read_next hc hfirst
          intro r hr
          exact hW1.setPrev hSn2 hSf hr
      · intro m1 hW1
        apply post_bind; intro m2 h2
        exact post_some ⟨hW1.freeNode hfr h2, rfl⟩

theorem insert_within {S : Ptr → Prop} {m0 m : Mem α} {N : Nat} {c : unrolled_list}
    {cpos : Iterator} {v : α} (h : Within S m0 m) (hc : S c.fake_node_) (hp : S cpos.ptr_) :
    Post (fun r => Within S m0 r.2.2 ∧ r.2.1.fake_node_ = c.fake_node_ ∧ S r.1.ptr_)
      (c.insert N cpos v m) := by
  unfold unrolled_list.insert
  simp only [bind, pure, Option.bind_eq_bind, Mem.newNode]
  apply post_ite <;> intro _
  · apply post_ite <;> intro _
    · obtain ⟨hW1, hb⟩ := h.newNode hc hc
      apply post_bind; intro m1 h1
      have hW2 := hW1.setCount hb h1
      apply post_bind; intro m2 h2
      have hW3 := hW2.construct hb h2
      apply post_bind; intro m3 h3
      have hW4 := hW3.setPrev hc hb h3
      apply post_bind; intro m4 h4
      have hW5 := hW4.setNext hc hb h4
      apply post_bind; intro b hbeg
      exact post_some ⟨hW5, rfl, Within.cbegin_mem (c := ⟨c.fake_node_, c.size_ + 1⟩) hW5 hc b hbeg⟩
    · apply post_bind; intro back hback
      have hbk := h.read_prev hc hback
      apply post_bind; intro k _
      apply post_ite <;> intro _
      · apply post_bind; intro m1 h1
        have hW1 := h.construct hbk h1
        apply post_bind; intro m2 h2
        exact post_some ⟨hW1.setCount hbk h2, rfl, hbk⟩
      · obtain ⟨hW1, hb⟩ := h.newNode hbk hc
        apply post_bind; intro m1 h1
        have hW2 := hW1.setCount hb h1
        apply post_bind; intro m2 h2
        exact post_some ⟨hW2.construct hb h2, rfl, hb⟩
  · apply post_bind; intro k _
    apply post_ite <;> intro _
    · apply post_bind; intro m1 h1
      have hW1 := h.shift_right_unsigned hp h1
      apply post_bind; intro m2 h2
      have hW2 := hW1.construct hp h2
      apply post_bind; intro k2 _
      apply post_bind; intro m3 h3
      exact post_some ⟨hW2.setCount hp h3, rfl, hp⟩
    · apply post_bind; intro nxt hnxt
      have hSn := h.read_next hp hnxt
      refine post_bind_of (Q := fun a => Within S m0 a.2 ∧ S a.1) ?_ ?_
      · apply post_ite <;> intro _
        · obtain ⟨hW1, hb⟩ := h.newNode hp hc
          apply post_bind; intro m1 h1
          have hW2 := hW1.setNext hp hb h1
          apply post_bind; intro m2 h2
          exact post_some ⟨hW2.setPrev hc hb h2, hb⟩
        · apply post_bind; intro kn _
          apply post_ite <;> intro _
          · obtain ⟨hW1, hb⟩ := h.newNode hp hSn
            apply post_bind; intro m1 h1
            have hW2 := hW1.setPrev hSn hb h1
            apply post_bind; intro m2 h2
            exact post_some ⟨hW2.setNext hp hb h2, hb⟩
          · exact post_some ⟨h, hSn⟩
      · rintro ⟨next_node, m1⟩ ⟨hW1, hnn⟩
        simp only at hW1 hnn ⊢
        apply post_bind; intro kn _
        apply post_bind; intro m2 h2
        have hW2 := hW1.shift_right_signed hnn h2
        apply post_bind; intro m3 h3
        have hW3 := hW2.setCount hnn h3
        apply post_bind; intro k2 _
        apply post_bind; intro x _
        apply post_bind; intro m4 h4
        have hW4 := hW3.setSlot hnn h4
        apply post_bind; intro m5 h5
        have hW5 := hW4.shift_right_unsigned hp h5
        apply post_bind; intro m6 h6
        exact post_some ⟨hW5.setSlot hp h6, rfl, hp⟩

theorem erase_within {S : Ptr → Prop} {m0 m : Mem α} {N : Nat} {c : unrolled_list}
    {cpos : Iterator} (h : Within S m0 m) (hc : S c.fake_node_) (hp : S cpos.ptr_) :
    Post (fun r => Within S m0 r.2.2 ∧ r.2.1.fake_node_ = c.fake_node_ ∧ S r.1.ptr_)
      (c.erase N cpos m) := by
  unfold unrolled_list.erase
  simp only [bind, pure, Option.bind_eq_bind]
  apply post_bind; intro k _
  apply post_bind; intro m1 h1
  have hW1 := Within.shift_left hp _ _ _ _ h h1
  apply post_bind; intro m2 h2
  have hW2 := hW1.setCount hp h2
  apply post_bind; intro next_node hnext
  have hSn := hW2.read_next hp hnext
  apply post_bind; intro prev_node hprev
  have hSp := hW2.read_prev hp hprev
  apply post_bind; intro k2 _
  apply post_ite <;> intro _
  · apply post_bind; intro m3 h3
    have hW3 := hW2.freeNode hp h3
    apply post_ite <;> intro _
    · apply post_ite <;> intro _
      · apply post_bind; intro m4 h4
        have hW4 := hW3.setNext hc hc h4
        apply post_bind; intro m5 h5
        have hW5 := hW4.setPrev hc hc h5
        apply post_bind; intro b hbeg
        exact post_some ⟨hW5, rfl,
          Within.cbegin_mem (c := ⟨c.fake_node_, decr c.size_⟩) hW5 hc b hbeg⟩
      · apply post_bind; intro m4 h4
        have hW4 := hW3.setPrev hc hSp h4
        apply post_bind; intro m5 h5
        have hW5 := hW4.setNext hSp hc h5
        apply post_bind; intro r hr
        exact post_some ⟨hW5, rfl,
          @Within.dec _ S m0 m5 hW5 (unrolled_list.cend ⟨c.fake_node_, decr c.size_⟩) hc r hr⟩
    · apply post_ite <;> intro _
      · apply post_bind; intro m4 h4
        have hW4 := hW3.setNext hc hSn h4
        apply post_bind; intro m5 h5
        have hW5 := hW4.setPrev hSn hc h5
        apply post_bind; intro b hbeg
        exact post_some ⟨hW5, rfl,
          Within.cbegin_mem (c := ⟨c.fake_node_, decr c.size_⟩) hW5 hc b hbeg⟩
      · apply post_bind; intro m4 h4
        have hW4 := hW3.setNext hSp hSn h4
        apply post_bind; intro m5 h5
        exact post_some ⟨hW4.setPrev hSn hSp h5, rfl, hSn⟩
  · exact post_some ⟨hW2, rfl, hp⟩

theorem freeLoop_within {S : Ptr → Prop} {m0 : Mem α} {fake : Ptr} :
    ∀ (fuel : Nat) (cur : Ptr) (m : Mem α), Within S m0 m → S cur →
      Post (fun m2 => Within S m0 m2) (freeLoop fake fuel cur m)
  | 0, _, _, _, _ => post_none
  | fuel + 1, cur, m, h, hcur => by
    simp only [freeLoop, bind, Option.bind_eq_bind]
    apply post_ite <;> intro _
    · exact post_some h
    · apply post_bind; intro n hn
      have hnext : m.next cur = some n.next := by
        unfold Mem.node at hn
        cases ho : m.obj cur with
        | none => simp [ho] at hn
        | some o =>
          cases o with
          | base b => simp [ho] at hn
          | node n2 =>
            simp only [ho, Option.some.injEq] at hn
            subst hn
            exact Mem.next_node ho
      have hSn := h.read_next hcur hnext
      apply post_bind; intro m1 h1
      exact freeLoop_within fuel n.next m1 (h.freeNode hcur h1) hSn

theorem clear_within {S : Ptr → Prop} {m0 m : Mem α} {c : unrolled_list} {fuel : Nat}
    (h : Within S m0 m) (hc : S c.fake_node_) :
    Post (fun r => Within S m0 r.2 ∧ r.1.fake_node_ = c.fake_node_) (c.clear m fuel) := by
  unfold unrolled_list.clear
  simp only [bind, pure, Option.bind_eq_bind]
  apply post_ite <;> intro _
  · exact post_some ⟨h, rfl⟩
  · apply post_bind; intro first hfirst
    have hSf := h.read_next hc hfirst
    refine post_bind_of (freeLoop_within fuel first m h hSf) ?_
    intro m1 hW1
    apply post_bind; intro m2 h2
    have hW2 := hW1.setNext hc hc h2
    apply post_bind; intro m3 h3
    exact post_some ⟨hW2.setPrev hc hc h3, rfl⟩

theorem pushBackAll_within {S : Ptr → Prop} {m0 : Mem α} {N : Nat} :
    ∀ (xs : List α) (c : unrolled_list) (m : Mem α), Within S m0 m → S c.fake_node_ →
      Post (fun r => Within S m0 r.2 ∧ r.1.fake_node_ = c.fake_node_) (pushBackAll N xs c m)
  | [], c, m, h, _ => post_some ⟨h, rfl⟩
  | x :: xs, c, m, h, hc => by
    simp only [pushBackAll]
    refine post_bind_of (push_back_within h hc) ?_
    rintro ⟨c1, m1⟩ ⟨hW1, hf1⟩
    simp only at hW1 hf1 ⊢
    intro r hr
    obtain ⟨hW2, hf2⟩ := pushBackAll_within xs c1 m1 hW1 (hf1 ▸ hc) r hr
    exact ⟨hW2, hf2.trans hf1⟩

theorem pushBackN_within {S : Ptr → Prop} {m0 : Mem α} {N : Nat} {v : α} :
    ∀ (k : Nat) (c : unrolled_list) (m : Mem α), Within S m0 m → S c.fake_node_ →
      Post (fun r => Within S m0 r.2 ∧ r.1.fake_node_ = c.fake_node_) (pushBackN N v k c m)
  | 0, c, m, h, _ => post_some ⟨h, rfl⟩
  | k + 1, c, m, h, hc => by
    simp only [pushBackN]
    refine post_bind_of (push_back_within h hc) ?_
    rintro ⟨c1, m1⟩ ⟨hW1, hf1⟩
    simp only at hW1 hf1 ⊢
    intro r hr
    obtain ⟨hW2, hf2⟩ := pushBackN_within k c1 m1 hW1 (hf1 ▸ hc) r hr
    exact ⟨hW2, hf2.trans hf1⟩

theorem assign_within {S : Ptr → Prop} {m0 m : Mem α} {N : Nat} {c : unrolled_list}
    {xs : List α} {fuel : Nat} (h : Within S m0 m) (hc : S c.fake_node_) :
    Post (fun r => Within S m0 r.2 ∧ r.1.fake_node_ = c.fake_node_)
      (c.assign N xs m fuel) := by
  unfold unrolled_list.assign
  refine post_bind_of (clear_within h hc) ?_
  rintro ⟨c1, m1⟩ ⟨hW1, hf1⟩
  simp only at hW1 hf1 ⊢
  intro r hr
  obtain ⟨hW2, hf2⟩ := pushBackAll_within xs c1 m1 hW1 (hf1 ▸ hc) r hr
  exact ⟨hW2, hf2.trans hf1⟩

theorem assign_n_within {S : Ptr → Prop} {m0 m : Mem α} {N : Nat} {c : unrolled_list}
    {k : Nat} {v : α} {fuel : Nat} (h : Within S m0 m) (hc : S c.fake_node_) :
    Post (fun r => Within S m0 r.2 ∧ r.1.fake_node_ = c.fake_node_)
      (c.assign_n N k v m fuel) := by
  unfold unrolled_list.assign_n
  refine post_bind_of (clear_within h hc) ?_
  rintro ⟨c1, m1⟩ ⟨hW1, hf1⟩
  simp only at hW1 hf1 ⊢
  intro r hr
  obtain ⟨hW2, hf2⟩ := pushBackN_within k c1 m1 hW1 (hf1 ▸ hc) r hr
  exact ⟨hW2, hf2.trans hf1⟩

theorem op_within {S : Ptr → Prop} {m0 m : Mem α} {N : Nat} {c : unrolled_list}
    (h : Within S m0 m) (hc : S c.fake_node_) (o : Op α) :
    Post (fun r => Within S m0 r.2 ∧ r.1.fake_node_ = c.fake_node_) (o.run N (c, m)) := by
  cases o with
  | push_back v => exact push_back_within h hc
  | push_front v => exact push_front_within h hc
  | insert k v =>
    simp only [Op.run]
    refine post_bind_of (h.cbegin_mem hc) fun b hb => ?_
    refine post_bind_of (h.advance k b hb) fun p hp => ?_
    intro r hr
    cases hi : c.insert N p v m with
    | none => simp [hi] at hr
    | some t =>
      simp only [hi, Option.map_some', Option.some.injEq] at hr
      subst hr
      obtain ⟨h1, h2, -⟩ := insert_within h hc hp t hi
      exact ⟨h1, h2⟩
  | erase k =>
    simp only [Op.run]
    refine post_bind_of (h.cbegin_mem hc) fun b hb => ?_
    refine post_bind_of (h.advance k b hb) fun p hp => ?_
    intro r hr
    cases hi : c.erase N p m with
    | none => simp [hi] at hr
    | some t =>
      simp only [hi, Option.map_some', Option.some.injEq] at hr
      subst hr
      obtain ⟨h1, h2, -⟩ := erase_within h hc hp t hi
      exact ⟨h1, h2⟩
  | pop_back => exact pop_back_within h hc
  | pop_front => exact pop_front_within h hc

theorem mutator_within {S : Ptr → Prop} {m0 m : Mem α} {N fuel : Nat} {c : unrolled_list}
    (h : Within S m0 m) (hc : S c.fake_node_) (mu : Mutator α) :
    Post (fun r => Within S m0 r.2 ∧ r.1.fake_node_ = c.fake_node_)
      (mu.run N fuel (c, m)) := by
  cases mu with
  | op o => exact op_within h hc o
  | clear => exact clear_within h hc
  | assign xs => exact assign_within h hc
  | assign_n n v => exact assign_n_within h hc

/-- Whatever mutators are applied to a container, the memory changes only within a
region that holds its sentinel, is closed under the links and holds the fresh
addresses. -/
theorem runMutators_within {S : Ptr → Prop} {m0 : Mem α} {N fuel : Nat} :
    ∀ (mus : List (Mutator α)) (c : unrolled_list) (m : Mem α), Within S m0 m →
      S c.fake_node_ →
      Post (fun r => Within S m0 r.2 ∧ r.1.fake_node_ = c.fake_node_)
        (runMutators N fuel mus (c, m))
  | [], c, m, h, _ => post_some ⟨h, rfl⟩
  | mu :: mus, c, m, h, hc => by
    simp only [runMutators]
    refine post_bind_of (mutator_within h hc mu) ?_
    rintro ⟨c1, m1⟩ ⟨hW1, hf1⟩
    simp only at hW1 hf1 ⊢
    intro r hr
    obtain ⟨hW2, hf2⟩ := runMutators_within mus c1 m1 hW1 (hf1 ▸ hc) r hr
    exact ⟨hW2, hf2.trans hf1⟩

/-- The sentinel and the blocks of a well-formed container are linked among themselves. -/
theorem wellFormed_closed {N : Nat} {m : Mem α} {c : unrolled_list} {as : List Ptr}
    {bs : List (List α)} (h : WellFormed N m c as bs) (p x : Ptr)
    (hp : p = c.fake_node_ ∨ p ∈ as) (hx : m.prev p = some x ∨ m.next p = some x) :
    x = c.fake_node_ ∨ x ∈ as := by
  have headD_mem : ∀ (l : List Ptr), l.headD c.fake_node_ = c.fake_node_ ∨
      l.headD c.fake_node_ ∈ l := by
    intro l
    cases l with
    | nil => exact Or.inl rfl
    | cons y t => exact Or.inr (by simp)
  have lastD_mem : ∀ (l : List Ptr), l.getLastD c.fake_node_ = c.fake_node_ ∨
      l.getLastD c.fake_node_ ∈ l := by
    intro l
    rcases List.eq_nil_or_concat l with rfl | ⟨l0, y, rfl⟩
    · exact Or.inl rfl
    · right
      rw [List.concat_eq_append, getLastD_concat]
      simp
  rcases hp with rfl | hp
  · obtain ⟨f, hf, hfnext, hfprev⟩ := Rep.sentinel h
    rw [Mem.prev_base hf, Mem.next_base hf, hfnext, hfprev] at hx
    rcases hx with hx | hx
    · rw [← Option.some.inj hx]; exact lastD_mem as
    · rw [← Option.some.inj hx]; exact headD_mem as
  · obtain ⟨as1, as2, rfl⟩ := List.append_of_mem hp
    have hlen := Rep.length_eq h
    have hl : as1.length = (bs.take as1.length).length := by
      simp only [List.length_append, List.length_cons] at hlen
      simp only [List.length_take]
      omega
    have hlt : as1.length < bs.length := by
      simp only [List.length_append, List.length_cons] at hlen
      omega
    have hsplit : bs = bs.take as1.length ++ bs[as1.length] :: bs.drop (as1.length + 1) := by
      rw [← List.drop_eq_getElem_cons hlt, List.take_append_drop]
    have hch := Rep.chain h
    rw [hsplit] at hch
    obtain ⟨-, ⟨n, hn, hprev, hnext, -⟩, -⟩ := (chain_middle hl).1 hch
    rw [Mem.prev_node hn, Mem.next_node hn] at hx
    rcases hx with hx | hx
    · have hx2 : n.prev = x := Option.some.inj hx
      rcases lastPtr_some_cases c.fake_node_ as1 with h1 | ⟨y, hy, h1⟩
      · left
        rw [← hx2]
        exact hprev _ h1
      · right
        rw [← hx2, hprev _ h1]
        simp [hy]
    · have hx2 : n.next = x := Option.some.inj hx
      rw [← hx2, hnext]
      rcases headD_mem as2 with h1 | h1
      · exact Or.inl h1
      · exact Or.inr (List.mem_append_right _ (List.mem_cons_of_mem _ h1))

/-- A sequence of `push_back` calls on a represented container returns. -/
theorem runMutators_push_back_isSome {N fuel : Nat} (vs : List α) :
    ∀ (c : unrolled_list) (m : Mem α) (pv : Option Ptr) (as : List Ptr) (bs : List (List α)),
      Rep N m c pv as bs →
      (runMutators N fuel (vs.map fun v => Mutator.op (Op.push_back v)) (c, m)).isSome = true := by
  induction vs with
  | nil => intro c m pv as bs _; rfl
  | cons v vs ih =>
    intro c m pv as bs h
    obtain ⟨c2, m2, pv2, as2, bs2, he, hr, -⟩ := push_back_wf v h
    have e : runMutators N fuel ((v :: vs).map fun v => Mutator.op (Op.push_back v)) (c, m) =
        runMutators N fuel (vs.map fun v => Mutator.op (Op.push_back v)) (c2, m2) := by
      simp only [List.map_cons, runMutators, Mutator.run, Op.run, he, Option.some_bind,
        Option.bind_eq_bind]
    rw [e]
    exact ih c2 m2 pv2 as2 bs2 hr

/-- Let `b` be the copy constructed from the well-formed container `a` (blocks `as`
holding `bs`).  The blocks of `b` are distinct from the blocks of `a`, and whatever
mutators (`push_back`, `push_front`, `insert`, `erase`, `pop_back`, `pop_front`, `clear`,
`assign`) are then applied to `b`, when they return the sentinel and every block of `a`
are the objects they were: `a` is well formed with the same blocks `bs`, the same logical
sequence and the same `size()`.  Every sequence of `push_back` calls on `b` returns. -/
theorem copy_independent (N : Nat) (m : Mem α) (a : unrolled_list) (as : List Ptr)
    (bs : List (List α)) (ind : Ptr) (fuel : Nat) (mus : List (Mutator α))
    (h : WellFormed N m a as bs) (hf : as.length < fuel) :
    ∃ b m1 ds, unrolled_list.new_copy N a ind m fuel = some (b, m1) ∧
      WellFormed N m1 b ds bs ∧ b.fake_node_ ≠ a.fake_node_ ∧ (∀ x ∈ ds, x ∉ as) ∧
      (∀ vs : List α,
        (runMutators N fuel (vs.map fun v => Mutator.op (Op.push_back v)) (b, m1)).isSome =
          true) ∧
      ∀ r, runMutators N fuel mus (b, m1) = some r →
        WellFormed N r.2 a as bs ∧ LogicalSeq N a r.2 bs.flatten ∧
        a.size = bs.flatten.length ∧
        r.2.obj a.fake_node_ = m.obj a.fake_node_ ∧ ∀ x ∈ as, r.2.obj x = m.obj x := by
  obtain ⟨m1, he, hwb, hwa, hold, hbrk⟩ := new_copy_rep h ind fuel hf
  obtain ⟨fa, hfa, -, -⟩ := Rep.sentinel h
  have hfalt : a.fake_node_ < m.brk := Rep.lt_brk h hfa
  have haslt : ∀ x ∈ as, x < m.brk := by
    intro x hx
    obtain ⟨o, ho⟩ := (Rep.chain h).obj_of_mem x hx
    exact Rep.lt_brk h ho
  have hds : ∀ x ∈ List.range' (m.brk + 1) as.length, m.brk + 1 ≤ x := fun x hx =>
    (range_lt hx).1
  have hdis : ∀ x ∈ List.range' (m.brk + 1) as.length, x ∉ as := by
    intro x hx hmem
    have h1 := hds x hx
    have h2 := haslt x hmem
    exact Nat.lt_irrefl _ (Nat.lt_trans h2 (Nat.lt_of_succ_le h1))
  refine ⟨_, m1, _, he, hwb, Nat.ne_of_gt hfalt, hdis,
    fun vs => runMutators_push_back_isSome vs _ _ _ _ _ hwb, ?_⟩
  intro r hr
  have hW : Within (fun q => q = m.brk ∨ q ∈ List.range' (m.brk + 1) as.length ∨ m1.brk ≤ q)
      m1 m1 := by
    refine Within.refl (fun q hq => Or.inr (Or.inr hq)) ?_ (Rep.fresh hwb)
    intro p x hp hx
    rcases hp with hp | hp | hp
    · rcases wellFormed_closed hwb p x (Or.inl hp) hx with h1 | h1
      · exact Or.inl h1
      · exact Or.inr (Or.inl h1)
    · rcases wellFormed_closed hwb p x (Or.inr hp) hx with h1 | h1
      · exact Or.inl h1
      · exact Or.inr (Or.inl h1)
    · have hnone := Rep.fresh hwb p hp
      simp [Mem.prev, Mem.next, hnone] at hx
  obtain ⟨hW2, -⟩ := runMutators_within mus ⟨m.brk, a.size_⟩ m1 hW (Or.inl rfl) r hr
  have hout : ∀ q, q < m.brk → r.2.obj q = m.obj q := by
    intro q hq
    have hnot : ¬ (q = m.brk ∨ q ∈ List.range' (m.brk + 1) as.length ∨ m1.brk ≤ q) := by
      rintro (h1 | h1 | h1)
      · exact Nat.lt_irrefl _ (h1 ▸ hq)
      · exact Nat.lt_irrefl _ (Nat.lt_trans hq (Nat.lt_of_succ_le (hds q h1)))
      · rw [hbrk] at h1
        have h2 : m.brk ≤ q := Nat.le_trans (Nat.le_trans (Nat.le_succ _) (Nat.le_add_right _ _)) h1
        exact Nat.lt_irrefl _ (Nat.lt_of_lt_of_le hq h2)
    rw [hW2.frame q hnot]
    exact hold q hq
  have hwa2 : WellFormed N r.2 a as bs :=
    Rep.of_agree h (hout _ hfalt) (fun x hx => hout x (haslt x hx)) hW2.fresh
  exact ⟨hwa2, Rep.logicalSeq hwa2, Rep.size_eq h, hout _ hfalt,
    fun x hx => hout x (haslt x hx)⟩

/-- The same on an example: the container `[1, 2] [3]` of capacity 2 is copied and the
copy receives `push_front(0)`, `erase` at index 1, `assign` of `7, 8, 9` and `clear()`;
the four calls return. -/
theorem copy_independent_witness :
    (WellFormed 2 exMem exList [2, 3] [[1, 2], [3]] ∧ ([2, 3] : List Ptr).length < 4) ∧
    (((unrolled_list.new_copy 2 exList nullptr exMem 4).bind
        (runMutators 2 4 [Mutator.op (Op.push_front 0), Mutator.op (Op.erase 1),
          Mutator.assign [7, 8, 9], Mutator.clear])).isSome = true) ∧
    ∃ b m1 ds, unrolled_list.new_copy 2 exList nullptr exMem 4 = some (b, m1) ∧
      WellFormed 2 m1 b ds [[1, 2], [3]] ∧ b.fake_node_ ≠ exList.fake_node_ ∧
      (∀ x ∈ ds, x ∉ ([2, 3] : List Ptr)) ∧
      (∀ vs : List Nat,
        (runMutators 2 4 (vs.map fun v => Mutator.op (Op.push_back v)) (b, m1)).isSome =
          true) ∧
      ∀ r, runMutators 2 4 [Mutator.op (Op.push_front 0), Mutator.op (Op.erase 1),
          Mutator.assign [7, 8, 9], Mutator.clear] (b, m1) = some r →
        WellFormed 2 r.2 exList [2, 3] [[1, 2], [3]] ∧
        LogicalSeq 2 exList r.2 ([[1, 2], [3]] : List (List Nat)).flatten ∧
        exList.size = ([[1, 2], [3]] : List (List Nat)).flatten.length ∧
        r.2.obj exList.fake_node_ = exMem.obj exList.fake_node_ ∧
        ∀ x ∈ ([2, 3] : List Ptr), r.2.obj x = exMem.obj x :=
  ⟨⟨exMem_wellFormed, by decide⟩, by decide,
    copy_independent 2 exMem exList [2, 3] [[1, 2], [3]] nullptr 4
      [Mutator.op (Op.push_front 0), Mutator.op (Op.erase 1), Mutator.assign [7, 8, 9],
        Mutator.clear] exMem_wellFormed (by decide)⟩

/-! ## Destructor -/

theorem freeLoop_chain {e : Ptr} :
    ∀ (as : List Ptr) (bs : List (List α)) (pv : Option Ptr) (m : Mem α) (fuel : Nat),
      Chain m pv as bs e → as.Nodup → e ∉ as → as.length < fuel →
      freeLoop e fuel (as.headD e) m =
        some { m with obj := fun q => if q ∈ as then none else m.obj q }
  | [], [], _, m, fuel, _, _, _, hf => by
    obtain ⟨f, rfl⟩ : ∃ f, fuel = f + 1 := ⟨fuel - 1, by simp at hf; omega⟩
    simp [freeLoop]
  | [], _ :: _, _, _, _, h, _, _, _ => by simp [Chain] at h
  | _ :: _, [], _, _, _, h, _, _, _ => by simp [Chain] at h
  | a :: as, b :: bs, pv, m, fuel, h, hnd, he, hf => by
    obtain ⟨f, rfl⟩ : ∃ f, fuel = f + 1 := ⟨fuel - 1, by simp at hf; omega⟩
    simp only [Chain] at h
    obtain ⟨⟨n, hn, -, hnext, -, -⟩, hrest⟩ := h
    have hae : a ≠ e := fun h1 => he (by simp [h1])
    have ha0 : a ∉ as := (List.nodup_cons.1 hnd).1
    have hrest2 : Chain ({ m with obj := fun q => if q = a then none else m.obj q } : Mem α)
        (some a) as bs e := by
      refine Chain.congr ?_ hrest
      intro x hx
      have hxa : x ≠ a := fun h1 => ha0 (h1 ▸ hx)
      simp [hxa]
    have ih := freeLoop_chain as bs (some a) _ f hrest2 (List.nodup_cons.1 hnd).2
      (fun h1 => he (by simp [h1])) (by simp at hf; omega)
    simp only [List.headD_cons, freeLoop, hae, if_false, bind, Option.bind_eq_bind,
      Mem.node_node hn, Option.some_bind, Mem.freeNode_node hn, hnext, ih]
    congr 2
    funext q
    by_cases hqa : q = a
    · simp [hqa]
    · simp [hqa]

/-- The destructor of a represented container frees its blocks and its sentinel and
touches nothing else. -/
theorem destroy_rep {N : Nat} {m : Mem α} {c : unrolled_list} {pv : Option Ptr}
    {as : List Ptr} {bs : List (List α)} (h : Rep N m c pv as bs) (fuel : Nat)
    (hf : as.length < fuel) :
    c.destroy m fuel = some { m with obj := fun q =>
      if q = c.fake_node_ then none else if q ∈ as then none else m.obj q } := by
  obtain ⟨f, hfo, hfnext, -⟩ := h.sentinel
  simp only [unrolled_list.destroy, bind, pure, Option.bind_eq_bind, Mem.next_base hfo, hfnext,
    Option.some_bind, freeLoop_chain as bs pv m fuel h.chain h.nodup h.fake_not_block hf]

/-- On a well-formed container the statements `s.prev->next = &s; s.next->prev = &s`
store the values the two links already have. -/
theorem closeChain_self {N : Nat} {m : Mem α} {c : unrolled_list} {y : Ptr} {t : List Ptr}
    {bs : List (List α)} (h : WellFormed N m c (y :: t) bs) :
    m.closeChain c.fake_node_ = some m := by
  obtain ⟨f, hf, hfnext, hfprev⟩ := Rep.sentinel h
  obtain ⟨b, bs2, rfl⟩ : ∃ b bs2, bs = b :: bs2 := by
    have hl := Rep.length_eq h
    cases bs with
    | nil => simp at hl
    | cons b bs2 => exact ⟨b, bs2, rfl⟩
  have hch := Rep.chain h
  -- the last block
  have hl2 : (y :: t).length = ((b :: bs2).dropLast ++ [(b :: bs2).getLast (by simp)]).length := by
    rw [List.dropLast_append_getLast]; exact Rep.length_eq h
  obtain ⟨as0, z, hz, hl0⟩ := split_last hl2
  have hbz : b :: bs2 = (b :: bs2).dropLast ++ [(b :: bs2).getLast (by simp)] :=
    (List.dropLast_append_getLast _).symm
  have hch2 := hch
  rw [hz, hbz] at hch2
  obtain ⟨-, nz, hnz, -, hznext, -, -⟩ := (chain_concat hl0).1 hch2
  have hlast : (y :: t).getLastD c.fake_node_ = z := by rw [hz, getLastD_concat]
  -- the first block
  simp only [Chain] at hch
  obtain ⟨⟨ny, hny, hyprev, -, -, -⟩, -⟩ := hch
  have hyp : ny.prev = c.fake_node_ := hyprev _ rfl
  have e1 : m.write z (Obj.node { nz with next := c.fake_node_ }) = m := by
    apply Mem.write_self
    rw [hnz, ← hznext]
  have e2 : m.write y (Obj.node { ny with prev := c.fake_node_ }) = m := by
    apply Mem.write_self
    rw [hny, ← hyp]
  simp only [Mem.closeChain, Mem.prev_base hf, hfprev, hlast, Option.some_bind,
    Mem.setNext_node hnz, e1, Mem.next_base hf, hfnext, List.headD_cons, Mem.setPrev_node hny, e2]

/-- Swapping a well-formed container with itself leaves container and memory as they
are. -/
theorem swap_self {N : Nat} {m : Mem α} {a : unrolled_list} {as : List Ptr}
    {bs : List (List α)} (h : WellFormed N m a as bs) : a.swap a m = some (a, a, m) := by
  obtain ⟨f, hf, hfnext, hfprev⟩ := Rep.sentinel h
  have hna := Mem.next_base hf
  have hpa := Mem.prev_base hf
  rw [hfnext] at hna
  rw [hfprev] at hpa
  have haa : ({ a with size_ := a.size_ } : unrolled_list) = a := by cases a; rfl
  cases as with
  | nil =>
    simp only [unrolled_list.swap, bind, pure, Option.bind_eq_bind, hna, hpa, Option.some_bind,
      List.headD_nil, List.getLastD_nil, if_true, haa]
  | cons y t =>
    have hy : y ≠ a.fake_node_ := by
      intro he
      apply Rep.fake_not_block h
      rw [← he]
      simp
    have hlast : (y :: t).getLastD a.fake_node_ ≠ a.fake_node_ := by
      intro he
      apply Rep.fake_not_block h
      rw [← he, List.getLastD_eq_getLast?, List.getLast?_eq_getLast _ (by simp)]
      exact List.getLast_mem _
    have e1 : m.write a.fake_node_ (Obj.base ⟨(y :: t).getLastD a.fake_node_, y⟩) = m := by
      apply Mem.write_self
      rw [hf]
      cases f
      simp only [List.headD_cons] at hfnext hfprev
      rw [hfnext, hfprev]
    simp only [unrolled_list.swap, bind, pure, Option.bind_eq_bind, hna, hpa, Option.some_bind,
      List.headD_cons, hy, if_false, hlast, setLinks_base hf, e1, closeChain_self h, haa]

/-- In a well-formed container with at least one block the first block's `prev` link and
the last block's `next` link designate the sentinel. -/
theorem wellFormed_end_links {N : Nat} {m : Mem α} {c : unrolled_list} {y : Ptr}
    {t : List Ptr} {bs : List (List α)} (h : WellFormed N m c (y :: t) bs) :
    m.prev y = some c.fake_node_ ∧
      m.next ((y :: t).getLastD c.fake_node_) = some c.fake_node_ := by
  obtain ⟨b, bs2, rfl⟩ : ∃ b bs2, bs = b :: bs2 := by
    have hl := Rep.length_eq h
    cases bs with
    | nil => simp at hl
    | cons b bs2 => exact ⟨b, bs2, rfl⟩
  have hch := Rep.chain h
  have hl2 : (y :: t).length = ((b :: bs2).dropLast ++ [(b :: bs2).getLast (by simp)]).length := by
    rw [List.dropLast_append_getLast]; exact Rep.length_eq h
  obtain ⟨as0, z, hz, hl0⟩ := split_last hl2
  have hbz : b :: bs2 = (b :: bs2).dropLast ++ [(b :: bs2).getLast (by simp)] :=
    (List.dropLast_append_getLast _).symm
  have hch2 := hch
  rw [hz, hbz] at hch2
  obtain ⟨-, nz, hnz, -, hznext, -, -⟩ := (chain_concat hl0).1 hch2
  have hlast : (y :: t).getLastD c.fake_node_ = z := by rw [hz, getLastD_concat]
  simp only [Chain] at hch
  obtain ⟨⟨ny, hny, hyprev, -, -, -⟩, -⟩ := hch
  refine ⟨?_, ?_⟩
  · rw [Mem.prev_node hny, hyprev _ rfl]
  · rw [hlast, Mem.next_node hnz, hznext]

/-- C15: for two well-formed containers `a` and `b` (different objects of the same
memory) with logical sequences `bsa.flatten` and `bsb.flatten`, either or both possibly
empty, `a.swap(b)` returns; afterwards `a` is well formed with the blocks, the logical
sequence and the size `b` had, and `b` with those `a` had; when a container is non-empty
afterwards, its first block's `prev` and its last block's `next` designate that
container's own sentinel.  Swapping `a` with itself changes nothing. -/
theorem swap_spec (N : Nat) (m : Mem α) (a b : unrolled_list) (asa asb : List Ptr)
    (bsa bsb : List (List α)) (ha : WellFormed N m a asa bsa) (hb : WellFormed N m b asb bsb)
    (hne : a.fake_node_ ≠ b.fake_node_) :
    (∃ a2 b2 m2, a.swap b m = some (a2, b2, m2) ∧
      a2.fake_node_ = a.fake_node_ ∧ b2.fake_node_ = b.fake_node_ ∧
      WellFormed N m2 a2 asb bsb ∧ WellFormed N m2 b2 asa bsa ∧
      LogicalSeq N a2 m2 bsb.flatten ∧ LogicalSeq N b2 m2 bsa.flatten ∧
      a2.size = bsb.flatten.length ∧ b2.size = bsa.flatten.length ∧
      (∀ y t, asb = y :: t → m2.prev y = some a.fake_node_ ∧
        m2.next ((y :: t).getLastD a.fake_node_) = some a.fake_node_) ∧
      (∀ y t, asa = y :: t → m2.prev y = some b.fake_node_ ∧
        m2.next ((y :: t).getLastD b.fake_node_) = some b.fake_node_)) ∧
    a.swap a m = some (a, a, m) := by
  obtain ⟨m2, he, hwa, hwb, -, -⟩ := swap_rep ha hb hne (wellFormed_disjoint ha hb hne)
  refine ⟨⟨_, _, m2, he, rfl, rfl, hwa, hwb, Rep.logicalSeq hwa, Rep.logicalSeq hwb,
    Rep.size_eq hwa, Rep.size_eq hwb, ?_, ?_⟩, swap_self ha⟩
  · intro y t e
    subst e
    have hl := wellFormed_end_links hwa
    exact hl
  · intro y t e
    subst e
    have hl := wellFormed_end_links hwb
    exact hl

/-- Witness for C15: swapping the two containers of `exMem2`. -/
theorem swap_spec_witness :
    (WellFormed 2 exMem2 exList [2, 3] [[1, 2], [3]] ∧
      WellFormed 2 exMem2 exList2 [5, 6] [[1], [2, 3]] ∧
      exList.fake_node_ ≠ exList2.fake_node_) ∧
    ((∃ a2 b2 m2, exList.swap exList2 exMem2 = some (a2, b2, m2) ∧
      a2.fake_node_ = exList.fake_node_ ∧ b2.fake_node_ = exList2.fake_node_ ∧
      WellFormed 2 m2 a2 [5, 6] [[1], [2, 3]] ∧ WellFormed 2 m2 b2 [2, 3] [[1, 2], [3]] ∧
      LogicalSeq 2 a2 m2 ([[1], [2, 3]] : List (List Nat)).flatten ∧
      LogicalSeq 2 b2 m2 ([[1, 2], [3]] : List (List Nat)).flatten ∧
      a2.size = ([[1], [2, 3]] : List (List Nat)).flatten.length ∧
      b2.size = ([[1, 2], [3]] : List (List Nat)).flatten.length ∧
      (∀ y t, ([5, 6] : List Ptr) = y :: t → m2.prev y = some exList.fake_node_ ∧
        m2.next ((y :: t).getLastD exList.fake_node_) = some exList.fake_node_) ∧
      (∀ y t, ([2, 3] : List Ptr) = y :: t → m2.prev y = some exList2.fake_node_ ∧
        m2.next ((y :: t).getLastD exList2.fake_node_) = some exList2.fake_node_)) ∧
    exList.swap exList exMem2 = some (exList, exList, exMem2)) :=
  ⟨⟨exMem2_wellFormed, exMem2_wellFormed2, by decide⟩,
    swap_spec 2 exMem2 exList exList2 [2, 3] [5, 6] [[1, 2], [3]] [[1], [2, 3]]
      exMem2_wellFormed exMem2_wellFormed2 (by decide)⟩

/-! ## front and back -/

/-- `front()` of a represented non-empty container is the first element of the first
block. -/
theorem Rep.front {N : Nat} {m : Mem α} {c : unrolled_list} {pv : Option Ptr}
    {a : Ptr} {as : List Ptr} {b : List α} {bs : List (List α)}
    (h : Rep N m c pv (a :: as) (b :: bs)) : c.front N m = b.head? := by
  obtain ⟨f, hf, hnext, -⟩ := h.sentinel
  have hch := h.chain
  simp only [Chain] at hch
  obtain ⟨⟨n, hn, -, -, hcnt, hst⟩, -⟩ := hch
  have hb := h.counts b (by simp)
  have h0 : 0 < N := h.cap_pos
  have hs := hst 0 hb.1
  simp only [unrolled_list.front, bind, Option.bind_eq_bind, Mem.next_base hf, hnext,
    List.headD_cons, Option.some_bind, Mem.slot_node hn h0, hs]
  cases b with
  | nil => simp at hb
  | cons x t => simp

/-- `back()` of a represented non-empty container is the last element of the last
block. -/
theorem Rep.back {N : Nat} {m : Mem α} {c : unrolled_list} {pv : Option Ptr}
    {a : Ptr} {as : List Ptr} {b : List α} {bs : List (List α)}
    (h : Rep N m c pv (as ++ [a]) (bs ++ [b])) : c.back N m = b.getLast? := by
  obtain ⟨f, hf, -, hprev⟩ := h.sentinel
  have hl : as.length = bs.length := by
    have := h.length_eq
    simpa using this
  obtain ⟨-, n, hn, -, -, hcnt, hst⟩ := (chain_concat hl).1 h.chain
  have hb := h.counts b (by simp)
  have hlt : b.length - 1 < b.length := Nat.sub_lt hb.1 Nat.one_pos
  have hs := hst (b.length - 1) hlt
  have hlast : (as ++ [a]).getLastD c.fake_node_ = a := getLastD_concat _ _ _
  simp only [unrolled_list.back, bind, Option.bind_eq_bind, Mem.prev_base hf, hprev, hlast,
    Option.some_bind, Mem.count_node hn, hcnt, decr_pos hb.1,
    Mem.slot_node hn (Nat.lt_of_lt_of_le hlt hb.2), hs]
  rw [List.getLast?_eq_getElem?]
  rfl

/-- C28: for every well-formed non-empty container with logical sequence `s`, `front()`
returns the first element of `s` and `back()` the last. -/
theorem front_back_spec (N : Nat) (m : Mem α) (c : unrolled_list) (as : List Ptr)
    (bs : List (List α)) (h : WellFormed N m c as bs) (hne : bs.flatten ≠ []) :
    c.front N m = some (bs.flatten.head hne) ∧
      c.back N m = some (bs.flatten.getLast hne) := by
  have hbs : bs ≠ [] := by
    rintro rfl
    exact hne rfl
  constructor
  · obtain ⟨b, bs2, rfl⟩ : ∃ b bs2, bs = b :: bs2 := by
      cases bs with
      | nil => exact absurd rfl hbs
      | cons b bs2 => exact ⟨b, bs2, rfl⟩
    obtain ⟨a, as2, rfl, -⟩ := split_head (Rep.length_eq h)
    have hb := Rep.counts h b (by simp)
    rw [Rep.front h]
    cases b with
    | nil => simp at hb
    | cons x t => simp
  · obtain ⟨bs0, b, rfl⟩ : ∃ bs0 b, bs = bs0 ++ [b] := by
      rcases List.eq_nil_or_concat bs with h0 | ⟨bs0, b, h0⟩
      · exact absurd h0 hbs
      · exact ⟨bs0, b, by simpa using h0⟩
    obtain ⟨as0, a, rfl, -⟩ := split_last (Rep.length_eq h)
    have hb := Rep.counts h b (by simp)
    have hbne : b ≠ [] := by
      rintro rfl
      simp at hb
    rw [Rep.back h, List.getLast?_eq_getLast _ hbne]
    congr 1
    simp only [List.flatten_append, List.flatten_cons, List.flatten_nil, List.append_nil]
    symm
    apply List.getLast_append_of_ne_nil

/-- Witness for C28: the example container `[1, 2] [3]`. -/
theorem front_back_spec_witness :
    (WellFormed 2 exMem exList [2, 3] [[1, 2], [3]] ∧
      ([[1, 2], [3]] : List (List Nat)).flatten ≠ []) ∧
    exList.front 2 exMem = some 1 ∧ exList.back 2 exMem = some 3 :=
  ⟨⟨exMem_wellFormed, by decide⟩,
    front_back_spec 2 exMem exList [2, 3] [[1, 2], [3]] exMem_wellFormed (by decide)⟩

/-! ## The initializer-list insert -/

/-- The loop of the initializer-list insert, with `it` the valid position of logical
index `k` at which the previous value was inserted (an element follows it): the loop
returns, and the values `xs` stand, in their order, right after index `k`. -/
theorem insertListLoop_rep {N : Nat} (hcap : N ≤ 2 ^ 31) {pv : Option Ptr} :
    ∀ (xs : List α) (m : Mem α) (c : unrolled_list) (as : List Ptr) (bs : List (List α))
      (k : Nat), Rep N m c pv as bs → k + 1 < bs.flatten.length →
      ∃ m2 as2 bs2,
        insertListLoop N xs c (posAt c.fake_node_ as bs k) m =
          some ({ c with size_ := c.size_ + xs.length }, m2) ∧
        Rep N m2 { c with size_ := c.size_ + xs.length } pv as2 bs2 ∧
        bs2.flatten = bs.flatten.take (k + 1) ++ xs ++ bs.flatten.drop (k + 1)
  | [], m, c, as, bs, k, h, hk => by
    refine ⟨m, as, bs, rfl, h, ?_⟩
    simp
  | x :: xs, m, c, as, bs, k, h, hk => by
    have hinc := h.inc_posAt (Nat.lt_of_succ_lt hk)
    obtain ⟨m1, as1, bs1, he, hr, -, hflat, -, hpos⟩ := insert_wf x (k + 1) h hk hcap
    have hk2 : k + 1 + 1 < bs1.flatten.length := by
      rw [hflat]
      simp only [List.length_append, List.length_take, List.length_drop, List.length_singleton]
      omega
    obtain ⟨m2, as2, bs2, he2, hr2, hflat2⟩ :=
      insertListLoop_rep hcap xs m1 { c with size_ := c.size_ + 1 } as1 bs1 (k + 1) hr hk2
    have hsz : c.size_ + 1 + xs.length = c.size_ + (x :: xs).length := by
      simp only [List.length_cons]
      omega
    simp only [hsz] at he2 hr2
    refine ⟨m2, as2, bs2, ?_, hr2, ?_⟩
    · simp only [insertListLoop, bind, Option.bind_eq_bind, hinc, Option.some_bind, he]
      rw [← hpos]
      exact he2
    · rw [hflat2, hflat]
      exact take_insert_step bs.flatten xs x (Nat.le_of_lt hk)

/-- The initializer-list insert with an empty list returns the position it was given and
leaves container and memory as they are, at every position. -/
theorem insert_list_nil (N : Nat) (c : unrolled_list) (cpos : Iterator) (m : Mem α) :
    c.insert_list N cpos ([] : List α) m = some (cpos, c, m) := rfl

/-- The initializer-list insert `insert(p, xs)` at the valid non-end position of logical
index `k`, for block capacities up to `2 ^ 31`: the logical sequence becomes
`s[0..k) ++ xs ++ s[k..)` and `size()` grows by `|xs|`; the position returned is `p`. -/
theorem insert_list_wf {N : Nat} {m : Mem α} {c : unrolled_list} {pv : Option Ptr}
    {as : List Ptr} {bs : List (List α)} (xs : List α) (k : Nat) (h : Rep N m c pv as bs)
    (hk : k < bs.flatten.length) (hcap : N ≤ 2 ^ 31) :
    ∃ c2 m2 as2 bs2,
      c.insert_list N (posAt c.fake_node_ as bs k) xs m =
        some (posAt c.fake_node_ as bs k, c2, m2) ∧
      Rep N m2 c2 pv as2 bs2 ∧
      LogicalSeq N c2 m2 (bs.flatten.take k ++ xs ++ bs.flatten.drop k) ∧
      c2.size = bs.flatten.length + xs.length := by
  cases xs with
  | nil =>
    refine ⟨c, m, as, bs, rfl, h, ?_, ?_⟩
    · have := h.logicalSeq
      simpa using this
    · show c.size_ = _
      rw [h.size_eq]
      rfl
  | cons x rest =>
    obtain ⟨m1, as1, bs1, he, hr, -, hflat, -, hpos⟩ := insert_wf x k h hk hcap
    have hk1 : k + 1 < bs1.flatten.length := by
      rw [hflat]
      simp only [List.length_append, List.length_take, List.length_drop, List.length_singleton]
      omega
    obtain ⟨m2, as2, bs2, he2, hr2, hflat2⟩ :=
      insertListLoop_rep hcap rest m1 { c with size_ := c.size_ + 1 } as1 bs1 k hr hk1
    have hfl : bs2.flatten = bs.flatten.take k ++ (x :: rest) ++ bs.flatten.drop k := by
      rw [hflat2, hflat]
      exact take_insert_step bs.flatten rest x (Nat.le_of_lt hk)
    refine ⟨_, m2, as2, bs2, ?_, hr2, ?_, ?_⟩
    · simp only [unrolled_list.insert_list, bind, pure, Option.bind_eq_bind, he,
        Option.some_bind]
      rw [← hpos]
      show (insertListLoop N rest { c with size_ := c.size_ + 1 }
        (posAt c.fake_node_ as1 bs1 k) m1).bind _ = _
      rw [he2]
      rfl
    · rw [← hfl]
      exact hr2.logicalSeq
    · show c.size_ + 1 + rest.length = _
      rw [h.size_eq]
      simp only [List.length_cons]
      omega

/-- C21 (the code departs from the claim): on the well-formed container `[1, 2]` of
capacity 2, whose last block is full, `insert(end(), {3, 4})` raises `size()` to 4 but
leaves the sequence reachable from `begin()` at `[1, 2]`, where `s[0..2) ++ xs ++ s[2..)`
is `[1, 2, 3, 4]`: each single insert at `end()` builds a block that is not linked into
the chain.  With the empty list the call returns `end()` and changes nothing. -/
theorem insert_list_at_end_not_linked :
    WellFormed 2 exFullMem exFullList [2] [[1, 2]] ∧
    posAt exFullList.fake_node_ [2] [[1, 2]] 2 = exFullList.cend ∧
    ((exFullList.insert_list 2 exFullList.cend [3, 4] exFullMem).bind
      fun r => r.2.1.toList 2 r.2.2 3) = some [1, 2] ∧
    (∀ fuel, ((exFullList.insert_list 2 exFullList.cend [3, 4] exFullMem).bind
      fun r => r.2.1.toList 2 r.2.2 fuel) ≠ some [1, 2, 3, 4]) ∧
    ((exFullList.insert_list 2 exFullList.cend [3, 4] exFullMem).map
      fun r => r.2.1.size) = some 4 ∧
    ([1, 2] : List Nat).take 2 ++ [3, 4] ++ ([1, 2] : List Nat).drop 2 = [1, 2, 3, 4] ∧
    exFullList.insert_list 2 exFullList.cend ([] : List Nat) exFullMem =
      some (exFullList.cend, exFullList, exFullMem) := by
  have h1 : ((exFullList.insert_list 2 exFullList.cend [3, 4] exFullMem).bind
      fun r => r.2.1.toList 2 r.2.2 3) = some [1, 2] := by decide
  refine ⟨exFullMem_wellFormed, by decide, h1, ?_, by decide, by decide, rfl⟩
  intro fuel h2
  cases hr : exFullList.insert_list 2 exFullList.cend [3, 4] exFullMem with
  | none => simp [hr] at h1
  | some s =>
    simp only [hr, Option.some_bind] at h1 h2
    exact absurd (toList_unique h1 h2) (by decide)

/-! ## The range and initializer-list constructors -/

/-- With at least one value the range constructor builds what `push_back` of the values
builds on a default-constructed container: the first `push_back` overwrites both links
of the sentinel, whatever they held. -/
theorem new_range_cons {N : Nat} (hN : 0 < N) (x : α) (xs : List α) (ind : Ptr) (m : Mem α) :
    unrolled_list.new_range N (x :: xs) ind m =
      pushBackAll N (x :: xs) (unrolled_list.new m).1 (unrolled_list.new m).2 := by
  have hne : m.brk ≠ m.brk + 1 := Nat.ne_of_lt (Nat.lt_succ_self _)
  have e1 := push_back_eval_empty (N := N) (c := ⟨m.brk, 0⟩)
    (m := { obj := fun q => if q = m.brk then some (Obj.base ⟨ind, ind⟩) else m.obj q,
            brk := m.brk + 1 })
    (f := ⟨ind, ind⟩) x rfl (by simp) hN hne
  have e2 := push_back_eval_empty (N := N) (c := ⟨m.brk, 0⟩)
    (m := { obj := fun q => if q = m.brk then some (Obj.base ⟨m.brk, m.brk⟩) else m.obj q,
            brk := m.brk + 1 })
    (f := ⟨m.brk, m.brk⟩) x rfl (by simp) hN hne
  simp only [unrolled_list.new_range, unrolled_list.new, pushBackAll]
  rw [e1, e2]
  simp only [Option.some_bind]
  congr 2
  funext q
  by_cases h1 : q = m.brk + 1
  · simp [h1]
  · by_cases h2 : q = m.brk
    · simp [h1, h2]
    · simp [h1, h2]

/-- A sequence of `push_back` calls on a well-formed container returns a well-formed
container whose logical sequence is the old one followed by the values pushed. -/
theorem pushBackAll_wf {N : Nat} :
    ∀ (xs : List α) (c : unrolled_list) (m : Mem α) (as : List Ptr) (bs : List (List α)),
      WellFormed N m c as bs →
      ∃ c2 m2 as2 bs2, pushBackAll N xs c m = some (c2, m2) ∧ WellFormed N m2 c2 as2 bs2 ∧
        bs2.flatten = bs.flatten ++ xs ∧ c2.fake_node_ = c.fake_node_
  | [], c, m, as, bs, h => ⟨c, m, as, bs, rfl, h, by simp, rfl⟩
  | x :: xs, c, m, as, bs, h => by
    obtain ⟨c1, m1, pv1, as1, bs1, he, hr, hfk, -, hpv1, hpv2, hflat, -⟩ := push_back_wf x h
    have hpv : pv1 = some c1.fake_node_ := by
      rw [hfk]
      by_cases has : as = []
      · exact hpv1 has
      · exact hpv2 has
    rw [hpv] at hr
    obtain ⟨c2, m2, as2, bs2, he2, hr2, hflat2, hfk2⟩ := pushBackAll_wf xs c1 m1 as1 bs1 hr
    refine ⟨c2, m2, as2, bs2, ?_, hr2, ?_, hfk2.trans hfk⟩
    · simp only [pushBackAll, he, Option.some_bind]
      exact he2
    · rw [hflat2, hflat]
      simp

/-- `n` calls `push_back(v)` on a well-formed container. -/
theorem pushBackN_wf {N : Nat} (v : α) :
    ∀ (n : Nat) (c : unrolled_list) (m : Mem α) (as : List Ptr) (bs : List (List α)),
      WellFormed N m c as bs →
      ∃ c2 m2 as2 bs2, pushBackN N v n c m = some (c2, m2) ∧ WellFormed N m2 c2 as2 bs2 ∧
        bs2.flatten = bs.flatten ++ List.replicate n v ∧ c2.fake_node_ = c.fake_node_
  | 0, c, m, as, bs, h => ⟨c, m, as, bs, rfl, h, by simp, rfl⟩
  | n + 1, c, m, as, bs, h => by
    obtain ⟨c1, m1, pv1, as1, bs1, he, hr, hfk, -, hpv1, hpv2, hflat, -⟩ := push_back_wf v h
    have hpv : pv1 = some c1.fake_node_ := by
      rw [hfk]
      by_cases has : as = []
      · exact hpv1 has
      · exact hpv2 has
    rw [hpv] at hr
    obtain ⟨c2, m2, as2, bs2, he2, hr2, hflat2, hfk2⟩ := pushBackN_wf v n c1 m1 as1 bs1 hr
    refine ⟨c2, m2, as2, bs2, ?_, hr2, ?_, hfk2.trans hfk⟩
    · simp only [pushBackN, he, Option.some_bind]
      exact he2
    · rw [hflat2, hflat, List.replicate_succ]
      simp

/-- A default-constructed container is well formed and empty. -/
theorem new_wellFormed {N : Nat} (hN : 0 < N) (m : Mem α)
    (hfresh : ∀ p, m.brk ≤ p → m.obj p = none) :
    WellFormed N (unrolled_list.new m).2 (unrolled_list.new m).1 [] [] := by
  refine wellFormed_empty hN ?_ ?_
  · simp [unrolled_list.new]
  · intro p hp
    have hp1 : m.brk + 1 ≤ p := hp
    have hne : p ≠ m.brk := Nat.ne_of_gt (Nat.lt_of_succ_le hp1)
    simp only [unrolled_list.new, hne, if_false]
    exact hfresh p (Nat.le_of_succ_le hp1)

/-- The range and initializer-list constructors with at least one value: the container
is well formed, its logical sequence is the values given and `size()` their number,
whatever the sentinel's links held before. -/
theorem new_range_wf {N : Nat} (hN : 0 < N) (x : α) (xs : List α) (ind : Ptr) (m : Mem α)
    (hfresh : ∀ p, m.brk ≤ p → m.obj p = none) :
    ∃ c m2 as bs, unrolled_list.new_range N (x :: xs) ind m = some (c, m2) ∧
      WellFormed N m2 c as bs ∧ LogicalSeq N c m2 (x :: xs) ∧ c.size = (x :: xs).length := by
  obtain ⟨c2, m2, as2, bs2, he, hr, hflat, -⟩ :=
    pushBackAll_wf (x :: xs) _ _ [] [] (new_wellFormed hN m hfresh)
  have hfl : bs2.flatten = x :: xs := by simpa using hflat
  refine ⟨c2, m2, as2, bs2, ?_, hr, ?_, ?_⟩
  · rw [new_range_cons hN]
    exact he
  · rw [← hfl]
    exact Rep.logicalSeq hr
  · show c2.size_ = _
    rw [Rep.size_eq hr, hfl]

/-- C26 (the code departs from the claim): the range constructor (and the
initializer-list constructor alike) with no values, here in the empty memory.  The
container has `size() == 0`, but the links of its sentinel are never assigned: they hold
the indeterminate value `ind`, so unless that value is the sentinel's own address
`begin()` is not `end()` and a forward traversal from `begin()` has no result. -/
theorem range_constructor_empty_links_unset (N : Nat) (ind : Ptr) (hind : ind ≠ 1) :
    ∃ c m, unrolled_list.new_range N ([] : List Nat) ind emptyMem = some (c, m) ∧
      c.size = 0 ∧ c.cend = ⟨1, 0⟩ ∧ c.cbegin m = some ⟨ind, 0⟩ ∧ c.cbegin m ≠ some c.cend ∧
      m.next c.fake_node_ = some ind ∧ m.prev c.fake_node_ = some ind ∧
      ∀ fuel, c.toList N m fuel = none := by
  refine ⟨_, _, rfl, rfl, rfl, ?_, ?_, ?_, ?_, ?_⟩
  · simp [unrolled_list.cbegin, Mem.next, emptyMem]
  · simp only [unrolled_list.cbegin, Mem.next, emptyMem, unrolled_list.cend]
    simp only [if_true, Option.map_some', ne_eq, Option.some.injEq, Iterator.mk.injEq,
      and_true]
    exact hind
  · simp [Mem.next, emptyMem]
  · simp [Mem.prev, emptyMem]
  · intro fuel
    have hb : unrolled_list.cbegin (⟨1, 0⟩ : unrolled_list)
        ({ obj := fun q => if q = 1 then some (Obj.base ⟨ind, ind⟩) else none, brk := 2 } :
          Mem Nat) = some ⟨ind, 0⟩ := by
      simp [unrolled_list.cbegin, Mem.next]
    show unrolled_list.toList N (⟨1, 0⟩ : unrolled_list)
      ({ obj := fun q => if q = 1 then some (Obj.base ⟨ind, ind⟩) else none, brk := 2 } :
        Mem Nat) fuel = none
    simp only [unrolled_list.toList, hb, Option.some_bind]
    cases fuel with
    | zero => rfl
    | succ k =>
      have hne : (⟨ind, 0⟩ : Iterator) ≠ unrolled_list.cend (⟨1, 0⟩ : unrolled_list) := by
        intro h
        exact hind (congrArg Iterator.ptr_ h)
      simp [forwardFrom, hne, Iterator.deref, Mem.slot, Mem.node, hind]

/-- Witness for C26: the indeterminate value is the null pointer. -/
theorem range_constructor_empty_links_unset_witness :
    nullptr ≠ 1 ∧
    ∃ c m, unrolled_list.new_range 2 ([] : List Nat) nullptr emptyMem = some (c, m) ∧
      c.size = 0 ∧ c.cend = ⟨1, 0⟩ ∧ c.cbegin m = some ⟨nullptr, 0⟩ ∧
      c.cbegin m ≠ some c.cend ∧
      m.next c.fake_node_ = some nullptr ∧ m.prev c.fake_node_ = some nullptr ∧
      ∀ fuel, c.toList 2 m fuel = none :=
  ⟨by decide, range_constructor_empty_links_unset 2 nullptr (by decide)⟩

/-! ## The insert scenario for capacity 1 -/

/-- The scenario does not depend on the indeterminate initial links of the sentinel. -/
theorem insertScenario_ind (ind : Ptr) : insertScenario ind = insertScenario nullptr := by
  simp only [insertScenario, new_range_cons Nat.one_pos]

theorem scenarioStart_ind (ind : Ptr) : scenarioStart ind = scenarioStart nullptr := by
  simp only [scenarioStart, new_range_cons Nat.one_pos]

theorem rangeScenario_ind (ind : Ptr) : rangeScenario ind = rangeScenario nullptr := by
  simp only [rangeScenario, new_range_cons Nat.one_pos]

/-- The scenario of test `InsertByTwoIterators3` (capacity 1, `{1, 2, 3, 4, 5, 6}`, the
range `{7, 2, 3}` inserted right after the first element, no single insert before):
the sequence is `1, 7, 2, 3, 2, 3, 4, 5, 6`. -/
theorem rangeScenario_sequence (ind : Ptr) :
    ((rangeScenario ind).bind fun r => r.1.toList 1 r.2 10) =
      some [1, 7, 2, 3, 2, 3, 4, 5, 6] := by
  rw [rangeScenario_ind]
  decide

set_option maxRecDepth 100000 in
/-- C22 (counterexample): the scenario as the claim states it, run on the code, ends with
the ten elements `1, 7, 2, 3, 2, 6, 3, 4, 5, 6`; no traversal yields the nine elements
`1, 7, 2, 3, 2, 3, 4, 5, 6`. -/
theorem scenario_not_nine_elements :
    ((insertScenario nullptr).bind fun r => r.1.toList 1 r.2 11) =
      some [1, 7, 2, 3, 2, 6, 3, 4, 5, 6] ∧
    ∀ fuel, ((insertScenario nullptr).bind fun r => r.1.toList 1 r.2 fuel) ≠
      some [1, 7, 2, 3, 2, 3, 4, 5, 6] := by
  have h1 : ((insertScenario nullptr).bind fun r => r.1.toList 1 r.2 11) =
      some [1, 7, 2, 3, 2, 6, 3, 4, 5, 6] := by decide
  refine ⟨h1, ?_⟩
  intro fuel h2
  cases hr : insertScenario nullptr with
  | none => simp [hr] at h1
  | some s =>
    simp only [hr, Option.some_bind] at h1 h2
    exact absurd (toList_unique h1 h2) (by decide)

set_option maxRecDepth 100000 in
/-- C22 (amended): starting from a capacity-1 container holding `1, 2, 3, 4, 5, 6`,
inserting the value 6 before the element currently valued 3 and then inserting the range
`7, 2, 3` right after the first element yields the sequence `1, 7, 2, 3, 2, 6, 3, 4, 5, 6`
and `size()` 10, whatever the sentinel's links held at construction. -/
theorem scenario_sequence (ind : Ptr) :
    ((scenarioStart ind).bind fun r => r.1.deref 1 r.2.2) = some 3 ∧
    ((insertScenario ind).bind fun r => r.1.toList 1 r.2 11) =
      some [1, 7, 2, 3, 2, 6, 3, 4, 5, 6] ∧
    ((insertScenario ind).map fun r => r.1.size) = some 10 := by
  rw [scenarioStart_ind, insertScenario_ind]
  decide

/-! ## Forward chains -/

theorem Chain.toFChain {m : Mem α} :
    ∀ {pv : Option Ptr} {as : List Ptr} {bs : List (List α)} {e : Ptr},
      Chain m pv as bs e → FChain m as bs e
  | _, [], [], _, _ => trivial
  | _, [], _ :: _, _, h => by simp [Chain] at h
  | _, _ :: _, [], _, h => by simp [Chain] at h
  | _, _ :: _, _ :: _, _, h => by
    simp only [Chain] at h
    simp only [FChain]
    exact ⟨h.1.drop_prev, Chain.toFChain h.2⟩

/-- A represented container is in particular one with a forward chain. -/
theorem Rep.toFwdRep {N : Nat} {m : Mem α} {c : unrolled_list} {pv : Option Ptr}
    {as : List Ptr} {bs : List (List α)} (h : Rep N m c pv as bs) : FwdRep N m c as bs :=
  ⟨h.cap_pos, h.sentinel, h.chain.toFChain, h.counts, h.nodup, h.fake_not_block, h.size_eq,
    h.fresh⟩

theorem FChain.length_eq_blocks {m : Mem α} :
    ∀ {as : List Ptr} {bs : List (List α)} {e : Ptr}, FChain m as bs e → as.length = bs.length
  | [], [], _, _ => rfl
  | [], _ :: _, _, h => by simp [FChain] at h
  | _ :: _, [], _, h => by simp [FChain] at h
  | _ :: _, _ :: _, _, h => by
    simp only [FChain] at h
    simp [FChain.length_eq_blocks h.2]

theorem FChain.congr_obj_eq {m1 m2 : Mem α} :
    ∀ {as : List Ptr} {bs : List (List α)} {e : Ptr},
      (∀ a ∈ as, m2.obj a = m1.obj a) → FChain m1 as bs e → FChain m2 as bs e
  | [], [], _, _, _ => trivial
  | [], _ :: _, _, _, h => by simp [FChain] at h
  | _ :: _, [], _, _, h => by simp [FChain] at h
  | a :: as, _ :: _, _, hm, h => by
    simp only [FChain] at h ⊢
    exact ⟨h.1.congr_obj (hm a (by simp)),
      FChain.congr_obj_eq (fun x hx => hm x (by simp [hx])) h.2⟩

theorem FChain.live_of_mem {m : Mem α} :
    ∀ {as : List Ptr} {bs : List (List α)} {e : Ptr},
      FChain m as bs e → ∀ a ∈ as, ∃ o, m.obj a = some o
  | [], [], _, _ => by simp
  | [], _ :: _, _, h => by simp [FChain] at h
  | _ :: _, [], _, h => by simp [FChain] at h
  | x :: as, _ :: _, _, h => by
    simp only [FChain] at h
    intro a ha
    rcases List.mem_cons.mp ha with rfl | ha
    · exact h.1.obj_ne_none
    · exact FChain.live_of_mem h.2 a ha

theorem fchain_append {m : Mem α} {e : Ptr} (as2 : List Ptr) (bs2 : List (List α)) :
    ∀ (as1 : List Ptr) (bs1 : List (List α)), as1.length = bs1.length →
      (FChain m (as1 ++ as2) (bs1 ++ bs2) e ↔
        FChain m as1 bs1 (as2.headD e) ∧ FChain m as2 bs2 e)
  | [], [], _ => by simp [FChain]
  | [], _ :: _, h => by simp at h
  | _ :: _, [], h => by simp at h
  | a :: as1, b :: bs1, h => by
    have hl : as1.length = bs1.length := by simpa using h
    have ih := fchain_append (m := m) (e := e) as2 bs2 as1 bs1 hl
    have hh : (as1 ++ as2).headD e = as1.headD (as2.headD e) := by
      cases as1 <;> simp
    rw [List.cons_append, List.cons_append]
    simp only [FChain, ih, hh]
    tauto

theorem fchain_concat {m : Mem α} {e : Ptr} {as1 : List Ptr} {bs1 : List (List α)} {a : Ptr}
    {b : List α} (hl : as1.length = bs1.length) :
    FChain m (as1 ++ [a]) (bs1 ++ [b]) e ↔ FChain m as1 bs1 a ∧ IsBlock m a none e b := by
  rw [fchain_append [a] [b] as1 bs1 hl]
  simp [FChain]

theorem forwardFrom_fchain {N : Nat} {c : unrolled_list} {m : Mem α} :
    ∀ (as : List Ptr) (bs : List (List α)) (fuel : Nat),
      FChain m as bs c.fake_node_ → (∀ b ∈ bs, 0 < b.length ∧ b.length ≤ N) →
      c.fake_node_ ∉ as → bs.flatten.length < fuel →
      forwardFrom N c m fuel ⟨as.headD c.fake_node_, 0⟩ = some bs.flatten
  | [], [], fuel, _, _, _, hf => by
    obtain ⟨k, rfl⟩ : ∃ k, fuel = k + 1 := ⟨fuel - 1, by simp at hf; omega⟩
    simp [forwardFrom, unrolled_list.cend]
  | [], _ :: _, _, h, _, _, _ => by simp [FChain] at h
  | _ :: _, [], _, h, _, _, _ => by simp [FChain] at h
  | a :: as, b :: bs, fuel, h, hc, hnot, hf => by
    simp only [FChain] at h
    have hb := hc b (by simp)
    have hlen : (b :: bs).flatten.length = b.length + bs.flatten.length := by simp
    obtain ⟨k, rfl⟩ : ∃ k, fuel = k + b.length := ⟨fuel - b.length, by omega⟩
    have ha : a ≠ c.fake_node_ := fun h => hnot (by simp [h])
    have ih := forwardFrom_fchain as bs k h.2 (fun x hx => hc x (by simp [hx]))
      (fun hx => hnot (by simp [hx])) (by omega)
    rw [List.headD_cons, forwardFrom_block h.1 hb.2 ha k b.length 0 (by simp) hb.1, ih]
    simp

/-- Forward traversal of a container with a forward chain yields the elements of its
blocks in order. -/
theorem FwdRep.forward_seq {N : Nat} {m : Mem α} {c : unrolled_list} {as : List Ptr}
    {bs : List (List α)} (h : FwdRep N m c as bs) : LogicalSeq N c m bs.flatten := by
  intro fuel hfuel
  obtain ⟨f, hf, hnext, -⟩ := h.sentinel
  have hb : c.cbegin m = some ⟨as.headD c.fake_node_, 0⟩ := by
    simp [unrolled_list.cbegin, Mem.next_base hf, hnext]
  simp only [unrolled_list.toList, hb, Option.some_bind]
  exact forwardFrom_fchain as bs fuel h.chain h.counts h.fake_not_block hfuel

theorem freeLoop_fchain {e : Ptr} :
    ∀ (as : List Ptr) (bs : List (List α)) (m : Mem α) (fuel : Nat),
      FChain m as bs e → as.Nodup → e ∉ as → as.length < fuel →
      freeLoop e fuel (as.headD e) m =
        some { m with obj := fun q => if q ∈ as then none else m.obj q }
  | [], [], m, fuel, _, _, _, hf => by
    obtain ⟨f, rfl⟩ : ∃ f, fuel = f + 1 := ⟨fuel - 1, by simp at hf; omega⟩
    simp [freeLoop]
  | [], _ :: _, _, _, h, _, _, _ => by simp [FChain] at h
  | _ :: _, [], _, _, h, _, _, _ => by simp [FChain] at h
  | a :: as, b :: bs, m, fuel, h, hnd, he, hf => by
    obtain ⟨f, rfl⟩ : ∃ f, fuel = f + 1 := ⟨fuel - 1, by simp at hf; omega⟩
    simp only [FChain] at h
    obtain ⟨⟨n, hn, -, hnext, -, -⟩, hrest⟩ := h
    have hae : a ≠ e := fun h1 => he (by simp [h1])
    have ha0 : a ∉ as := (List.nodup_cons.1 hnd).1
    have hrest2 : FChain ({ m with obj := fun q => if q = a then none else m.obj q } : Mem α)
        as bs e := by
      refine FChain.congr_obj_eq ?_ hrest
      intro x hx
      have hxa : x ≠ a := fun h1 => ha0 (h1 ▸ hx)
      simp [hxa]
    have ih := freeLoop_fchain as bs _ f hrest2 (List.nodup_cons.1 hnd).2
      (fun h1 => he (by simp [h1])) (by simp at hf; omega)
    simp only [List.headD_cons, freeLoop, hae, if_false, bind, Option.bind_eq_bind,
      Mem.node_node hn, Option.some_bind, Mem.freeNode_node hn, hnext, ih]
    congr 2
    funext q
    by_cases hqa : q = a
    · simp [hqa]
    · simp [hqa]

/-! ## clear and assign -/

/-- `clear()` on a container with a forward chain, given more rounds than blocks: the
call returns the container with `size_` 0, every block is freed, the sentinel is linked
to itself in both directions and nothing else changes. -/
theorem clear_fwdRep {N : Nat} {m : Mem α} {c : unrolled_list} {as : List Ptr}
    {bs : List (List α)} (h : FwdRep N m c as bs) (fuel : Nat) (hf : as.length < fuel) :
    ∃ m2, c.clear m fuel = some (⟨c.fake_node_, 0⟩, m2) ∧
      WellFormed N m2 ⟨c.fake_node_, 0⟩ [] [] ∧
      m2.obj c.fake_node_ = some (Obj.base ⟨c.fake_node_, c.fake_node_⟩) ∧
      (∀ a ∈ as, m2.obj a = none) ∧
      (∀ q, q ≠ c.fake_node_ → q ∉ as → m2.obj q = m.obj q) ∧ m2.brk = m.brk := by
  obtain ⟨f, hfo, hfnext, hfprev⟩ := h.sentinel
  by_cases hs : c.size_ = 0
  · have hbs : bs = [] := by
      have h0 := h.size_eq
      rw [hs] at h0
      cases bs with
      | nil => rfl
      | cons b bs =>
        have := (h.counts b (by simp)).1
        simp only [List.flatten_cons, List.length_append] at h0
        omega
    have has : as = [] := by
      have := h.chain.length_eq_blocks
      rw [hbs] at this
      exact List.length_eq_zero.mp this
    subst has
    have hfe : f = ⟨c.fake_node_, c.fake_node_⟩ := by
      cases f
      simp only [List.headD_nil, List.getLastD_nil] at hfnext hfprev
      rw [hfnext, hfprev]
    have hc : c = ⟨c.fake_node_, 0⟩ := by
      cases c
      simp only at hs
      rw [hs]
    refine ⟨m, ?_, ?_, ?_, ?_, ?_, rfl⟩
    · simp only [unrolled_list.clear, unrolled_list.empty, hs, beq_self_eq_true, if_true, pure]
      rw [← hc]
    · exact wellFormed_empty h.cap_pos (by rw [hfo, hfe]) h.fresh
    · rw [hfo, hfe]
    · intro a ha
      simp at ha
    · intro q _ _
      rfl
  · have hfl := freeLoop_fchain as bs m fuel h.chain h.nodup h.fake_not_block hf
    have hfk : (if c.fake_node_ ∈ as then none else m.obj c.fake_node_) =
        some (Obj.base f) := by
      rw [if_neg h.fake_not_block, hfo]
    obtain ⟨g, hg⟩ : ∃ g : Ptr → Option (Obj α),
        g = fun q => if q ∈ as then none else m.obj q := ⟨_, rfl⟩
    have hgf : g c.fake_node_ = some (Obj.base f) := by
      rw [hg]
      exact hfk
    have hm1 : ({ m with obj := g } : Mem α).obj c.fake_node_ = some (Obj.base f) := hgf
    have e1 := Mem.setNext_base hm1 c.fake_node_
    have hm2 : (({ m with obj := g } : Mem α).write c.fake_node_
        (Obj.base { f with next := c.fake_node_ })).obj c.fake_node_ =
        some (Obj.base { f with next := c.fake_node_ }) := Mem.write_obj_same _ _ _
    have e2 := Mem.setPrev_base hm2 c.fake_node_
    rw [Mem.write_write] at e2
    have e3 : (({ m with obj := g } : Mem α).write c.fake_node_
        (Obj.base { f with next := c.fake_node_ })).setPrev c.fake_node_ c.fake_node_ =
        some (({ m with obj := g } : Mem α).write c.fake_node_
          (Obj.base ⟨c.fake_node_, c.fake_node_⟩)) := e2
    refine ⟨({ m with obj := g } : Mem α).write c.fake_node_
      (Obj.base ⟨c.fake_node_, c.fake_node_⟩), ?_, ?_, ?_, ?_, ?_, ?_⟩
    · simp only [unrolled_list.clear, unrolled_list.empty, beq_iff_eq, hs, if_false, bind, pure,
        Option.bind_eq_bind, Mem.next_base hfo, hfnext, Option.some_bind, hfl]
      rw [← hg]
      simp only [e1, Option.some_bind, e3]
    · refine wellFormed_empty h.cap_pos (Mem.write_obj_same _ _ _) ?_
      intro p hp
      have hp2 : m.brk ≤ p := hp
      have hne : p ≠ c.fake_node_ := by
        intro he
        have := h.fresh p hp2
        rw [he, hfo] at this
        exact Option.noConfusion this
      rw [Mem.write_obj_ne _ _ hne]
      show g p = none
      rw [hg]
      by_cases hpa : p ∈ as
      · simp [hpa]
      · simp only [hpa, if_false]
        exact h.fresh p hp2
    · exact Mem.write_obj_same _ _ _
    · intro a ha
      have hne : a ≠ c.fake_node_ := fun he => h.fake_not_block (he ▸ ha)
      rw [Mem.write_obj_ne _ _ hne]
      show g a = none
      rw [hg]
      simp [ha]
    · intro q hq hqa
      rw [Mem.write_obj_ne _ _ hq]
      show g q = m.obj q
      rw [hg]
      simp [hqa]
    · rfl

/-- `clear()` on an empty container returns at once: container and memory are as they
were. -/
theorem clear_empty (c : unrolled_list) (m : Mem α) (fuel : Nat) (hs : c.size_ = 0) :
    c.clear m fuel = some (c, m) := by
  simp [unrolled_list.clear, unrolled_list.empty, hs]

/-- C24: for every well-formed container, `clear()` (given more rounds than blocks)
returns and leaves `size() == 0`, `empty()` true and the sentinel linked to itself in
both directions, so that `begin() == end()`; every block is freed.  On an empty
container `clear()` changes nothing. -/
theorem clear_spec (N : Nat) (m : Mem α) (c : unrolled_list) (as : List Ptr)
    (bs : List (List α)) (fuel : Nat) (h : WellFormed N m c as bs) (hf : as.length < fuel) :
    (∃ c2 m2, c.clear m fuel = some (c2, m2) ∧ c2.size = 0 ∧ c2.empty = true ∧
      c2.fake_node_ = c.fake_node_ ∧
      m2.next c2.fake_node_ = some c2.fake_node_ ∧
      m2.prev c2.fake_node_ = some c2.fake_node_ ∧
      c2.cbegin m2 = some c2.cend ∧ WellFormed N m2 c2 [] [] ∧
      LogicalSeq N c2 m2 [] ∧ (∀ a ∈ as, m2.obj a = none)) ∧
    (bs.flatten = [] → c.clear m fuel = some (c, m)) := by
  obtain ⟨m2, he, hwf, hobj, hfree, -, -⟩ := clear_fwdRep (Rep.toFwdRep h) fuel hf
  refine ⟨⟨_, m2, he, rfl, rfl, rfl, ?_, ?_, ?_, hwf, ?_, hfree⟩, ?_⟩
  · exact Mem.next_base hobj
  · exact Mem.prev_base hobj
  · simp [unrolled_list.cbegin, Mem.next_base hobj, unrolled_list.cend]
  · exact Rep.logicalSeq hwf
  · intro hnil
    apply clear_empty
    rw [Rep.size_eq h, hnil]
    rfl

/-- Witness for C24: the example container `[1, 2] [3]`. -/
theorem clear_spec_witness :
    (WellFormed 2 exMem exList [2, 3] [[1, 2], [3]] ∧ ([2, 3] : List Ptr).length < 3) ∧
    (∃ c2 m2, exList.clear exMem 3 = some (c2, m2) ∧ c2.size = 0 ∧ c2.empty = true ∧
      c2.fake_node_ = exList.fake_node_ ∧
      m2.next c2.fake_node_ = some c2.fake_node_ ∧
      m2.prev c2.fake_node_ = some c2.fake_node_ ∧
      c2.cbegin m2 = some c2.cend ∧ WellFormed 2 m2 c2 [] [] ∧
      LogicalSeq 2 c2 m2 [] ∧ (∀ a ∈ ([2, 3] : List Ptr), m2.obj a = none)) ∧
    (([[1, 2], [3]] : List (List Nat)).flatten = [] →
      exList.clear exMem 3 = some (exList, exMem)) :=
  ⟨⟨exMem_wellFormed, by decide⟩,
    clear_spec 2 exMem exList [2, 3] [[1, 2], [3]] 3 exMem_wellFormed (by decide)⟩

/-! ## The count-and-value constructor: forward traversal -/

theorem Mem.write_comm (m : Mem α) {p q : Ptr} (a b : Obj α) (h : p ≠ q) :
    (m.write p a).write q b = (m.write q b).write p a := by
  simp only [Mem.write]
  congr 1
  funext x
  by_cases h1 : x = q
  · have h2 : x ≠ p := fun h3 => h (h3.symm.trans h1)
    simp [h1, h2, h.symm]
  · simp [h1]

theorem isBlock_replicate {m : Mem α} {a ind nx : Ptr} (v : α) (k : Nat)
    (h : m.obj a = some (Obj.node ⟨ind, nx, fun j => if j < k then some v else none, k⟩)) :
    IsBlock m a none nx (List.replicate k v) := by
  refine ⟨_, h, by simp, rfl, by simp, ?_⟩
  intro j hj
  have hj2 : j < k := by simpa using hj
  simp [hj2, List.getElem?_replicate]

/-- The first block built by the constructor: the sentinel's `next` is set to it. -/
theorem fill_first {m0 m1 : Mem α} {F ind : Ptr} (v : α) (k : Nat)
    (hs : FillState m0 F ind [] [] m1) :
    FillState m0 F ind [m1.brk] [List.replicate k v]
      ((({ m1 with brk := m1.brk + 1 } : Mem α).write F (Obj.base ⟨ind, m1.brk⟩)).write m1.brk
        (Obj.node ⟨ind, ind, fun j => if j < k then some v else none, k⟩)) := by
  have hbrk : m1.brk = F + 1 := by
    have := hs.brk_eq
    simpa using this
  have hne : m1.brk ≠ F := by
    rw [hbrk]
    exact Nat.succ_ne_self F
  exact
    { brk_eq := by
        show m1.brk + 1 = F + 1 + 1
        rw [hbrk]
      addrs := by
        rw [hbrk]
        rfl
      old := by
        intro q hq
        have h1 : q ≠ F := Nat.ne_of_lt hq
        have h2 : q ≠ m1.brk := by
          rw [hbrk]
          exact Nat.ne_of_lt (Nat.lt_succ_of_lt hq)
        rw [Mem.write_obj_ne _ _ h2, Mem.write_obj_ne _ _ h1]
        exact hs.old q hq
      fake := by
        rw [Mem.write_obj_ne _ _ hne.symm, Mem.write_obj_same]
        rfl
      chain := by
        simp only [FChain, List.headD_nil, and_true]
        exact isBlock_replicate v k (Mem.write_obj_same _ _ _)
      fresh := by
        intro p hp
        have hp2 : m1.brk + 1 ≤ p := hp
        have h1 : p ≠ m1.brk := Nat.ne_of_gt (Nat.lt_of_succ_le hp2)
        have h2 : p ≠ F := by
          rw [hbrk] at hp2
          exact Nat.ne_of_gt (Nat.lt_of_succ_le (Nat.le_of_succ_le hp2))
        rw [Mem.write_obj_ne _ _ h1, Mem.write_obj_ne _ _ h2]
        exact hs.fresh p (Nat.le_of_succ_le hp2) }

/-- A further block built by the constructor: the `next` link of the block before it is
set to it. -/
theorem fill_extend {m0 m1 : Mem α} {F ind : Ptr} {ds0 : List Ptr} {d : Ptr}
    {bs : List (List α)} (v : α) (k : Nat) (hs : FillState m0 F ind (ds0 ++ [d]) bs m1) :
    ∃ nd : Node α, m1.obj d = some (Obj.node nd) ∧
      FillState m0 F ind (ds0 ++ [d] ++ [m1.brk]) (bs ++ [List.replicate k v])
        ((({ m1 with brk := m1.brk + 1 } : Mem α).write d
            (Obj.node { nd with next := m1.brk })).write m1.brk
          (Obj.node ⟨ind, ind, fun j => if j < k then some v else none, k⟩)) := by
  have hl := hs.chain.length_eq_blocks
  obtain ⟨bs0, b0, rfl⟩ : ∃ bs0 b0, bs = bs0 ++ [b0] := by
    rcases List.eq_nil_or_concat bs with rfl | ⟨bs0, b0, rfl⟩
    · simp at hl
    · exact ⟨bs0, b0, by simp⟩
  have hl0 : ds0.length = bs0.length := by simpa using hl
  obtain ⟨hch0, nd, hnd, -, hdnext, hdcnt, hdst⟩ := (fchain_concat hl0).1 hs.chain
  have hbrk := hs.brk_eq
  have hnodup : (ds0 ++ [d]).Nodup := by
    rw [hs.addrs]
    exact List.nodup_range' _ _
  have hd0 : d ∉ ds0 := by
    intro hmem
    exact (List.nodup_append.1 hnodup).2.2 hmem (by simp)
  have hmemr : ∀ x ∈ ds0 ++ [d], F + 1 ≤ x ∧ x < m1.brk := by
    intro x hx
    rw [hs.addrs] at hx
    have := range_lt hx
    rw [hbrk]
    exact this
  have hdr := hmemr d (by simp)
  have hdF : d ≠ F := Nat.ne_of_gt (Nat.lt_of_succ_le hdr.1)
  have hdb : d ≠ m1.brk := Nat.ne_of_lt hdr.2
  have hFb : F ≠ m1.brk := by
    rw [hbrk]
    exact Nat.ne_of_lt (by simp only [Ptr] at *; omega)
  refine ⟨nd, hnd, ?_⟩
  exact
    { brk_eq := by
        show m1.brk + 1 = F + 1 + (ds0 ++ [d] ++ [m1.brk]).length
        rw [List.length_append (ds0 ++ [d]), List.length_singleton, hbrk]
        rfl
      addrs := by
        rw [List.length_append (ds0 ++ [d]), List.length_singleton, range_succ_concat,
          ← hs.addrs, hbrk]
      old := by
        intro q hq
        have h1 : q ≠ d := Nat.ne_of_lt (Nat.lt_of_lt_of_le hq (Nat.le_of_succ_le hdr.1))
        have h2 : q ≠ m1.brk := by
          rw [hbrk]
          exact Nat.ne_of_lt (by simp only [Ptr] at *; omega)
        rw [Mem.write_obj_ne _ _ h2, Mem.write_obj_ne _ _ h1]
        exact hs.old q hq
      fake := by
        rw [Mem.write_obj_ne _ _ hFb, Mem.write_obj_ne _ _ hdF.symm]
        have hh : (ds0 ++ [d] ++ [m1.brk]).headD ind = (ds0 ++ [d]).headD ind := by
          cases ds0 <;> simp
        rw [hh]
        exact hs.fake
      chain := by
        have hl1 : (ds0 ++ [d]).length = (bs0 ++ [b0]).length := by simp [hl0]
        rw [fchain_concat hl1, fchain_concat hl0]
        refine ⟨⟨?_, ?_⟩, ?_⟩
        · refine FChain.congr_obj_eq ?_ hch0
          intro x hx
          have hxd : x ≠ d := fun h => hd0 (h ▸ hx)
          have hxb : x ≠ m1.brk := Nat.ne_of_lt (hmemr x (by simp [hx])).2
          rw [Mem.write_obj_ne _ _ hxb, Mem.write_obj_ne _ _ hxd]
        · refine ⟨{ nd with next := m1.brk }, ?_, by simp, rfl, hdcnt, hdst⟩
          rw [Mem.write_obj_ne _ _ hdb, Mem.write_obj_same]
        · exact isBlock_replicate v k (Mem.write_obj_same _ _ _)
      fresh := by
        intro p hp
        have hp2 : m1.brk + 1 ≤ p := hp
        have h1 : p ≠ m1.brk := Nat.ne_of_gt (Nat.lt_of_succ_le hp2)
        have h2 : p ≠ d := Nat.ne_of_gt (Nat.lt_trans hdr.2 (Nat.lt_of_succ_le hp2))
        rw [Mem.write_obj_ne _ _ h1, Mem.write_obj_ne _ _ h2]
        exact hs.fresh p (Nat.le_of_succ_le hp2) }

/-- The loop of the constructor, `rounds` rounds from a state with the blocks `ds`: it
returns, and `rounds` full blocks follow the ones that were there. -/
theorem fillLoop_state {N : Nat} {m0 : Mem α} {F ind : Ptr} (v : α) :
    ∀ (rounds : Nat) (ds : List Ptr) (bs : List (List α)) (m1 : Mem α),
      FillState m0 F ind ds bs m1 →
      ∃ m2 ds2, fillLoop N F ind v rounds ds.length ds.getLast? m1 = some (ds2.getLast?, m2) ∧
        FillState m0 F ind ds2 (bs ++ List.replicate rounds (List.replicate N v)) m2 ∧
        ds2.length = ds.length + rounds
  | 0, ds, bs, m1, hs => ⟨m1, ds, rfl, by simpa using hs, rfl⟩
  | rounds + 1, ds, bs, m1, hs => by
    rcases List.eq_nil_or_concat ds with rfl | ⟨ds0, d, rfl⟩
    · have hbs : bs = [] := List.length_eq_zero.mp hs.chain.length_eq_blocks.symm
      subst hbs
      have hs1 := fill_first v N hs
      obtain ⟨m2, ds2, he, hs2, hlen⟩ := fillLoop_state v rounds [m1.brk] _ _ hs1
      refine ⟨m2, ds2, ?_, ?_, ?_⟩
      · have hF : ({ m1 with brk := m1.brk + 1 } : Mem α).obj F = some (Obj.base ⟨ind, ind⟩) :=
          hs.fake
        simp only [fillLoop, List.length_nil, if_true, bind, Option.bind_eq_bind, Mem.allocate,
          Mem.setNext_base hF, Option.some_bind, Mem.constructNodeFill, Nat.le_refl]
        exact he
      · rw [List.replicate_succ]
        simpa using hs2
      · rw [hlen]
        simp only [List.length_singleton, List.length_nil]
        omega
    · rw [List.concat_eq_append] at hs ⊢
      obtain ⟨nd, hnd, hs1⟩ := fill_extend v N hs
      obtain ⟨m2, ds2, he, hs2, hlen⟩ := fillLoop_state v rounds (ds0 ++ [d] ++ [m1.brk]) _ _ hs1
      refine ⟨m2, ds2, ?_, ?_, ?_⟩
      · have hnd2 : ({ m1 with brk := m1.brk + 1 } : Mem α).obj d = some (Obj.node nd) := hnd
        have hlast : (ds0 ++ [d]).getLast? = some d := by simp
        have hlen0 : (ds0 ++ [d]).length ≠ 0 := by simp
        have hlast2 : (ds0 ++ [d] ++ [m1.brk]).getLast? = some m1.brk := by simp
        have hlen2 : (ds0 ++ [d] ++ [m1.brk]).length = (ds0 ++ [d]).length + 1 := by simp
        rw [hlast2, hlen2] at he
        simp only [fillLoop, hlen0, if_false, bind, Option.bind_eq_bind, Mem.allocate, hlast,
          Mem.setNext_node hnd2, Option.some_bind, Mem.constructNodeFill, Nat.le_refl, if_true]
        exact he
      · rw [List.replicate_succ]
        simpa using hs2
      · rw [hlen]
        simp only [List.length_append, List.length_singleton]
        omega

/-- The last statements of the constructor, `prev_node->next = &fake_node_;
fake_node_.prev = prev_node`, close the forward chain through the sentinel. -/
theorem fill_close {N : Nat} {m0 m1 : Mem α} {F ind : Ptr} {ds0 : List Ptr} {d : Ptr}
    {bs : List (List α)} (hN : 0 < N) (hs : FillState m0 F ind (ds0 ++ [d]) bs m1)
    (hcounts : ∀ b ∈ bs, 0 < b.length ∧ b.length ≤ N) :
    ∃ m2, ((m1.setNext d F).bind fun m => m.setPrev F d) = some m2 ∧
      FwdRep N m2 ⟨F, bs.flatten.length⟩ (ds0 ++ [d]) bs ∧
      (∀ q, q < F → m2.obj q = m0.obj q) := by
  have hl := hs.chain.length_eq_blocks
  obtain ⟨bs0, b0, rfl⟩ : ∃ bs0 b0, bs = bs0 ++ [b0] := by
    rcases List.eq_nil_or_concat bs with rfl | ⟨bs0, b0, rfl⟩
    · simp at hl
    · exact ⟨bs0, b0, by simp⟩
  have hl0 : ds0.length = bs0.length := by simpa using hl
  obtain ⟨hch0, nd, hnd, -, hdnext, hdcnt, hdst⟩ := (fchain_concat hl0).1 hs.chain
  have hbrk := hs.brk_eq
  have hnodup : (ds0 ++ [d]).Nodup := by
    rw [hs.addrs]
    exact List.nodup_range' _ _
  have hd0 : d ∉ ds0 := by
    intro hmem
    exact (List.nodup_append.1 hnodup).2.2 hmem (by simp)
  have hmemr : ∀ x ∈ ds0 ++ [d], F + 1 ≤ x ∧ x < m1.brk := by
    intro x hx
    rw [hs.addrs] at hx
    have := range_lt hx
    rw [hbrk]
    exact this
  have hdr := hmemr d (by simp)
  have hdF : d ≠ F := Nat.ne_of_gt (Nat.lt_of_succ_le hdr.1)
  have hF1 : (m1.write d (Obj.node { nd with next := F })).obj F =
      some (Obj.base ⟨ind, (ds0 ++ [d]).headD ind⟩) := by
    rw [Mem.write_obj_ne _ _ hdF.symm]
    exact hs.fake
  refine ⟨(m1.write d (Obj.node { nd with next := F })).write F
    (Obj.base ⟨d, (ds0 ++ [d]).headD ind⟩), ?_, ?_, ?_⟩
  · simp only [Mem.setNext_node hnd, Option.some_bind, Mem.setPrev_base hF1]
  · exact
      { cap_pos := hN
        sentinel := by
          refine ⟨⟨d, (ds0 ++ [d]).headD ind⟩, Mem.write_obj_same _ _ _, ?_, ?_⟩
          · show (ds0 ++ [d]).headD ind = (ds0 ++ [d]).headD F
            rw [headD_concat, headD_concat]
          · show d = (ds0 ++ [d]).getLastD F
            rw [getLastD_concat]
        chain := by
          rw [fchain_concat hl0]
          refine ⟨?_, ?_⟩
          · refine FChain.congr_obj_eq ?_ hch0
            intro x hx
            have hxd : x ≠ d := fun h => hd0 (h ▸ hx)
            have hxF : x ≠ F := Nat.ne_of_gt (Nat.lt_of_succ_le (hmemr x (by simp [hx])).1)
            rw [Mem.write_obj_ne _ _ hxF, Mem.write_obj_ne _ _ hxd]
          · refine ⟨{ nd with next := F }, ?_, by simp, rfl, hdcnt, hdst⟩
            rw [Mem.write_obj_ne _ _ hdF, Mem.write_obj_same]
        counts := hcounts
        nodup := hnodup
        fake_not_block := by
          intro hmem
          have := (hmemr F hmem).1
          exact Nat.lt_irrefl _ (Nat.lt_of_succ_le this)
        size_eq := rfl
        fresh := by
          intro p hp
          have hp2 : m1.brk ≤ p := hp
          have h1 : p ≠ d := Nat.ne_of_gt (Nat.lt_of_lt_of_le hdr.2 hp2)
          have h2 : p ≠ F := by
            rw [hbrk] at hp2
            exact Nat.ne_of_gt (by simp only [Ptr] at *; omega)
          rw [Mem.write_obj_ne _ _ h2, Mem.write_obj_ne _ _ h1]
          exact hs.fresh p hp2 }
  · intro q hq
    have h1 : q ≠ F := Nat.ne_of_lt hq
    have h2 : q ≠ d := Nat.ne_of_lt (Nat.lt_of_lt_of_le hq (Nat.le_of_succ_le hdr.1))
    rw [Mem.write_obj_ne _ _ h1, Mem.write_obj_ne _ _ h2]
    exact hs.old q hq

theorem flatten_replicate_replicate (a b : Nat) (v : α) :
    (List.replicate a (List.replicate b v)).flatten = List.replicate (a * b) v := by
  induction a with
  | zero => simp
  | succ a ih =>
    rw [List.replicate_succ, List.flatten_cons, ih, Nat.succ_mul, Nat.add_comm (a * b) b,
      List.replicate_add]

/-- The statements that link a first and only block to the sentinel store the same
memory in either order of the block's construction and the sentinel's `next` link. -/
theorem fill_single_eval {A : Mem α} {F new ind : Ptr} (nodeR : Node α) (hne : F ≠ new)
    (hF : A.obj F = some (Obj.base ⟨ind, ind⟩)) :
    ((((A.write new (Obj.node nodeR)).setPrev F new).bind fun a => a.setNext F new).bind
        fun a => (a.setNext new F).bind fun m1 => m1.setPrev F new) =
      (((A.write F (Obj.base ⟨ind, new⟩)).write new (Obj.node nodeR)).setNext new F).bind
        fun m1 => m1.setPrev F new := by
  simp only [Mem.setPrev, Mem.setNext, Mem.write, hF, hne, hne.symm, if_true, if_false,
    Option.some_bind]
  congr 2
  funext q
  by_cases h1 : q = F
  · simp [h1, hne]
  · by_cases h2 : q = new
    · simp [h2, hne.symm]
    · simp [h1, h2]

/-- The count-and-value constructor `unrolled_list(n, v)` for every capacity `N ≥ 1`:
it returns a container with a closed forward chain of `n / N` full blocks and, when
`n % N > 0`, one block of `n % N` elements, all equal to `v`; `size_` is `n`.  Nothing is
said of the `prev` links of the blocks, which the constructor does not set. -/
theorem new_fill_fwdRep {N : Nat} (hN : 0 < N) (n : Nat) (v : α) (ind : Ptr) (m : Mem α)
    (hfresh : ∀ p, m.brk ≤ p → m.obj p = none) :
    ∃ c m2 as bs, unrolled_list.new_fill N n v ind m = some (c, m2) ∧ FwdRep N m2 c as bs ∧
      bs.flatten = List.replicate n v ∧ c.size = n ∧ c.fake_node_ = m.brk ∧
      as.length ≤ n ∧ ∀ q, q < m.brk → m2.obj q = m.obj q := by
  obtain ⟨m1, hm1⟩ : ∃ m1 : Mem α, m1 =
      { obj := fun q => if q = m.brk then some (Obj.base ⟨ind, ind⟩) else m.obj q,
        brk := m.brk + 1 } := ⟨_, rfl⟩
  have hF : m1.obj m.brk = some (Obj.base ⟨ind, ind⟩) := by
    rw [hm1]
    simp
  have hfr1 : ∀ p, m1.brk ≤ p → m1.obj p = none := by
    intro p hp
    rw [hm1] at hp ⊢
    have hp2 : m.brk + 1 ≤ p := hp
    have hne : p ≠ m.brk := Nat.ne_of_gt (Nat.lt_of_succ_le hp2)
    simp only [hne, if_false]
    exact hfresh p (Nat.le_of_succ_le hp2)
  have hold1 : ∀ q, q < m.brk → m1.obj q = m.obj q := by
    intro q hq
    rw [hm1]
    simp [Nat.ne_of_lt hq]
  have hs0 : FillState m m.brk ind [] [] m1 :=
    { brk_eq := by rw [hm1]; rfl
      addrs := rfl
      old := hold1
      fake := hF
      chain := trivial
      fresh := hfr1 }
  by_cases hn : n = 0
  · subst hn
    have e1 := Mem.setPrev_base hF m.brk
    have hF2 : (m1.write m.brk (Obj.base { (⟨ind, ind⟩ : BaseNode) with prev := m.brk })).obj
        m.brk = some (Obj.base ⟨m.brk, ind⟩) := Mem.write_obj_same _ _ _
    have e2 := Mem.setNext_base hF2 m.brk
    rw [Mem.write_write] at e2
    have hwf : WellFormed N (m1.write m.brk (Obj.base ⟨m.brk, m.brk⟩)) ⟨m.brk, 0⟩ [] [] := by
      refine wellFormed_empty hN (Mem.write_obj_same _ _ _) ?_
      intro p hp
      have hp2 : m1.brk ≤ p := hp
      have hp3 : m.brk + 1 ≤ p := by
        rw [hm1] at hp2
        exact hp2
      rw [Mem.write_obj_ne _ _ (Nat.ne_of_gt (Nat.lt_of_succ_le hp3))]
      exact hfr1 p hp2
    refine ⟨⟨m.brk, 0⟩, m1.write m.brk (Obj.base ⟨m.brk, m.brk⟩), [], [], ?_,
      Rep.toFwdRep hwf, rfl, rfl, rfl, Nat.le_refl _, ?_⟩
    · simp only [unrolled_list.new_fill, if_true, bind, pure, Option.bind_eq_bind]
      rw [← hm1, e1]
      simp only [Option.some_bind]
      have e3 : (m1.write m.brk (Obj.base ⟨m.brk, ind⟩)).setNext m.brk m.brk =
          some (m1.write m.brk (Obj.base ⟨m.brk, m.brk⟩)) := e2
      rw [e3]
      rfl
    · intro q hq
      rw [Mem.write_obj_ne _ _ (Nat.ne_of_lt hq)]
      exact hold1 q hq
  · obtain ⟨m2, ds2, he, hs2, hlen⟩ := fillLoop_state (N := N) v (n / N) [] [] m1 hs0
    have he2 : fillLoop N m.brk ind v (n / N) 0 none m1 = some (ds2.getLast?, m2) := he
    rw [List.nil_append] at hs2
    have hlen2 : ds2.length = n / N := by simpa using hlen
    have hcfull : ∀ b ∈ List.replicate (n / N) (List.replicate N v),
        0 < b.length ∧ b.length ≤ N := by
      intro b hb
      rw [List.eq_of_mem_replicate hb]
      simp [hN]
    have hnpos : 0 < n := Nat.pos_of_ne_zero hn
    have hdm := Nat.div_add_mod n N
    have hdle : n / N ≤ n := Nat.div_le_self n N
    by_cases hr : n % N > 0
    · have hrN : n % N ≤ N := Nat.le_of_lt (Nat.mod_lt n hN)
      have hfl : (List.replicate (n / N) (List.replicate N v) ++
          [List.replicate (n % N) v]).flatten = List.replicate n v := by
        rw [List.flatten_append, flatten_replicate_replicate, List.flatten_cons,
          List.flatten_nil, List.append_nil, ← List.replicate_add]
        congr 1
        rw [Nat.mul_comm]
        exact hdm
      have hsz : (List.replicate (n / N) (List.replicate N v) ++
          [List.replicate (n % N) v]).flatten.length = n := by
        rw [hfl, List.length_replicate]
      have hcall : ∀ b ∈ List.replicate (n / N) (List.replicate N v) ++
          [List.replicate (n % N) v], 0 < b.length ∧ b.length ≤ N := by
        intro b hb
        rcases List.mem_append.1 hb with h1 | h1
        · exact hcfull b h1
        · rw [List.mem_singleton.1 h1, List.length_replicate]
          exact ⟨hr, hrN⟩
      have hlen3 : n / N + 1 ≤ n := by
        have h1 : n / N ≤ N * (n / N) := Nat.le_mul_of_pos_left _ hN
        omega
      rcases List.eq_nil_or_concat ds2 with rfl | ⟨ds0, d, rfl⟩
      · have h0 : n / N = 0 := by simpa using hlen2.symm
        rw [h0] at hs2 hfl hsz hcall
        simp only [List.replicate_zero, List.nil_append] at hs2 hfl hsz hcall
        have hs3 := fill_first v (n % N) hs2
        obtain ⟨m3, he3, hrep, hold3⟩ := @fill_close _ _ _ _ _ _ [] _ _ hN hs3 hcall
        rw [hsz] at hrep
        refine ⟨⟨m.brk, n⟩, m3, [m2.brk], _, ?_, hrep, hfl, rfl, rfl, ?_, hold3⟩
        · simp only [unrolled_list.new_fill, hn, if_false, bind, pure, Option.bind_eq_bind]
          rw [← hm1, he2]
          simp only [Option.some_bind, hr, if_true, List.getLast?_nil, Mem.allocate,
            Mem.constructNodeFill, hrN]
          have hne : m.brk ≠ m2.brk := by
            have := hs2.brk_eq
            simp only [List.length_nil, Nat.add_zero] at this
            rw [this]
            exact Nat.ne_of_lt (Nat.lt_succ_self _)
          have hF2 : ({ m2 with brk := m2.brk + 1 } : Mem α).obj m.brk =
              some (Obj.base ⟨ind, ind⟩) := hs2.fake
          have hev := fill_single_eval (A := { m2 with brk := m2.brk + 1 })
            ⟨ind, ind, fun j => if j < n % N then some v else none, n % N⟩ hne hF2
          rw [he3] at hev
          have hev2 := congrArg
            (fun x => x.bind fun a => some ((⟨m.brk, n⟩ : unrolled_list), a)) hev
          simp only [Option.bind_assoc, Option.some_bind] at hev2 ⊢
          exact hev2
        · simp only [List.length_singleton]
          omega
      · rw [List.concat_eq_append] at hs2 hlen2 he2
        obtain ⟨nd, hnd, hs3⟩ := fill_extend v (n % N) hs2
        obtain ⟨m3, he3, hrep, hold3⟩ := @fill_close _ _ _ _ _ _ (ds0 ++ [d]) _ _ hN hs3 hcall
        rw [hsz] at hrep
        refine ⟨⟨m.brk, n⟩, m3, ds0 ++ [d] ++ [m2.brk], _, ?_, hrep, hfl, rfl, rfl, ?_,
          hold3⟩
        · have hdb : m2.brk ≠ d := by
            intro hbd
            have hd : m2.obj d = none := hs2.fresh d (Nat.le_of_eq hbd)
            rw [hnd] at hd
            exact Option.noConfusion hd
          have hnd2 : (({ m2 with brk := m2.brk + 1 } : Mem α).write m2.brk
              (Obj.node ⟨ind, ind, fun j => if j < n % N then some v else none, n % N⟩)).obj d =
              some (Obj.node nd) := by
            rw [Mem.write_obj_ne _ _ hdb.symm]
            exact hnd
          simp only [unrolled_list.new_fill, hn, if_false, bind, pure, Option.bind_eq_bind]
          rw [← hm1, he2]
          simp only [Option.some_bind, hr, if_true, List.getLast?_concat, Mem.allocate,
            Mem.constructNodeFill, hrN, Mem.setNext_node hnd2]
          rw [Mem.write_comm _ _ _ hdb, he3]
          rfl
        · rw [List.length_append, hlen2, List.length_singleton]
          exact hlen3
    · have hr0 : n % N = 0 := Nat.eq_zero_of_not_pos hr
      have hpos : 0 < n / N := by
        rw [hr0, Nat.add_zero] at hdm
        rcases Nat.eq_zero_or_pos (n / N) with h0 | h0
        · rw [h0, Nat.mul_zero] at hdm
          exact absurd hdm.symm hn
        · exact h0
      obtain ⟨ds0, d, rfl⟩ : ∃ ds0 d, ds2 = ds0 ++ [d] := by
        rcases List.eq_nil_or_concat ds2 with h0 | ⟨ds0, d, h0⟩
        · rw [h0] at hlen2
          simp only [List.length_nil] at hlen2
          omega
        · exact ⟨ds0, d, by simpa using h0⟩
      obtain ⟨m3, he3, hrep, hold3⟩ := fill_close hN hs2 hcfull
      have hfl : (List.replicate (n / N) (List.replicate N v)).flatten = List.replicate n v := by
        rw [flatten_replicate_replicate]
        congr 1
        rw [hr0, Nat.add_zero] at hdm
        rw [Nat.mul_comm]
        exact hdm
      have hsz : (List.replicate (n / N) (List.replicate N v)).flatten.length = n := by
        rw [hfl, List.length_replicate]
      rw [hsz] at hrep
      refine ⟨⟨m.brk, n⟩, m3, ds0 ++ [d], _, ?_, hrep, hfl, rfl, rfl, ?_, hold3⟩
      · simp only [unrolled_list.new_fill, hn, if_false, bind, pure, Option.bind_eq_bind]
        rw [← hm1, he2]
        simp only [Option.some_bind, hr, if_false, List.getLast?_concat]
        rw [he3]
        rfl
      · rw [hlen2]
        exact hdle

/-- C25: for every count `n ≥ 0`, value `v` and block capacity `N ≥ 1`, the constructor
`unrolled_list(n, v)` returns a container with `size() == n` whose forward traversal
from `begin()` reaches `end()` after exactly `n` elements, all equal to `v`: with more
than `n` steps the traversal yields `n` copies of `v`, and no traversal yields anything
else. -/
theorem fill_constructor_spec (N n : Nat) (v : α) (ind : Ptr) (m : Mem α) (hN : 0 < N)
    (hfresh : ∀ p, m.brk ≤ p → m.obj p = none) :
    ∃ c m2, unrolled_list.new_fill N n v ind m = some (c, m2) ∧ c.size = n ∧
      LogicalSeq N c m2 (List.replicate n v) ∧
      ∀ fuel s, c.toList N m2 fuel = some s → s.length = n ∧ ∀ x ∈ s, x = v := by
  obtain ⟨c, m2, as, bs, he, hrep, hfl, hsz, -, -, -⟩ := new_fill_fwdRep hN n v ind m hfresh
  have hseq : LogicalSeq N c m2 (List.replicate n v) := by
    rw [← hfl]
    exact hrep.forward_seq
  refine ⟨c, m2, he, hsz, hseq, ?_⟩
  intro fuel s hs
  have h1 := hseq (n + 1) (by simp)
  have hs2 : s = List.replicate n v := toList_unique hs h1
  rw [hs2]
  exact ⟨List.length_replicate _ _, fun x hx => List.eq_of_mem_replicate hx⟩

/-- Witness for C25: `unrolled_list<int, 3> ul(7, 3)` in the empty memory. -/
theorem fill_constructor_spec_witness :
    (0 < 3 ∧ ∀ p, emptyMem.brk ≤ p → emptyMem.obj p = none) ∧
    ∃ c m2, unrolled_list.new_fill 3 7 3 nullptr emptyMem = some (c, m2) ∧ c.size = 7 ∧
      LogicalSeq 3 c m2 (List.replicate 7 3) ∧
      ∀ fuel s, c.toList 3 m2 fuel = some s → s.length = 7 ∧ ∀ x ∈ s, x = 3 :=
  ⟨⟨by decide, fun _ _ => rfl⟩,
    fill_constructor_spec 3 7 3 nullptr emptyMem (by decide) (fun _ _ => rfl)⟩

theorem FwdRep.live_lt_brk {N : Nat} {m : Mem α} {c : unrolled_list} {as : List Ptr}
    {bs : List (List α)} (h : FwdRep N m c as bs) {p : Ptr} {o : Obj α}
    (hp : m.obj p = some o) : p < m.brk := by
  by_contra hge
  have := h.fresh p (Nat.le_of_not_lt hge)
  rw [hp] at this
  exact Option.noConfusion this

/-- After `clear()`, whatever is pushed to the container leaves the freed blocks freed:
the calls write to the sentinel and to fresh addresses only. -/
theorem pushed_after_clear {m1 : Mem α} {F : Ptr} {as : List Ptr}
    (hfree : ∀ a ∈ as, m1.obj a = none) (has : ∀ a ∈ as, a ≠ F ∧ a < m1.brk)
    {m2 : Mem α} (hW : Within (fun q => q = F ∨ m1.brk ≤ q) m1 m2) :
    ∀ a ∈ as, m2.obj a = none := by
  intro a ha
  have hnot : ¬ (a = F ∨ m1.brk ≤ a) := by
    rintro (h1 | h1)
    · exact (has a ha).1 h1
    · exact Nat.lt_irrefl _ (Nat.lt_of_lt_of_le (has a ha).2 h1)
  rw [hW.frame a hnot]
  exact hfree a ha

theorem within_after_clear {m1 : Mem α} {F : Ptr}
    (hF : m1.obj F = some (Obj.base ⟨F, F⟩)) (hfresh : ∀ p, m1.brk ≤ p → m1.obj p = none) :
    Within (fun q => q = F ∨ m1.brk ≤ q) m1 m1 := by
  refine Within.refl (fun q hq => Or.inr hq) ?_ hfresh
  intro p x hp hx
  rcases hp with hp | hp
  · left
    rw [hp, Mem.prev_base hF, Mem.next_base hF] at hx
    rcases hx with hx | hx
    · exact (Option.some.inj hx).symm
    · exact (Option.some.inj hx).symm
  · have hnone := hfresh p hp
    simp [Mem.prev, Mem.next, hnone] at hx

/-- `assign` on a container with a closed forward chain: the old blocks are freed and the
container is rebuilt by `push_back` from the values given. -/
theorem assign_fwdRep {N : Nat} {m : Mem α} {c : unrolled_list} {as : List Ptr}
    {bs : List (List α)} (xs : List α) (n : Nat) (v : α) (fuel : Nat)
    (h : FwdRep N m c as bs) (hf : as.length < fuel) :
    (∃ c2 m2 as2 bs2, c.assign N xs m fuel = some (c2, m2) ∧ WellFormed N m2 c2 as2 bs2 ∧
      LogicalSeq N c2 m2 xs ∧ c2.size = xs.length ∧ ∀ a ∈ as, m2.obj a = none) ∧
    (∃ c2 m2 as2 bs2, c.assign_n N n v m fuel = some (c2, m2) ∧ WellFormed N m2 c2 as2 bs2 ∧
      LogicalSeq N c2 m2 (List.replicate n v) ∧ c2.size = n ∧ ∀ a ∈ as, m2.obj a = none) := by
  obtain ⟨m1, he, hwf, hobj, hfree, hframe, hbrk⟩ := clear_fwdRep h fuel hf
  have has : ∀ a ∈ as, a ≠ c.fake_node_ ∧ a < m1.brk := by
    intro a ha
    refine ⟨fun he => h.fake_not_block (he ▸ ha), ?_⟩
    obtain ⟨o, ho⟩ := h.chain.live_of_mem a ha
    rw [hbrk]
    exact h.live_lt_brk ho
  have hW := within_after_clear hobj (Rep.fresh hwf)
  constructor
  · obtain ⟨c2, m2, as2, bs2, he2, hr2, hflat, -⟩ := pushBackAll_wf xs _ _ [] [] hwf
    have hfl : bs2.flatten = xs := by simpa using hflat
    refine ⟨c2, m2, as2, bs2, ?_, hr2, ?_, ?_, ?_⟩
    · simp only [unrolled_list.assign, he, Option.some_bind]
      exact he2
    · rw [← hfl]
      exact Rep.logicalSeq hr2
    · show c2.size_ = _
      rw [Rep.size_eq hr2, hfl]
    · have hW2 := (pushBackAll_within xs ⟨c.fake_node_, 0⟩ m1 hW (Or.inl rfl) _ he2).1
      exact pushed_after_clear hfree has hW2
  · obtain ⟨c2, m2, as2, bs2, he2, hr2, hflat, -⟩ := pushBackN_wf v n _ _ [] [] hwf
    have hfl : bs2.flatten = List.replicate n v := by simpa using hflat
    refine ⟨c2, m2, as2, bs2, ?_, hr2, ?_, ?_, ?_⟩
    · simp only [unrolled_list.assign_n, he, Option.some_bind]
      exact he2
    · rw [← hfl]
      exact Rep.logicalSeq hr2
    · show c2.size_ = _
      rw [Rep.size_eq hr2, hfl, List.length_replicate]
    · have hW2 := (pushBackN_within n ⟨c.fake_node_, 0⟩ m1 hW (Or.inl rfl) _ he2).1
      exact pushed_after_clear hfree has hW2

/-- The scenario of the tests for every capacity: `unrolled_list<int, N> ul(17, -1)`
built in the empty memory, then `ul.assign({1, 2, 3, 4})`: the size is 4 and the
contents are `1, 2, 3, 4`. -/
theorem assign_after_fill (N : Nat) (hN : 0 < N) (ind : Ptr) :
    ∃ c m c2 m2, unrolled_list.new_fill N 17 (-1 : Int) ind emptyIntMem = some (c, m) ∧
      c.toList N m 18 = some (List.replicate 17 (-1)) ∧
      c.assign N [1, 2, 3, 4] m 18 = some (c2, m2) ∧
      LogicalSeq N c2 m2 [1, 2, 3, 4] ∧ c2.size = 4 := by
  obtain ⟨c, m, as, bs, he, hrep, hfl, -, -, hlen, -⟩ :=
    new_fill_fwdRep hN 17 (-1 : Int) ind emptyIntMem (fun _ _ => rfl)
  obtain ⟨⟨c2, m2, as2, bs2, he2, -, hseq, hsz, -⟩, -⟩ :=
    assign_fwdRep [1, 2, 3, 4] 0 0 18 hrep (Nat.lt_succ_of_le hlen)
  refine ⟨c, m, c2, m2, he, ?_, he2, hseq, hsz⟩
  have := hrep.forward_seq 18 (by rw [hfl]; simp)
  rw [hfl] at this
  exact this

/-- C23: for every container with a closed forward chain (every well-formed container,
and every container the count-and-value constructor builds), whatever its contents and
block capacity, `assign` of the values `xs` (iterator range or initializer list) and
`assign(n, v)` return, given more rounds than the container has blocks; afterwards the
container is well formed, its logical sequence is `xs` (resp. `n` copies of `v`),
`size()` is `|xs|` (resp. `n`), and every old block is freed. -/
theorem assign_spec (N : Nat) (m : Mem α) (c : unrolled_list) (as : List Ptr)
    (bs : List (List α)) (xs : List α) (n : Nat) (v : α) (fuel : Nat)
    (h : FwdRep N m c as bs) (hf : as.length < fuel) :
    (∃ c2 m2 as2 bs2, c.assign N xs m fuel = some (c2, m2) ∧ WellFormed N m2 c2 as2 bs2 ∧
      LogicalSeq N c2 m2 xs ∧ c2.size = xs.length ∧ ∀ a ∈ as, m2.obj a = none) ∧
    (∃ c2 m2 as2 bs2, c.assign_n N n v m fuel = some (c2, m2) ∧ WellFormed N m2 c2 as2 bs2 ∧
      LogicalSeq N c2 m2 (List.replicate n v) ∧ c2.size = n ∧ ∀ a ∈ as, m2.obj a = none) :=
  assign_fwdRep xs n v fuel h hf

/-- Witness for C23: `unrolled_list<int, 3> ul(17, -1)` built in the empty memory, then
`ul.assign({1, 2, 3, 4})`, and `ul.assign(5, 1)`. -/
theorem assign_spec_witness :
    ∃ c m as bs, unrolled_list.new_fill 3 17 (-1 : Int) nullptr emptyIntMem = some (c, m) ∧
      (FwdRep 3 m c as bs ∧ as.length < 18) ∧
      (∃ c2 m2 as2 bs2, c.assign 3 [1, 2, 3, 4] m 18 = some (c2, m2) ∧
        WellFormed 3 m2 c2 as2 bs2 ∧ LogicalSeq 3 c2 m2 [1, 2, 3, 4] ∧
        c2.size = ([1, 2, 3, 4] : List Int).length ∧ ∀ a ∈ as, m2.obj a = none) ∧
      (∃ c2 m2 as2 bs2, c.assign_n 3 5 1 m 18 = some (c2, m2) ∧
        WellFormed 3 m2 c2 as2 bs2 ∧ LogicalSeq 3 c2 m2 (List.replicate 5 1) ∧
        c2.size = 5 ∧ ∀ a ∈ as, m2.obj a = none) := by
  obtain ⟨c, m, as, bs, he, hrep, -, -, -, hlen, -⟩ :=
    new_fill_fwdRep (N := 3) (by decide) 17 (-1 : Int) nullptr emptyIntMem (fun _ _ => rfl)
  exact ⟨c, m, as, bs, he, ⟨hrep, Nat.lt_succ_of_le hlen⟩,
    assign_spec 3 m c as bs [1, 2, 3, 4] 5 1 18 hrep (Nat.lt_succ_of_le hlen)⟩

/-! ## The count-and-allocator constructor -/

theorem new_default_one_block (ind : Ptr) :
    unrolled_list.new_default 2 2 0 ind emptyMem = some (⟨1, 2⟩, defaultMem ind) := by
  simp [unrolled_list.new_default, defaultLoop, constructDefaults, emptyMem, Mem.allocate,
    Mem.constructNode, Mem.construct, Mem.setSlot, Mem.setCount, Mem.node,
    Mem.setNext, Mem.setPrev, Mem.write, bind, pure, defaultMem]
  funext q
  by_cases h1 : q = 1
  · simp [h1]
  · by_cases h2 : q = 2
    · simp [h2]
      funext j
      by_cases hj0 : j = 0
      · simp [hj0]
      · by_cases hj1 : j = 1
        · simp [hj1]
        · simp [hj0, hj1]
    · simp [h1, h2]

theorem defaultMem_forward (ind : Ptr) :
    ∀ fuel, forwardFrom 2 ⟨1, 2⟩ (defaultMem ind) fuel ⟨2, 0⟩ = none := by
  intro fuel
  rcases fuel with _ | _ | _ | k
  · rfl
  · simp [forwardFrom, unrolled_list.cend, Iterator.deref, Iterator.inc, Mem.slot, Mem.node,
      defaultMem]
  · simp [forwardFrom, unrolled_list.cend, Iterator.deref, Iterator.inc, Mem.slot, Mem.node,
      defaultMem]
  · simp [forwardFrom, unrolled_list.cend, Iterator.deref, Iterator.inc, Mem.slot, Mem.node,
      defaultMem, nullptr]

/-- C27 (the code departs from the claim): `unrolled_list<int, 2> ul(2, allocator)`, a
count that is a multiple of the capacity, built in the empty memory, whatever value
`ind` the uninitialised links of the sentinel hold.  `size()` is 2 and the one full
block holds two default-constructed elements, but the block's `next` link is left null
and the sentinel's `prev` is never assigned: a forward traversal from `begin()` does
not reach `end()` (after the second element it steps to the null address). -/
theorem default_constructor_chain_not_closed (ind : Ptr) :
    ((unrolled_list.new_default 2 2 0 ind emptyMem).map fun r => r.1.size) = some 2 ∧
    ((unrolled_list.new_default 2 2 0 ind emptyMem).bind fun r => r.1.cbegin r.2) =
      some ⟨2, 0⟩ ∧
    ((unrolled_list.new_default 2 2 0 ind emptyMem).bind fun r => r.2.next 2) =
      some nullptr ∧
    ((unrolled_list.new_default 2 2 0 ind emptyMem).bind
      fun r => r.2.prev r.1.fake_node_) = some ind ∧
    ((unrolled_list.new_default 2 2 0 ind emptyMem).bind
      fun r => (advance r.2 2 ⟨2, 0⟩).map fun it => (it, r.1.cend)) =
      some (⟨nullptr, 0⟩, ⟨1, 0⟩) ∧
    ∀ fuel, ((unrolled_list.new_default 2 2 0 ind emptyMem).bind
      fun r => r.1.toList 2 r.2 fuel) = none := by
  rw [new_default_one_block]
  refine ⟨rfl, rfl, rfl, rfl, rfl, ?_⟩
  intro fuel
  have hb : unrolled_list.cbegin ⟨1, 2⟩ (defaultMem ind) = some ⟨2, 0⟩ := rfl
  simp only [Option.some_bind, unrolled_list.toList, hb]
  exact defaultMem_forward ind fuel

/-- The tested counts, which are not multiples of the capacity, traverse forwards:
`unrolled_list<int, 3> ul(7, allocator)` yields seven default-constructed elements. -/
theorem default_constructor_tested :
    ((unrolled_list.new_default 3 7 0 nullptr emptyMem).bind fun r => r.1.toList 3 r.2 8) =
      some [0, 0, 0, 0, 0, 0, 0] ∧
    ((unrolled_list.new_default 10 5 0 nullptr emptyMem).bind fun r => r.1.toList 10 r.2 6) =
      some [0, 0, 0, 0, 0] := by
  constructor <;> decide

/-! ## Positions in other blocks -/

theorem Chain.isBlock_of_zip {m : Mem α} :
    ∀ {pv : Option Ptr} {as : List Ptr} {bs : List (List α)} {e : Ptr},
      Chain m pv as bs e → ∀ (B : Ptr) (bq : List α), (B, bq) ∈ as.zip bs →
      ∃ pv2 nx, IsBlock m B pv2 nx bq
  | _, [], [], _, _ => by simp
  | _, [], _ :: _, _, h => by simp [Chain] at h
  | _, _ :: _, [], _, h => by simp [Chain] at h
  | pv, a :: as, b :: bs, e, h => by
    simp only [Chain] at h
    intro B bq hB
    rw [List.zip_cons_cons, List.mem_cons] at hB
    rcases hB with hB | hB
    · obtain ⟨rfl, rfl⟩ := Prod.mk.inj hB
      exact ⟨pv, _, h.1⟩
    · exact Chain.isBlock_of_zip h.2 B bq hB

/-- In a represented container the position `(B, j)` of a block `B` holding `bq`
designates the element `bq[j]`. -/
theorem Rep.deref_block {N : Nat} {m : Mem α} {c : unrolled_list} {pv : Option Ptr}
    {as : List Ptr} {bs : List (List α)} (h : Rep N m c pv as bs) {B : Ptr} {bq : List α}
    (hB : (B, bq) ∈ as.zip bs) {j : Nat} (hj : j < bq.length) :
    Iterator.deref N m ⟨B, j⟩ = some bq[j] := by
  obtain ⟨pv2, nx, n, hn, -, -, -, hst⟩ := h.chain.isBlock_of_zip B bq hB
  have hmem : bq ∈ bs := (List.of_mem_zip hB).2
  have hN := (h.counts bq hmem).2
  simp only [Iterator.deref, Mem.slot_node hn (Nat.lt_of_lt_of_le hj hN), Option.some_bind,
    hst j hj, List.getElem?_eq_getElem hj, id]

theorem mem_zip_left {as1 as2 : List Ptr} {bs1 bs2 : List (List α)} {x : Ptr × List α}
    (hl : as1.length = bs1.length) (h : x ∈ as1.zip bs1) :
    x ∈ (as1 ++ as2).zip (bs1 ++ bs2) := by
  rw [List.zip_append hl]
  exact List.mem_append_left _ h

theorem mem_zip_right {as1 as2 : List Ptr} {bs1 bs2 : List (List α)} {x : Ptr × List α}
    (hl : as1.length = bs1.length) (h : x ∈ as2.zip bs2) :
    x ∈ (as1 ++ as2).zip (bs1 ++ bs2) := by
  rw [List.zip_append hl]
  exact List.mem_append_right _ h

theorem mem_zip_middle {as1 as2 : List Ptr} {bs1 bs2 : List (List α)} {a : Ptr} {b : List α}
    {x : Ptr × List α} (hl : as1.length = bs1.length)
    (h : x ∈ (as1 ++ a :: as2).zip (bs1 ++ b :: bs2)) :
    x ∈ as1.zip bs1 ∨ x = (a, b) ∨ x ∈ as2.zip bs2 := by
  rw [List.zip_append hl, List.mem_append, List.zip_cons_cons, List.mem_cons] at h
  exact h

theorem mem_zip_around {as1 as2 : List Ptr} {bs1 bs2 : List (List α)} (a : Ptr) (b : List α)
    {x : Ptr × List α} (hl : as1.length = bs1.length)
    (h : x ∈ as1.zip bs1 ∨ x ∈ as2.zip bs2) :
    x ∈ (as1 ++ a :: as2).zip (bs1 ++ b :: bs2) := by
  rw [List.zip_append hl, List.mem_append, List.zip_cons_cons, List.mem_cons]
  rcases h with h | h
  · exact Or.inl h
  · exact Or.inr (Or.inr h)

/-- An insert at the valid non-end position of logical index `k`, in block `A`, leaves
every position of another block `B` designating the element it designated, unless `A`
is full and `B` is the block after `A` with spare capacity (the block the insert spills
into); capacities up to `2 ^ 31`. -/
theorem insert_other_block {N : Nat} {m : Mem α} {c : unrolled_list} {pv : Option Ptr}
    {as : List Ptr} {bs : List (List α)} (v : α) {k : Nat} (h : Rep N m c pv as bs)
    (hk : k < bs.flatten.length) (hcap : N ≤ 2 ^ 31) {B : Ptr} {bq : List α}
    (hB : (B, bq) ∈ as.zip bs) {j : Nat} (hj : j < bq.length)
    (hAB : B ≠ (posAt c.fake_node_ as bs k).ptr_)
    (hsp : m.count (posAt c.fake_node_ as bs k).ptr_ = some N →
      m.next (posAt c.fake_node_ as bs k).ptr_ = some B → bq.length = N) :
    ∃ it c2 m2, c.insert N (posAt c.fake_node_ as bs k) v m = some (it, c2, m2) ∧
      Iterator.deref N m2 ⟨B, j⟩ = some bq[j] := by
  have h0 := h
  obtain ⟨as1, a, as2, bs1, b, bs2, j0, rfl, rfl, hl, hj0, rfl, hpos⟩ := h.pos_cases hk
  rw [hpos] at hAB hsp ⊢
  simp only at hAB hsp
  obtain ⟨-, ⟨n, hn, -, hnext, hcnt, -⟩, -⟩ := (chain_middle hl).1 h.chain
  obtain ⟨m2, as3, bs3, he, hr, -, -, hspare, hlast, hbetween, hspill⟩ :=
    insert_wf_split v h hl hj0 hcap
  have hcases := mem_zip_middle hl hB
  have hside : (B, bq) ∈ as1.zip bs1 ∨ (B, bq) ∈ as2.zip bs2 := by
    rcases hcases with h1 | h1 | h1
    · exact Or.inl h1
    · exact absurd (congrArg Prod.fst h1) hAB
    · exact Or.inr h1
  have hl2 : as2.length = bs2.length := by
    have := h.length_eq
    simp only [List.length_append, List.length_cons] at this
    omega
  refine ⟨_, _, m2, he, ?_⟩
  have hbN := (h.counts b (by simp)).2
  by_cases hlt : b.length < N
  · obtain ⟨rfl, rfl⟩ := hspare hlt
    exact hr.deref_block (mem_zip_around a _ hl hside) hj
  · have hfull : b.length = N := Nat.le_antisymm hbN (Nat.le_of_not_lt hlt)
    cases as2 with
    | nil =>
      obtain ⟨rfl, rfl⟩ := hlast hfull rfl
      have hleft : (B, bq) ∈ as1.zip bs1 := by
        rcases hside with h1 | h1
        · exact h1
        · simp at h1
      exact hr.deref_block (mem_zip_left hl hleft) hj
    | cons a2 r =>
      obtain ⟨b2, s, rfl⟩ : ∃ b2 s, bs2 = b2 :: s := by
        cases bs2 with
        | nil => simp at hl2
        | cons b2 s => exact ⟨b2, s, rfl⟩
      have hb2N := (h.counts b2 (by simp)).2
      by_cases hlt2 : b2.length < N
      · obtain ⟨rfl, rfl⟩ := hspill hfull a2 r b2 s rfl rfl hlt2
        have hside2 : (B, bq) ∈ as1.zip bs1 ∨ (B, bq) ∈ r.zip s := by
          rcases hside with h1 | h1
          · exact Or.inl h1
          · rw [List.zip_cons_cons, List.mem_cons] at h1
            rcases h1 with h1 | h1
            · obtain ⟨rfl, rfl⟩ := Prod.mk.inj h1
              have hc : m.count a = some N := by rw [Mem.count_node hn, hcnt, hfull]
              have hnx : m.next a = some B := by
                rw [Mem.next_node hn, hnext]
                rfl
              have := hsp hc hnx
              omega
            · exact Or.inr h1
        have hl3 : (as1 ++ [a]).length = (bs1 ++ [insAt j0 v b.dropLast]).length := by
          simp [hl]
        have hmem : (B, bq) ∈ ((as1 ++ [a]) ++ a2 :: r).zip
            ((bs1 ++ [insAt j0 v b.dropLast]) ++ (b.drop (b.length - 1) ++ b2) :: s) := by
          refine mem_zip_around a2 _ hl3 ?_
          rcases hside2 with h1 | h1
          · exact Or.inl (mem_zip_left hl h1)
          · exact Or.inr h1
        simp only [List.append_assoc, List.singleton_append] at hmem
        exact hr.deref_block hmem hj
      · have hfull2 : b2.length = N := Nat.le_antisymm hb2N (Nat.le_of_not_lt hlt2)
        obtain ⟨rfl, rfl⟩ := hbetween hfull a2 r b2 s rfl rfl hfull2
        have hmem : (B, bq) ∈ (as1 ++ a :: m.brk :: a2 :: r).zip
            (bs1 ++ insAt j0 v b.dropLast :: b.drop (b.length - 1) :: b2 :: s) := by
          refine mem_zip_around a _ hl ?_
          rcases hside with h1 | h1
          · exact Or.inl h1
          · right
            rw [List.zip_cons_cons]
            exact List.mem_cons_of_mem _ h1
        exact hr.deref_block hmem hj

/-- An erase at the valid non-end position of logical index `k`, in block `A`, leaves
every position of another block `B` designating the element it designated. -/
theorem erase_other_block {N : Nat} {m : Mem α} {c : unrolled_list}
    {as : List Ptr} {bs : List (List α)} {k : Nat} (h : WellFormed N m c as bs)
    (hk : k < bs.flatten.length) {B : Ptr} {bq : List α}
    (hB : (B, bq) ∈ as.zip bs) {j : Nat} (hj : j < bq.length)
    (hAB : B ≠ (posAt c.fake_node_ as bs k).ptr_) :
    ∃ it c2 m2, c.erase N (posAt c.fake_node_ as bs k) m = some (it, c2, m2) ∧
      Iterator.deref N m2 ⟨B, j⟩ = some bq[j] ∧ m2.obj B ≠ none := by
  obtain ⟨as1, a, as2, bs1, b, bs2, j0, rfl, rfl, hl, hj0, rfl, hpos⟩ := Rep.pos_cases h hk
  rw [hpos] at hAB ⊢
  simp only at hAB
  obtain ⟨it, m2, he, hshrink, hgone⟩ := erase_wf_split h hl hj0
  have hcases := mem_zip_middle hl hB
  have hside : (B, bq) ∈ as1.zip bs1 ∨ (B, bq) ∈ as2.zip bs2 := by
    rcases hcases with h1 | h1 | h1
    · exact Or.inl h1
    · exact absurd (congrArg Prod.fst h1) hAB
    · exact Or.inr h1
  have hb1 := (Rep.counts h b (by simp)).1
  have hlive : ∀ {m3 : Mem α}, Iterator.deref N m3 ⟨B, j⟩ = some bq[j] → m3.obj B ≠ none := by
    intro m3 hd hnone
    simp [Iterator.deref, Mem.slot, Mem.node, hnone] at hd
  refine ⟨it, _, m2, he, ?_⟩
  by_cases h1 : 1 < b.length
  · obtain ⟨hwf, -⟩ := hshrink h1
    have hd := Rep.deref_block hwf (mem_zip_around a _ hl hside) hj
    exact ⟨hd, hlive hd⟩
  · have h2 : b.length = 1 := by omega
    obtain ⟨hwf, -⟩ := hgone h2
    have hmem : (B, bq) ∈ (as1 ++ as2).zip (bs1 ++ bs2) := by
      rcases hside with h3 | h3
      · exact mem_zip_left hl h3
      · exact mem_zip_right hl h3
    have hd := Rep.deref_block hwf hmem hj
    exact ⟨hd, hlive hd⟩

/-- C29 (counterexample): on the well-formed container `[1, 2] [3]` of capacity 2 the
position `q = (second block, 0)` designates 3.  `insert(begin(), 9)` inserts in the
first block, which is full; the second block has spare capacity, so the insert moves the
2 into its slot 0: the second block still exists, the sequence is `9, 1, 2, 3` as it
should be, but `q` now designates 2. -/
theorem insert_spill_changes_next_block :
    WellFormed 2 exMem exList [2, 3] [[1, 2], [3]] ∧
    posAt exList.fake_node_ [2, 3] [[1, 2], [3]] 0 = ⟨2, 0⟩ ∧
    posAt exList.fake_node_ [2, 3] [[1, 2], [3]] 2 = ⟨3, 0⟩ ∧
    Iterator.deref 2 exMem ⟨3, 0⟩ = some 3 ∧
    ((exList.insert 2 ⟨2, 0⟩ 9 exMem).bind fun r => Iterator.deref 2 r.2.2 ⟨3, 0⟩) = some 2 ∧
    ((exList.insert 2 ⟨2, 0⟩ 9 exMem).bind fun r => r.2.2.count 3) = some 2 ∧
    ((exList.insert 2 ⟨2, 0⟩ 9 exMem).bind fun r => r.2.1.toList 2 r.2.2 5) =
      some [9, 1, 2, 3] :=
  ⟨exMem_wellFormed, by decide, by decide, by decide, by decide, by decide, by decide⟩

/-- C29 (amended): in a well-formed container let `p` be the valid non-end position of
logical index `k`, in block `A`, and `(B, j)` a valid position of another block `B`
(holding `bq`), which designates `bq[j]`.  After `erase(p)` the block `B` still exists
and `(B, j)` designates `bq[j]`, for every block capacity and every element type (the
shift of `erase` assigns to live elements only).  After `insert(p, v)`, for block
capacities up to `2 ^ 31` and a trivially copyable element type (the shifts of `insert`
are those of `Mem.moveSlot`), `(B, j)` designates `bq[j]`, unless `A` is full and `B` is
the block after `A` with spare capacity. -/
theorem other_block_positions_kept (N : Nat) (m : Mem α) (c : unrolled_list) (as : List Ptr)
    (bs : List (List α)) (k : Nat) (v : α) (B : Ptr) (bq : List α) (j : Nat)
    (h : WellFormed N m c as bs) (hk : k < bs.flatten.length)
    (hB : (B, bq) ∈ as.zip bs) (hj : j < bq.length)
    (hAB : B ≠ (posAt c.fake_node_ as bs k).ptr_) :
    Iterator.deref N m ⟨B, j⟩ = some bq[j] ∧
    (∃ it c2 m2, c.erase N (posAt c.fake_node_ as bs k) m = some (it, c2, m2) ∧
      Iterator.deref N m2 ⟨B, j⟩ = some bq[j] ∧ m2.obj B ≠ none) ∧
    (N ≤ 2 ^ 31 →
      (m.count (posAt c.fake_node_ as bs k).ptr_ = some N →
        m.next (posAt c.fake_node_ as bs k).ptr_ = some B → bq.length = N) →
      ∃ it c2 m2, c.insert N (posAt c.fake_node_ as bs k) v m = some (it, c2, m2) ∧
        Iterator.deref N m2 ⟨B, j⟩ = some bq[j]) :=
  ⟨Rep.deref_block h hB hj, erase_other_block h hk hB hj hAB,
    fun hcap hsp => insert_other_block v h hk hcap hB hj hAB hsp⟩

/-- Witness for C29: the example container `[1, 2] [3]`, the operation at the position
of the element 3 (second block), the position `(first block, 1)` of the element 2: after
the erase and after the insert of 9 that position designates 2. -/
theorem other_block_positions_kept_witness :
    (WellFormed 2 exMem exList [2, 3] [[1, 2], [3]] ∧
      2 < ([[1, 2], [3]] : List (List Nat)).flatten.length ∧
      ((2, [1, 2]) : Ptr × List Nat) ∈ ([2, 3] : List Ptr).zip [[1, 2], [3]] ∧
      1 < ([1, 2] : List Nat).length ∧
      (2 : Ptr) ≠ (posAt exList.fake_node_ [2, 3] [[1, 2], [3]] 2).ptr_ ∧
      2 ≤ 2 ^ 31 ∧
      (exMem.count (posAt exList.fake_node_ [2, 3] [[1, 2], [3]] 2).ptr_ = some 2 →
        exMem.next (posAt exList.fake_node_ [2, 3] [[1, 2], [3]] 2).ptr_ = some 2 →
        ([1, 2] : List Nat).length = 2)) ∧
    (Iterator.deref 2 exMem ⟨2, 1⟩ = some 2 ∧
    (∃ it c2 m2, exList.erase 2 (posAt exList.fake_node_ [2, 3] [[1, 2], [3]] 2) exMem =
        some (it, c2, m2) ∧
      Iterator.deref 2 m2 ⟨2, 1⟩ = some 2 ∧ m2.obj 2 ≠ none) ∧
    (∃ it c2 m2, exList.insert 2 (posAt exList.fake_node_ [2, 3] [[1, 2], [3]] 2) 9 exMem =
        some (it, c2, m2) ∧
      Iterator.deref 2 m2 ⟨2, 1⟩ = some 2)) :=
  have t := other_block_positions_kept 2 exMem exList [2, 3] [[1, 2], [3]] 2 9 2 [1, 2] 1
    exMem_wellFormed (by decide) (by decide) (by decide) (by decide)
  ⟨⟨exMem_wellFormed, by decide, by decide, by decide, by decide, by decide, fun _ _ => rfl⟩,
    t.1, t.2.1, t.2.2 (by decide) (fun _ _ => rfl)⟩

/-! ## Failure during push_back and push_front -/

/-- The example container `[1, 2]` also is a well-formed container of capacity 3, whose
only block has spare capacity. -/
theorem exFullMem_wellFormed_three : WellFormed 3 exFullMem exFullList [2] [[1, 2]] :=
  { cap_pos := by decide
    sentinel := exFullMem_wellFormed.sentinel
    chain := exFullMem_wellFormed.chain
    counts := by
      intro b hb
      simp only [List.mem_singleton] at hb
      subst hb
      simp
    nodup := exFullMem_wellFormed.nodup
    fake_not_block := exFullMem_wellFormed.fake_not_block
    size_eq := exFullMem_wellFormed.size_eq
    fresh := exFullMem_wellFormed.fresh }

/-- A block that is allocated, constructed empty and deallocated again leaves every
object as it was. -/
theorem newNode_deallocate (m : Mem α) (left right : Ptr) (hfresh : m.obj m.brk = none) :
    ∃ m2, (m.newNode left right).2.deallocate (m.newNode left right).1 = some m2 ∧
      m2.brk = m.brk + 1 ∧ ∀ q, m2.obj q = m.obj q := by
  have e : (m.newNode left right).2.deallocate (m.newNode left right).1 =
      some { obj := fun q => if q = m.brk then none else (m.newNode left right).2.obj q,
             brk := m.brk + 1 } := by
    simp [Mem.newNode, Mem.deallocate]
  refine ⟨_, e, rfl, ?_⟩
  intro q
  by_cases hq : q = m.brk
  · simp only [hq, if_true]
    exact hfresh.symm
  · simp [Mem.newNode, hq]

/-- The objects of a represented container after a failed step that changed no object. -/
theorem Rep.of_same_objects {N : Nat} {m m2 : Mem α} {c : unrolled_list} {pv : Option Ptr}
    {as : List Ptr} {bs : List (List α)} (h : Rep N m c pv as bs)
    (hobj : ∀ q, m2.obj q = m.obj q) (hbrk : m.brk ≤ m2.brk) : Rep N m2 c pv as bs := by
  refine Rep.of_agree h (hobj _) (fun a _ => hobj a) ?_
  intro p hp
  rw [hobj p]
  exact h.fresh p (Nat.le_trans hbrk hp)

/-- What `push_back` reads to choose its branch, in a represented non-empty container. -/
theorem Rep.last_count {N : Nat} {m : Mem α} {c : unrolled_list} {pv : Option Ptr}
    {as : List Ptr} {bs : List (List α)} {a : Ptr} {b : List α}
    (h : Rep N m c pv (as ++ [a]) (bs ++ [b])) :
    c.empty = false ∧ m.prev c.fake_node_ = some a ∧ m.count a = some b.length := by
  obtain ⟨f, hf, -, hprev⟩ := h.sentinel
  have hl : as.length = bs.length := by
    have := h.length_eq
    simpa using this
  obtain ⟨-, n, hn, -, -, hcnt, -⟩ := (chain_concat hl).1 h.chain
  have hb := (h.counts b (by simp)).1
  refine ⟨?_, ?_, ?_⟩
  · have hs : c.size_ ≠ 0 := by
      rw [h.size_eq]
      simp only [List.flatten_append, List.flatten_cons, List.flatten_nil, List.append_nil,
        List.length_append]
      omega
    simp [unrolled_list.empty, hs]
  · rw [Mem.prev_base hf, hprev, getLastD_concat]
  · rw [Mem.count_node hn, hcnt]

/-- A failing `push_back` on a represented container, whichever step fails and whichever
branch is taken: when the failure propagates, the container object and every object of
the memory are what they were, so the logical sequence, `size()` and the links are
unchanged. -/
theorem push_back_faulty_unchanged {N : Nat} {m : Mem α} {c : unrolled_list}
    {pv : Option Ptr} {as : List Ptr} {bs : List (List α)} (v : α) (fault : Fault)
    (h : Rep N m c pv as bs) :
    ∃ o, c.push_back_faulty N v m fault = some o ∧
      (o.isThrown = true → o.container = c ∧ (∀ q, o.mem.obj q = m.obj q) ∧
        Rep N o.mem c pv as bs) := by
  have hfb : m.obj m.brk = none := h.fresh _ (Nat.le_refl _)
  rcases List.eq_nil_or_concat bs with rfl | ⟨bs0, b, rfl⟩
  · have has : as = [] := List.length_eq_zero.mp h.length_eq
    subst has
    have hs : c.size_ = 0 := h.size_eq
    have hemp : c.empty = true := by simp [unrolled_list.empty, hs]
    cases fault with
    | alloc =>
      refine ⟨Outcome.thrown c m, ?_, fun _ => ⟨rfl, fun _ => rfl, h⟩⟩
      simp [unrolled_list.push_back_faulty, hemp]
    | construct =>
      obtain ⟨m2, he, hbrk, hobj⟩ := newNode_deallocate m c.fake_node_ c.fake_node_ hfb
      refine ⟨Outcome.thrown c m2, ?_, fun _ => ⟨rfl, hobj, ?_⟩⟩
      · simp only [unrolled_list.push_back_faulty, hemp, if_true, bind, pure,
          Option.bind_eq_bind, Option.some_bind, he]
      · exact h.of_same_objects hobj (Nat.le_of_lt (hbrk ▸ Nat.lt_succ_self m.brk))
  · rw [List.concat_eq_append] at h ⊢
    obtain ⟨as0, a, rfl, -⟩ := split_last h.length_eq
    obtain ⟨hemp, hprev, hcnt⟩ := h.last_count
    by_cases hfull : b.length = N
    · have hgrow : (b.length == N) = true := by simp [hfull]
      cases fault with
      | alloc =>
        refine ⟨Outcome.thrown c m, ?_, fun _ => ⟨rfl, fun _ => rfl, h⟩⟩
        simp [unrolled_list.push_back_faulty, hemp, hprev, hcnt, hfull]
      | construct =>
        obtain ⟨m2, he, hbrk, hobj⟩ := newNode_deallocate m a c.fake_node_ hfb
        refine ⟨Outcome.thrown c m2, ?_, fun _ => ⟨rfl, hobj, ?_⟩⟩
        · simp only [unrolled_list.push_back_faulty, hemp, Bool.false_eq_true, if_false, bind,
            pure, Option.bind_eq_bind, hprev, Option.some_bind, hcnt, hgrow, if_true, he]
        · exact h.of_same_objects hobj (Nat.le_of_lt (hbrk ▸ Nat.lt_succ_self m.brk))
    · have hgrow : (b.length == N) = false := by simp [hfull]
      cases fault with
      | alloc =>
        obtain ⟨c2, m2, pv2, as2, bs2, he, -⟩ := push_back_wf v h
        refine ⟨Outcome.returned c2 m2, ?_, fun ht => ?_⟩
        · simp only [unrolled_list.push_back_faulty, hemp, Bool.false_eq_true, if_false, bind,
            pure, Option.bind_eq_bind, hprev, Option.some_bind, hcnt, hgrow, he,
            Option.map_some']
        · simp [Outcome.isThrown] at ht
      | construct =>
        refine ⟨Outcome.thrown c m, ?_, fun _ => ⟨rfl, fun _ => rfl, h⟩⟩
        simp only [unrolled_list.push_back_faulty, hemp, Bool.false_eq_true, if_false, bind,
          pure, Option.bind_eq_bind, hprev, Option.some_bind, hcnt, hgrow]

/-- What `push_front` reads to choose its branch, in a represented non-empty container. -/
theorem Rep.first_count {N : Nat} {m : Mem α} {c : unrolled_list} {pv : Option Ptr}
    {as : List Ptr} {bs : List (List α)} {a : Ptr} {b : List α}
    (h : Rep N m c pv (a :: as) (b :: bs)) :
    c.empty = false ∧ m.next c.fake_node_ = some a ∧ m.count a = some b.length := by
  obtain ⟨f, hf, hnext, -⟩ := h.sentinel
  have hch := h.chain
  simp only [Chain] at hch
  obtain ⟨⟨n, hn, -, -, hcnt, -⟩, -⟩ := hch
  have hb := (h.counts b (by simp)).1
  refine ⟨?_, ?_, ?_⟩
  · have hs : c.size_ ≠ 0 := by
      rw [h.size_eq]
      simp only [List.flatten_cons, List.length_append]
      omega
    simp [unrolled_list.empty, hs]
  · rw [Mem.next_base hf, hnext]
    rfl
  · rw [Mem.count_node hn, hcnt]

/-- A failing `push_front` on a represented container (capacity up to `2 ^ 31`) when the
allocation fails, or when the element construction fails in a new block (the container
is empty or its first block is full): when the failure propagates, the container object
and every object of the memory are what they were. -/
theorem push_front_faulty_unchanged {N : Nat} {m : Mem α} {c : unrolled_list}
    {pv : Option Ptr} {as : List Ptr} {bs : List (List α)} (v : α) (fault : Fault)
    (h : Rep N m c pv as bs) (hcap : N ≤ 2 ^ 31)
    (hcase : fault = Fault.alloc ∨ ∀ b, bs.head? = some b → b.length = N) :
    ∃ o, c.push_front_faulty N v m fault = some o ∧
      (o.isThrown = true → o.container = c ∧ (∀ q, o.mem.obj q = m.obj q) ∧
        Rep N o.mem c pv as bs) := by
  have hfb : m.obj m.brk = none := h.fresh _ (Nat.le_refl _)
  cases bs with
  | nil =>
    have has : as = [] := List.length_eq_zero.mp h.length_eq
    subst has
    have hs : c.size_ = 0 := h.size_eq
    have hemp : c.empty = true := by simp [unrolled_list.empty, hs]
    cases fault with
    | alloc =>
      refine ⟨Outcome.thrown c m, ?_, fun _ => ⟨rfl, fun _ => rfl, h⟩⟩
      simp [unrolled_list.push_front_faulty, hemp]
    | construct =>
      obtain ⟨m2, he, hbrk, hobj⟩ := newNode_deallocate m c.fake_node_ c.fake_node_ hfb
      refine ⟨Outcome.thrown c m2, ?_, fun _ => ⟨rfl, hobj, ?_⟩⟩
      · simp only [unrolled_list.push_front_faulty, hemp, if_true, bind, pure,
          Option.bind_eq_bind, Option.some_bind, he]
      · exact h.of_same_objects hobj (Nat.le_of_lt (hbrk ▸ Nat.lt_succ_self m.brk))
  | cons b bs =>
    obtain ⟨a, as1, rfl, -⟩ := split_head h.length_eq
    obtain ⟨hemp, hnext, hcnt⟩ := h.first_count
    by_cases hfull : b.length = N
    · have hgrow : (b.length == N) = true := by simp [hfull]
      cases fault with
      | alloc =>
        refine ⟨Outcome.thrown c m, ?_, fun _ => ⟨rfl, fun _ => rfl, h⟩⟩
        simp [unrolled_list.push_front_faulty, hemp, hnext, hcnt, hfull]
      | construct =>
        obtain ⟨m2, he, hbrk, hobj⟩ := newNode_deallocate m c.fake_node_ a hfb
        refine ⟨Outcome.thrown c m2, ?_, fun _ => ⟨rfl, hobj, ?_⟩⟩
        · simp only [unrolled_list.push_front_faulty, hemp, Bool.false_eq_true, if_false, bind,
            pure, Option.bind_eq_bind, hnext, Option.some_bind, hcnt, hgrow, if_true, he]
        · exact h.of_same_objects hobj (Nat.le_of_lt (hbrk ▸ Nat.lt_succ_self m.brk))
    · have hgrow : (b.length == N) = false := by simp [hfull]
      cases fault with
      | alloc =>
        obtain ⟨c2, m2, pv2, as2, bs2, he, -⟩ := push_front_wf v hcap h
        refine ⟨Outcome.returned c2 m2, ?_, fun ht => ?_⟩
        · simp only [unrolled_list.push_front_faulty, hemp, Bool.false_eq_true, if_false, bind,
            pure, Option.bind_eq_bind, hnext, Option.some_bind, hcnt, hgrow, he,
            Option.map_some']
        · simp [Outcome.isThrown] at ht
      | construct =>
        rcases hcase with hc | hc
        · exact absurd hc (by decide)
        · exact absurd (hc b rfl) hfull

/-- C30 (the code departs from the claim): the well-formed container `[1, 2]` of
capacity 3, whose first block has spare capacity, and a call `push_front(0)` in which
the construction of the new element fails.  `push_front` has shifted the elements one
slot to the right before it constructs the element and has no handler that shifts them
back: when the failure propagates, `size()` is still 2 but the logical sequence is
`1, 1`, not `1, 2`. -/
theorem push_front_failure_changes_sequence :
    WellFormed 3 exFullMem exFullList [2] [[1, 2]] ∧
    exFullList.toList 3 exFullMem 3 = some [1, 2] ∧
    ((exFullList.push_front_faulty 3 0 exFullMem Fault.construct).map
      fun o => (o.isThrown, o.container.size)) = some (true, 2) ∧
    ((exFullList.push_front_faulty 3 0 exFullMem Fault.construct).bind
      fun o => o.container.toList 3 o.mem 3) = some [1, 1] ∧
    ∀ fuel, ((exFullList.push_front_faulty 3 0 exFullMem Fault.construct).bind
      fun o => o.container.toList 3 o.mem fuel) ≠ some [1, 2] := by
  have h1 : ((exFullList.push_front_faulty 3 0 exFullMem Fault.construct).bind
      fun o => o.container.toList 3 o.mem 3) = some [1, 1] := by decide
  refine ⟨exFullMem_wellFormed_three, by decide, by decide, h1, ?_⟩
  intro fuel h2
  cases hr : exFullList.push_front_faulty 3 0 exFullMem Fault.construct with
  | none => simp [hr] at h1
  | some s =>
    simp only [hr, Option.some_bind] at h1 h2
    exact absurd (toList_unique h1 h2) (by decide)

/-! ## Failure during insert and during the bulk inserts -/

/-- The example container `[1, 2]` is a well-formed container of every capacity from 2
on; from capacity 3 on its only block has spare capacity. -/
theorem exFullMem_wellFormed_cap (N : Nat) (hN : 2 ≤ N) :
    WellFormed N exFullMem exFullList [2] [[1, 2]] :=
  { cap_pos := by omega
    sentinel := exFullMem_wellFormed.sentinel
    chain := exFullMem_wellFormed.chain
    counts := by
      intro b hb
      simp only [List.mem_singleton] at hb
      subst hb
      simp only [List.length_cons, List.length_nil]
      omega
    nodup := exFullMem_wellFormed.nodup
    fake_not_block := exFullMem_wellFormed.fake_not_block
    size_eq := exFullMem_wellFormed.size_eq
    fresh := exFullMem_wellFormed.fresh }

set_option maxRecDepth 100000 in
/-- C31 (the code departs from the claim): three well-formed containers of capacity 2 and
a call `insert(end(), 7)` in which the construction of the new element fails.  At `end()`
the source increments `size_` before it constructs the element and no handler takes the
increment back.  On the empty container the failure propagates with `size() == 1` and no
element reachable; on `[1, 2] [3]` (last block with spare capacity) with `size() == 4`
and three elements reachable; on `[1, 2]` (last block full) with `size() == 3` and two
elements reachable. -/
theorem insert_failure_size_incremented :
    WellFormed 2 (unrolled_list.new emptyMem).2 (unrolled_list.new emptyMem).1 [] [] ∧
    ((unrolled_list.new emptyMem).1.insert_faulty 2 (unrolled_list.new emptyMem).1.cend 7
        (unrolled_list.new emptyMem).2 Fault.construct).map
      (fun o => (o.isThrown, o.container.size, o.container.toList 2 o.mem 1)) =
      some (true, 1, some []) ∧
    WellFormed 2 exMem exList [2, 3] [[1, 2], [3]] ∧
    (exList.insert_faulty 2 exList.cend 7 exMem Fault.construct).map
      (fun o => (o.isThrown, o.container.size, o.container.toList 2 o.mem 4)) =
      some (true, 4, some [1, 2, 3]) ∧
    WellFormed 2 exFullMem exFullList [2] [[1, 2]] ∧
    (exFullList.insert_faulty 2 exFullList.cend 7 exFullMem Fault.construct).map
      (fun o => (o.isThrown, o.container.size, o.container.toList 2 o.mem 3)) =
      some (true, 3, some [1, 2]) := by
  refine ⟨new_wellFormed (by decide) emptyMem ?_, by decide, exMem_wellFormed, by decide,
    exFullMem_wellFormed, by decide⟩
  intro p _
  rfl

set_option maxRecDepth 100000 in
/-- C32 (the code departs from the claim): the well-formed container `[1, 2]` in one block
and three bulk inserts in which the copy construction of an element fails after some
elements of the call were inserted.
(a) `insert(begin(), 3, 9)`, capacity 4, the second insertion fails: the handler erases
three times at the position of the one element inserted, so the failure propagates with
an empty container of size 0.
(b) `insert(begin(), {7, 8})`, capacity 4, the second insertion fails: the handler erases
nothing and the failure propagates with the sequence `7, 1, 2` of size 3.
(c) `insert(++begin(), first, last)` for the range `7, 8, 9, 10`, capacity 3, the fourth
insertion fails: the three elements inserted are spread over two blocks, the handler
erases three times in the first of them, and the failure propagates with the sequence
`9, 2` of size 2.
In each case the claim has the sequence `1, 2` of size 2. -/
theorem bulk_insert_failure_not_restored :
    WellFormed 4 exFullMem exFullList [2] [[1, 2]] ∧
    WellFormed 3 exFullMem exFullList [2] [[1, 2]] ∧
    (exFullList.insert_n_faulty 4 ⟨2, 0⟩ 3 9 exFullMem 1 Fault.construct).map
      (fun o => (o.isThrown, o.container.size, o.container.toList 4 o.mem 1)) =
      some (true, 0, some []) ∧
    (exFullList.insert_list_faulty 4 ⟨2, 0⟩ [7, 8] exFullMem 1 Fault.construct).map
      (fun o => (o.isThrown, o.container.size, o.container.toList 4 o.mem 4)) =
      some (true, 3, some [7, 1, 2]) ∧
    (exFullList.insert_range_faulty 3 ⟨2, 1⟩ [7, 8, 9, 10] exFullMem 3 Fault.construct).map
      (fun o => (o.isThrown, o.container.size, o.container.toList 3 o.mem 3)) =
      some (true, 2, some [9, 2]) := by
  refine ⟨exFullMem_wellFormed_cap 4 (by decide), exFullMem_wellFormed_cap 3 (by decide),
    by decide, by decide, by decide⟩

/-- C35: for every container state, `empty()` returns true if and only if `size()`
returns 0. -/
theorem empty_iff_size_zero (c : unrolled_list) : c.empty = true ↔ c.size = 0 := by
  simp [unrolled_list.empty, unrolled_list.size]

set_option maxRecDepth 100000 in
/-- C36 (the code departs from the claim): the well-formed container `[1] [2, 3]` of
capacity 2 (sentinel at address 4, blocks at 5 and 6) and `pop_front()`, which removes the
one-element first block.  The statement `front_node->next->prev = fake_node_.next` is
executed after `fake_node_.next` has been set to the new first block, so that block's
`prev` link designates the block itself: afterwards `sentinel.next` is block 6,
`sentinel.next.prev` is block 6 and not the sentinel, and for `x` the block 6,
`x.prev.next` is the sentinel and not `x`. -/
theorem pop_front_prev_link_not_sentinel :
    WellFormed 2 exMem2 exList2 [5, 6] [[1], [2, 3]] ∧
    ((exList2.pop_front 2 exMem2).map fun r => (r.1.fake_node_, r.1.toList 2 r.2 3)) =
      some (4, some [2, 3]) ∧
    ((exList2.pop_front 2 exMem2).bind fun r => r.2.next 4) = some 6 ∧
    ((exList2.pop_front 2 exMem2).bind fun r => (r.2.next 4).bind r.2.prev) = some 6 ∧
    ((exList2.pop_front 2 exMem2).bind fun r => r.2.prev 6) = some 6 ∧
    ((exList2.pop_front 2 exMem2).bind fun r => (r.2.prev 6).bind r.2.next) = some 4 := by
  refine ⟨exMem2_wellFormed2, by decide, by decide, by decide, by decide, by decide⟩

set_option maxRecDepth 100000 in
/-- C40 (the code departs from the claim): the well-formed container `[1, 2]` of capacity
2, whose last block is full, and `insert(end(), 3)` at the valid position `end()` of
logical index 2.  The position returned is slot 0 of the new block at address 3 and
dereferences to 3, but the new block is not linked into the chain: the traversal from
`begin()` yields `1, 2` and reaches `end()` without meeting the block, and the position
two steps after `begin()` is `end()`, not the position returned. -/
theorem insert_end_full_returns_unreachable :
    WellFormed 2 exFullMem exFullList [2] [[1, 2]] ∧
    posAt exFullList.fake_node_ [2] [[1, 2]] 2 = exFullList.cend ∧
    ((exFullList.insert 2 exFullList.cend 3 exFullMem).map
      fun r => (r.1, r.1.deref 2 r.2.2)) = some (⟨3, 0⟩, some 3) ∧
    ((exFullList.insert 2 exFullList.cend 3 exFullMem).bind
      fun r => r.2.1.toList 2 r.2.2 3) = some [1, 2] ∧
    ((exFullList.insert 2 exFullList.cend 3 exFullMem).bind
      fun r => (r.2.1.cbegin r.2.2).bind (advance r.2.2 2)) = some ⟨1, 0⟩ ∧
    ((exFullList.insert 2 exFullList.cend 3 exFullMem).bind
      fun r => r.2.2.next 2) = some 1 ∧
    ((exFullList.insert 2 exFullList.cend 3 exFullMem).bind
      fun r => r.2.2.prev 1) = some 2 := by
  refine ⟨exFullMem_wellFormed, by decide, by decide, by decide, by decide, by decide,
    by decide⟩

/-! ## Failure during copy construction -/

/-- The loop that frees a chain has no defined result when it arrives at an address that
is not the sentinel and where no block lives. -/
theorem freeLoop_stuck (fake cur : Ptr) (m : Mem α) (fuel : Nat) (hne : cur ≠ fake)
    (hn : m.node cur = none) : freeLoop fake fuel cur m = none := by
  cases fuel with
  | zero => rfl
  | succ f => simp [freeLoop, hne, hn, bind]

/-- In a memory that holds the container of `exMem`, the loop that frees the chain of
another sentinel (at address 4) and starts at any other address has no defined result: it
starts at no block, or walks the blocks of `exMem` up to the sentinel of `exMem`. -/
theorem freeLoop_exMem_none (m : Mem Nat) (s2 s3 : Nat → Option Nat)
    (h1 : m.obj 1 = some (Obj.base ⟨3, 2⟩)) (h2 : m.obj 2 = some (Obj.node ⟨1, 3, s2, 2⟩))
    (h3 : m.obj 3 = some (Obj.node ⟨2, 1, s3, 1⟩))
    (h0 : ∀ q, q ≠ 1 → q ≠ 2 → q ≠ 3 → q ≠ 4 → m.obj q = none)
    (fuel ind : Nat) (h4 : ind ≠ 4) : freeLoop 4 fuel ind m = none := by
  have stuck1 : ∀ (m2 : Mem Nat) (f : Nat), m2.obj 1 = some (Obj.base ⟨3, 2⟩) →
      freeLoop 4 f 1 m2 = none := by
    intro m2 f hm
    exact freeLoop_stuck 4 1 m2 f (by decide) (by simp [Mem.node, hm])
  have from3 : ∀ (m2 : Mem Nat) (f : Nat), m2.obj 1 = some (Obj.base ⟨3, 2⟩) →
      m2.obj 3 = some (Obj.node ⟨2, 1, s3, 1⟩) → freeLoop 4 f 3 m2 = none := by
    intro m2 f hm1 hm3
    cases f with
    | zero => rfl
    | succ f =>
      have hne : (3 : Ptr) ≠ 4 := by decide
      simp only [freeLoop, hne, if_false, bind, Option.bind_eq_bind, Mem.node, hm3,
        Mem.freeNode, Option.map_some', Option.some_bind]
      apply stuck1
      simp [hm1]
  by_cases i1 : ind = 1
  · subst i1
    exact stuck1 m fuel h1
  · by_cases i3 : ind = 3
    · subst i3
      exact from3 m fuel h1 h3
    · by_cases i2 : ind = 2
      · subst i2
        cases fuel with
        | zero => rfl
        | succ f =>
          have hne : (2 : Ptr) ≠ 4 := by decide
          simp only [freeLoop, hne, if_false, bind, Option.bind_eq_bind, Mem.node, h2,
            Mem.freeNode, Option.map_some', Option.some_bind]
          apply from3
          · simp [h1]
          · simp [h3]
      · exact freeLoop_stuck 4 ind m fuel h4 (by simp [Mem.node, h0 ind i1 i2 i3 h4])

/-- C33 (the code departs from the claim): copying the well-formed container `[1, 2] [3]`
of capacity 2 when an element copy fails.  Failure in the second block: the first copied
block is linked behind the new sentinel with a null `next` link, the handler frees it and
then reads the block at the null address: the unwinding loop has no defined result, for
every bound on its rounds and whatever the sentinel's links held.  Failure in the first
block: `fake_node_.next` has not been assigned yet, so the handler starts at the
indeterminate value `ind`; unless that is the address of the new sentinel (4), the loop
has no defined result either. -/
theorem copy_failure_unwinding_undefined :
    WellFormed 2 exMem exList [2, 3] [[1, 2], [3]] ∧
    (∀ fuel ind, exList.new_copy_faulty 2 ind exMem fuel 1 = none) ∧
    (∀ fuel ind, ind = 4 ∨ exList.new_copy_faulty 2 ind exMem fuel 0 = none) := by
  refine ⟨exMem_wellFormed, ?_, ?_⟩
  · intro fuel ind
    rcases fuel with _ | _ | f
    · simp [unrolled_list.new_copy_faulty, copyLoopFaulty, exMem, exList, Mem.next, bind]
    · simp [unrolled_list.new_copy_faulty, copyLoopFaulty, exMem, exList, Mem.next, bind,
        Mem.count, Mem.node, Mem.allocate, Mem.constructNodeCopy, copySlots, Mem.slot,
        Mem.setNext, Mem.write, nullptr, pure]
    · simp [unrolled_list.new_copy_faulty, copyLoopFaulty, exMem, exList, Mem.next, bind,
        Mem.count, Mem.node, Mem.allocate, Mem.constructNodeCopy, copySlots, Mem.slot,
        Mem.setNext, Mem.write, nullptr, pure, freeLoop, Mem.freeNode]
  · intro fuel ind
    by_cases h4 : ind = 4
    · exact Or.inl h4
    · right
      rcases fuel with _ | f
      · simp [unrolled_list.new_copy_faulty, copyLoopFaulty, exMem, exList, Mem.next, bind]
      · simp only [unrolled_list.new_copy_faulty, copyLoopFaulty, exMem, exList, Mem.next,
          bind, Mem.count, Mem.node, Mem.allocate, pure]
        simp only [OfNat.ofNat_ne_one, OfNat.one_ne_ofNat, if_false, if_true,
          Option.bind_eq_bind, Option.some_bind, Nat.reduceEqDiff, Option.map_some',
          Nat.reduceAdd]
        have hq : ∀ q : Ptr, q ≠ 1 → q ≠ 2 → q ≠ 3 → q ≠ 4 →
            ({ obj := fun q =>
                if q = 4 then some (Obj.base ⟨ind, ind⟩) else exMem.obj q,
               brk := 6 } : Mem Nat).obj q = none := by
          intro q q1 q2 q3 q4
          simp [exMem, q1, q2, q3, q4]
        have hnone := freeLoop_exMem_none _ _ _ rfl rfl rfl hq (f + 1) ind h4
        simp only [exMem] at hnone
        rw [hnone]
        rfl

/-! ## The allocator constructor, giant blocks, construction by push_back -/

/-- C37 (the code departs from the claim): the constructor `unrolled_list(Allocator)`
initialises `allocator_` and `size_(0)` only.  The sentinel's links keep the indeterminate
value `ind` of the default-initialised `fake_node_`: `size()` is 0, but unless `ind`
happens to be the sentinel's own address neither `sentinel.next` nor `sentinel.prev`
designates the sentinel. -/
theorem allocator_constructor_links_unset (ind : Ptr) (m : Mem α) (hind : ind ≠ m.brk) :
    (unrolled_list.new_alloc ind m).1.size = 0 ∧
    (unrolled_list.new_alloc ind m).1.fake_node_ = m.brk ∧
    (unrolled_list.new_alloc ind m).2.next m.brk = some ind ∧
    (unrolled_list.new_alloc ind m).2.prev m.brk = some ind ∧
    ¬ ((unrolled_list.new_alloc ind m).2.next (unrolled_list.new_alloc ind m).1.fake_node_ =
        some (unrolled_list.new_alloc ind m).1.fake_node_ ↔
      (unrolled_list.new_alloc ind m).1.size = 0) ∧
    ¬ ((unrolled_list.new_alloc ind m).2.prev (unrolled_list.new_alloc ind m).1.fake_node_ =
        some (unrolled_list.new_alloc ind m).1.fake_node_ ↔
      (unrolled_list.new_alloc ind m).1.size = 0) := by
  have hn : (unrolled_list.new_alloc ind m).2.next m.brk = some ind := by
    simp [unrolled_list.new_alloc, Mem.next]
  have hp : (unrolled_list.new_alloc ind m).2.prev m.brk = some ind := by
    simp [unrolled_list.new_alloc, Mem.prev]
  have hs : (unrolled_list.new_alloc ind m).1.size = 0 := rfl
  have hf : (unrolled_list.new_alloc ind m).1.fake_node_ = m.brk := rfl
  refine ⟨hs, hf, hn, hp, ?_, ?_⟩
  · rw [hf, hn]
    intro h
    exact hind (Option.some.inj (h.2 hs))
  · rw [hf, hp]
    intro h
    exact hind (Option.some.inj (h.2 hs))

/-- Witness for C37: `unrolled_list<int, 2> ul(std::allocator<int>())` constructed in the
empty memory (the container object at address 1) when the raw links hold null. -/
theorem allocator_constructor_links_unset_witness :
    nullptr ≠ emptyMem.brk ∧
    ((unrolled_list.new_alloc nullptr emptyMem).1.size = 0 ∧
    (unrolled_list.new_alloc nullptr emptyMem).1.fake_node_ = emptyMem.brk ∧
    (unrolled_list.new_alloc nullptr emptyMem).2.next emptyMem.brk = some nullptr ∧
    (unrolled_list.new_alloc nullptr emptyMem).2.prev emptyMem.brk = some nullptr ∧
    ¬ ((unrolled_list.new_alloc nullptr emptyMem).2.next
          (unrolled_list.new_alloc nullptr emptyMem).1.fake_node_ =
        some (unrolled_list.new_alloc nullptr emptyMem).1.fake_node_ ↔
      (unrolled_list.new_alloc nullptr emptyMem).1.size = 0) ∧
    ¬ ((unrolled_list.new_alloc nullptr emptyMem).2.prev
          (unrolled_list.new_alloc nullptr emptyMem).1.fake_node_ =
        some (unrolled_list.new_alloc nullptr emptyMem).1.fake_node_ ↔
      (unrolled_list.new_alloc nullptr emptyMem).1.size = 0)) :=
  ⟨by decide, allocator_constructor_links_unset nullptr emptyMem (by decide)⟩

/-- C38 (the code departs from the claim): the well-formed container of capacity
`2^31 + 1` whose single block holds `2^31` elements, so that every reachable block has
`1 ≤ count ≤ NodeMaxSize`, and `insert` at its first position.  The shift loop counts
with an `int32_t` (source line 1007): the call has no defined result, so no state with
the counts in range is reached. -/
theorem insert_giant_block_no_result :
    WellFormed (2 ^ 31 + 1) bigMem bigList [2] [List.range (2 ^ 31)] ∧
    (∀ b ∈ [List.range (2 ^ 31)], 0 < b.length ∧ b.length ≤ 2 ^ 31 + 1) ∧
    bigList.cbegin bigMem = some ⟨2, 0⟩ ∧
    ((bigList.cbegin bigMem).bind fun p => bigList.insert (2 ^ 31 + 1) p 7 bigMem) = none := by
  refine ⟨bigMem_wellFormed, bigMem_wellFormed.counts, rfl, rfl⟩

/-- C39 (the code departs from the claim): `unrolled_list<int, 1>(2, 7)` against an empty
container after two calls `push_back(7)`, both built in the empty memory.  Both have size
2, the sequence `7, 7`, two blocks of count 1 at the addresses 2 and 3 and the same `next`
links; but the constructor leaves the `prev` links of both blocks at the indeterminate
value `ind`, where `push_back` sets them to the sentinel (address 1) and to the first
block (address 2).  Whatever `ind` is, the two states differ. -/
theorem fill_constructor_not_as_push_back (ind : Ptr) :
    unrolled_list.new_fill 1 2 7 ind emptyMem = some (⟨1, 2⟩, filledMem ind) ∧
    ((unrolled_list.new_fill_spec 1 2 7 emptyMem).map fun r =>
      (r.1, r.1.toList 1 r.2 3, r.2.count 2, r.2.count 3, r.2.next 1, r.2.next 2,
        r.2.next 3, r.2.prev 1)) =
      some (⟨1, 2⟩, some [7, 7], some 1, some 1, some 2, some 3, some 1, some 3) ∧
    ((⟨1, 2⟩ : unrolled_list).toList 1 (filledMem ind) 3, (filledMem ind).count 2,
      (filledMem ind).count 3, (filledMem ind).next 1, (filledMem ind).next 2,
      (filledMem ind).next 3, (filledMem ind).prev 1) =
      (some [7, 7], some 1, some 1, some 2, some 3, some 1, some 3) ∧
    ((unrolled_list.new_fill_spec 1 2 7 emptyMem).map fun r => (r.2.prev 2, r.2.prev 3)) =
      some (some 1, some 2) ∧
    ((filledMem ind).prev 2, (filledMem ind).prev 3) = (some ind, some ind) ∧
    unrolled_list.new_fill 1 2 7 ind emptyMem ≠ unrolled_list.new_fill_spec 1 2 7 emptyMem := by
  have h2 : ((unrolled_list.new_fill_spec 1 2 7 emptyMem).map
      fun r => (r.2.prev 2, r.2.prev 3)) = some (some 1, some 2) := by decide
  refine ⟨new_fill_two_blocks ind, rfl, rfl, h2, rfl, ?_⟩
  intro h
  rw [new_fill_two_blocks ind] at h
  rw [← h] at h2
  have h3 : ((some ind : Option Ptr), (some ind : Option Ptr)) = (some 1, some 2) :=
    Option.some.inj h2
  have e1 : ind = 1 := Option.some.inj (congrArg Prod.fst h3)
  have e2 : ind = 2 := Option.some.inj (congrArg Prod.snd h3)
  exact absurd (e1.symm.trans e2) (by decide)

/-! ## Failure during insert: the general statements -/

/-- A block that is allocated, constructed with `count = 1` and deallocated again leaves
every object as it was. -/
theorem newNode_setCount_deallocate (m : Mem α) (left right : Ptr)
    (hfresh : m.obj m.brk = none) :
    ∃ m2, (((m.newNode left right).2.setCount (m.newNode left right).1 1).bind
        fun m1 => m1.deallocate (m.newNode left right).1) = some m2 ∧
      m2.brk = m.brk + 1 ∧ ∀ q, m2.obj q = m.obj q := by
  have e : (((m.newNode left right).2.setCount (m.newNode left right).1 1).bind
        fun m1 => m1.deallocate (m.newNode left right).1) =
      some { obj := fun q => if q = m.brk then none else
               ((m.newNode left right).2.write m.brk
                 (Obj.node ⟨left, right, fun _ => none, 1⟩)).obj q,
             brk := m.brk + 1 } := by
    simp [Mem.newNode, Mem.deallocate, Mem.setCount, Mem.node, Mem.write]
  refine ⟨_, e, rfl, ?_⟩
  intro q
  by_cases hq : q = m.brk
  · simp only [hq, if_true]
    exact hfresh.symm
  · simp [Mem.newNode, Mem.write, hq]

/-- A failing element construction in `insert(end(), v)` on a represented container,
whichever branch is taken: the failure propagates with `size_` incremented, while every
object of the memory is what it was, so that the container still consists of the blocks
`bs` and `size()` exceeds the number of its elements by one. -/
theorem insert_faulty_end_size {N : Nat} {m : Mem α} {c : unrolled_list}
    {pv : Option Ptr} {as : List Ptr} {bs : List (List α)} (v : α)
    (h : Rep N m c pv as bs) :
    ∃ m2, c.insert_faulty N c.cend v m Fault.construct =
        some (Outcome.thrown { c with size_ := c.size_ + 1 } m2) ∧
      (∀ q, m2.obj q = m.obj q) ∧ Rep N m2 c pv as bs ∧
      ({ c with size_ := c.size_ + 1 } : unrolled_list).size = bs.flatten.length + 1 := by
  have hfb : m.obj m.brk = none := h.fresh _ (Nat.le_refl _)
  have hsz : ({ c with size_ := c.size_ + 1 } : unrolled_list).size = bs.flatten.length + 1 := by
    show c.size_ + 1 = _
    rw [h.size_eq]
  rcases List.eq_nil_or_concat bs with rfl | ⟨bs0, b, rfl⟩
  · have has : as = [] := List.length_eq_zero.mp h.length_eq
    subst has
    have hs : c.size_ = 0 := h.size_eq
    have hemp : c.empty = true := by simp [unrolled_list.empty, hs]
    obtain ⟨m2, he, hbrk, hobj⟩ := newNode_setCount_deallocate m c.fake_node_ c.fake_node_ hfb
    refine ⟨m2, ?_, hobj, h.of_same_objects hobj
      (Nat.le_of_lt (hbrk ▸ Nat.lt_succ_self m.brk)), hsz⟩
    simp only [Option.bind_eq_some] at he
    obtain ⟨m1, he1, he2⟩ := he
    simp only [unrolled_list.insert_faulty, if_true, hemp, bind, pure, Option.bind_eq_bind,
      he1, Option.some_bind, he2]
  · rw [List.concat_eq_append] at h hsz ⊢
    obtain ⟨as0, a, rfl, -⟩ := split_last h.length_eq
    obtain ⟨hemp, hprev, hcnt⟩ := h.last_count
    by_cases hlt : b.length < N
    · refine ⟨m, ?_, fun _ => rfl, h, hsz⟩
      simp only [unrolled_list.insert_faulty, if_true, hemp, Bool.false_eq_true, if_false,
        bind, pure, Option.bind_eq_bind, hprev, Option.some_bind, hcnt, hlt]
    · obtain ⟨m2, he, hbrk, hobj⟩ := newNode_setCount_deallocate m a c.fake_node_ hfb
      refine ⟨m2, ?_, hobj, h.of_same_objects hobj
        (Nat.le_of_lt (hbrk ▸ Nat.lt_succ_self m.brk)), hsz⟩
      simp only [Option.bind_eq_some] at he
      obtain ⟨m1, he1, he2⟩ := he
      simp only [unrolled_list.insert_faulty, if_true, hemp, Bool.false_eq_true, if_false,
        bind, pure, Option.bind_eq_bind, hprev, Option.some_bind, hcnt, hlt, he1, he2]

/-- The failing `insert` in a block with spare capacity: the elements from index `j` on
are shifted one slot to the right and, by the handler, back to the left.  The slots below
`count` hold what they held; the slot `count` keeps the copy of the last element. -/
theorem insert_faulty_eval_spare {N : Nat} {m : Mem α} {c : unrolled_list} {a : Ptr}
    {j : Nat} {n : Node α} (v : α) (hn : m.obj a = some (Obj.node n))
    (hfa : c.fake_node_ ≠ a) (hj : j ≤ n.count) (hlt : n.count < N)
    (h31 : n.count < 2 ^ 31) :
    c.insert_faulty N ⟨a, j⟩ v m Fault.construct = some (Outcome.thrown c
      (m.write a (Obj.node { n with
        storage := fun t =>
          if t = n.count ∧ j < n.count then n.storage (n.count - 1) else n.storage t }))) := by
  have hne : (⟨a, j⟩ : Iterator) ≠ c.cend := fun h => hfa (congrArg Iterator.ptr_ h).symm
  unfold unrolled_list.insert_faulty
  simp only [hne, if_false, bind, pure, Option.bind_eq_bind, Mem.count_node hn,
    Option.some_bind, hlt, if_true, shiftRightUnsigned_node hn j hlt h31,
    Mem.count_node (Mem.write_obj_same _ _ _)]
  rw [shiftLeft_node N a (n.count - j) j _ _ (Mem.write_obj_same _ _ _) (by omega)]
  simp only [Mem.write_write, Option.some_bind]
  congr 5
  funext t
  by_cases h1 : j ≤ t ∧ t < j + (n.count - j)
  · have h2 : j < t + 1 ∧ t + 1 ≤ n.count := by omega
    have h3 : ¬ (t = n.count ∧ j < n.count) := by omega
    simp [h1, h2, h3]
  · by_cases h4 : t = n.count ∧ j < n.count
    · obtain ⟨h6, h7⟩ := h4
      subst h6
      have h5 : j < n.count ∧ n.count ≤ n.count := by omega
      simp only [h1, if_false, h5, and_self, if_true]
    · have h5 : ¬ (j < t ∧ t ≤ n.count) := by omega
      simp [h1, h4, h5]

/-- A failing element construction in `insert` at a valid position of a block with spare
capacity (block capacity up to `2^31`): when the failure propagates, the container object
is what it was (`size_` is not incremented) and the container consists of the same
blocks holding the same elements: the shift is undone. -/
theorem insert_faulty_spare_unchanged {N : Nat} {m : Mem α} {c : unrolled_list}
    {pv : Option Ptr} {as1 as2 : List Ptr} {a : Ptr} {bs1 bs2 : List (List α)} {b : List α}
    {j : Nat} (v : α)
    (h : Rep N m c pv (as1 ++ a :: as2) (bs1 ++ b :: bs2)) (hl : as1.length = bs1.length)
    (hj : j < b.length) (hlt : b.length < N) (hcap : N ≤ 2 ^ 31) :
    ∃ m2, c.insert_faulty N ⟨a, j⟩ v m Fault.construct = some (Outcome.thrown c m2) ∧
      Rep N m2 c pv (as1 ++ a :: as2) (bs1 ++ b :: bs2) := by
  obtain ⟨hch1, ⟨n, hn, hprev, hnext, hcnt, hst⟩, hch2⟩ := (chain_middle hl).1 h.chain
  obtain ⟨f, hf, hfnext, hfprev⟩ := h.sentinel
  have hnd := h.nodup
  have hfnb := h.fake_not_block
  simp only [List.nodup_append, List.nodup_cons, List.mem_append, List.mem_cons,
    List.mem_singleton, not_or, List.disjoint_left] at hnd hfnb
  obtain ⟨hnd1, ⟨haas2, hnd2⟩, hdisj⟩ := hnd
  obtain ⟨hf1, hfa, hf2⟩ := hfnb
  refine ⟨_, insert_faulty_eval_spare v hn hfa (by omega) (by omega) (by omega), ?_⟩
  exact
    { cap_pos := h.cap_pos
      sentinel := ⟨f, by rw [Mem.write_obj_ne _ _ hfa]; exact hf, hfnext, hfprev⟩
      chain := (chain_middle hl).2
        ⟨hch1.congr (fun x hx => Mem.write_obj_ne _ _ (hdisj hx).1),
          ⟨_, Mem.write_obj_same _ _ _, hprev, hnext, hcnt, by
            intro t ht
            have h3 : ¬ (t = n.count ∧ j < n.count) := by omega
            simp only [h3, if_false]
            exact hst t ht⟩,
          hch2.congr (fun x hx => Mem.write_obj_ne _ _ (fun hxa => haas2 (hxa ▸ hx)))⟩
      counts := h.counts
      nodup := h.nodup
      fake_not_block := h.fake_not_block
      size_eq := h.size_eq
      fresh := by
        intro p hp
        have hap : p ≠ a := by
          rintro rfl
          exact Nat.lt_irrefl _ (Nat.lt_of_lt_of_le (h.lt_brk hn) hp)
        rw [Mem.write_obj_ne _ _ hap]
        exact h.fresh p hp }

/-! ## The position returned by insert -/

/-- The position returned by `insert` at a valid non-end position of logical index `k`
(block capacity up to `2^31`): it is the valid position of index `k` of the resulting
container, its block is in the chain, and it dereferences to the value inserted. -/
theorem insert_result_valid {N : Nat} {m : Mem α} {c : unrolled_list} {pv : Option Ptr}
    {as : List Ptr} {bs : List (List α)} (v : α) (k : Nat) (h : Rep N m c pv as bs)
    (hk : k < bs.flatten.length) (hcap : N ≤ 2 ^ 31) :
    ∃ it c2 m2 as3 bs3, c.insert N (posAt c.fake_node_ as bs k) v m = some (it, c2, m2) ∧
      Rep N m2 c2 pv as3 bs3 ∧ it = posAt c2.fake_node_ as3 bs3 k ∧ it.ptr_ ∈ as3 ∧
      it.deref N m2 = some v := by
  obtain ⟨m2, as3, bs3, he, hr, -, hflat, -, hp⟩ := insert_wf v k h hk hcap
  have hk3 : k < bs3.flatten.length := by
    rw [hflat]
    simp only [List.length_append, List.length_take, List.length_drop, List.length_cons,
      List.length_nil]
    omega
  have hval : bs3.flatten[k]? = some v := by
    have hlen : (bs.flatten.take k).length = k := by
      rw [List.length_take]
      exact Nat.min_eq_left (Nat.le_of_lt hk)
    rw [hflat, List.append_assoc, List.getElem?_append_right (by rw [hlen]), hlen,
      Nat.sub_self]
    simp
  refine ⟨_, _, m2, as3, bs3, he, hr, hp.symm, ?_, ?_⟩
  · obtain ⟨as1, a, as2, bs1, b, bs2, j, has, -, -, -, -, hpos⟩ := hr.pos_cases hk3
    have hpos2 : posAt c.fake_node_ as3 bs3 k = ⟨a, j⟩ := hpos
    rw [← hp, hpos2, has]
    simp
  · have hd := hr.deref_posAt hk3
    have hd2 : (posAt c.fake_node_ as3 bs3 k).deref N m2 = bs3.flatten[k]? := hd
    rw [← hp, hd2, hval]

/-- The position returned by `insert(end(), v)` when the container is empty or its last
block has spare capacity: it is the valid position of the last index of the resulting
container, its block is in the chain, and it dereferences to `v`. -/
theorem insert_end_result_valid {N : Nat} {m : Mem α} {c : unrolled_list} {pv : Option Ptr}
    {as : List Ptr} {bs : List (List α)} (v : α) (h : Rep N m c pv as bs)
    (hlast : ∀ b, bs.getLast? = some b → b.length < N) :
    ∃ it c2 m2 pv2 as3 bs3, c.insert N c.cend v m = some (it, c2, m2) ∧
      Rep N m2 c2 pv2 as3 bs3 ∧ bs3.flatten = bs.flatten ++ [v] ∧
      it = posAt c2.fake_node_ as3 bs3 bs.flatten.length ∧ it.ptr_ ∈ as3 ∧
      it.deref N m2 = some v := by
  rcases List.eq_nil_or_concat bs with rfl | ⟨bs0, b, rfl⟩
  · have has : as = [] := List.length_eq_zero.mp h.length_eq
    subst has
    obtain ⟨m2, he, hr⟩ := insert_end_rep_empty v h
    have hd := hr.deref_posAt (k := 0) (by simp)
    refine ⟨_, _, m2, _, _, _, he, hr, by simp, by simp [posAt], by simp, ?_⟩
    have hpos : posAt c.fake_node_ [m.brk] [[v]] 0 = ⟨m.brk, 0⟩ := by simp [posAt]
    have hd2 : (posAt c.fake_node_ [m.brk] [[v]] 0).deref N m2 = [[v]].flatten[0]? := hd
    rw [hpos] at hd2
    rw [hd2]
    simp
  · rw [List.concat_eq_append] at h hlast ⊢
    obtain ⟨as0, a, rfl, hl⟩ := split_last h.length_eq
    have hlt : b.length < N := hlast b (by simp)
    obtain ⟨m2, he, hr⟩ := insert_end_rep_spare v h hlt
    have hpos : posAt c.fake_node_ (as0 ++ [a]) (bs0 ++ [b ++ [v]])
        (bs0.flatten.length + b.length) = ⟨a, b.length⟩ :=
      posAt_middle c.fake_node_ a (b ++ [v]) [] [] (by simp) bs0 as0 hl
    have hk : bs0.flatten.length + b.length < (bs0 ++ [b ++ [v]]).flatten.length := by
      simp
    have hd := hr.deref_posAt hk
    have hd2 : (posAt c.fake_node_ (as0 ++ [a]) (bs0 ++ [b ++ [v]])
        (bs0.flatten.length + b.length)).deref N m2 =
        (bs0 ++ [b ++ [v]]).flatten[bs0.flatten.length + b.length]? := hd
    have hlen : (bs0 ++ [b]).flatten.length = bs0.flatten.length + b.length := by simp
    rw [getLastD_concat] at he
    refine ⟨_, _, m2, _, _, _, he, hr, by simp, ?_, by simp, ?_⟩
    · rw [hlen]
      exact hpos.symm
    · rw [hpos] at hd2
      rw [hd2]
      have e : (bs0 ++ [b ++ [v]]).flatten = (bs0.flatten ++ b) ++ [v] := by simp
      rw [e, List.getElem?_append_right (by simp)]
      simp

/-! ## What holds of the counts and of the count-and-value constructor -/

/-- The count-and-value constructor and the construction by `n` calls of `push_back`
agree in what forward traversal sees, for every capacity: both return, the container
objects are equal (same sentinel address, `size_ = n`), and the logical sequence of each
is `n` copies of `v`. -/
theorem fill_constructor_forward_agrees (N n : Nat) (v : α) (ind : Ptr) (m : Mem α)
    (hN : 0 < N) (hfresh : ∀ p, m.brk ≤ p → m.obj p = none) :
    ∃ c m1 m2, unrolled_list.new_fill N n v ind m = some (c, m1) ∧
      unrolled_list.new_fill_spec N n v m = some (c, m2) ∧ c.size = n ∧
      LogicalSeq N c m1 (List.replicate n v) ∧ LogicalSeq N c m2 (List.replicate n v) := by
  obtain ⟨c, m1, as, bs, he, hrep, hfl, hsz, hfk, -, -⟩ := new_fill_fwdRep hN n v ind m hfresh
  obtain ⟨c2, m2, as2, bs2, he2, hr2, hfl2, hfk2⟩ :=
    pushBackN_wf v n _ _ [] [] (new_wellFormed hN m hfresh)
  have hfl3 : bs2.flatten = List.replicate n v := by simpa using hfl2
  have hsz2 : c2.size_ = n := by
    rw [Rep.size_eq hr2, hfl3, List.length_replicate]
  have hc : c2 = c := by
    cases c with
    | mk cf cs =>
      cases c2 with
      | mk cf2 cs2 =>
        have h1 : cf2 = cf := by
          have h1 : cf2 = m.brk := hfk2
          have h2 : cf = m.brk := hfk
          rw [h1, h2]
        have h2 : cs2 = cs := by
          have h3 : cs = n := hsz
          have h4 : cs2 = n := hsz2
          rw [h3, h4]
        rw [h1, h2]
  subst hc
  refine ⟨c2, m1, m2, he, he2, hsz, ?_, ?_⟩
  · rw [← hfl]
    exact hrep.forward_seq
  · rw [← hfl3]
    exact Rep.logicalSeq hr2

/-- The mutators on a well-formed container of block capacity up to `2^31`: each call
returns, and afterwards the chain behind the sentinel consists of blocks with
`1 ≤ count ≤ N` (it is the chain of a represented container with that sentinel).  For
`insert` the position is any valid one, `end()` included; for `erase` any valid position
but `end()`; `assign` is given more rounds than there are blocks. -/
theorem mutators_keep_counts {N : Nat} {m : Mem α} {c : unrolled_list} {as : List Ptr}
    {bs : List (List α)} (h : WellFormed N m c as bs) (hcap : N ≤ 2 ^ 31) (v : α) :
    (∃ c2 m2 pv2 as2 bs2, c.push_back N v m = some (c2, m2) ∧ Rep N m2 c2 pv2 as2 bs2) ∧
    (∃ c2 m2 pv2 as2 bs2, c.push_front N v m = some (c2, m2) ∧ Rep N m2 c2 pv2 as2 bs2) ∧
    (∀ k, k ≤ bs.flatten.length → ∃ it c2 m2 c3 pv2 as2 bs2,
      c.insert N (posAt c.fake_node_ as bs k) v m = some (it, c2, m2) ∧
      c3.fake_node_ = c2.fake_node_ ∧ Rep N m2 c3 pv2 as2 bs2) ∧
    (∀ k, k < bs.flatten.length → ∃ it c2 m2 as2 bs2,
      c.erase N (posAt c.fake_node_ as bs k) m = some (it, c2, m2) ∧
      WellFormed N m2 c2 as2 bs2) ∧
    (∃ c2 m2 pv2 as2 bs2, c.pop_back N m = some (c2, m2) ∧ Rep N m2 c2 pv2 as2 bs2) ∧
    (∃ c2 m2 pv2 as2 bs2, c.pop_front N m = some (c2, m2) ∧ Rep N m2 c2 pv2 as2 bs2) ∧
    (∀ xs fuel, as.length < fuel → ∃ c2 m2 as2 bs2,
      c.assign N xs m fuel = some (c2, m2) ∧ WellFormed N m2 c2 as2 bs2) := by
  have hR : Rep N m c (some c.fake_node_) as bs := h
  refine ⟨?_, ?_, ?_, ?_, ?_, ?_, ?_⟩
  · obtain ⟨c2, m2, pv2, as2, bs2, he, hr, -⟩ := push_back_wf v hR
    exact ⟨c2, m2, pv2, as2, bs2, he, hr⟩
  · obtain ⟨c2, m2, pv2, as2, bs2, he, hr, -⟩ := push_front_wf v hcap hR
    exact ⟨c2, m2, pv2, as2, bs2, he, hr⟩
  · intro k hk
    rcases Nat.lt_or_eq_of_le hk with hlt | heq
    · obtain ⟨m2, as3, bs3, he, hr, -⟩ := insert_wf v k hR hlt hcap
      exact ⟨_, _, m2, _, _, as3, bs3, he, rfl, hr⟩
    · rw [heq, Rep.posAt_length hR]
      have hend : (⟨c.fake_node_, 0⟩ : Iterator) = c.cend := rfl
      rw [hend]
      rcases List.eq_nil_or_concat bs with rfl | ⟨bs0, b, rfl⟩
      · have has : as = [] := List.length_eq_zero.mp (Rep.length_eq hR)
        subst has
        obtain ⟨m2, he, hr⟩ := insert_end_rep_empty v hR
        exact ⟨_, _, m2, _, _, _, _, he, rfl, hr⟩
      · rw [List.concat_eq_append] at hR
        by_cases hb : b.length < N
        · obtain ⟨m2, he, hr⟩ := insert_end_rep_spare v hR hb
          exact ⟨_, _, m2, _, _, _, _, he, rfl, hr⟩
        · have hfull : b.length = N := by
            have := (Rep.counts hR b (by simp)).2
            omega
          obtain ⟨m2, he, hr, -⟩ := insert_end_full_unlinked v hR hfull
          exact ⟨_, _, m2, c, _, _, _, he, rfl, hr⟩
  · intro k hk
    obtain ⟨it, c2, m2, as2, bs2, he, hr, -⟩ := erase_spec N m c as bs k h hk
    exact ⟨it, c2, m2, as2, bs2, he, hr⟩
  · by_cases hbs : bs = []
    · have hemp : c.empty = true := by
        have hs : c.size_ = 0 := (Rep.empty_iff hR).2 hbs
        simp [unrolled_list.empty, hs]
      exact ⟨c, m, _, as, bs, by simp [unrolled_list.pop_back, hemp], hR⟩
    · obtain ⟨c2, m2, as2, bs2, he, hr, -⟩ := pop_back_wf hR hbs
      exact ⟨c2, m2, _, as2, bs2, he, hr⟩
  · by_cases hbs : bs = []
    · have hemp : c.empty = true := by
        have hs : c.size_ = 0 := (Rep.empty_iff hR).2 hbs
        simp [unrolled_list.empty, hs]
      exact ⟨c, m, _, as, bs, by simp [unrolled_list.pop_front, hemp], hR⟩
    · obtain ⟨c2, m2, pv2, as2, bs2, he, hr, -⟩ := pop_front_wf hR hbs
      exact ⟨c2, m2, pv2, as2, bs2, he, hr⟩
  · intro xs fuel hf
    obtain ⟨⟨c2, m2, as2, bs2, he, hr, -⟩, -⟩ :=
      assign_fwdRep xs 0 v fuel (Rep.toFwdRep hR) hf
    exact ⟨c2, m2, as2, bs2, he, hr⟩

set_option maxRecDepth 100000 in
/-- The handler of the range insert does restore the container when the elements
inserted before the failure still stand in the block of the position, from its index on:
for `[1, 2]` of capacity 3 and the range `7, 8, 9` inserted at `++begin()`, a failing
third insertion propagates with the sequence `1, 2` and size 2. -/
theorem insert_range_failure_restored_example :
    (exFullList.insert_range_faulty 3 ⟨2, 1⟩ [7, 8, 9] exFullMem 2 Fault.construct).map
      (fun o => (o.isThrown, o.container.size, o.container.toList 3 o.mem 3)) =
      some (true, 2, some [1, 2]) := by
  decide

/-! ## pop_front and elements that are not trivially copyable -/

/-- `pop_front()` on a first block of more than one element, for an element type that is
not trivially copyable: slot 0 has been destroyed when the first round of the shift loop
assigns to it, so the call has no defined result. -/
theorem pop_front_checked_undefined {N : Nat} {m : Mem α} {c : unrolled_list}
    {pv : Option Ptr} {a : Ptr} {as : List Ptr} {b : List α} {bs : List (List α)}
    (h : Rep N m c pv (a :: as) (b :: bs)) (hb : 1 < b.length) :
    c.pop_front_checked N m = none := by
  obtain ⟨hemp, hnext, hcnt⟩ := h.first_count
  have hch := h.chain
  simp only [Chain] at hch
  obtain ⟨⟨n, hn, -, -, hnc, hst⟩, -⟩ := hch
  have hbN := (h.counts b (by simp)).2
  have h0 : 0 < N := by omega
  have h1 : 1 < N := by omega
  obtain ⟨t, ht⟩ : ∃ t, decr b.length = t + 1 := by
    refine ⟨b.length - 2, ?_⟩
    rw [decr_pos (by omega)]
    omega
  have hs1 : n.storage 1 = b[1]? := hst 1 hb
  have hb1 : b[1]? = some (b[1]) := List.getElem?_eq_getElem hb
  unfold unrolled_list.pop_front_checked
  simp only [hemp, Bool.false_eq_true, if_false, bind, pure, Option.bind_eq_bind, hnext,
    Option.some_bind, hcnt, hb, if_true, Mem.destroy, Mem.setSlot_node hn h0,
    Mem.setCount_node (Mem.write_obj_same _ _ _), Mem.count_node (Mem.write_obj_same _ _ _),
    Mem.write_write, ht, shiftLeftChecked, Mem.assignSlot,
    Mem.slot_node (Mem.write_obj_same _ _ _) h1, Mem.slot_node (Mem.write_obj_same _ _ _) h0,
    hs1, hb1]
  simp

set_option maxRecDepth 100000 in
/-- C10 (the code departs from the claim): the well-formed container `[1, 2] [3]` of
capacity 2 and `pop_front()`.  The source destroys the element of slot 0 (line 740) and
then shifts the remaining elements down with `data()[j] = data()[j + 1]` (lines 742-743):
the first assignment has the destroyed slot 0 as its target, which slot then holds no
live element.  For an element type that is not trivially copyable this is an assignment
to an object whose lifetime has ended and the call has no defined result; only for a
trivially copyable element type does the call leave `2, 3` with size 2.  When the first
block holds a single element no assignment takes place. -/
theorem pop_front_assigns_to_destroyed_slot :
    WellFormed 2 exMem exList [2, 3] [[1, 2], [3]] ∧
    ((exMem.destroy 2 2 0).bind fun m1 =>
      (m1.setCount 2 1).bind fun m2 => m2.slot 2 2 0) = some none ∧
    exList.pop_front_checked 2 exMem = none ∧
    ((exList.pop_front 2 exMem).map fun r => (r.1.size, r.1.toList 2 r.2 3)) =
      some (2, some [2, 3]) ∧
    WellFormed 2 exMem2 exList2 [5, 6] [[1], [2, 3]] ∧
    ((exList2.pop_front_checked 2 exMem2).map fun r => (r.1.size, r.1.toList 2 r.2 3)) =
      some (2, some [2, 3]) := by
  refine ⟨exMem_wellFormed, by decide, pop_front_checked_undefined exMem_wellFormed (by decide),
    by decide, exMem2_wellFormed2, by decide⟩

/-! ## Mutating a copy: calls without a defined result -/

/-- The copy of the example container `[1, 2]` of capacity 2: whatever the new sentinel's
links held, the constructor returns the container with its sentinel at address 3 and the
memory `exFullCopyMem`. -/
theorem new_copy_exFull (ind : Ptr) :
    unrolled_list.new_copy 2 exFullList ind exFullMem 2 = some (⟨3, 2⟩, exFullCopyMem) := by
  simp [unrolled_list.new_copy, copyLoop, exFullMem, exFullList, Mem.next, Mem.count,
    Mem.node, Mem.allocate, Mem.constructNodeCopy, copySlots, Mem.slot, Mem.setNext,
    Mem.setPrev, Mem.write, nullptr, bind, pure, exFullCopyMem]
  funext q
  by_cases h3 : q = 3
  · simp [h3]
  · by_cases h4 : q = 4
    · simp [h4]
    · simp [h3, h4]

set_option maxRecDepth 100000 in
/-- C17 (the code departs from the claim): the well-formed container `a = [1, 2]` of
capacity 2 is copied to `b`, and `b` receives `insert(end(), 3)`, `pop_back()`,
`pop_back()` and `pop_back()`.  The insert at `end()` of the full last block raises
`size_` to 3 without linking its block; after two `pop_back()` calls the sentinel of `b`
is linked to itself while `size_` is 1, so the third `pop_back()` does not take the
`empty()` exit and reads `count` through `fake_node_.prev`, which is the sentinel and no
block: the call has no defined result, and nothing is guaranteed of `a`. -/
theorem copy_mutation_without_result (ind : Ptr) :
    WellFormed 2 exFullMem exFullList [2] [[1, 2]] ∧
    unrolled_list.new_copy 2 exFullList ind exFullMem 2 = some (⟨3, 2⟩, exFullCopyMem) ∧
    WellFormed 2 exFullCopyMem ⟨3, 2⟩ [4] [[1, 2]] ∧
    ((runMutators 2 1 [Mutator.op (Op.insert 2 3), Mutator.op Op.pop_back,
        Mutator.op Op.pop_back] (⟨3, 2⟩, exFullCopyMem)).map
      fun r => (r.1, r.2.next 3, r.2.prev 3)) = some (⟨3, 1⟩, some 3, some 3) ∧
    ((unrolled_list.new_copy 2 exFullList ind exFullMem 2).bind
      (runMutators 2 1 [Mutator.op (Op.insert 2 3), Mutator.op Op.pop_back,
        Mutator.op Op.pop_back, Mutator.op Op.pop_back])) = none := by
  have hw : WellFormed 2 exFullCopyMem ⟨3, 2⟩ [4] [[1, 2]] := by
    obtain ⟨m2, he, hw, -⟩ := new_copy_rep exFullMem_wellFormed ind 2 (by decide)
    rw [new_copy_exFull ind] at he
    have hm : m2 = exFullCopyMem := ((Prod.mk.inj (Option.some.inj he)).2).symm
    rw [hm] at hw
    exact hw
  refine ⟨exFullMem_wellFormed, new_copy_exFull ind, hw, by decide, ?_⟩
  rw [new_copy_exFull ind]
  rfl

/-- A single call suffices where blocks are large: on the copy of the well-formed container
of capacity `2^31 + 1` whose block holds `2^31` elements, `insert` at `begin()` has no
defined result (the `int32_t` counter of source line 1007). -/
theorem copy_insert_giant_without_result (ind : Ptr) (fuel : Nat) (hf : 1 < fuel) :
    ∃ b m1, unrolled_list.new_copy (2 ^ 31 + 1) bigList ind bigMem fuel = some (b, m1) ∧
      WellFormed (2 ^ 31 + 1) m1 b [4] [List.range (2 ^ 31)] ∧
      b.cbegin m1 = some ⟨4, 0⟩ ∧ b.insert (2 ^ 31 + 1) ⟨4, 0⟩ 7 m1 = none := by
  obtain ⟨m2, he, hw, -⟩ := new_copy_rep bigMem_wellFormed ind fuel (by simpa using hf)
  have hds : List.range' (bigMem.brk + 1) ([2] : List Ptr).length = [4] := rfl
  rw [hds] at hw
  have hR : Rep (2 ^ 31 + 1) m2 ⟨bigMem.brk, bigList.size_⟩ (some bigMem.brk) [4]
      [List.range (2 ^ 31)] := hw
  obtain ⟨-, -, hcnt⟩ := hR.first_count
  rw [List.length_range] at hcnt
  have hcb := hR.cbegin
  have hne : (⟨4, 0⟩ : Iterator) ≠
      (⟨bigMem.brk, bigList.size_⟩ : unrolled_list).cend := by
    intro h
    exact absurd (congrArg Iterator.ptr_ h) (by decide)
  have hneg : toInt32 (2 ^ 31) < 0 := by
    norm_num [toInt32]
  have hlt : (2 : Nat) ^ 31 < 2 ^ 31 + 1 := Nat.lt_succ_self _
  refine ⟨_, m2, he, hw, hcb, ?_⟩
  unfold unrolled_list.insert
  simp only [hne, if_false, bind, pure, Option.bind_eq_bind, hcnt, Option.some_bind, hlt,
    if_true, shiftRightUnsigned, hneg, Option.none_bind]

end UnrolledList
